import Mathlib

/-!
# Generic XLOG: region tracker, differential encoder, redo decoder, transaction controller

Shallow embedding of `src/backend/access/transam/generic_xlog.c`.

Conventions of the embedding

* `OffsetNumber` is `uint16`: values are natural numbers and every store into an
  `OffsetNumber` variable or field goes through `asOffsetNumber` (reduction modulo `2^16`);
  C `int` expressions are computed in `Int`.
* A page (`char[BLCKSZ]`) is a function from offsets to bytes; only offsets below `BLCKSZ`
  are meaningful.  An access to a page outside `[0, BLCKSZ)` is undefined behaviour in C and
  is reported as `GxError.undefinedBehaviour`.
* `regions[0 .. regionsCount)` is a list, `regionsCount` is its length.  Entries of the C array
  at or beyond `regionsCount` are stale storage that the embedding does not track; reading one
  is reported as `GxError.staleRegion`.  A write past `newRegions[MAX_REGIONS]` and a read of
  an entry of `newRegions` that was not written are reported as `GxError.undefinedBehaviour`.
* `data[0 .. dataLen)` is a list of bytes, `dataLen` is its length; 16-bit fields are laid
  out low byte first.
* `elog(ERROR, ...)` is an `Except.error` carrying the constructor of the message.  The five
  entry points return the outcome together with the state of the static variables, the buffer
  manager and the WAL writer after the call.
-/

namespace GenericXLog

/-! ## Constants -/

/-- Page size in bytes, `pg_config.h`. -/
def BLCKSZ : Nat := 8192

/-- Capacity of the `regions` array of a slot. -/
def MAX_REGIONS : Nat := 256

/-- Threshold of the encoder on the length of a matched run. -/
def MATCH_THRESHOLD : Nat := 16

/-- Number of slots of the transaction. -/
def MAX_GENERIC_XLOG_PAGES : Nat := 3

/-- High bit of the 16-bit length field of an instruction. -/
def MOVE_FLAG : Nat := 0x8000

/-- Low 15 bits of the 16-bit length field of an instruction. -/
def LENGTH_MASK : Nat := 0x7FFF

/-! ## Errors -/

/-- Outcomes other than a normal return: one constructor per `elog(ERROR, ...)` message of
the file, `staleRegion` for a read of `regions[k]` with `k ≥ regionsCount`, and
`undefinedBehaviour` for an access outside an array or to an invalid buffer. -/
inductive GxError where
  | alreadyStarted
  | registerNotStarted
  | duplicateBuffer
  | maximumExceeded
  | memmoveNotStarted
  | pageNotFound
  | sourceOutside
  | destinationOutside
  | finishNotStarted
  | abortNotStarted
  | cantFindRegion
  | staleRegion
  | undefinedBehaviour
deriving DecidableEq, Repr

/-! ## Data model -/

/-- Conversion of a C `int` value to `OffsetNumber` (`uint16`). -/
def asOffsetNumber (x : Int) : Nat := (x % 65536).toNat

/-- The struct `Region`. -/
structure Region where
  dstOffset : Nat
  srcOffset : Nat
  length : Nat
deriving DecidableEq, Repr

/-- A page image: the byte stored at each offset. -/
abbrev Page := Nat → Nat

/-- Buffer handles, `typedef int Buffer`. -/
abbrev Buffer := Int

/-- The handle `InvalidBuffer`. -/
def InvalidBuffer : Buffer := 0

/-- The test `BufferIsInvalid`. -/
def BufferIsInvalid (buffer : Buffer) : Bool := buffer == InvalidBuffer

/-- The struct `PageData`; `regionsCount` and `dataLen` are the lengths of the two lists. -/
structure PageData where
  buffer : Buffer
  image : Page
  regions : List Region
  overflow : Bool
  data : List Nat
  fullImage : Bool

/-- The field `regionsCount`. -/
def PageData.regionsCount (pageData : PageData) : Nat := pageData.regions.length

/-- The field `dataLen`. -/
def PageData.dataLen (pageData : PageData) : Nat := pageData.data.length

/-- The region `(dstOffset = 0, srcOffset = 0, length = BLCKSZ)` written by `initPageData`. -/
def identityRegion : Region := { dstOffset := 0, srcOffset := 0, length := BLCKSZ }

/-- One buffer reference of a WAL record: block id, buffer, flags, the page of the buffer at
the time of `XLogInsert`, and the attached buffer data. -/
structure XLogBlock where
  blockId : Nat
  buffer : Buffer
  forceImage : Bool
  page : Page
  data : List Nat

/-- Modelled from the spec: the buffer manager and the WAL writer of section 6, whose code is
not part of the sources at hand.  `page` is `BufferGetPage`, `dirty` is the flag set by
`MarkBufferDirty`, `critSectionCount` is the counter moved by `START_CRIT_SECTION` and
`END_CRIT_SECTION`, `pending` is the record under construction between `XLogBeginInsert` and
`XLogInsert`, and `wal` is the log, oldest record first. -/
structure World where
  page : Buffer → Page
  dirty : Buffer → Bool
  critSectionCount : Nat
  pending : List XLogBlock
  wal : List (List XLogBlock)

/-- Modelled from the spec: `BufferGetPage(b) → byte*` of section 6.  `InvalidBuffer` has no
page: asking for it is reported as `undefinedBehaviour`. -/
def BufferGetPage (w : World) (buffer : Buffer) : Except GxError Page :=
  if BufferIsInvalid buffer then .error .undefinedBehaviour else .ok (w.page buffer)

/-- The effect of `memcpy(dst + dstOff, src + srcOff, len)` on the destination page; the same
function gives `memmove` inside one page, whose source bytes are read before any is written. -/
def memcpy (dst : Page) (dstOff : Nat) (src : Page) (srcOff len : Nat) : Page :=
  fun k => if dstOff ≤ k ∧ k < dstOff + len then src (srcOff + (k - dstOff)) else dst k

/-! ## Region tracker -/

/-- The comparator `regionOffsetCmp`. -/
def regionOffsetCmp (off : Nat) (r : Region) : Int :=
  if off < r.dstOffset then -1
  else if off ≥ r.dstOffset + r.length then 1
  else 0

/-- Loop of the C library `bsearch`: probe the middle of `[l, u)`. -/
def bsearchLoop (off : Nat) (base : List Region) : Nat → Nat → Nat → Option Nat
  | 0, _, _ => none
  | fuel + 1, l, u =>
    if l < u then
      let idx := (l + u) / 2
      match base[idx]? with
      | none => none
      | some r =>
        let c := regionOffsetCmp off r
        if c < 0 then bsearchLoop off base fuel l idx
        else if c > 0 then bsearchLoop off base fuel (idx + 1) u
        else some idx
    else none

/-- The call `bsearch(&offset, regions, regionsCount, sizeof(Region), regionOffsetCmp)`; the
result is the index of the element found. -/
def bsearch (off : Nat) (base : List Region) : Option Nat :=
  bsearchLoop off base (base.length + 1) 0 base.length

/-- The function `findRegion`; the result is the index of the region in `regions`. -/
def findRegion (pageData : PageData) (offset : Nat) : Except GxError Nat :=
  match bsearch offset pageData.regions with
  | some i => .ok i
  | none => .error .cantFindRegion

/-- The function `initPageData`.  The field `overflow` is not assigned. -/
def initPageData (w : World) (pageData : PageData) (buffer : Buffer) : Except GxError PageData := do
  let page ← BufferGetPage w buffer
  .ok { pageData with
        buffer := buffer
        image := memcpy pageData.image 0 page 0 BLCKSZ
        regions := [identityRegion]
        data := [] }

/-- The loop `while (curLength > 0)` of `memoryMove`.  `srcRegions` is the part of `regions`
from `srcRegion` on; `curOffset` is never advanced by the loop. -/
def makeNewRegions (curOffset : Nat) :
    List Region → Nat → Nat → List Region → Except GxError (List Region)
  | srcRegions, srcOffset, curLength, newRegions =>
    if curLength = 0 then .ok newRegions
    else
      match srcRegions with
      | [] => .error .staleRegion
      | srcRegion :: rest =>
        if newRegions.length ≥ MAX_REGIONS then .error .undefinedBehaviour
        else
          let shift : Nat := asOffsetNumber ((srcOffset : Int) - srcRegion.dstOffset)
          let length : Nat :=
            asOffsetNumber (min ((srcRegion.length : Int) - shift) (curLength : Int))
          let newRegion : Region :=
            { dstOffset := curOffset
              srcOffset := asOffsetNumber ((srcRegion.srcOffset : Int) + shift)
              length := length }
          makeNewRegions curOffset rest
            (asOffsetNumber ((srcOffset : Int) + length))
            (asOffsetNumber ((curLength : Int) - length))
            (newRegions ++ [newRegion])

/-- Element `i` of `pageData->regions`, given by the list of its live entries. -/
def fetch (l : List Region) (i : Nat) : Except GxError Region :=
  match l[i]? with
  | some r => .ok r
  | none => .error .staleRegion

/-- Element `i` of the local array `newRegions`, given by the list of the entries written. -/
def fetchNew (l : List Region) (i : Nat) : Except GxError Region :=
  match l[i]? with
  | some r => .ok r
  | none => .error .undefinedBehaviour

/-- Outcome of the block `Check left region` of `memoryMove`: the array `newRegions`, the flag
`leftAdjacent` and the variable `leftLength`. -/
structure LeftCheck where
  newRegions : List Region
  leftAdjacent : Bool
  leftLength : Nat

/-- The block `Check left region` of `memoryMove`; `left` is `*dstRegionLeft` and `first` is
`newRegions[0]`. -/
def checkLeft (left : Region) (dstOffset : Nat) (first : Region) (newRegions : List Region) :
    LeftCheck :=
  let shift : Int := (dstOffset : Int) - left.dstOffset
  if shift = 0 then
    { newRegions := newRegions, leftAdjacent := true, leftLength := 0 }
  else if (first.srcOffset : Int) = left.srcOffset + shift then
    { newRegions := newRegions.set 0
        { dstOffset := asOffsetNumber (first.dstOffset - shift)
          srcOffset := asOffsetNumber (first.srcOffset - shift)
          length := asOffsetNumber (first.length + shift) }
      leftAdjacent := true
      leftLength := 0 }
  else
    { newRegions := newRegions, leftAdjacent := false, leftLength := asOffsetNumber shift }

/-- Outcome of the block `Check right region` of `memoryMove`: the array `newRegions`, the
live part of `pageData->regions`, and the flag `rightAdjacent`. -/
structure RightCheck where
  newRegions : List Region
  regions : List Region
  rightAdjacent : Bool

/-- The block `Check right region` of `memoryMove`; `right` is `*dstRegionRight`, at index
`dstRegionRight` of `regions`, and `last` is `newRegions[newRegionsCount - 1]`. -/
def checkRight (regions : List Region) (dstRegionRight : Nat) (right : Region)
    (dstOffset length : Nat) (leftAdjacent : Bool) (newRegions : List Region) (last : Region) :
    Except GxError RightCheck :=
  let shift : Int := ((right.dstOffset : Int) + right.length) - ((dstOffset : Int) + length)
  if shift = 0 then
    .ok { newRegions := newRegions, regions := regions, rightAdjacent := true }
  else if (last.srcOffset : Int) + last.length + shift = (right.srcOffset : Int) + right.length then
    .ok { newRegions := newRegions.set (newRegions.length - 1)
            { last with length := asOffsetNumber (last.length + shift) }
          regions := regions
          rightAdjacent := true }
  else
    let tmp : Region :=
      { dstOffset := asOffsetNumber (right.dstOffset + ((right.length : Int) - shift))
        srcOffset := asOffsetNumber (right.srcOffset + ((right.length : Int) - shift))
        length := asOffsetNumber shift }
    if ¬ leftAdjacent then
      if newRegions.length ≥ MAX_REGIONS then .error .undefinedBehaviour
      else .ok { newRegions := newRegions ++ [tmp], regions := regions, rightAdjacent := true }
    else
      .ok { newRegions := newRegions, regions := regions.set dstRegionRight tmp,
            rightAdjacent := false }

/-- The part of `memoryMove` after the test of `overflow`: the live part of
`pageData->regions` after the call, or `none` when the capacity check
`regionsCount + shift > MAX_REGIONS` fires. -/
def memoryMoveRegions (pageData : PageData) (dstOffset srcOffset length : Nat) :
    Except GxError (Option (List Region)) := do
  let srcRegion ← findRegion pageData srcOffset
  -- Make new regions
  let newRegions0 ← makeNewRegions dstOffset (pageData.regions.drop srcRegion) srcOffset length []
  -- Check left region
  let dstRegionLeft ← findRegion pageData (if dstOffset > 0 then dstOffset - 1 else 0)
  let left ← fetch pageData.regions dstRegionLeft
  let first ← fetchNew newRegions0 0
  let lc := checkLeft left dstOffset first newRegions0
  let leftIndex : Int := (dstRegionLeft : Int) + (if lc.leftAdjacent then 0 else 1)
  -- Check right region
  let dstRegionRight ← findRegion pageData
    (if dstOffset + length < BLCKSZ then asOffsetNumber ((dstOffset : Int) + length)
     else BLCKSZ - 1)
  let right ← fetch pageData.regions dstRegionRight
  let last ← fetchNew lc.newRegions (lc.newRegions.length - 1)
  let rc ← checkRight pageData.regions dstRegionRight right dstOffset length lc.leftAdjacent
    lc.newRegions last
  let regions : List Region :=
    if ¬ lc.leftAdjacent then rc.regions.set dstRegionLeft { left with length := lc.leftLength }
    else rc.regions
  let newRegionsCount : Int := rc.newRegions.length
  let rightIndex : Int := (dstRegionRight : Int) + (if rc.rightAdjacent then 1 else 0)
  -- Move data
  let shift : Int := newRegionsCount - (rightIndex - leftIndex)
  if (pageData.regionsCount : Int) + shift > MAX_REGIONS then
    return none
  -- the tail regions[rightIndex ..] moves to rightIndex + shift = leftIndex + newRegionsCount,
  -- then newRegions is copied to regions[leftIndex ..]
  return some (regions.take leftIndex.toNat ++ rc.newRegions ++ regions.drop rightIndex.toNat)

/-- The function `memoryMove`. -/
def memoryMove (w : World) (pageData : PageData) (dstOffset srcOffset length : Nat) :
    Except GxError PageData :=
  if pageData.overflow then .ok pageData
  else
    match memoryMoveRegions pageData dstOffset srcOffset length with
    | .error e => .error e
    | .ok (some regions) => .ok { pageData with regions := regions }
    | .ok none =>
      match initPageData w pageData pageData.buffer with
      | .error e => .error e
      | .ok pageData1 => .ok { pageData1 with overflow := true }

/-! ## Differential encoder -/

/-- The function `writeCopyFlagment`: the 16-bit `length`, then `length` bytes read from
`source + off`.  The result is `data[0 .. dataLen)` after the call. -/
def writeCopyFlagment (data : List Nat) (length : Nat) (source : Page) (off : Nat) : List Nat :=
  data ++ [length % 256, length / 256] ++ (List.range length).map (fun k => source (off + k))

/-- The function `writeMoveFlagment`: the 16-bit `length | MOVE_FLAG`, then the 16-bit
`source`. -/
def writeMoveFlagment (data : List Nat) (length source : Nat) : List Nat :=
  let length1 := length ||| MOVE_FLAG
  data ++ [length1 % 256, length1 / 256, source % 256, source / 256]

/-- Local variables of `writeDifferentialData` that change in the loop, and the data written
so far.  `region` is the index of the current region, `matchStart` is the variable `match`. -/
structure EncState where
  data : List Nat
  region : Nat
  regionOffset : Nat
  notMatch : Nat
  matchStart : Nat

/-- The statement `CHECK_SET`, with `region` the region the pointer `region` refers to. -/
def CHECK_SET (page : Page) (region : Region) (i : Nat) (st : EncState) : EncState :=
  if (i : Int) - st.matchStart > MATCH_THRESHOLD then
    let data1 :=
      if st.notMatch < st.matchStart then
        writeCopyFlagment st.data (asOffsetNumber ((st.matchStart : Int) - st.notMatch)) page
          st.notMatch
      else st.data
    let data2 :=
      writeMoveFlagment data1 (asOffsetNumber ((i : Int) - st.matchStart))
        (asOffsetNumber ((region.srcOffset : Int) + st.regionOffset - ((i : Int) - st.matchStart)))
    { st with data := data2, notMatch := i }
  else st

/-- Body of the loop `for (i = 0; i < BLCKSZ; i++)` of `writeDifferentialData`.  `page` is the
page of the buffer and `image` is `pageData->image`. -/
def encodeStep (page image : Page) (regions : List Region) (i : Nat) (st : EncState) :
    Except GxError EncState := do
  let region ← fetch regions st.region
  let st1 ←
    if st.regionOffset ≥ region.length then
      pure { CHECK_SET page region i st with
             matchStart := i, region := st.region + 1, regionOffset := 0 }
    else pure st
  let region1 ← fetch regions st1.region
  if region1.srcOffset + st1.regionOffset ≥ BLCKSZ then
    throw .undefinedBehaviour
  let st2 :=
    if page i ≠ image (region1.srcOffset + st1.regionOffset) then
      { CHECK_SET page region1 i st1 with matchStart := asOffsetNumber ((i : Int) + 1) }
    else st1
  return { st2 with regionOffset := asOffsetNumber ((st2.regionOffset : Int) + 1) }

/-- The loop `for (i = 0; i < BLCKSZ; i++)`: `n` iterations starting at `i`. -/
def encodeLoop (page image : Page) (regions : List Region) :
    Nat → Nat → EncState → Except GxError EncState
  | 0, _, st => .ok st
  | n + 1, i, st => do
    let st1 ← encodeStep page image regions i st
    encodeLoop page image regions n (i + 1) st1

/-- Body of `writeDifferentialData` on the page of the buffer, the image and the region list of
the slot; `data` is `data[0 .. dataLen)` at entry and the result is the same after the call. -/
def encodePage (page image : Page) (regions : List Region) (data : List Nat) :
    Except GxError (List Nat) := do
  let st0 : EncState :=
    { data := data, region := 0, regionOffset := 0, notMatch := 0, matchStart := 0 }
  let st ← encodeLoop page image regions BLCKSZ 0 st0
  let region ← fetch regions st.region
  let st1 := CHECK_SET page region BLCKSZ st
  if st1.notMatch < BLCKSZ then
    return writeCopyFlagment st1.data (asOffsetNumber ((BLCKSZ : Int) - st1.notMatch)) page
      st1.notMatch
  else
    return st1.data

/-- The function `writeDifferentialData`. -/
def writeDifferentialData (w : World) (pageData : PageData) : Except GxError PageData := do
  let page ← BufferGetPage w pageData.buffer
  let data ← encodePage page pageData.image pageData.regions pageData.data
  return { pageData with data := data }

/-! ## Redo decoder -/

/-- The effect of `memcpy(page + offset, ptr, length)` with `ptr` pointing at the bytes
`bytes`. -/
def memcpyBytes (page : Page) (offset : Nat) (bytes : List Nat) (length : Nat) : Page :=
  fun k => if offset ≤ k ∧ k < offset + length then bytes.getD (k - offset) 0 else page k

/-- The loop `while (ptr < end)` of `applyPageRedo`; `data` is the bytes from `ptr` to `end`.
Every iteration consumes at least two bytes, so `data.length` is enough fuel.  A read past
`end`, or a copy that leaves `page` or `image`, is undefined behaviour. -/
def applyLoop (image : Page) : Nat → List Nat → Page → Nat → Except GxError Page
  | _, [], page, _ => .ok page
  | 0, _ :: _, _, _ => .error .undefinedBehaviour
  | _ + 1, [_], _, _ => .error .undefinedBehaviour
  | fuel + 1, lo :: hi :: rest, page, offset =>
    let length := lo + 256 * hi
    if length &&& MOVE_FLAG ≠ 0 then
      let length := length &&& LENGTH_MASK
      match rest with
      | slo :: shi :: rest1 =>
        let source := slo + 256 * shi
        if offset + length > BLCKSZ ∨ source + length > BLCKSZ then .error .undefinedBehaviour
        else
          applyLoop image fuel rest1 (memcpy page offset image source length)
            (asOffsetNumber ((offset : Int) + length))
      | _ => .error .undefinedBehaviour
    else
      if rest.length < length ∨ offset + length > BLCKSZ then .error .undefinedBehaviour
      else
        applyLoop image fuel (rest.drop length) (memcpyBytes page offset rest length)
          (asOffsetNumber ((offset : Int) + length))

/-- The function `applyPageRedo`; the result is the content of `page` after the call. -/
def applyPageRedo (page image : Page) (data : List Nat) : Except GxError Page :=
  applyLoop image data.length data page 0

/-! ## Buffer manager and WAL writer -/

/-- Log sequence numbers, `XLogRecPtr`. -/
abbrev XLogRecPtr := Nat

/-- The constant `InvalidXLogRecPtr`. -/
def InvalidXLogRecPtr : XLogRecPtr := 0

/-- Replace the page of one buffer. -/
def setBufferPage (pages : Buffer → Page) (buffer : Buffer) (page : Page) : Buffer → Page :=
  fun b => if b = buffer then page else pages b

/-- Modelled from the spec: `MarkBufferDirty(b)` of section 6. -/
def MarkBufferDirty (w : World) (buffer : Buffer) : World :=
  { w with dirty := fun b => if b = buffer then true else w.dirty b }

/-- Modelled from the spec: `PageSetLSN(page, lsn)` of section 6.  The LSN field is the first
eight bytes of the page: the high 32 bits, then the low 32 bits, each low byte first. -/
def PageSetLSN (page : Page) (lsn : XLogRecPtr) : Page :=
  fun k =>
    if k < 4 then (lsn / 2 ^ 32) / 2 ^ (8 * k) % 256
    else if k < 8 then (lsn % 2 ^ 32) / 2 ^ (8 * (k - 4)) % 256
    else page k

/-- Modelled from the spec: `XLogBeginInsert()` of section 6 opens an empty record. -/
def XLogBeginInsert (w : World) : World :=
  { w with pending := [] }

/-- Modelled from the spec: `XLogRegisterBuffer(blockId, buffer, flags)` of section 6;
`forceImage` tells `REGBUF_FORCE_IMAGE` from `REGBUF_STANDARD`. -/
def XLogRegisterBuffer (w : World) (blockId : Nat) (buffer : Buffer) (forceImage : Bool) : World :=
  let block : XLogBlock :=
    { blockId := blockId, buffer := buffer, forceImage := forceImage,
      page := w.page buffer, data := [] }
  { w with pending := w.pending ++ [block] }

/-- Modelled from the spec: `XLogRegisterBufData(blockId, bytes, len)` of section 6. -/
def XLogRegisterBufData (w : World) (blockId : Nat) (bytes : List Nat) : World :=
  let attach : XLogBlock → XLogBlock :=
    fun b => if b.blockId = blockId then { b with data := b.data ++ bytes } else b
  { w with pending := w.pending.map attach }

/-- Modelled from the spec: `XLogInsert(resourceManagerId, infoByte) → LSN` of section 6.  The
record takes the page of every registered buffer as it is at this moment; the LSN of a record
is its position in the log, counted from one. -/
def XLogInsert (w : World) : XLogRecPtr × World :=
  let record := w.pending.map (fun b => { b with page := w.page b.buffer })
  (w.wal.length + 1, { w with pending := [], wal := w.wal ++ [record] })

/-! ## Transaction controller -/

/-- The enum `GenericXlogStatus`. -/
inductive GenericXlogStatus where
  | GXLOG_NOT_STARTED
  | GXLOG_LOGGED
  | GXLOG_UNLOGGED
deriving DecidableEq, Repr

/-- The static variables `genericXlogStatus` and `pages` of the file, together with the
buffer manager and the WAL writer they act on. -/
structure System where
  genericXlogStatus : GenericXlogStatus
  pages : Nat → PageData
  world : World

/-- Assignment to `pages[i]`. -/
def setPage (pages : Nat → PageData) (i : Nat) (pageData : PageData) : Nat → PageData :=
  fun j => if j = i then pageData else pages j

/-- Address of `pages[i].image`, in bytes from `pages[0].image`: consecutive elements of
`pages` are `sizeof(PageData)` apart (four-byte `int`, two-byte `OffsetNumber`, one-byte
`bool`). -/
def imageAddr (i : Nat) : Int := (i : Int) * 26132

/-- The function `GenericXLogStart`; `needsWAL` is `RelationNeedsWAL(index)`. -/
def GenericXLogStart (needsWAL : Bool) (s : System) : Except GxError Unit × System :=
  if s.genericXlogStatus ≠ .GXLOG_NOT_STARTED then
    (.error .alreadyStarted, s)
  else
    (.ok (),
     { s with
       genericXlogStatus := if needsWAL then .GXLOG_LOGGED else .GXLOG_UNLOGGED
       pages := fun i =>
         if i < MAX_GENERIC_XLOG_PAGES then { s.pages i with buffer := InvalidBuffer }
         else s.pages i })

/-- The loop of `GenericXLogRegister` from `block_id` on, `n` slots left to visit.  The
result carries the address of the image of the slot taken. -/
def registerLoop (buffer : Buffer) (isNew : Bool) (s : System) :
    Nat → Nat → Except GxError Int × System
  | 0, _ => (.error .maximumExceeded, s)
  | n + 1, block_id =>
    if BufferIsInvalid (s.pages block_id).buffer then
      match initPageData s.world (s.pages block_id) buffer with
      | .ok pageData =>
        (.ok (imageAddr block_id),
         { s with pages := setPage s.pages block_id { pageData with fullImage := isNew } })
      | .error e => (.error e, s)
    else if (s.pages block_id).buffer = buffer then
      (.error .duplicateBuffer, s)
    else registerLoop buffer isNew s n (block_id + 1)

/-- The function `GenericXLogRegister`. -/
def GenericXLogRegister (buffer : Buffer) (isNew : Bool) (s : System) :
    Except GxError Int × System :=
  if s.genericXlogStatus = .GXLOG_NOT_STARTED then
    (.error .registerNotStarted, s)
  else registerLoop buffer isNew s MAX_GENERIC_XLOG_PAGES 0

/-- The function `GenericXLogMemmove`; `dst` and `src` are addresses. -/
def GenericXLogMemmove (dst src : Int) (len : Nat) (s : System) : Except GxError Unit × System :=
  if s.genericXlogStatus = .GXLOG_NOT_STARTED then
    (.error .memmoveNotStarted, s)
  else
    -- Find block
    match (List.range MAX_GENERIC_XLOG_PAGES).find?
        (fun i => decide (dst ≥ imageAddr i ∧ dst < imageAddr i + BLCKSZ)) with
    | none => (.error .pageNotFound, s)
    | some block_id =>
      let page := imageAddr block_id
      -- Check both source and destination of memmove are inside of page
      if src < page ∨ src + len > page + BLCKSZ then
        (.error .sourceOutside, s)
      else if dst < page ∨ dst + len > page + BLCKSZ then
        (.error .destinationOutside, s)
      else if (s.pages block_id).fullImage then
        (.ok (), s)
      else
        match memoryMove s.world (s.pages block_id) (asOffsetNumber (dst - page))
            (asOffsetNumber (src - page)) len with
        | .error e => (.error e, s)
        | .ok pageData =>
          let image : Page :=
            memcpy pageData.image (dst - page).toNat pageData.image (src - page).toNat len
          (.ok (), { s with pages := setPage s.pages block_id { pageData with image := image } })

/-- Body of the first loop of the logged branch of `GenericXLogFinish` for slot `i`. -/
def finishLoggedSlot (i : Nat) (s : System) : Except GxError System :=
  if BufferIsInvalid (s.pages i).buffer then .ok s
  else do
    let pageData := s.pages i
    let bufferPage ← BufferGetPage s.world pageData.buffer
    let tmp : Page := memcpy (fun _ => 0) 0 pageData.image 0 BLCKSZ
    let pageData1 := { pageData with image := memcpy pageData.image 0 bufferPage 0 BLCKSZ }
    let w1 : World :=
      { s.world with
        page := setBufferPage s.world.page pageData.buffer (memcpy bufferPage 0 tmp 0 BLCKSZ) }
    if pageData1.fullImage then
      .ok { s with pages := setPage s.pages i pageData1
                   world := XLogRegisterBuffer w1 i pageData1.buffer true }
    else
      let w2 := XLogRegisterBuffer w1 i pageData1.buffer false
      let pageData2 ← writeDifferentialData w2 pageData1
      .ok { s with pages := setPage s.pages i pageData2
                   world := XLogRegisterBufData w2 i pageData2.data }

/-- Body of the second loop of the logged branch of `GenericXLogFinish` for slot `i`. -/
def finishStampSlot (lsn : XLogRecPtr) (i : Nat) (s : System) : System :=
  if BufferIsInvalid (s.pages i).buffer then s
  else
    let buffer := (s.pages i).buffer
    let w1 : World :=
      { s.world with page := setBufferPage s.world.page buffer (PageSetLSN (s.world.page buffer) lsn) }
    { s with world := MarkBufferDirty w1 buffer }

/-- Body of the loop of the unlogged branch of `GenericXLogFinish` for slot `i`. -/
def finishUnloggedSlot (i : Nat) (s : System) : System :=
  if BufferIsInvalid (s.pages i).buffer then s
  else
    let pageData := s.pages i
    let w1 : World :=
      { s.world with
        page := setBufferPage s.world.page pageData.buffer
          (memcpy (s.world.page pageData.buffer) 0 pageData.image 0 BLCKSZ) }
    { s with world := MarkBufferDirty w1 pageData.buffer }

/-- A loop `for (i = 0; i < MAX_GENERIC_XLOG_PAGES; i++)` whose body may fail: `n` iterations
from `i` on. -/
def forSlotsM (body : Nat → System → Except GxError System) :
    Nat → Nat → System → Except GxError System
  | 0, _, s => .ok s
  | n + 1, i, s =>
    match body i s with
    | .ok s1 => forSlotsM body n (i + 1) s1
    | .error e => .error e

/-- A loop `for (i = 0; i < MAX_GENERIC_XLOG_PAGES; i++)`: `n` iterations from `i` on. -/
def forSlots (body : Nat → System → System) : Nat → Nat → System → System
  | 0, _, s => s
  | n + 1, i, s => forSlots body n (i + 1) (body i s)

/-- Entry of a critical section. -/
def START_CRIT_SECTION (w : World) : World := { w with critSectionCount := w.critSectionCount + 1 }

/-- Exit of a critical section. -/
def END_CRIT_SECTION (w : World) : World := { w with critSectionCount := w.critSectionCount - 1 }

/-- The function `GenericXLogFinish`.  When `writeDifferentialData` leaves its arrays the call
has no defined outcome: the error is returned with the state at entry, which then carries
no meaning. -/
def GenericXLogFinish (s : System) : Except GxError XLogRecPtr × System :=
  match s.genericXlogStatus with
  | .GXLOG_LOGGED =>
    let s1 := { s with world := XLogBeginInsert (START_CRIT_SECTION s.world) }
    match forSlotsM finishLoggedSlot MAX_GENERIC_XLOG_PAGES 0 s1 with
    | .error e => (.error e, s)
    | .ok s2 =>
      let ins := XLogInsert s2.world
      let lsn := ins.1
      let s3 := forSlots (finishStampSlot lsn) MAX_GENERIC_XLOG_PAGES 0 { s2 with world := ins.2 }
      (.ok lsn,
       { s3 with world := END_CRIT_SECTION s3.world
                 genericXlogStatus := .GXLOG_NOT_STARTED })
  | .GXLOG_UNLOGGED =>
    let s1 := { s with world := START_CRIT_SECTION s.world }
    let s2 := forSlots finishUnloggedSlot MAX_GENERIC_XLOG_PAGES 0 s1
    (.ok InvalidXLogRecPtr,
     { s2 with world := END_CRIT_SECTION s2.world
               genericXlogStatus := .GXLOG_NOT_STARTED })
  | .GXLOG_NOT_STARTED => (.error .finishNotStarted, s)

/-- The function `GenericXLogAbort`. -/
def GenericXLogAbort (s : System) : Except GxError Unit × System :=
  if s.genericXlogStatus = .GXLOG_NOT_STARTED then
    (.error .abortNotStarted, s)
  else
    (.ok (), { s with genericXlogStatus := .GXLOG_NOT_STARTED })

/-! ## Predicates used by the statements -/

/-- The regions of the list start at `pos`, follow one another without gap or overlap, have
length at least one, and end at `BLCKSZ`. -/
def tilesFrom : Nat → List Region → Bool
  | pos, [] => pos == BLCKSZ
  | pos, r :: rest => r.dstOffset == pos && decide (1 ≤ r.length) && tilesFrom (pos + r.length) rest

/-- Tile invariant of a region list: the regions tile `[0, BLCKSZ)` in list order. -/
def TileValid (regions : List Region) : Prop := tilesFrom 0 regions = true

/-- Every region of the list maps into the pre-image: `srcOffset + length ≤ BLCKSZ`. -/
def SrcBounded (regions : List Region) : Prop :=
  ∀ r ∈ regions, r.srcOffset + r.length ≤ BLCKSZ

/-- Slot `i` holds a registered buffer. -/
def Registered (s : System) (i : Nat) : Prop :=
  i < MAX_GENERIC_XLOG_PAGES ∧ (s.pages i).buffer ≠ InvalidBuffer

/-- States of a transaction in progress that has seen `n` successful registrations: reached
from a successful `GenericXLogStart` by `GenericXLogRegister` and `GenericXLogMemmove` calls
(successful or not), writes of the caller to a working image, and changes that the rest of the
server makes to the buffer manager and the WAL writer. -/
inductive Reach : Nat → System → Prop where
  | start (needsWAL : Bool) (s : System) :
      s.genericXlogStatus = .GXLOG_NOT_STARTED → Reach 0 (GenericXLogStart needsWAL s).2
  | register (n : Nat) (s : System) (buffer : Buffer) (isNew : Bool) (p : Int) :
      Reach n s → (GenericXLogRegister buffer isNew s).1 = .ok p →
      Reach (n + 1) (GenericXLogRegister buffer isNew s).2
  | failed (n : Nat) (s : System) (buffer : Buffer) (isNew : Bool) (e : GxError) :
      Reach n s → (GenericXLogRegister buffer isNew s).1 = .error e →
      Reach n (GenericXLogRegister buffer isNew s).2
  | memmove (n : Nat) (s : System) (dst src : Int) (len : Nat) :
      Reach n s → Reach n (GenericXLogMemmove dst src len s).2
  | write (n : Nat) (s : System) (i : Nat) (image : Page) :
      Reach n s → Reach n { s with pages := setPage s.pages i { s.pages i with image := image } }
  | environment (n : Nat) (s : System) (w : World) :
      Reach n s → Reach n { s with world := w }

/-- Slot table invariant: the status is started, exactly the first `n` slots hold a valid
buffer, and these buffers are pairwise distinct. -/
structure SlotsOK (n : Nat) (s : System) : Prop where
  started : s.genericXlogStatus ≠ .GXLOG_NOT_STARTED
  bound : n ≤ MAX_GENERIC_XLOG_PAGES
  valid : ∀ i, i < MAX_GENERIC_XLOG_PAGES → (i < n ↔ (s.pages i).buffer ≠ InvalidBuffer)
  distinct : ∀ i j, i < n → j < n → (s.pages i).buffer = (s.pages j).buffer → i = j

/-! ## Auxiliary definitions of the statements -/

/-- Content of slot `k` after `initPageData` and the assignment of `fullImage` in
`GenericXLogRegister`. -/
def freshSlot (buffer : Buffer) (isNew : Bool) (s : System) (k : Nat) : PageData :=
  { buffer := buffer
    image := memcpy (s.pages k).image 0 (s.world.page buffer) 0 BLCKSZ
    regions := [identityRegion]
    overflow := (s.pages k).overflow
    data := []
    fullImage := isNew }

/-- Position of the encoder at the start of iteration `i`: the current region exists and `i`
lies in it, `regionOffset` bytes after its start, or just after its end. -/
def EncAt (regions : List Region) (i : Nat) (st : EncState) : Prop :=
  ∃ r, regions[st.region]? = some r ∧ r.dstOffset + st.regionOffset = i ∧
    st.regionOffset ≤ r.length

/-- The bytes `data` are `m` whole instructions, and `applyPageRedo` with pre-image copy
`image` turns the page `page0` into `page` while reading them, leaving the cursor at `off`
and going on with whatever follows. -/
def Decodes (image : Page) (data : List Nat) (page0 : Page) (m : Nat) (page : Page)
    (off : Nat) : Prop :=
  m ≤ data.length ∧
  ∀ (rest : List Nat) (fuel : Nat),
    applyLoop image (fuel + m) (data ++ rest) page0 0 = applyLoop image fuel rest page off

/-- Invariant of the loop of `writeDifferentialData` at the start of iteration `i`, for the
page `W` of the buffer and the image `P` of the slot: the cursor `(region, regionOffset)` is at
byte `i`; the data written so far decodes, against `P`, to a page that agrees with `W` below
`notMatch`; and the bytes from `matchStart` to `i` lie in the current region and equal the
bytes of `P` that the region points at. -/
def EncInv (W P : Page) (regions : List Region) (page0 : Page) (i : Nat) (st : EncState) : Prop :=
  ∃ (r : Region) (m : Nat) (pg : Page),
    regions[st.region]? = some r ∧ r.dstOffset + st.regionOffset = i ∧
    st.regionOffset ≤ r.length ∧
    Decodes P st.data page0 m pg st.notMatch ∧
    (∀ k, k < st.notMatch → pg k = W k) ∧
    st.notMatch ≤ st.matchStart ∧ st.matchStart ≤ i ∧ r.dstOffset ≤ st.matchStart ∧
    (∀ k, st.matchStart ≤ k → k < i → W k = P (r.srcOffset + (k - r.dstOffset)))

/-- The same invariant between the two `if` statements of the loop body: byte `i` lies
strictly inside the current region. -/
def EncCmp (W P : Page) (regions : List Region) (page0 : Page) (i : Nat) (st : EncState) : Prop :=
  ∃ (r : Region) (m : Nat) (pg : Page),
    regions[st.region]? = some r ∧ r.dstOffset + st.regionOffset = i ∧
    st.regionOffset < r.length ∧ r.srcOffset + r.length ≤ BLCKSZ ∧
    Decodes P st.data page0 m pg st.notMatch ∧
    (∀ k, k < st.notMatch → pg k = W k) ∧
    st.notMatch ≤ st.matchStart ∧ st.matchStart ≤ i ∧ r.dstOffset ≤ st.matchStart ∧
    (∀ k, st.matchStart ≤ k → k < i → W k = P (r.srcOffset + (k - r.dstOffset)))

/-- Relation between the states before and after the first loop of the logged branch of
`GenericXLogFinish` has visited slot `i`: what is kept, and what the page of the buffer of
slot `i` becomes. -/
structure LoggedStep (i : Nat) (s s1 : System) : Prop where
  status : s1.genericXlogStatus = s.genericXlogStatus
  buffer : ∀ j, (s1.pages j).buffer = (s.pages j).buffer
  other : ∀ j, j ≠ i → s1.pages j = s.pages j
  wal : s1.world.wal = s.world.wal
  dirty : s1.world.dirty = s.world.dirty
  frame : ∀ b, ((s.pages i).buffer = InvalidBuffer ∨ (s.pages i).buffer ≠ b) →
    s1.world.page b = s.world.page b
  effect : (s.pages i).buffer ≠ InvalidBuffer → ∀ k, k < BLCKSZ →
    s1.world.page (s.pages i).buffer k = (s.pages i).image k

/-- The loop of `writeDifferentialData` stays inside its arrays on this region list, whatever
the two pages and the data already written are. -/
def EncoderDefined (regions : List Region) : Prop :=
  ∀ (page image : Page) (data : List Nat), ∃ d, encodePage page image regions data = .ok d

/-- If slot `i` is registered and is not a full image, `writeDifferentialData` is defined on
its region list. -/
def SlotEncodable (s : System) (i : Nat) : Prop :=
  (s.pages i).buffer ≠ InvalidBuffer → (s.pages i).fullImage = false →
    EncoderDefined (s.pages i).regions

/-! ## Concrete states used to instantiate the statements -/

/-- A page whose byte at offset `k` is `k % 256`. -/
def samplePage : Page := fun k => k % 256

/-- A page of zero bytes. -/
def zeroPage : Page := fun _ => 0

/-- A buffer manager in which buffer 9 holds `zeroPage` and every other buffer holds
`samplePage`, with an empty log. -/
def sampleWorld : World :=
  { page := fun b => if b = 9 then zeroPage else samplePage
    dirty := fun _ => false
    critSectionCount := 0
    pending := []
    wal := [] }

/-- A slot as the static storage holds it before any use. -/
def blankSlot : PageData :=
  { buffer := InvalidBuffer
    image := fun _ => 0
    regions := []
    overflow := false
    data := []
    fullImage := false }

/-- The state of a backend that has not used the module yet. -/
def idleSystem : System :=
  { genericXlogStatus := .GXLOG_NOT_STARTED
    pages := fun _ => blankSlot
    world := sampleWorld }

/-- The state after `GenericXLogStart` on a relation that needs WAL. -/
def startedSystem : System := (GenericXLogStart true idleSystem).2

/-- The state after `GenericXLogStart` on a relation that needs no WAL. -/
def startedUnlogged : System := (GenericXLogStart false idleSystem).2

/-- The state after `GenericXLogStart` and `GenericXLogRegister(7, false)`. -/
def registeredSystem : System := (GenericXLogRegister 7 false startedSystem).2

/-- The state after `GenericXLogStart` (no WAL) and `GenericXLogRegister(7, false)`. -/
def registeredUnlogged : System := (GenericXLogRegister 7 false startedUnlogged).2

/-- The state after `GenericXLogMemmove(image + 40, image, 30)` on the registered slot. -/
def movedOnce : System := (GenericXLogMemmove (imageAddr 0 + 40) (imageAddr 0) 30 registeredSystem).2

/-- The state after a second call, `GenericXLogMemmove(image, image + 55, 40)`, whose source
range `[55, 95)` spans two regions and does not meet the destination range `[0, 40)`. -/
def movedTwice : System := (GenericXLogMemmove (imageAddr 0) (imageAddr 0 + 55) 40 movedOnce).2

/-- The state after `GenericXLogStart` and `GenericXLogRegister(9, false)`: slot 0 holds a
page of zero bytes. -/
def zeroRegistered : System := (GenericXLogRegister 9 false startedSystem).2

/-- The state after `GenericXLogMemmove(image + 40, image, 30)` on `zeroRegistered`. -/
def zeroMovedOnce : System :=
  (GenericXLogMemmove (imageAddr 0 + 40) (imageAddr 0) 30 zeroRegistered).2

/-- The state after a second call, `GenericXLogMemmove(image, image + 55, 40)`. -/
def zeroMovedTwice : System :=
  (GenericXLogMemmove (imageAddr 0) (imageAddr 0 + 55) 40 zeroMovedOnce).2

/-- The state after a third call, `GenericXLogMemmove(image + 100, image + 15, 55)`. -/
def zeroMovedThrice : System :=
  (GenericXLogMemmove (imageAddr 0 + 100) (imageAddr 0 + 15) 55 zeroMovedTwice).2

/-- Region map correctness: every region `r` of the list and every `k < r.length` satisfy
`image[r.dstOffset + k] = P[r.srcOffset + k]`. -/
def RegionMapCorrect (P image : Page) (regions : List Region) : Prop :=
  ∀ r ∈ regions, ∀ k, k < r.length → image (r.dstOffset + k) = P (r.srcOffset + k)

/-- Encode the working image `W` against the pre-image `P` with `writeDifferentialData`, then
run `applyPageRedo` on a page that holds `P`, with `P` as the pre-image copy. -/
def roundTrip (W P : Page) (regions : List Region) : Except GxError Page := do
  let data ← encodePage W P regions []
  applyPageRedo P P data

/-! ## Definitions for the region tracker, the record format and the sample runs -/

/-- The slot after the call `memmove(dst, src, len)` that ends `GenericXLogMemmove`, with `dst`
and `src` given as offsets into the image of the slot. -/
def movedImage (pageData : PageData) (dstOff srcOff len : Nat) : PageData :=
  { pageData with image := memcpy pageData.image dstOff pageData.image srcOff len }

/-- What `memoryMove` has computed when it reaches the block `Move data`: the live part of
`pageData->regions` (with the lengths of the left and right regions already adjusted), the
entries of `newRegions`, and the two indices. -/
structure Splice where
  regions : List Region
  newRegions : List Region
  leftIndex : Int
  rightIndex : Int

/-- The part of `memoryMove` from the first `findRegion` to the assignment of `rightIndex`. -/
def memoryMovePlan (pageData : PageData) (dstOffset srcOffset length : Nat) :
    Except GxError Splice := do
  let srcRegion ← findRegion pageData srcOffset
  -- Make new regions
  let newRegions0 ← makeNewRegions dstOffset (pageData.regions.drop srcRegion) srcOffset length []
  -- Check left region
  let dstRegionLeft ← findRegion pageData (if dstOffset > 0 then dstOffset - 1 else 0)
  let left ← fetch pageData.regions dstRegionLeft
  let first ← fetchNew newRegions0 0
  let lc := checkLeft left dstOffset first newRegions0
  let leftIndex : Int := (dstRegionLeft : Int) + (if lc.leftAdjacent then 0 else 1)
  -- Check right region
  let dstRegionRight ← findRegion pageData
    (if dstOffset + length < BLCKSZ then asOffsetNumber ((dstOffset : Int) + length)
     else BLCKSZ - 1)
  let right ← fetch pageData.regions dstRegionRight
  let last ← fetchNew lc.newRegions (lc.newRegions.length - 1)
  let rc ← checkRight pageData.regions dstRegionRight right dstOffset length lc.leftAdjacent
    lc.newRegions last
  let regions : List Region :=
    if ¬ lc.leftAdjacent then rc.regions.set dstRegionLeft { left with length := lc.leftLength }
    else rc.regions
  let rightIndex : Int := (dstRegionRight : Int) + (if rc.rightAdjacent then 1 else 0)
  return { regions := regions, newRegions := rc.newRegions, leftIndex := leftIndex,
           rightIndex := rightIndex }

/-- The variable `shift` of the block `Move data`: `newRegionsCount - (rightIndex - leftIndex)`,
the change of `regionsCount` that the splice makes. -/
def Splice.shift (sp : Splice) : Int :=
  (sp.newRegions.length : Int) - (sp.rightIndex - sp.leftIndex)

/-- The live part of `pageData->regions` after the `memmove` of the tail and the `memcpy` of
`newRegions` to `regions[leftIndex ..]`. -/
def Splice.spliced (sp : Splice) : List Region :=
  sp.regions.take sp.leftIndex.toNat ++ sp.newRegions ++ sp.regions.drop sp.rightIndex.toNat

/-- The state after `GenericXLogStart`, `GenericXLogRegister(7, false)` and the `k` calls
`GenericXLogMemmove(image + 100 + 40 * j, image, 10)` for `j = 0, ..., k - 1`: each call copies
the first ten bytes of the page to a place of its own inside the last region. -/
def overflowRun : Nat → System
  | 0 => registeredSystem
  | k + 1 =>
    (GenericXLogMemmove (imageAddr 0 + ((100 + 40 * k : Nat) : Int))
      (imageAddr 0 + ((0 : Nat) : Int)) 10 (overflowRun k)).2

/-- What the states `overflowRun k` have in common: slot 0 holds buffer 7 without overflow, its
region list tiles the page with `2 * k + 1` regions, the first of which maps to offset 0 of the
pre-image and the last of which maps to itself and starts at or before `70 + 40 * k`; the first
hundred bytes of the image are those of the page, and byte 100 is byte 0 of the page once a
call has been made. -/
structure RunInv (k : Nat) (s : System) : Prop where
  status : s.genericXlogStatus = .GXLOG_LOGGED
  world : s.world = sampleWorld
  buffer : (s.pages 0).buffer = 7
  full : (s.pages 0).fullImage = false
  overflow : (s.pages 0).overflow = false
  tile : TileValid (s.pages 0).regions
  regions : ∃ (pre : List Region) (t r0 : Region),
    (s.pages 0).regions = pre ++ [t] ∧ pre.length = 2 * k ∧
    (s.pages 0).regions[0]? = some r0 ∧ r0.srcOffset = 0 ∧ 10 ≤ r0.length ∧
    t.srcOffset = t.dstOffset ∧ t.dstOffset ≤ 70 + 40 * k
  low : ∀ x, x < 100 → (s.pages 0).image x = samplePage x
  moved : 1 ≤ k → (s.pages 0).image 100 = 0
  others : ∀ j, j ≠ 0 → s.pages j = registeredSystem.pages j

/-- The state after call number 128 of the run: slot 0 has `overflow` set, holds the identity
region and no data, and its image is the page of buffer 7 with the first ten bytes copied to
offset 5180. -/
structure OverflowedInv (s : System) : Prop where
  status : s.genericXlogStatus = .GXLOG_LOGGED
  world : s.world = sampleWorld
  buffer : (s.pages 0).buffer = 7
  full : (s.pages 0).fullImage = false
  overflow : (s.pages 0).overflow = true
  regions : (s.pages 0).regions = [identityRegion]
  data : (s.pages 0).data = []
  image : ∀ k, k < BLCKSZ → (s.pages 0).image k =
    if 5180 ≤ k ∧ k < 5190 then samplePage (k - 5180) else samplePage k
  others : ∀ j, j ≠ 0 → s.pages j = registeredSystem.pages j

/-- The state after `GenericXLogStart` and `GenericXLogRegister(7, true)`: slot 0 holds a
page registered as new. -/
def registeredNew : System := (GenericXLogRegister 7 true startedSystem).2

/-- One instruction of a differential record: a `COPY` with its literal bytes, or a `MOVE`
with its length and its source offset. -/
inductive Instr where
  | copy (bytes : List Nat)
  | move (length source : Nat)
deriving DecidableEq, Repr

/-- The value of the length field of an instruction (the low 15 bits of its first two
bytes). -/
def Instr.length : Instr → Nat
  | .copy bytes => bytes.length
  | .move length _ => length

/-- Whether the instruction is a `MOVE`. -/
def Instr.isMove : Instr → Bool
  | .copy _ => false
  | .move _ _ => true

/-- The bytes of one instruction in a record: what `writeCopyFlagment`, respectively
`writeMoveFlagment`, appends to `data`. -/
def Instr.bytes : Instr → List Nat
  | .copy bytes => [bytes.length % 256, bytes.length / 256] ++ bytes
  | .move length source =>
    [(length ||| MOVE_FLAG) % 256, (length ||| MOVE_FLAG) / 256, source % 256, source / 256]

/-- The record made of the given instructions, in order. -/
def serialize : List Instr → List Nat
  | [] => []
  | ins :: rest => ins.bytes ++ serialize rest

/-- The bytes `page[off .. off + len)`. -/
def pageBytes (page : Page) (off len : Nat) : List Nat :=
  (List.range len).map (fun k => page (off + k))

/-- A page that holds 0 on the bytes `[a, a + n)` and 1 elsewhere: compared with `zeroPage`
it agrees exactly on `[a, a + n)`. -/
def matchedRun (a n : Nat) : Page := fun k => if a ≤ k ∧ k < a + n then 0 else 1

/-- The cursor of the decoder before instruction `j` of a record: the sum of the length
fields of the instructions before it. -/
def cursorAt (instrs : List Instr) (j : Nat) : Nat := ((instrs.take j).map Instr.length).sum

/-- What the loop of `writeDifferentialData` has written at the start of iteration `i`: the
data are whole instructions, each with a length field of at least one, whose length fields
sum to `notMatch`, and `notMatch ≤ match ≤ i`. -/
def EncSum (i : Nat) (st : EncState) : Prop :=
  ∃ instrs : List Instr, st.data = serialize instrs ∧
    (instrs.map Instr.length).sum = st.notMatch ∧ (∀ x ∈ instrs, 1 ≤ x.length) ∧
    st.notMatch ≤ st.matchStart ∧ st.matchStart ≤ i

/-- Modelled from the spec: the byte that an instruction gives for position `t` of its
range.  "Each `COPY` emits literal bytes at the cursor; each `MOVE` emits `length` bytes
taken from the pre-image starting at `source`." -/
def Instr.byteAt (P : Page) : Instr → Nat → Nat
  | .copy bytes, t => bytes.getD t 0
  | .move _ source, t => P (source + t)

/-- Modelled from the spec: the page after one instruction is applied at the cursor `o`. -/
def Instr.emit (P : Page) (x : Instr) (page : Page) (o : Nat) : Page :=
  fun k => if o ≤ k ∧ k < o + x.length then x.byteAt P (k - o) else page k

/-- Modelled from the spec: "Instructions are applied sequentially with an implicit cursor
`offset` starting at `0`, advanced by `length` after each instruction."  Here the cursor
starts at `o`. -/
def decodeReference (P : Page) : List Instr → Page → Nat → Page
  | [], page, _ => page
  | x :: rest, page, o => decodeReference P rest (x.emit P page o) (o + x.length)

/-- The source range of a `MOVE` lies inside the page. -/
def Instr.sourceInPage : Instr → Prop
  | .copy _ => True
  | .move length source => source + length ≤ BLCKSZ

/-- A well-formed instruction stream: the length fields sum to at most `BLCKSZ`, and the
source range of every `MOVE` lies inside the page. -/
def WellFormedStream (instrs : List Instr) : Prop :=
  (instrs.map Instr.length).sum ≤ BLCKSZ ∧ ∀ x ∈ instrs, x.sourceInPage

/-- The body of `generic_redo` for one block with `BLK_NEEDS_REDO`, on the page of the
buffer: `image` takes a copy of the page, `applyPageRedo` runs on the block data, and the LSN
of the page is set. -/
def redoBlock (page : Page) (blockData : List Nat) (lsn : XLogRecPtr) : Except GxError Page := do
  let image : Page := memcpy (fun _ => 0) 0 page 0 BLCKSZ
  let page1 ← applyPageRedo page image blockData
  return PageSetLSN page1 lsn

/-- The state after `GenericXLogStart`, `GenericXLogRegister(7, false)` and a write of zero
bytes over the whole working image of slot 0. -/
def overwrittenSystem : System :=
  { registeredSystem with
    pages := setPage registeredSystem.pages 0 { registeredSystem.pages 0 with image := zeroPage } }

/-- The state after `GenericXLogStart`, `GenericXLogRegister(7, false)`, `GenericXLogAbort`
and a second `GenericXLogStart`: no buffer is registered in the new transaction. -/
def restartedSystem : System := (GenericXLogStart true (GenericXLogAbort registeredSystem).2).2

/-- The page `samplePage` with byte 100 set to `0xBB`. -/
def pokedPage : Page := fun k => if k = 100 then 0xBB else samplePage k

/-- The buffer manager `sampleWorld` after the page `pokedPage` is put in buffer 7. -/
def pokedWorld : World :=
  { sampleWorld with page := setBufferPage sampleWorld.page 7 pokedPage }

/-- The state after `GenericXLogStart`, `GenericXLogRegister(7, false)`, a second
`GenericXLogRegister(7, false)`, which fails, and `GenericXLogRegister(8, false)`. -/
def twoRegistered : System :=
  (GenericXLogRegister 8 false (GenericXLogRegister 7 false registeredSystem).2).2

/-- The state after `GenericXLogMemmove(image + 30, image + 30, 20)` on `movedOnce`: a move
onto itself of a range that spans the first two regions. -/
def selfMoved : System :=
  (GenericXLogMemmove (imageAddr 0 + 30) (imageAddr 0 + 30) 20 movedOnce).2

/-- Whether the last instruction of a list is a `COPY`; `afterCopy` is the answer for the
empty list. -/
def endsWithCopy : Bool → List Instr → Bool
  | afterCopy, [] => afterCopy
  | _, x :: rest => endsWithCopy (!x.isMove) rest

/-- Shape of a list of instructions that starts at cursor `o` of the working image `W`, with
pre-image `P`; `afterCopy` tells whether the instruction before the list is a `COPY`.  Every
`COPY` has at least one byte and does not follow a `COPY`; every `MOVE` is longer than
`MATCH_THRESHOLD`, has its source range inside the page, and the bytes of `W` at its cursor
are the bytes of `P` at its source. -/
def shapeFrom (W P : Page) : Nat → Bool → List Instr → Prop
  | _, _, [] => True
  | o, afterCopy, .copy bytes :: rest =>
    1 ≤ bytes.length ∧ afterCopy = false ∧ shapeFrom W P (o + bytes.length) true rest
  | o, _, .move len source :: rest =>
    MATCH_THRESHOLD < len ∧ source + len ≤ BLCKSZ ∧
      (∀ k, k < len → W (o + k) = P (source + k)) ∧ shapeFrom W P (o + len) false rest

/-- What the loop of `writeDifferentialData` has written, seen as instructions: the data are
whole instructions of the shape `shapeFrom`, the last of them a `MOVE`, whose length fields
sum to `notMatch`. -/
def EncShape (W P : Page) (data : List Nat) (notMatch : Nat) : Prop :=
  ∃ instrs : List Instr, data = serialize instrs ∧
    (instrs.map Instr.length).sum = notMatch ∧ shapeFrom W P 0 false instrs ∧
    endsWithCopy false instrs = false

/-- A region list of `MAX_REGIONS` regions of 32 bytes, each mapping its bytes onto
themselves: it tiles the page. -/
def evenRegions : List Region :=
  (List.range MAX_REGIONS).map (fun j => ⟨32 * j, 32 * j, 32⟩)

/-- A slot of buffer 7 whose region list is `evenRegions`. -/
def evenSlot : PageData := { blankSlot with buffer := 7, regions := evenRegions }

/-- The entries that the loop `while (curLength > 0)` of `memoryMove(8, 0, 8161)` writes to
`newRegions` on `evenSlot`: one for each region of the slot, the last of one byte. -/
def evenNewRegions : List Region :=
  (List.range MAX_REGIONS).map (fun j => ⟨8, 32 * j, if j < 255 then 32 else 1⟩)

/-- The state after `GenericXLogMemmove(image + 8182, image, 10)`, a call that copies the
first ten bytes of the page of slot 0 to its last ten bytes. -/
def tailMoved (s : System) : System :=
  (GenericXLogMemmove (imageAddr 0 + ((8182 : Nat) : Int)) (imageAddr 0 + ((0 : Nat) : Int)) 10
    s).2

/-- The state after the 127 calls of `overflowRun 127`, which leave 255 regions, and the call
`GenericXLogMemmove(image + 8182, image, 10)`: the slot then has `MAX_REGIONS` regions. -/
def fullRun : System := tailMoved (overflowRun 127)

/-- The state after `GenericXLogAbort`, `GenericXLogStart` on a relation that needs WAL and
`GenericXLogRegister(buffer, false)`: a new transaction with one registered buffer. -/
def reRegistered (s : System) (buffer : Buffer) : System :=
  (GenericXLogRegister buffer false (GenericXLogStart true (GenericXLogAbort s).2).2).2

/-- The state after `GenericXLogMemmove(image, image + BLCKSZ/2, BLCKSZ/2)` on slot 0: the
second half of the working image is copied over the first half. -/
def halfShifted (s : System) : System :=
  (GenericXLogMemmove (imageAddr 0 + ((0 : Nat) : Int)) (imageAddr 0 + ((4096 : Nat) : Int)) 4096
    s).2

/-- What the reads of `writeDifferentialData` that leave its arrays find: the entry of
`regions` at an index at or after `regionsCount`, and the byte of `image` at an offset at or
after `BLCKSZ`.  The code makes these reads without a check; what they return can depend on
what the loop has written so far. -/
structure StrayReads where
  region : EncState → Nat → Region
  imageByte : EncState → Nat → Nat

/-- The entry `regions[i]` as the code reads it, also at or after `regionsCount`. -/
def fetchAny (m : StrayReads) (st : EncState) (l : List Region) (i : Nat) : Region :=
  match l[i]? with
  | some r => r
  | none => m.region st i

/-- The byte `image[k]` as the code reads it, also at or after `BLCKSZ`. -/
def imageAny (m : StrayReads) (st : EncState) (image : Page) (k : Nat) : Nat :=
  if k < BLCKSZ then image k else m.imageByte st k

/-- Body of the loop `for (i = 0; i < BLCKSZ; i++)` of `writeDifferentialData`, with the
reads that leave the arrays returning the values of `m`. -/
def encodeStepAny (m : StrayReads) (page image : Page) (regions : List Region) (i : Nat)
    (st : EncState) : EncState :=
  let region := fetchAny m st regions st.region
  let st1 :=
    if st.regionOffset ≥ region.length then
      { CHECK_SET page region i st with
        matchStart := i, region := st.region + 1, regionOffset := 0 }
    else st
  let region1 := fetchAny m st1 regions st1.region
  let st2 :=
    if page i ≠ imageAny m st1 image (region1.srcOffset + st1.regionOffset) then
      { CHECK_SET page region1 i st1 with matchStart := asOffsetNumber ((i : Int) + 1) }
    else st1
  { st2 with regionOffset := asOffsetNumber ((st2.regionOffset : Int) + 1) }

/-- The loop `for (i = 0; i < BLCKSZ; i++)` with such reads: `n` iterations starting at
`i`. -/
def encodeLoopAny (m : StrayReads) (page image : Page) (regions : List Region) :
    Nat → Nat → EncState → EncState
  | 0, _, st => st
  | n + 1, i, st =>
    encodeLoopAny m page image regions n (i + 1) (encodeStepAny m page image regions i st)

/-- Body of `writeDifferentialData` with such reads; `data` is `data[0 .. dataLen)` at entry
and the result is the same after the call. -/
def encodePageAny (m : StrayReads) (page image : Page) (regions : List Region)
    (data : List Nat) : List Nat :=
  let st0 : EncState :=
    { data := data, region := 0, regionOffset := 0, notMatch := 0, matchStart := 0 }
  let st := encodeLoopAny m page image regions BLCKSZ 0 st0
  let region := fetchAny m st regions st.region
  let st1 := CHECK_SET page region BLCKSZ st
  if st1.notMatch < BLCKSZ then
    writeCopyFlagment st1.data (asOffsetNumber ((BLCKSZ : Int) - st1.notMatch)) page
      st1.notMatch
  else
    st1.data

/-- The function `writeDifferentialData` with such reads. -/
def writeDifferentialDataAny (m : StrayReads) (w : World) (pageData : PageData) :
    Except GxError PageData := do
  let page ← BufferGetPage w pageData.buffer
  return { pageData with
           data := encodePageAny m page pageData.image pageData.regions pageData.data }

/-- Body of the first loop of the logged branch of `GenericXLogFinish` for slot `i`, with
such reads in `writeDifferentialData`. -/
def finishLoggedSlotAny (m : StrayReads) (i : Nat) (s : System) : Except GxError System :=
  if BufferIsInvalid (s.pages i).buffer then .ok s
  else do
    let pageData := s.pages i
    let bufferPage ← BufferGetPage s.world pageData.buffer
    let tmp : Page := memcpy (fun _ => 0) 0 pageData.image 0 BLCKSZ
    let pageData1 := { pageData with image := memcpy pageData.image 0 bufferPage 0 BLCKSZ }
    let w1 : World :=
      { s.world with
        page := setBufferPage s.world.page pageData.buffer (memcpy bufferPage 0 tmp 0 BLCKSZ) }
    if pageData1.fullImage then
      .ok { s with pages := setPage s.pages i pageData1
                   world := XLogRegisterBuffer w1 i pageData1.buffer true }
    else
      let w2 := XLogRegisterBuffer w1 i pageData1.buffer false
      let pageData2 ← writeDifferentialDataAny m w2 pageData1
      .ok { s with pages := setPage s.pages i pageData2
                   world := XLogRegisterBufData w2 i pageData2.data }

/-- The function `GenericXLogFinish`, with the reads of `writeDifferentialData` that leave
its arrays returning the values of `m`: the call goes on where `GenericXLogFinish` has no
defined outcome, and is the same call wherever that one returns. -/
def GenericXLogFinishAny (m : StrayReads) (s : System) : Except GxError XLogRecPtr × System :=
  match s.genericXlogStatus with
  | .GXLOG_LOGGED =>
    let s1 := { s with world := XLogBeginInsert (START_CRIT_SECTION s.world) }
    match forSlotsM (finishLoggedSlotAny m) MAX_GENERIC_XLOG_PAGES 0 s1 with
    | .error e => (.error e, s)
    | .ok s2 =>
      let ins := XLogInsert s2.world
      let lsn := ins.1
      let s3 := forSlots (finishStampSlot lsn) MAX_GENERIC_XLOG_PAGES 0 { s2 with world := ins.2 }
      (.ok lsn,
       { s3 with world := END_CRIT_SECTION s3.world
                 genericXlogStatus := .GXLOG_NOT_STARTED })
  | .GXLOG_UNLOGGED =>
    let s1 := { s with world := START_CRIT_SECTION s.world }
    let s2 := forSlots finishUnloggedSlot MAX_GENERIC_XLOG_PAGES 0 s1
    (.ok InvalidXLogRecPtr,
     { s2 with world := END_CRIT_SECTION s2.world
               genericXlogStatus := .GXLOG_NOT_STARTED })
  | .GXLOG_NOT_STARTED => (.error .finishNotStarted, s)

/-- What a logged `GenericXLogFinish` that returned `r` has done to the state `s` it was called
in: `r` holds the LSN of the one record appended to the log (its position there), the status
is `GXLOG_NOT_STARTED`, and the page of every registered buffer is the working image of its
slot with the LSN field (the first eight bytes) set to that LSN, and is marked dirty. -/
def LoggedCommit (s : System) (r : Except GxError XLogRecPtr × System) : Prop :=
  r.1 = .ok (s.world.wal.length + 1) ∧
  (∃ record, r.2.world.wal = s.world.wal ++ [record]) ∧
  r.2.genericXlogStatus = .GXLOG_NOT_STARTED ∧
  ∀ i, Registered s i →
    (∀ k, k < BLCKSZ →
      r.2.world.page (s.pages i).buffer k
        = PageSetLSN (s.pages i).image (s.world.wal.length + 1) k) ∧
    (∀ k, 8 ≤ k → k < BLCKSZ → r.2.world.page (s.pages i).buffer k = (s.pages i).image k) ∧
    r.2.world.dirty (s.pages i).buffer = true

/-! ## Basic facts about the transaction controller -/

theorem initPageData_ok (w : World) (pd : PageData) (b : Buffer) (hb : b ≠ InvalidBuffer) :
    initPageData w pd b =
      .ok { pd with buffer := b, image := memcpy pd.image 0 (w.page b) 0 BLCKSZ,
                    regions := [identityRegion], data := [] } := by
  have hb1 : BufferIsInvalid b = false := by
    simp [BufferIsInvalid, hb]
  simp [initPageData, BufferGetPage, hb1, bind, Except.bind]

theorem initPageData_invalid (w : World) (pd : PageData) :
    initPageData w pd InvalidBuffer = .error .undefinedBehaviour := by
  simp [initPageData, BufferGetPage, BufferIsInvalid, bind, Except.bind]

theorem initPageData_buffer {w : World} {pd pd1 : PageData} {b : Buffer}
    (h : initPageData w pd b = .ok pd1) : pd1.buffer = b := by
  by_cases hb : b = InvalidBuffer
  · subst hb
    rw [initPageData_invalid] at h
    cases h
  · rw [initPageData_ok w pd b hb] at h
    cases h
    rfl

theorem memoryMove_buffer {w : World} {pd pd1 : PageData} {d s l : Nat}
    (h : memoryMove w pd d s l = .ok pd1) : pd1.buffer = pd.buffer := by
  unfold memoryMove at h
  split at h
  · cases h
    rfl
  · split at h
    · cases h
    · cases h
      rfl
    · split at h
      · cases h
      · rename_i pd2 hinit
        cases h
        show pd2.buffer = pd.buffer
        exact initPageData_buffer hinit

theorem memmove_status (dst src : Int) (len : Nat) (s : System) :
    (GenericXLogMemmove dst src len s).2.genericXlogStatus = s.genericXlogStatus := by
  unfold GenericXLogMemmove
  dsimp only
  repeat' split
  all_goals rfl

theorem memmove_buffer (dst src : Int) (len : Nat) (s : System) (i : Nat) :
    ((GenericXLogMemmove dst src len s).2.pages i).buffer = (s.pages i).buffer := by
  unfold GenericXLogMemmove
  dsimp only
  repeat' split
  all_goals first
    | rfl
    | skip
  rename_i block_id _ _ _ _ pd hmm
  simp only [setPage]
  split
  · rename_i hi
    subst hi
    show pd.buffer = _
    exact memoryMove_buffer hmm
  · rfl

theorem memmove_world (dst src : Int) (len : Nat) (s : System) :
    (GenericXLogMemmove dst src len s).2.world = s.world := by
  unfold GenericXLogMemmove
  dsimp only
  repeat' split
  all_goals rfl

theorem start_fst (needsWAL : Bool) (s : System)
    (h : s.genericXlogStatus = .GXLOG_NOT_STARTED) :
    (GenericXLogStart needsWAL s).1 = .ok () := by
  simp [GenericXLogStart, h]

theorem start_snd (needsWAL : Bool) (s : System)
    (h : s.genericXlogStatus = .GXLOG_NOT_STARTED) :
    (GenericXLogStart needsWAL s).2 =
      { s with
        genericXlogStatus := if needsWAL then .GXLOG_LOGGED else .GXLOG_UNLOGGED
        pages := fun i =>
          if i < MAX_GENERIC_XLOG_PAGES then { s.pages i with buffer := InvalidBuffer }
          else s.pages i } := by
  simp [GenericXLogStart, h]

/-- Outcome of `registerLoop` when the slots from `block_id` on that hold a valid buffer hold
one different from `buffer`, up to the first free slot `k`. -/
theorem registerLoop_free (buffer : Buffer) (isNew : Bool) (s : System)
    (hb : buffer ≠ InvalidBuffer) (k : Nat) :
    ∀ (n block_id : Nat), block_id ≤ k → k < block_id + n →
      (∀ j, block_id ≤ j → j < k →
        (s.pages j).buffer ≠ InvalidBuffer ∧ (s.pages j).buffer ≠ buffer) →
      (s.pages k).buffer = InvalidBuffer →
      registerLoop buffer isNew s n block_id =
        (.ok (imageAddr k), { s with pages := setPage s.pages k (freshSlot buffer isNew s k) }) := by
  intro n
  induction n with
  | zero =>
    intro block_id h1 h2
    omega
  | succ n ih =>
    intro block_id h1 h2 hocc hfree
    unfold registerLoop
    by_cases hk : block_id = k
    · subst hk
      simp [BufferIsInvalid, hfree, initPageData_ok _ _ _ hb, freshSlot]
    · have hlt : block_id < k := by omega
      obtain ⟨hv, hne⟩ := hocc block_id (le_refl _) hlt
      simp only [BufferIsInvalid, beq_iff_eq, hv, hne, if_false]
      exact ih (block_id + 1) (by omega) (by omega)
        (fun j hj1 hj2 => hocc j (by omega) hj2) hfree

/-- Outcome of `registerLoop` when some slot at or after `block_id` holds `buffer` and no slot
before it, from `block_id` on, is free. -/
theorem registerLoop_duplicate (buffer : Buffer) (isNew : Bool) (s : System)
    (hb : buffer ≠ InvalidBuffer) (k : Nat) :
    ∀ (n block_id : Nat), block_id ≤ k → k < block_id + n →
      (∀ j, block_id ≤ j → j < k →
        (s.pages j).buffer ≠ InvalidBuffer ∧ (s.pages j).buffer ≠ buffer) →
      (s.pages k).buffer = buffer →
      registerLoop buffer isNew s n block_id = (.error .duplicateBuffer, s) := by
  intro n
  induction n with
  | zero =>
    intro block_id h1 h2
    omega
  | succ n ih =>
    intro block_id h1 h2 hocc hdup
    unfold registerLoop
    by_cases hk : block_id = k
    · subst hk
      simp [BufferIsInvalid, hdup, hb]
    · have hlt : block_id < k := by omega
      obtain ⟨hv, hne⟩ := hocc block_id (le_refl _) hlt
      simp only [BufferIsInvalid, beq_iff_eq, hv, hne, if_false]
      exact ih (block_id + 1) (by omega) (by omega)
        (fun j hj1 hj2 => hocc j (by omega) hj2) hdup

/-- Outcome of `registerLoop` when every slot it visits holds a valid buffer other than
`buffer`. -/
theorem registerLoop_full (buffer : Buffer) (isNew : Bool) (s : System) :
    ∀ (n block_id : Nat),
      (∀ j, block_id ≤ j → j < block_id + n →
        (s.pages j).buffer ≠ InvalidBuffer ∧ (s.pages j).buffer ≠ buffer) →
      registerLoop buffer isNew s n block_id = (.error .maximumExceeded, s) := by
  intro n
  induction n with
  | zero =>
    intro block_id _
    rfl
  | succ n ih =>
    intro block_id hocc
    unfold registerLoop
    obtain ⟨hv, hne⟩ := hocc block_id (le_refl _) (by omega)
    simp only [BufferIsInvalid, beq_iff_eq, hv, hne, if_false]
    exact ih (block_id + 1) (fun j hj1 hj2 => hocc j (by omega) (by omega))

/-- Outcome of `registerLoop` for the handle `InvalidBuffer` when a free slot `k` follows
valid ones: `initPageData` asks the buffer manager for the page of an invalid handle. -/
theorem registerLoop_invalid (isNew : Bool) (s : System) (k : Nat) :
    ∀ (n block_id : Nat), block_id ≤ k → k < block_id + n →
      (∀ j, block_id ≤ j → j < k → (s.pages j).buffer ≠ InvalidBuffer) →
      (s.pages k).buffer = InvalidBuffer →
      registerLoop InvalidBuffer isNew s n block_id = (.error .undefinedBehaviour, s) := by
  intro n
  induction n with
  | zero =>
    intro block_id h1 h2
    omega
  | succ n ih =>
    intro block_id h1 h2 hocc hfree
    unfold registerLoop
    by_cases hk : block_id = k
    · subst hk
      simp [BufferIsInvalid, hfree, initPageData_invalid]
    · have hlt : block_id < k := by omega
      have hv := hocc block_id (le_refl _) hlt
      simp only [BufferIsInvalid, beq_iff_eq, hv, if_false]
      exact ih (block_id + 1) (by omega) (by omega)
        (fun j hj1 hj2 => hocc j (by omega) hj2) hfree

theorem register_started (buffer : Buffer) (isNew : Bool) (s : System)
    (h : s.genericXlogStatus ≠ .GXLOG_NOT_STARTED) :
    GenericXLogRegister buffer isNew s =
      registerLoop buffer isNew s MAX_GENERIC_XLOG_PAGES 0 := by
  simp [GenericXLogRegister, h]

/-- A valid buffer that is not registered goes to slot `n`, the first free one. -/
theorem register_fresh {n : Nat} {s : System} (h : SlotsOK n s) (buffer : Buffer) (isNew : Bool)
    (hb : buffer ≠ InvalidBuffer) (hn : n < MAX_GENERIC_XLOG_PAGES)
    (hnew : ∀ j, j < n → (s.pages j).buffer ≠ buffer) :
    GenericXLogRegister buffer isNew s =
      (.ok (imageAddr n), { s with pages := setPage s.pages n (freshSlot buffer isNew s n) }) := by
  rw [register_started buffer isNew s h.started]
  refine registerLoop_free buffer isNew s hb n MAX_GENERIC_XLOG_PAGES 0 (Nat.zero_le _)
    (by omega) ?_ ?_
  · intro j _ hj
    exact ⟨(h.valid j (by omega)).1 hj, hnew j hj⟩
  · by_contra hc
    exact absurd ((h.valid n hn).2 hc) (lt_irrefl n)

/-- A buffer held by one of the slots is rejected as a duplicate. -/
theorem register_duplicate {n : Nat} {s : System} (h : SlotsOK n s) (buffer : Buffer)
    (isNew : Bool) (k : Nat) (hk : k < n) (hdup : (s.pages k).buffer = buffer) :
    GenericXLogRegister buffer isNew s = (.error .duplicateBuffer, s) := by
  have hbound := h.bound
  have hb : buffer ≠ InvalidBuffer := by
    rw [← hdup]
    exact (h.valid k (by omega)).1 hk
  rw [register_started buffer isNew s h.started]
  refine registerLoop_duplicate buffer isNew s hb k MAX_GENERIC_XLOG_PAGES 0 (Nat.zero_le _)
    (by omega) ?_ hdup
  intro j _ hj
  refine ⟨(h.valid j (by omega)).1 (by omega), ?_⟩
  intro hjb
  have := h.distinct j k (by omega) hk (by rw [hjb, hdup])
  omega

/-- With all slots taken by other buffers the registration is rejected. -/
theorem register_full {n : Nat} {s : System} (h : SlotsOK n s) (buffer : Buffer)
    (isNew : Bool) (hn : n = MAX_GENERIC_XLOG_PAGES)
    (hnew : ∀ j, j < n → (s.pages j).buffer ≠ buffer) :
    GenericXLogRegister buffer isNew s = (.error .maximumExceeded, s) := by
  rw [register_started buffer isNew s h.started]
  refine registerLoop_full buffer isNew s MAX_GENERIC_XLOG_PAGES 0 ?_
  intro j _ hj
  exact ⟨(h.valid j (by omega)).1 (by omega), hnew j (by omega)⟩

/-- The handle `InvalidBuffer` is not registered while a slot is free. -/
theorem register_invalid {n : Nat} {s : System} (h : SlotsOK n s) (isNew : Bool)
    (hn : n < MAX_GENERIC_XLOG_PAGES) :
    GenericXLogRegister InvalidBuffer isNew s = (.error .undefinedBehaviour, s) := by
  rw [register_started InvalidBuffer isNew s h.started]
  refine registerLoop_invalid isNew s n MAX_GENERIC_XLOG_PAGES 0 (Nat.zero_le _) (by omega) ?_ ?_
  · intro j _ hj
    exact (h.valid j (by omega)).1 hj
  · by_contra hc
    exact absurd ((h.valid n hn).2 hc) (lt_irrefl n)

/-- The four outcomes of `GenericXLogRegister` in a state that satisfies the slot table
invariant. -/
theorem register_cases {n : Nat} {s : System} (h : SlotsOK n s) (buffer : Buffer) (isNew : Bool) :
    (buffer ≠ InvalidBuffer ∧ n < MAX_GENERIC_XLOG_PAGES ∧
      (∀ j, j < n → (s.pages j).buffer ≠ buffer) ∧
      GenericXLogRegister buffer isNew s =
        (.ok (imageAddr n), { s with pages := setPage s.pages n (freshSlot buffer isNew s n) })) ∨
    ((∃ k, k < n ∧ (s.pages k).buffer = buffer) ∧
      GenericXLogRegister buffer isNew s = (.error .duplicateBuffer, s)) ∨
    (n = MAX_GENERIC_XLOG_PAGES ∧ (∀ j, j < n → (s.pages j).buffer ≠ buffer) ∧
      GenericXLogRegister buffer isNew s = (.error .maximumExceeded, s)) ∨
    (buffer = InvalidBuffer ∧ n < MAX_GENERIC_XLOG_PAGES ∧
      GenericXLogRegister buffer isNew s = (.error .undefinedBehaviour, s)) := by
  by_cases hdup : ∃ k, k < n ∧ (s.pages k).buffer = buffer
  · obtain ⟨k, hk, hkb⟩ := hdup
    exact Or.inr (Or.inl ⟨⟨k, hk, hkb⟩, register_duplicate h buffer isNew k hk hkb⟩)
  · have hnew : ∀ j, j < n → (s.pages j).buffer ≠ buffer := by
      intro j hj hjb
      exact hdup ⟨j, hj, hjb⟩
    by_cases hn : n = MAX_GENERIC_XLOG_PAGES
    · exact Or.inr (Or.inr (Or.inl ⟨hn, hnew, register_full h buffer isNew hn hnew⟩))
    · have hlt : n < MAX_GENERIC_XLOG_PAGES := lt_of_le_of_ne h.bound hn
      by_cases hb : buffer = InvalidBuffer
      · subst hb
        exact Or.inr (Or.inr (Or.inr ⟨rfl, hlt, register_invalid h isNew hlt⟩))
      · exact Or.inl ⟨hb, hlt, hnew, register_fresh h buffer isNew hb hlt hnew⟩

/-- The slot table invariant after a successful registration. -/
theorem slotsOK_register {n : Nat} {s : System} (h : SlotsOK n s) (buffer : Buffer)
    (isNew : Bool) (hb : buffer ≠ InvalidBuffer) (hn : n < MAX_GENERIC_XLOG_PAGES)
    (hnew : ∀ j, j < n → (s.pages j).buffer ≠ buffer) :
    SlotsOK (n + 1) { s with pages := setPage s.pages n (freshSlot buffer isNew s n) } := by
  refine ⟨h.started, hn, ?_, ?_⟩
  · intro i hi
    simp only [setPage]
    split
    · rename_i hin
      subst hin
      simp [freshSlot, hb]
    · rename_i hin
      rw [← h.valid i hi]
      omega
  · intro i j hi hj
    simp only [setPage]
    split <;> split
    · intro _
      omega
    · rename_i hin hjn
      intro hij
      have : j < n := by omega
      exact absurd hij.symm (hnew j this)
    · rename_i hin hjn
      intro hij
      have : i < n := by omega
      exact absurd hij (hnew i this)
    · rename_i hin hjn
      exact h.distinct i j (by omega) (by omega)

/-- Every state of a transaction in progress satisfies the slot table invariant. -/
theorem reach_slotsOK {n : Nat} {s : System} (h : Reach n s) : SlotsOK n s := by
  induction h with
  | start needsWAL s hs =>
    rw [start_snd needsWAL s hs]
    refine ⟨?_, Nat.zero_le _, ?_, ?_⟩
    · cases needsWAL <;> simp
    · intro i hi
      simp [hi]
    · intro i j hi
      omega
  | register n s buffer isNew p _ hok ih =>
    rcases register_cases ih buffer isNew with ⟨hb, hn, hnew, heq⟩ | ⟨_, heq⟩ | ⟨_, _, heq⟩ |
      ⟨_, _, heq⟩
    · rw [heq]
      exact slotsOK_register ih buffer isNew hb hn hnew
    · rw [heq] at hok
      cases hok
    · rw [heq] at hok
      cases hok
    · rw [heq] at hok
      cases hok
  | failed n s buffer isNew e _ herr ih =>
    rcases register_cases ih buffer isNew with ⟨hb, hn, hnew, heq⟩ | ⟨_, heq⟩ | ⟨_, _, heq⟩ |
      ⟨_, _, heq⟩
    · rw [heq] at herr
      cases herr
    · rw [heq]
      exact ih
    · rw [heq]
      exact ih
    · rw [heq]
      exact ih
  | memmove n s dst src len _ ih =>
    refine ⟨?_, ih.bound, ?_, ?_⟩
    · rw [memmove_status]
      exact ih.started
    · intro i hi
      rw [memmove_buffer]
      exact ih.valid i hi
    · intro i j hi hj
      rw [memmove_buffer, memmove_buffer]
      exact ih.distinct i j hi hj
  | write n s i image _ ih =>
    refine ⟨ih.started, ih.bound, ?_, ?_⟩
    · intro j hj
      have : ((setPage s.pages i { s.pages i with image := image }) j).buffer
          = (s.pages j).buffer := by
        simp only [setPage]
        split
        · rename_i hji
          rw [hji]
        · rfl
      show j < n ↔ ((setPage s.pages i { s.pages i with image := image }) j).buffer ≠ InvalidBuffer
      rw [this]
      exact ih.valid j hj
    · intro j k hj hk
      have hbuf : ∀ m, ((setPage s.pages i { s.pages i with image := image }) m).buffer
          = (s.pages m).buffer := by
        intro m
        simp only [setPage]
        split
        · rename_i hji
          rw [hji]
        · rfl
      show ((setPage s.pages i { s.pages i with image := image }) j).buffer
          = ((setPage s.pages i { s.pages i with image := image }) k).buffer → j = k
      rw [hbuf, hbuf]
      exact ih.distinct j k hj hk
  | environment n s w _ ih =>
    exact ⟨ih.started, ih.bound, ih.valid, ih.distinct⟩

theorem reach_started : Reach 0 startedSystem :=
  Reach.start true idleSystem rfl

theorem reach_registered : Reach 1 registeredSystem :=
  Reach.register 0 startedSystem 7 false (imageAddr 0) reach_started rfl

theorem reach_startedUnlogged : Reach 0 startedUnlogged :=
  Reach.start false idleSystem rfl

theorem reach_registeredUnlogged : Reach 1 registeredUnlogged :=
  Reach.register 0 startedUnlogged 7 false (imageAddr 0) reach_startedUnlogged rfl

/-! ## The encoder stays inside its arrays on a well-formed region list -/

theorem asOffsetNumber_of_lt (x : Nat) (h : x < 65536) : asOffsetNumber (x : Int) = x := by
  unfold asOffsetNumber
  omega

/-- Facts that a tiling gives about the region at index `idx`. -/
theorem tilesFrom_get (l : List Region) :
    ∀ (pos idx : Nat) (r : Region), tilesFrom pos l = true → l[idx]? = some r →
      1 ≤ r.length ∧ r.dstOffset + r.length ≤ BLCKSZ ∧ pos ≤ r.dstOffset ∧
      (idx = 0 → r.dstOffset = pos) ∧
      (r.dstOffset + r.length < BLCKSZ →
        ∃ r1, l[idx + 1]? = some r1 ∧ r1.dstOffset = r.dstOffset + r.length) := by
  induction l with
  | nil =>
    intro pos idx r _ hget
    simp at hget
  | cons a rest ih =>
    intro pos idx r ht hget
    simp only [tilesFrom, Bool.and_eq_true, beq_iff_eq, decide_eq_true_eq] at ht
    obtain ⟨⟨hdst, hlen⟩, hrest⟩ := ht
    have hend : ∀ (l1 : List Region) (p : Nat), tilesFrom p l1 = true → p ≤ BLCKSZ := by
      intro l1
      induction l1 with
      | nil =>
        intro p hp
        simp only [tilesFrom, beq_iff_eq] at hp
        omega
      | cons b l2 ih2 =>
        intro p hp
        simp only [tilesFrom, Bool.and_eq_true, beq_iff_eq, decide_eq_true_eq] at hp
        have := ih2 (p + b.length) hp.2
        omega
    cases idx with
    | zero =>
      simp only [List.getElem?_cons_zero, Option.some.injEq] at hget
      subst hget
      refine ⟨hlen, ?_, by omega, fun _ => hdst, ?_⟩
      · have := hend rest (pos + a.length) hrest
        omega
      · intro hlt
        cases rest with
        | nil =>
          simp only [tilesFrom, beq_iff_eq] at hrest
          omega
        | cons b l2 =>
          refine ⟨b, by simp, ?_⟩
          simp only [tilesFrom, Bool.and_eq_true, beq_iff_eq, decide_eq_true_eq] at hrest
          omega
    | succ m =>
      simp only [List.getElem?_cons_succ] at hget
      obtain ⟨h1, h2, h3, _, h5⟩ := ih (pos + a.length) m r hrest hget
      refine ⟨h1, h2, by omega, fun h0 => by omega, ?_⟩
      intro hlt
      obtain ⟨r1, hr1, hr1d⟩ := h5 hlt
      exact ⟨r1, by simpa using hr1, hr1d⟩

theorem tilesFrom_ne_nil (l : List Region) (h : tilesFrom 0 l = true) :
    ∃ r, l[0]? = some r ∧ r.dstOffset = 0 := by
  cases l with
  | nil =>
    simp [tilesFrom, BLCKSZ] at h
  | cons a rest =>
    simp only [tilesFrom, Bool.and_eq_true, beq_iff_eq, decide_eq_true_eq] at h
    exact ⟨a, by simp, h.1.1⟩

theorem CHECK_SET_region (page : Page) (region : Region) (i : Nat) (st : EncState) :
    (CHECK_SET page region i st).region = st.region := by
  unfold CHECK_SET
  split <;> rfl

theorem CHECK_SET_regionOffset (page : Page) (region : Region) (i : Nat) (st : EncState) :
    (CHECK_SET page region i st).regionOffset = st.regionOffset := by
  unfold CHECK_SET
  split <;> rfl

theorem CHECK_SET_matchStart (page : Page) (region : Region) (i : Nat) (st : EncState) :
    (CHECK_SET page region i st).matchStart = st.matchStart := by
  unfold CHECK_SET
  split <;> rfl

theorem fetch_of_get {l : List Region} {i : Nat} {r : Region} (h : l[i]? = some r) :
    fetch l i = .ok r := by
  simp [fetch, h]

/-- One iteration of the encoder loop on a well-formed region list returns and keeps the
position invariant. -/
theorem encodeStep_total (page image : Page) (regions : List Region)
    (ht : TileValid regions) (hsrc : SrcBounded regions) (i : Nat) (hi : i < BLCKSZ)
    (st : EncState) (hst : EncAt regions i st) :
    ∃ st1, encodeStep page image regions i st = .ok st1 ∧ EncAt regions (i + 1) st1 := by
  obtain ⟨r, hr, hpos, hoff⟩ := hst
  have hB : BLCKSZ = 8192 := rfl
  obtain ⟨hlen, hend, _, _, hnext⟩ := tilesFrom_get regions 0 st.region r ht hr
  have h01 : asOffsetNumber (((0 : Nat) : Int) + 1) = 1 := by decide
  unfold encodeStep
  simp only [bind, Except.bind, fetch_of_get hr, pure, Except.pure]
  by_cases hge : st.regionOffset ≥ r.length
  · have hlt : r.dstOffset + r.length < BLCKSZ := by omega
    obtain ⟨r1, hr1, hr1d⟩ := hnext hlt
    obtain ⟨hlen1, hend1, _, _, _⟩ := tilesFrom_get regions 0 (st.region + 1) r1 ht hr1
    have hs1 : r1.srcOffset + r1.length ≤ BLCKSZ := hsrc r1 (List.getElem?_mem hr1)
    simp only [hge, if_true, fetch_of_get hr1]
    have hnot : ¬ (r1.srcOffset + 0 ≥ BLCKSZ) := by omega
    simp only [hnot, if_false, throw, throwThe, MonadExceptOf.throw]
    split
    · refine ⟨_, rfl, r1, ?_, ?_, ?_⟩
      · simp only [CHECK_SET_region]
        exact hr1
      · simp only [CHECK_SET_regionOffset, h01]
        omega
      · simp only [CHECK_SET_regionOffset, h01]
        exact hlen1
    · refine ⟨_, rfl, r1, hr1, ?_, ?_⟩
      · simp only [h01]
        omega
      · simp only [h01]
        exact hlen1
  · have hs : r.srcOffset + r.length ≤ BLCKSZ := hsrc r (List.getElem?_mem hr)
    simp only [hge, if_false, fetch_of_get hr]
    have hnot : ¬ (r.srcOffset + st.regionOffset ≥ BLCKSZ) := by omega
    simp only [hnot, if_false, throw, throwThe, MonadExceptOf.throw]
    have h1 : asOffsetNumber ((st.regionOffset : Int) + 1) = st.regionOffset + 1 := by
      have := asOffsetNumber_of_lt (st.regionOffset + 1) (by omega)
      simpa using this
    split
    · refine ⟨_, rfl, r, ?_, ?_, ?_⟩
      · simp only [CHECK_SET_region]
        exact hr
      · simp only [CHECK_SET_regionOffset, h1]
        omega
      · simp only [CHECK_SET_regionOffset, h1]
        omega
    · refine ⟨_, rfl, r, hr, ?_, ?_⟩
      · simp only [h1]
        omega
      · simp only [h1]
        omega

/-- The encoder loop on a well-formed region list returns. -/
theorem encodeLoop_total (page image : Page) (regions : List Region)
    (ht : TileValid regions) (hsrc : SrcBounded regions) :
    ∀ (n i : Nat) (st : EncState), i + n ≤ BLCKSZ → EncAt regions i st →
      ∃ st1, encodeLoop page image regions n i st = .ok st1 ∧ EncAt regions (i + n) st1 := by
  intro n
  induction n with
  | zero =>
    intro i st _ hst
    exact ⟨st, rfl, hst⟩
  | succ n ih =>
    intro i st hin hst
    obtain ⟨st1, hstep, hst1⟩ := encodeStep_total page image regions ht hsrc i (by omega) st hst
    obtain ⟨st2, hloop, hst2⟩ := ih (i + 1) st1 (by omega) hst1
    refine ⟨st2, ?_, ?_⟩
    · simp only [encodeLoop, bind, Except.bind, hstep]
      exact hloop
    · have : i + (n + 1) = i + 1 + n := by omega
      rw [this]
      exact hst2

/-- On a region list that tiles the page and maps into the pre-image, `writeDifferentialData`
reads nothing outside its arrays: the encoder returns a record. -/
theorem encodePage_total (page image : Page) (regions : List Region) (data : List Nat)
    (ht : TileValid regions) (hsrc : SrcBounded regions) :
    ∃ d, encodePage page image regions data = .ok d := by
  obtain ⟨r0, hr0, hr0d⟩ := tilesFrom_ne_nil regions ht
  obtain ⟨st, hloop, r, hr, _, _⟩ :=
    encodeLoop_total page image regions ht hsrc BLCKSZ 0
      { data := data, region := 0, regionOffset := 0, notMatch := 0, matchStart := 0 }
      (by omega) ⟨r0, hr0, by simpa using hr0d, Nat.zero_le _⟩
  unfold encodePage
  simp only [bind, Except.bind, hloop, fetch_of_get hr, pure, Except.pure]
  split
  · exact ⟨_, rfl⟩
  · exact ⟨_, rfl⟩

/-- A region list that tiles the page and maps into the pre-image is one on which
`writeDifferentialData` is defined. -/
theorem encoderDefined_of_wellFormed (regions : List Region) (ht : TileValid regions)
    (hsrc : SrcBounded regions) : EncoderDefined regions :=
  fun page image data => encodePage_total page image regions data ht hsrc

theorem writeDifferentialData_total (w : World) (pd : PageData)
    (hb : pd.buffer ≠ InvalidBuffer) (hdef : EncoderDefined pd.regions) :
    ∃ d, writeDifferentialData w pd = .ok { pd with data := d } := by
  obtain ⟨d, hd⟩ := hdef (w.page pd.buffer) pd.image pd.data
  have hb1 : BufferIsInvalid pd.buffer = false := by
    simp [BufferIsInvalid, hb]
  refine ⟨d, ?_⟩
  simp [writeDifferentialData, BufferGetPage, hb1, bind, Except.bind, hd, pure, Except.pure]

/-! ## Round trip of the encoder and the decoder on a well-formed region list -/

theorem copy_header_flag (len : Nat) (h : len < 32768) :
    (len % 256 + 256 * (len / 256)) &&& MOVE_FLAG = 0 := by
  have h1 : len % 256 + 256 * (len / 256) = len := Nat.mod_add_div len 256
  rw [h1]
  apply Nat.eq_of_testBit_eq
  intro i
  have hM : MOVE_FLAG = 2 ^ 15 := rfl
  rw [Nat.testBit_and, hM, Nat.testBit_two_pow, Nat.zero_testBit]
  by_cases hi : 15 = i
  · subst hi
    rw [Nat.testBit_lt_two_pow (by omega)]
    rfl
  · simp [hi]

theorem move_header_value (len : Nat) (h : len < 32768) :
    len ||| MOVE_FLAG = 32768 + len := by
  have hM : MOVE_FLAG = 2 ^ 15 * 1 := rfl
  rw [Nat.or_comm, hM, ← Nat.mul_add_lt_is_or (by omega) 1]

theorem move_header_flag (len : Nat) (h : len < 32768) :
    ((len ||| MOVE_FLAG) % 256 + 256 * ((len ||| MOVE_FLAG) / 256)) &&& MOVE_FLAG ≠ 0 := by
  have h1 : (len ||| MOVE_FLAG) % 256 + 256 * ((len ||| MOVE_FLAG) / 256) = len ||| MOVE_FLAG :=
    Nat.mod_add_div _ 256
  rw [h1, move_header_value len h]
  intro hc
  have h2 : ((32768 + len) &&& MOVE_FLAG).testBit 15 = true := by
    have hM : MOVE_FLAG = 2 ^ 15 := rfl
    have h3 : (32768 : Nat) = 2 ^ 15 := rfl
    rw [Nat.testBit_and, hM, h3, Nat.testBit_two_pow_add_eq, Nat.testBit_two_pow_self,
      Nat.testBit_lt_two_pow (by omega)]
    rfl
  rw [hc, Nat.zero_testBit] at h2
  exact absurd h2 (by decide)

theorem move_header_length (len : Nat) (h : len < 32768) :
    ((len ||| MOVE_FLAG) % 256 + 256 * ((len ||| MOVE_FLAG) / 256)) &&& LENGTH_MASK = len := by
  have h1 : (len ||| MOVE_FLAG) % 256 + 256 * ((len ||| MOVE_FLAG) / 256) = len ||| MOVE_FLAG :=
    Nat.mod_add_div _ 256
  have hL : LENGTH_MASK = 2 ^ 15 - 1 := rfl
  rw [h1, move_header_value len h, hL, Nat.and_pow_two_sub_one_eq_mod]
  omega

theorem copyBytes_length (W : Page) (src len : Nat) :
    ((List.range len).map (fun k => W (src + k))).length = len := by
  simp

theorem memcpyBytes_eq (page W : Page) (off src len : Nat) (rest : List Nat) :
    memcpyBytes page off ((List.range len).map (fun k => W (src + k)) ++ rest) len
      = memcpy page off W src len := by
  funext k
  unfold memcpyBytes memcpy
  by_cases hk : off ≤ k ∧ k < off + len
  · rw [if_pos hk, if_pos hk]
    have hlt : k - off < ((List.range len).map (fun k => W (src + k))).length := by
      rw [copyBytes_length]
      omega
    rw [List.getD_eq_getElem?_getD, List.getElem?_append_left hlt]
    simp only [List.getElem?_map]
    rw [List.getElem?_range (by omega)]
    rfl
  · rw [if_neg hk, if_neg hk]

/-- One `COPY` instruction read by `applyPageRedo`. -/
theorem applyLoop_copy (image page W : Page) (fuel len src off : Nat) (rest : List Nat)
    (hlen : len < 32768) (hoff : off + len ≤ BLCKSZ) :
    applyLoop image (fuel + 1)
        ([len % 256, len / 256] ++ (List.range len).map (fun k => W (src + k)) ++ rest) page off
      = applyLoop image fuel rest (memcpy page off W src len) (off + len) := by
  have hB : BLCKSZ = 8192 := rfl
  show applyLoop image (fuel + 1)
    (len % 256 :: len / 256 :: ((List.range len).map (fun k => W (src + k)) ++ rest)) page off = _
  rw [applyLoop]
  have h1 : len % 256 + 256 * (len / 256) = len := Nat.mod_add_div len 256
  simp only [copy_header_flag len hlen, ne_eq, not_true_eq_false, if_false]
  rw [h1]
  have hnot : ¬ (((List.range len).map (fun k => W (src + k)) ++ rest).length < len ∨
      off + len > BLCKSZ) := by
    rw [List.length_append, copyBytes_length]
    omega
  rw [if_neg hnot, memcpyBytes_eq]
  have hdrop : ((List.range len).map (fun k => W (src + k)) ++ rest).drop len = rest := by
    have := List.drop_left ((List.range len).map (fun k => W (src + k))) rest
    rw [copyBytes_length] at this
    exact this
  rw [hdrop]
  have hoffn : asOffsetNumber ((off : Int) + (len : Int)) = off + len := by
    have := asOffsetNumber_of_lt (off + len) (by omega)
    simpa using this
  rw [hoffn]

/-- One `MOVE` instruction read by `applyPageRedo`. -/
theorem applyLoop_move (image page : Page) (fuel len source off : Nat) (rest : List Nat)
    (hlen : len < 32768) (hoff : off + len ≤ BLCKSZ) (hsrc : source + len ≤ BLCKSZ) :
    applyLoop image (fuel + 1)
        ([(len ||| MOVE_FLAG) % 256, (len ||| MOVE_FLAG) / 256, source % 256, source / 256] ++ rest)
        page off
      = applyLoop image fuel rest (memcpy page off image source len) (off + len) := by
  have hB : BLCKSZ = 8192 := rfl
  show applyLoop image (fuel + 1)
    ((len ||| MOVE_FLAG) % 256 :: (len ||| MOVE_FLAG) / 256 :: source % 256 :: source / 256 :: rest)
    page off = _
  rw [applyLoop]
  have h2 : source % 256 + 256 * (source / 256) = source := Nat.mod_add_div source 256
  simp only [move_header_flag len hlen, ne_eq, not_false_eq_true, if_true,
    move_header_length len hlen]
  rw [h2]
  have hnot : ¬ (off + len > BLCKSZ ∨ source + len > BLCKSZ) := by omega
  rw [if_neg hnot]
  have hoffn : asOffsetNumber ((off : Int) + (len : Int)) = off + len := by
    have := asOffsetNumber_of_lt (off + len) (by omega)
    simpa using this
  rw [hoffn]

theorem decodes_nil (image page0 : Page) : Decodes image [] page0 0 page0 0 := by
  refine ⟨Nat.le_refl _, ?_⟩
  intro rest fuel
  rfl

theorem decodes_copy {image page0 page : Page} {data : List Nat} {m off : Nat}
    (h : Decodes image data page0 m page off) (W : Page) (len src : Nat)
    (hlen : len < 32768) (hoff : off + len ≤ BLCKSZ) :
    Decodes image (writeCopyFlagment data len W src) page0 (m + 1)
      (memcpy page off W src len) (off + len) := by
  obtain ⟨hm, hdec⟩ := h
  refine ⟨?_, ?_⟩
  · simp only [writeCopyFlagment, List.length_append, List.length_cons, List.length_nil]
    omega
  · intro rest fuel
    have h1 : writeCopyFlagment data len W src ++ rest
        = data ++ ([len % 256, len / 256] ++ (List.range len).map (fun k => W (src + k)) ++ rest) := by
      simp [writeCopyFlagment, List.append_assoc]
    have h2 : fuel + (m + 1) = (fuel + 1) + m := by omega
    rw [h1, h2, hdec, applyLoop_copy image page W fuel len src off rest hlen hoff]

theorem decodes_move {image page0 page : Page} {data : List Nat} {m off : Nat}
    (h : Decodes image data page0 m page off) (len source : Nat)
    (hlen : len < 32768) (hoff : off + len ≤ BLCKSZ) (hsrc : source + len ≤ BLCKSZ) :
    Decodes image (writeMoveFlagment data len source) page0 (m + 1)
      (memcpy page off image source len) (off + len) := by
  obtain ⟨hm, hdec⟩ := h
  refine ⟨?_, ?_⟩
  · simp only [writeMoveFlagment, List.length_append, List.length_cons, List.length_nil]
    omega
  · intro rest fuel
    have h1 : writeMoveFlagment data len source ++ rest
        = data ++ ([(len ||| MOVE_FLAG) % 256, (len ||| MOVE_FLAG) / 256, source % 256,
            source / 256] ++ rest) := by
      simp [writeMoveFlagment, List.append_assoc]
    have h2 : fuel + (m + 1) = (fuel + 1) + m := by omega
    rw [h1, h2, hdec, applyLoop_move image page fuel len source off rest hlen hoff hsrc]

/-- A sequence of whole instructions, given to `applyPageRedo` as the record, yields the page
it decodes to. -/
theorem decodes_applyPageRedo {image page0 page : Page} {data : List Nat} {m off : Nat}
    (h : Decodes image data page0 m page off) :
    applyPageRedo page0 image data = .ok page := by
  obtain ⟨hm, hdec⟩ := h
  unfold applyPageRedo
  have h1 := hdec [] (data.length - m)
  rw [List.append_nil, Nat.sub_add_cancel hm] at h1
  rw [h1]
  cases (data.length - m) <;> rfl

theorem asOffsetNumber_eq (x : Int) (n : Nat) (h : x = (n : Int)) (hn : n < 65536) :
    asOffsetNumber x = n := by
  rw [h]
  exact asOffsetNumber_of_lt n hn

/-- The statement `CHECK_SET` keeps the data decodable: if the run from `matchStart` to `i`
equals the bytes of `P` from `s0` on, which is where the `MOVE` it may write points, then
after it the data decodes to a page that agrees with `W` below the new `notMatch`. -/
theorem CHECK_SET_decodes (W P page0 : Page) (region : Region) (i : Nat) (st : EncState)
    (m : Nat) (pg : Page) (hi : i ≤ BLCKSZ)
    (hdec : Decodes P st.data page0 m pg st.notMatch)
    (hpg : ∀ k, k < st.notMatch → pg k = W k)
    (h1 : st.notMatch ≤ st.matchStart) (h2 : st.matchStart ≤ i)
    (s0 : Nat) (hs0 : region.srcOffset + st.regionOffset = s0 + (i - st.matchStart))
    (hbound : s0 + (i - st.matchStart) ≤ BLCKSZ)
    (hrun : ∀ k, st.matchStart ≤ k → k < i → W k = P (s0 + (k - st.matchStart))) :
    ∃ (m1 : Nat) (pg1 : Page),
      Decodes P (CHECK_SET W region i st).data page0 m1 pg1 (CHECK_SET W region i st).notMatch ∧
      (∀ k, k < (CHECK_SET W region i st).notMatch → pg1 k = W k) ∧
      ((CHECK_SET W region i st).notMatch = st.notMatch ∨
        (CHECK_SET W region i st).notMatch = i) := by
  have hB : BLCKSZ = 8192 := rfl
  unfold CHECK_SET
  by_cases hcond : (i : Int) - (st.matchStart : Int) > (MATCH_THRESHOLD : Int)
  · rw [if_pos hcond]
    have hlenC : asOffsetNumber ((st.matchStart : Int) - (st.notMatch : Int))
        = st.matchStart - st.notMatch :=
      asOffsetNumber_eq _ _ (by omega) (by omega)
    have hlenM : asOffsetNumber ((i : Int) - (st.matchStart : Int)) = i - st.matchStart :=
      asOffsetNumber_eq _ _ (by omega) (by omega)
    have hsrcM : asOffsetNumber ((region.srcOffset : Int) + (st.regionOffset : Int)
        - ((i : Int) - (st.matchStart : Int))) = s0 :=
      asOffsetNumber_eq _ _ (by omega) (by omega)
    simp only [hlenC, hlenM, hsrcM]
    -- the pending unmatched bytes
    obtain ⟨m0, pg0, hdec0, hpg0⟩ : ∃ (m0 : Nat) (pg0 : Page),
        Decodes P
          (if st.notMatch < st.matchStart then
            writeCopyFlagment st.data (st.matchStart - st.notMatch) W st.notMatch
          else st.data) page0 m0 pg0 st.matchStart ∧
        (∀ k, k < st.matchStart → pg0 k = W k) := by
      by_cases hlt : st.notMatch < st.matchStart
      · rw [if_pos hlt]
        have hd := decodes_copy hdec W (st.matchStart - st.notMatch) st.notMatch
          (by omega) (by omega)
        have hend : st.notMatch + (st.matchStart - st.notMatch) = st.matchStart := by omega
        rw [hend] at hd
        refine ⟨_, _, hd, ?_⟩
        intro k hk
        unfold memcpy
        by_cases hin : st.notMatch ≤ k ∧ k < st.notMatch + (st.matchStart - st.notMatch)
        · rw [if_pos hin]
          congr 1
          omega
        · rw [if_neg hin]
          exact hpg k (by omega)
      · rw [if_neg hlt]
        have heq : st.notMatch = st.matchStart := by omega
        refine ⟨m, pg, ?_, ?_⟩
        · rw [← heq]
          exact hdec
        · intro k hk
          exact hpg k (by omega)
    have hd := decodes_move hdec0 (i - st.matchStart) s0 (by omega) (by omega) hbound
    have hend : st.matchStart + (i - st.matchStart) = i := by omega
    rw [hend] at hd
    refine ⟨_, _, hd, ?_, Or.inr trivial⟩
    intro k hk
    unfold memcpy
    by_cases hin : st.matchStart ≤ k ∧ k < st.matchStart + (i - st.matchStart)
    · rw [if_pos hin]
      exact (hrun k hin.1 hk).symm
    · rw [if_neg hin]
      exact hpg0 k (by omega)
  · rw [if_neg hcond]
    exact ⟨m, pg, hdec, hpg, Or.inl rfl⟩

theorem CHECK_SET_notMatch_le (W : Page) (region : Region) (i : Nat) (st : EncState)
    (h : st.notMatch ≤ i) : (CHECK_SET W region i st).notMatch ≤ i := by
  unfold CHECK_SET
  split
  · exact Nat.le_refl _
  · exact h

/-- First `if` of the loop body, taken: the pending run is flushed against the region that
ends at `i`, and the cursor enters the next region. -/
theorem encInv_boundary (W P page0 : Page) (regions : List Region) (ht : TileValid regions)
    (hsrc : SrcBounded regions) (i : Nat) (hi : i < BLCKSZ) (st : EncState) (r : Region)
    (hr : regions[st.region]? = some r) (hge : st.regionOffset ≥ r.length)
    (hinv : EncInv W P regions page0 i st) :
    EncCmp W P regions page0 i
      { CHECK_SET W r i st with matchStart := i, region := st.region + 1, regionOffset := 0 } := by
  obtain ⟨r0, m, pg, hr0, hpos, hoff, hdec, hpg, h1, h2, h3, hrun⟩ := hinv
  have hrr : r0 = r := by
    rw [hr] at hr0
    exact (Option.some.inj hr0).symm
  subst hrr
  have hB : BLCKSZ = 8192 := rfl
  obtain ⟨hlen, hend, _, _, hnext⟩ := tilesFrom_get regions 0 st.region r0 ht hr
  have hs := hsrc r0 (List.getElem?_mem hr)
  obtain ⟨r1, hr1, hr1d⟩ := hnext (by omega)
  obtain ⟨hlen1, _, _, _, _⟩ := tilesFrom_get regions 0 (st.region + 1) r1 ht hr1
  have hs1 := hsrc r1 (List.getElem?_mem hr1)
  obtain ⟨m1, pg1, hdec1, hpg1, hnm⟩ :=
    CHECK_SET_decodes W P page0 r0 i st m pg (by omega) hdec hpg h1 h2
      (r0.srcOffset + (st.matchStart - r0.dstOffset)) (by omega) (by omega)
      (fun k hk1 hk2 => by
        rw [hrun k hk1 hk2]
        congr 1
        omega)
  refine ⟨r1, m1, pg1, hr1, ?_, ?_, hs1, hdec1, hpg1, ?_, Nat.le_refl _, ?_, ?_⟩
  · show r1.dstOffset + 0 = i
    omega
  · show 0 < r1.length
    omega
  · show (CHECK_SET W r0 i st).notMatch ≤ i
    exact CHECK_SET_notMatch_le W r0 i st (by omega)
  · show r1.dstOffset ≤ i
    omega
  · intro k hk1 hk2
    have hk1i : i ≤ k := hk1
    omega

/-- First `if` of the loop body, not taken. -/
theorem encInv_inside (W P page0 : Page) (regions : List Region)
    (hsrc : SrcBounded regions) (i : Nat) (st : EncState) (r : Region)
    (hr : regions[st.region]? = some r) (hlt : ¬ st.regionOffset ≥ r.length)
    (hinv : EncInv W P regions page0 i st) :
    EncCmp W P regions page0 i st := by
  obtain ⟨r0, m, pg, hr0, hpos, hoff, hdec, hpg, h1, h2, h3, hrun⟩ := hinv
  have hrr : r0 = r := by
    rw [hr] at hr0
    exact (Option.some.inj hr0).symm
  subst hrr
  exact ⟨r0, m, pg, hr, hpos, by omega, hsrc r0 (List.getElem?_mem hr), hdec, hpg, h1, h2, h3,
    hrun⟩

/-- Second `if` of the loop body, taken (byte `i` differs), followed by `regionOffset++`. -/
theorem encCmp_mismatch (W P page0 : Page) (regions : List Region) (i : Nat) (hi : i < BLCKSZ)
    (st : EncState) (r : Region) (hr : regions[st.region]? = some r)
    (hinv : EncCmp W P regions page0 i st) :
    EncInv W P regions page0 (i + 1)
      { data := (CHECK_SET W r i st).data
        region := (CHECK_SET W r i st).region
        regionOffset := asOffsetNumber (((CHECK_SET W r i st).regionOffset : Int) + 1)
        notMatch := (CHECK_SET W r i st).notMatch
        matchStart := asOffsetNumber ((i : Int) + 1) } := by
  obtain ⟨r0, m, pg, hr0, hpos, hoff, hs, hdec, hpg, h1, h2, h3, hrun⟩ := hinv
  have hrr : r0 = r := by
    rw [hr] at hr0
    exact (Option.some.inj hr0).symm
  subst hrr
  have hB : BLCKSZ = 8192 := rfl
  obtain ⟨m1, pg1, hdec1, hpg1, hnm⟩ :=
    CHECK_SET_decodes W P page0 r0 i st m pg (by omega) hdec hpg h1 h2
      (r0.srcOffset + (st.matchStart - r0.dstOffset)) (by omega) (by omega)
      (fun k hk1 hk2 => by
        rw [hrun k hk1 hk2]
        congr 1
        omega)
  have hro : asOffsetNumber (((CHECK_SET W r0 i st).regionOffset : Int) + 1)
      = st.regionOffset + 1 := by
    rw [CHECK_SET_regionOffset]
    exact asOffsetNumber_eq _ _ (by omega) (by omega)
  have hms : asOffsetNumber ((i : Int) + 1) = i + 1 :=
    asOffsetNumber_eq _ _ (by omega) (by omega)
  have hnmle := CHECK_SET_notMatch_le W r0 i st (by omega)
  refine ⟨r0, m1, pg1, ?_, ?_, ?_, hdec1, hpg1, ?_, ?_, ?_, ?_⟩
  · show regions[(CHECK_SET W r0 i st).region]? = some r0
    rw [CHECK_SET_region]
    exact hr
  · show r0.dstOffset + asOffsetNumber (((CHECK_SET W r0 i st).regionOffset : Int) + 1) = i + 1
    rw [hro]
    omega
  · show asOffsetNumber (((CHECK_SET W r0 i st).regionOffset : Int) + 1) ≤ r0.length
    rw [hro]
    omega
  · show (CHECK_SET W r0 i st).notMatch ≤ asOffsetNumber ((i : Int) + 1)
    rw [hms]
    omega
  · show asOffsetNumber ((i : Int) + 1) ≤ i + 1
    rw [hms]
  · show r0.dstOffset ≤ asOffsetNumber ((i : Int) + 1)
    rw [hms]
    omega
  · intro k hk1 hk2
    have hk : asOffsetNumber ((i : Int) + 1) ≤ k := hk1
    rw [hms] at hk
    omega

/-- Second `if` of the loop body, not taken (byte `i` matches), followed by
`regionOffset++`. -/
theorem encCmp_match (W P page0 : Page) (regions : List Region) (i : Nat) (hi : i < BLCKSZ)
    (st : EncState) (r : Region) (hr : regions[st.region]? = some r)
    (hinv : EncCmp W P regions page0 i st)
    (heq : ¬ W i ≠ P (r.srcOffset + st.regionOffset)) :
    EncInv W P regions page0 (i + 1)
      { st with regionOffset := asOffsetNumber ((st.regionOffset : Int) + 1) } := by
  obtain ⟨r0, m, pg, hr0, hpos, hoff, hs, hdec, hpg, h1, h2, h3, hrun⟩ := hinv
  have hrr : r0 = r := by
    rw [hr] at hr0
    exact (Option.some.inj hr0).symm
  subst hrr
  have hB : BLCKSZ = 8192 := rfl
  have hro : asOffsetNumber ((st.regionOffset : Int) + 1) = st.regionOffset + 1 :=
    asOffsetNumber_eq _ _ (by omega) (by omega)
  have hWi : W i = P (r0.srcOffset + st.regionOffset) := not_not.mp heq
  refine ⟨r0, m, pg, hr, ?_, ?_, hdec, hpg, h1, ?_, h3, ?_⟩
  · show r0.dstOffset + asOffsetNumber ((st.regionOffset : Int) + 1) = i + 1
    rw [hro]
    omega
  · show asOffsetNumber ((st.regionOffset : Int) + 1) ≤ r0.length
    rw [hro]
    omega
  · show st.matchStart ≤ i + 1
    omega
  · intro k hk1 hk2
    have hk1s : st.matchStart ≤ k := hk1
    by_cases hki : k = i
    · subst hki
      rw [hWi]
      congr 1
      omega
    · exact hrun k hk1s (by omega)

/-- One iteration of the encoder loop keeps the invariant. -/
theorem encodeStep_inv (W P page0 : Page) (regions : List Region) (ht : TileValid regions)
    (hsrc : SrcBounded regions) (i : Nat) (hi : i < BLCKSZ) (st : EncState)
    (hinv : EncInv W P regions page0 i st) :
    ∃ st1, encodeStep W P regions i st = .ok st1 ∧ EncInv W P regions page0 (i + 1) st1 := by
  have hB : BLCKSZ = 8192 := rfl
  obtain ⟨r, hr⟩ : ∃ r, regions[st.region]? = some r := by
    obtain ⟨r, _, _, hr, _⟩ := hinv
    exact ⟨r, hr⟩
  unfold encodeStep
  simp only [bind, Except.bind, fetch_of_get hr, pure, Except.pure]
  by_cases hge : st.regionOffset ≥ r.length
  · have hcmp := encInv_boundary W P page0 regions ht hsrc i hi st r hr hge hinv
    obtain ⟨r1, hr1, hoff1, hs1⟩ : ∃ r1, regions[st.region + 1]? = some r1 ∧
        0 < r1.length ∧ r1.srcOffset + r1.length ≤ BLCKSZ := by
      obtain ⟨r1, _, _, hr1, _, hoff1, hs1, _⟩ := hcmp
      exact ⟨r1, hr1, hoff1, hs1⟩
    simp only [hge, if_true, fetch_of_get hr1]
    have hnot : ¬ (r1.srcOffset + 0 ≥ BLCKSZ) := by omega
    simp only [hnot, if_false, throw, throwThe, MonadExceptOf.throw]
    split
    · exact ⟨_, rfl, encCmp_mismatch W P page0 regions i hi _ r1 hr1 hcmp⟩
    · rename_i hmatch
      exact ⟨_, rfl, encCmp_match W P page0 regions i hi _ r1 hr1 hcmp hmatch⟩
  · have hcmp := encInv_inside W P page0 regions hsrc i st r hr hge hinv
    have hs : r.srcOffset + r.length ≤ BLCKSZ := hsrc r (List.getElem?_mem hr)
    simp only [hge, if_false, fetch_of_get hr]
    have hnot : ¬ (r.srcOffset + st.regionOffset ≥ BLCKSZ) := by omega
    simp only [hnot, if_false, throw, throwThe, MonadExceptOf.throw]
    split
    · exact ⟨_, rfl, encCmp_mismatch W P page0 regions i hi st r hr hcmp⟩
    · rename_i hmatch
      exact ⟨_, rfl, encCmp_match W P page0 regions i hi st r hr hcmp hmatch⟩

/-- The encoder loop keeps the invariant. -/
theorem encodeLoop_inv (W P page0 : Page) (regions : List Region) (ht : TileValid regions)
    (hsrc : SrcBounded regions) :
    ∀ (n i : Nat) (st : EncState), i + n ≤ BLCKSZ → EncInv W P regions page0 i st →
      ∃ st1, encodeLoop W P regions n i st = .ok st1 ∧ EncInv W P regions page0 (i + n) st1 := by
  intro n
  induction n with
  | zero =>
    intro i st _ hst
    exact ⟨st, rfl, hst⟩
  | succ n ih =>
    intro i st hin hst
    obtain ⟨st1, hstep, hst1⟩ := encodeStep_inv W P page0 regions ht hsrc i (by omega) st hst
    obtain ⟨st2, hloop, hst2⟩ := ih (i + 1) st1 (by omega) hst1
    refine ⟨st2, ?_, ?_⟩
    · simp only [encodeLoop, bind, Except.bind, hstep]
      exact hloop
    · have : i + (n + 1) = i + 1 + n := by omega
      rw [this]
      exact hst2

/-- Round trip on a well-formed region list: for every page `W` of the buffer (the working
image), every image `P` held by the slot (the pre-image) and every region list that tiles the
page and maps into the pre-image, `writeDifferentialData` returns a record, and
`applyPageRedo` run with that record on any page, with `P` as the pre-image copy, returns a
page equal to `W` on all of `[0, BLCKSZ)`. -/
theorem round_trip_of_well_formed (W P page0 : Page) (regions : List Region)
    (ht : TileValid regions) (hsrc : SrcBounded regions) :
    ∃ (data : List Nat) (page : Page),
      encodePage W P regions [] = .ok data ∧
      applyPageRedo page0 P data = .ok page ∧
      ∀ k, k < BLCKSZ → page k = W k := by
  have hB : BLCKSZ = 8192 := rfl
  obtain ⟨r0, hr0, hr0d⟩ := tilesFrom_ne_nil regions ht
  have hinit : EncInv W P regions page0 0
      { data := [], region := 0, regionOffset := 0, notMatch := 0, matchStart := 0 } :=
    ⟨r0, 0, page0, hr0, by simpa using hr0d, Nat.zero_le _, decodes_nil P page0,
      fun k hk => absurd hk (Nat.not_lt_zero k), Nat.le_refl _, Nat.le_refl _,
      by simpa using hr0d, fun k _ hk => absurd hk (Nat.not_lt_zero k)⟩
  obtain ⟨st, hloop, r, m, pg, hr, hpos, hoff, hdec, hpg, h1, h2, h3, hrun⟩ :=
    encodeLoop_inv W P page0 regions ht hsrc BLCKSZ 0 _ (by omega) hinit
  have hpos1 : r.dstOffset + st.regionOffset = BLCKSZ := by omega
  have hs := hsrc r (List.getElem?_mem hr)
  have h2b : st.matchStart ≤ BLCKSZ := by omega
  obtain ⟨m1, pg1, hdec1, hpg1, hnm⟩ :=
    CHECK_SET_decodes W P page0 r BLCKSZ st m pg (Nat.le_refl _) hdec hpg h1 h2b
      (r.srcOffset + (st.matchStart - r.dstOffset)) (by omega) (by omega)
      (fun k hk1 hk2 => by
        rw [hrun k hk1 (by omega)]
        congr 1
        omega)
  have hle := CHECK_SET_notMatch_le W r BLCKSZ st (by omega)
  unfold encodePage
  simp only [bind, Except.bind, hloop, fetch_of_get hr, pure, Except.pure]
  by_cases hlt : (CHECK_SET W r BLCKSZ st).notMatch < BLCKSZ
  · rw [if_pos hlt]
    have hlen : asOffsetNumber ((BLCKSZ : Int) - ((CHECK_SET W r BLCKSZ st).notMatch : Int))
        = BLCKSZ - (CHECK_SET W r BLCKSZ st).notMatch :=
      asOffsetNumber_eq _ _ (by omega) (by omega)
    rw [hlen]
    have hd := decodes_copy hdec1 W (BLCKSZ - (CHECK_SET W r BLCKSZ st).notMatch)
      (CHECK_SET W r BLCKSZ st).notMatch (by omega) (by omega)
    refine ⟨_, _, rfl, decodes_applyPageRedo hd, ?_⟩
    intro k hk
    unfold memcpy
    by_cases hin : (CHECK_SET W r BLCKSZ st).notMatch ≤ k ∧
        k < (CHECK_SET W r BLCKSZ st).notMatch + (BLCKSZ - (CHECK_SET W r BLCKSZ st).notMatch)
    · rw [if_pos hin]
      congr 1
      omega
    · rw [if_neg hin]
      exact hpg1 k (by omega)
  · rw [if_neg hlt]
    refine ⟨_, _, rfl, decodes_applyPageRedo hdec1, ?_⟩
    intro k hk
    exact hpg1 k (by omega)

/-! ## `GenericXLogFinish`, unlogged branch -/

theorem bufferIsInvalid_false {b : Buffer} (h : b ≠ InvalidBuffer) : BufferIsInvalid b = false := by
  simp [BufferIsInvalid, h]

theorem bufferIsInvalid_true {b : Buffer} (h : b = InvalidBuffer) : BufferIsInvalid b = true := by
  simp [BufferIsInvalid, h]

/-- What the body of the unlogged loop leaves alone. -/
theorem finishUnloggedSlot_frame (i : Nat) (s : System) :
    (finishUnloggedSlot i s).pages = s.pages ∧
    (finishUnloggedSlot i s).genericXlogStatus = s.genericXlogStatus ∧
    (finishUnloggedSlot i s).world.wal = s.world.wal ∧
    (finishUnloggedSlot i s).world.pending = s.world.pending ∧
    (finishUnloggedSlot i s).world.critSectionCount = s.world.critSectionCount ∧
    (∀ b, ((s.pages i).buffer = InvalidBuffer ∨ (s.pages i).buffer ≠ b) →
      (finishUnloggedSlot i s).world.page b = s.world.page b ∧
      (finishUnloggedSlot i s).world.dirty b = s.world.dirty b) := by
  unfold finishUnloggedSlot
  by_cases hv : (s.pages i).buffer = InvalidBuffer
  · simp [bufferIsInvalid_true hv]
  · rw [bufferIsInvalid_false hv, if_neg Bool.false_ne_true]
    refine ⟨rfl, rfl, rfl, rfl, rfl, ?_⟩
    intro b hb
    have hne : b ≠ (s.pages i).buffer := by
      rcases hb with h | h
      · exact absurd h hv
      · exact fun hc => h hc.symm
    simp [MarkBufferDirty, setBufferPage, hne]

/-- What the body of the unlogged loop does to the buffer of a registered slot. -/
theorem finishUnloggedSlot_effect (i : Nat) (s : System)
    (hv : (s.pages i).buffer ≠ InvalidBuffer) :
    (∀ k, k < BLCKSZ →
      (finishUnloggedSlot i s).world.page (s.pages i).buffer k = (s.pages i).image k) ∧
    (finishUnloggedSlot i s).world.dirty (s.pages i).buffer = true := by
  unfold finishUnloggedSlot
  rw [bufferIsInvalid_false hv, if_neg Bool.false_ne_true]
  refine ⟨?_, ?_⟩
  · intro k hk
    simp [MarkBufferDirty, setBufferPage, memcpy, hk]
  · simp [MarkBufferDirty]

/-- The unlogged loop over the slots `i, ..., i + n - 1`. -/
theorem forSlots_unlogged (n : Nat) :
    ∀ (i : Nat) (s : System),
      (forSlots finishUnloggedSlot n i s).pages = s.pages ∧
      (forSlots finishUnloggedSlot n i s).genericXlogStatus = s.genericXlogStatus ∧
      (forSlots finishUnloggedSlot n i s).world.wal = s.world.wal ∧
      (forSlots finishUnloggedSlot n i s).world.pending = s.world.pending ∧
      (forSlots finishUnloggedSlot n i s).world.critSectionCount = s.world.critSectionCount ∧
      (∀ b, (∀ j, i ≤ j → j < i + n → (s.pages j).buffer ≠ InvalidBuffer →
          (s.pages j).buffer ≠ b) →
        (forSlots finishUnloggedSlot n i s).world.page b = s.world.page b ∧
        (forSlots finishUnloggedSlot n i s).world.dirty b = s.world.dirty b) ∧
      (∀ j, i ≤ j → j < i + n → (s.pages j).buffer ≠ InvalidBuffer →
        (∀ m, j < m → m < i + n → (s.pages m).buffer ≠ InvalidBuffer →
          (s.pages m).buffer ≠ (s.pages j).buffer) →
        (∀ k, k < BLCKSZ →
          (forSlots finishUnloggedSlot n i s).world.page (s.pages j).buffer k
            = (s.pages j).image k) ∧
        (forSlots finishUnloggedSlot n i s).world.dirty (s.pages j).buffer = true) := by
  induction n with
  | zero =>
    intro i s
    refine ⟨rfl, rfl, rfl, rfl, rfl, fun _ _ => ⟨rfl, rfl⟩, ?_⟩
    intro j h1 h2
    omega
  | succ n ih =>
    intro i s
    obtain ⟨f1, f2, f3, f4, f5, f6⟩ := finishUnloggedSlot_frame i s
    obtain ⟨g1, g2, g3, g4, g5, g6, g7⟩ := ih (i + 1) (finishUnloggedSlot i s)
    have hunf : forSlots finishUnloggedSlot (n + 1) i s
        = forSlots finishUnloggedSlot n (i + 1) (finishUnloggedSlot i s) := rfl
    rw [hunf]
    rw [f1] at g1 g6 g7
    refine ⟨g1, g2.trans f2, g3.trans f3, g4.trans f4, g5.trans f5, ?_, ?_⟩
    · intro b hb
      have h1 := g6 b (fun j hj1 hj2 => hb j (by omega) (by omega))
      have h2 := f6 b (by
        by_cases hv : (s.pages i).buffer = InvalidBuffer
        · exact Or.inl hv
        · exact Or.inr (hb i (le_refl _) (by omega) hv))
      exact ⟨h1.1.trans h2.1, h1.2.trans h2.2⟩
    · intro j hj1 hj2 hv hlater
      by_cases hji : j = i
      · subst hji
        have h1 := g6 (s.pages j).buffer (fun m hm1 hm2 hmv => hlater m (by omega) (by omega) hmv)
        have h2 := finishUnloggedSlot_effect j s hv
        refine ⟨fun k hk => ?_, ?_⟩
        · rw [h1.1]
          exact h2.1 k hk
        · rw [h1.2]
          exact h2.2
      · exact g7 j (by omega) (by omega) hv
          (fun m hm1 hm2 hmv => hlater m hm1 (by omega) hmv)

/-- C5: in unlogged mode `GenericXLogFinish` makes no WAL call (the log and the record under
construction are untouched), makes the page of every registered buffer equal, byte for byte,
to the working image of its slot, marks that buffer dirty, returns `InvalidXLogRecPtr`, and
sets the status to `GXLOG_NOT_STARTED`; the page and the dirty flag of every buffer that no
slot holds are untouched. -/
theorem finish_unlogged {n : Nat} {s : System} (h : Reach n s)
    (hs : s.genericXlogStatus = .GXLOG_UNLOGGED) :
    (GenericXLogFinish s).1 = .ok InvalidXLogRecPtr ∧
    (GenericXLogFinish s).2.genericXlogStatus = .GXLOG_NOT_STARTED ∧
    (GenericXLogFinish s).2.world.wal = s.world.wal ∧
    (GenericXLogFinish s).2.world.pending = s.world.pending ∧
    (∀ i, Registered s i →
      (∀ k, k < BLCKSZ →
        (GenericXLogFinish s).2.world.page (s.pages i).buffer k = (s.pages i).image k) ∧
      (GenericXLogFinish s).2.world.dirty (s.pages i).buffer = true) ∧
    (∀ b, (∀ i, Registered s i → (s.pages i).buffer ≠ b) →
      (GenericXLogFinish s).2.world.page b = s.world.page b ∧
      (GenericXLogFinish s).2.world.dirty b = s.world.dirty b) := by
  have hok := reach_slotsOK h
  clear h
  obtain ⟨st, pg, w⟩ := s
  dsimp only at hs
  subst hs
  obtain ⟨g1, g2, g3, g4, g5, g6, g7⟩ :=
    forSlots_unlogged MAX_GENERIC_XLOG_PAGES 0 ⟨.GXLOG_UNLOGGED, pg, START_CRIT_SECTION w⟩
  have hvalid := hok.valid
  have hdistinct := hok.distinct
  dsimp only at hvalid hdistinct g1 g2 g3 g4 g5 g6 g7
  refine ⟨rfl, rfl, g3, g4, ?_, ?_⟩
  · intro i hi
    obtain ⟨hi1, hi2⟩ := hi
    dsimp only at hi2
    have hin : i < n := (hvalid i hi1).2 hi2
    have hmax : 0 + MAX_GENERIC_XLOG_PAGES = MAX_GENERIC_XLOG_PAGES := Nat.zero_add _
    exact g7 i (Nat.zero_le _) (by omega) hi2 (fun m hm1 hm2 hmv hc =>
      absurd (hdistinct m i ((hvalid m (by omega)).2 hmv) hin hc) (by omega))
  · intro b hb
    exact g6 b (fun j _ hj2 hjv => hb j ⟨by omega, hjv⟩)

/-- Instance of `finish_unlogged` after one registration on a relation without WAL. -/
theorem finish_unlogged_witness :
    Reach 1 registeredUnlogged ∧
    registeredUnlogged.genericXlogStatus = .GXLOG_UNLOGGED ∧
    (GenericXLogFinish registeredUnlogged).1 = .ok InvalidXLogRecPtr ∧
    (GenericXLogFinish registeredUnlogged).2.genericXlogStatus = .GXLOG_NOT_STARTED ∧
    (GenericXLogFinish registeredUnlogged).2.world.wal = [] :=
  have h := finish_unlogged reach_registeredUnlogged rfl
  ⟨reach_registeredUnlogged, rfl, h.1, h.2.1, h.2.2.1⟩

/-! ## `GenericXLogFinish`, logged branch -/

/-- The body of the first logged loop returns on a slot that can be encoded, swaps the image of
the slot into the page of its buffer, and keeps the rest. -/
theorem finishLoggedSlot_spec (i : Nat) (s : System) (hwf : SlotEncodable s i) :
    ∃ s1, finishLoggedSlot i s = .ok s1 ∧ LoggedStep i s s1 := by
  unfold finishLoggedSlot
  by_cases hv : (s.pages i).buffer = InvalidBuffer
  · rw [bufferIsInvalid_true hv, if_pos rfl]
    exact ⟨s, rfl, ⟨rfl, fun _ => rfl, fun _ _ => rfl, rfl, rfl, fun _ _ => rfl,
      fun h => absurd hv h⟩⟩
  · rw [bufferIsInvalid_false hv, if_neg Bool.false_ne_true]
    simp only [BufferGetPage, bufferIsInvalid_false hv, Bool.false_eq_true, if_false, bind,
      Except.bind]
    by_cases hfull : (s.pages i).fullImage = true
    · rw [if_pos hfull]
      refine ⟨_, rfl, ⟨rfl, ?_, ?_, rfl, rfl, ?_, ?_⟩⟩
      · intro j
        simp only [setPage]
        split
        · rename_i hji
          rw [hji]
        · rfl
      · intro j hj
        simp only [setPage, if_neg hj]
      · intro b hb
        have hne : b ≠ (s.pages i).buffer := by
          rcases hb with hb | hb
          · exact absurd hb hv
          · exact fun hc => hb hc.symm
        simp [XLogRegisterBuffer, setBufferPage, hne]
      · intro _ k hk
        simp [XLogRegisterBuffer, setBufferPage, memcpy, hk]
    · rw [if_neg hfull]
      have hfull1 : (s.pages i).fullImage = false := by
        cases hf : (s.pages i).fullImage
        · rfl
        · exact absurd hf hfull
      have hdef := hwf hv hfull1
      obtain ⟨d, hd⟩ := writeDifferentialData_total
        (XLogRegisterBuffer
          { s.world with
            page := setBufferPage s.world.page (s.pages i).buffer
              (memcpy (s.world.page (s.pages i).buffer) 0
                (memcpy (fun _ => 0) 0 (s.pages i).image 0 BLCKSZ) 0 BLCKSZ) }
          i (s.pages i).buffer false)
        { s.pages i with
          image := memcpy (s.pages i).image 0 (s.world.page (s.pages i).buffer) 0 BLCKSZ }
        hv hdef
      rw [hd]
      refine ⟨_, rfl, ⟨rfl, ?_, ?_, rfl, rfl, ?_, ?_⟩⟩
      · intro j
        simp only [setPage]
        split
        · rename_i hji
          rw [hji]
        · rfl
      · intro j hj
        simp only [setPage, if_neg hj]
      · intro b hb
        have hne : b ≠ (s.pages i).buffer := by
          rcases hb with hb | hb
          · exact absurd hb hv
          · exact fun hc => hb hc.symm
        simp [XLogRegisterBufData, XLogRegisterBuffer, setBufferPage, hne]
      · intro _ k hk
        simp [XLogRegisterBufData, XLogRegisterBuffer, setBufferPage, memcpy, hk]

/-- The first logged loop over the slots `i, ..., i + n - 1` returns when these slots can be
encoded; it puts the working image of each registered slot into the page of its buffer. -/
theorem forSlotsM_logged (n : Nat) :
    ∀ (i : Nat) (s : System), (∀ j, i ≤ j → j < i + n → SlotEncodable s j) →
      ∃ s1, forSlotsM finishLoggedSlot n i s = .ok s1 ∧
        s1.genericXlogStatus = s.genericXlogStatus ∧
        (∀ j, (s1.pages j).buffer = (s.pages j).buffer) ∧
        s1.world.wal = s.world.wal ∧
        s1.world.dirty = s.world.dirty ∧
        (∀ b, (∀ j, i ≤ j → j < i + n → (s.pages j).buffer ≠ InvalidBuffer →
            (s.pages j).buffer ≠ b) → s1.world.page b = s.world.page b) ∧
        (∀ j, i ≤ j → j < i + n → (s.pages j).buffer ≠ InvalidBuffer →
          (∀ m, j < m → m < i + n → (s.pages m).buffer ≠ InvalidBuffer →
            (s.pages m).buffer ≠ (s.pages j).buffer) →
          ∀ k, k < BLCKSZ → s1.world.page (s.pages j).buffer k = (s.pages j).image k) := by
  induction n with
  | zero =>
    intro i s _
    refine ⟨s, rfl, rfl, fun _ => rfl, rfl, rfl, fun _ _ => rfl, ?_⟩
    intro j h1 h2
    omega
  | succ n ih =>
    intro i s hwf
    obtain ⟨s1, hs1, st⟩ := finishLoggedSlot_spec i s (hwf i (le_refl _) (by omega))
    have hwf1 : ∀ j, i + 1 ≤ j → j < i + 1 + n → SlotEncodable s1 j := by
      intro j hj1 hj2
      have := hwf j (by omega) (by omega)
      unfold SlotEncodable at this ⊢
      rw [st.other j (by omega)]
      exact this
    obtain ⟨s2, hs2, g1, g2, g3, g4, g5, g6⟩ := ih (i + 1) s1 hwf1
    refine ⟨s2, ?_, g1.trans st.status, fun j => (g2 j).trans (st.buffer j),
      g3.trans st.wal, g4.trans st.dirty, ?_, ?_⟩
    · simp only [forSlotsM, hs1]
      exact hs2
    · intro b hb
      have h1 := g5 b (fun j hj1 hj2 hjv => by
        rw [st.buffer j] at hjv ⊢
        exact hb j (by omega) (by omega) hjv)
      have h2 := st.frame b (by
        by_cases hv : (s.pages i).buffer = InvalidBuffer
        · exact Or.inl hv
        · exact Or.inr (hb i (le_refl _) (by omega) hv))
      exact h1.trans h2
    · intro j hj1 hj2 hv hlater k hk
      by_cases hji : j = i
      · subst hji
        have h1 := g5 (s.pages j).buffer (fun m hm1 hm2 hmv => by
          rw [st.buffer m] at hmv ⊢
          exact hlater m (by omega) (by omega) hmv)
        rw [h1]
        exact st.effect hv k hk
      · have hoth := st.other j hji
        have := g6 j (by omega) (by omega) (by rw [hoth]; exact hv)
          (fun m hm1 hm2 hmv => by
            rw [st.buffer m] at hmv ⊢
            rw [hoth]
            exact hlater m hm1 (by omega) hmv) k hk
        rw [hoth] at this
        exact this

/-- What the body of the second logged loop leaves alone. -/
theorem finishStampSlot_frame (lsn : XLogRecPtr) (i : Nat) (s : System) :
    (finishStampSlot lsn i s).pages = s.pages ∧
    (finishStampSlot lsn i s).genericXlogStatus = s.genericXlogStatus ∧
    (finishStampSlot lsn i s).world.wal = s.world.wal ∧
    (∀ b, ((s.pages i).buffer = InvalidBuffer ∨ (s.pages i).buffer ≠ b) →
      (finishStampSlot lsn i s).world.page b = s.world.page b ∧
      (finishStampSlot lsn i s).world.dirty b = s.world.dirty b) := by
  unfold finishStampSlot
  by_cases hv : (s.pages i).buffer = InvalidBuffer
  · rw [bufferIsInvalid_true hv, if_pos rfl]
    exact ⟨rfl, rfl, rfl, fun _ _ => ⟨rfl, rfl⟩⟩
  · rw [bufferIsInvalid_false hv, if_neg Bool.false_ne_true]
    refine ⟨rfl, rfl, rfl, ?_⟩
    intro b hb
    have hne : b ≠ (s.pages i).buffer := by
      rcases hb with hb | hb
      · exact absurd hb hv
      · exact fun hc => hb hc.symm
    simp [MarkBufferDirty, setBufferPage, hne]

/-- What the body of the second logged loop does to the buffer of a registered slot. -/
theorem finishStampSlot_effect (lsn : XLogRecPtr) (i : Nat) (s : System)
    (hv : (s.pages i).buffer ≠ InvalidBuffer) :
    (finishStampSlot lsn i s).world.page (s.pages i).buffer
      = PageSetLSN (s.world.page (s.pages i).buffer) lsn ∧
    (finishStampSlot lsn i s).world.dirty (s.pages i).buffer = true := by
  unfold finishStampSlot
  rw [bufferIsInvalid_false hv, if_neg Bool.false_ne_true]
  simp [MarkBufferDirty, setBufferPage]

/-- The second logged loop over the slots `i, ..., i + n - 1`: every registered slot whose
buffer no other slot of the range holds gets its page stamped and its buffer marked dirty. -/
theorem forSlots_stamp (lsn : XLogRecPtr) (n : Nat) :
    ∀ (i : Nat) (s : System),
      (forSlots (finishStampSlot lsn) n i s).pages = s.pages ∧
      (forSlots (finishStampSlot lsn) n i s).genericXlogStatus = s.genericXlogStatus ∧
      (forSlots (finishStampSlot lsn) n i s).world.wal = s.world.wal ∧
      (∀ b, (∀ j, i ≤ j → j < i + n → (s.pages j).buffer ≠ InvalidBuffer →
          (s.pages j).buffer ≠ b) →
        (forSlots (finishStampSlot lsn) n i s).world.page b = s.world.page b ∧
        (forSlots (finishStampSlot lsn) n i s).world.dirty b = s.world.dirty b) ∧
      (∀ j, i ≤ j → j < i + n → (s.pages j).buffer ≠ InvalidBuffer →
        (∀ m, i ≤ m → m < i + n → m ≠ j → (s.pages m).buffer ≠ InvalidBuffer →
          (s.pages m).buffer ≠ (s.pages j).buffer) →
        (forSlots (finishStampSlot lsn) n i s).world.page (s.pages j).buffer
          = PageSetLSN (s.world.page (s.pages j).buffer) lsn ∧
        (forSlots (finishStampSlot lsn) n i s).world.dirty (s.pages j).buffer = true) := by
  induction n with
  | zero =>
    intro i s
    refine ⟨rfl, rfl, rfl, fun _ _ => ⟨rfl, rfl⟩, ?_⟩
    intro j h1 h2
    omega
  | succ n ih =>
    intro i s
    obtain ⟨f1, f2, f3, f4⟩ := finishStampSlot_frame lsn i s
    obtain ⟨g1, g2, g3, g4, g5⟩ := ih (i + 1) (finishStampSlot lsn i s)
    have hunf : forSlots (finishStampSlot lsn) (n + 1) i s
        = forSlots (finishStampSlot lsn) n (i + 1) (finishStampSlot lsn i s) := rfl
    rw [hunf]
    rw [f1] at g1 g4 g5
    refine ⟨g1, g2.trans f2, g3.trans f3, ?_, ?_⟩
    · intro b hb
      have h1 := g4 b (fun j hj1 hj2 => hb j (by omega) (by omega))
      have h2 := f4 b (by
        by_cases hv : (s.pages i).buffer = InvalidBuffer
        · exact Or.inl hv
        · exact Or.inr (hb i (le_refl _) (by omega) hv))
      exact ⟨h1.1.trans h2.1, h1.2.trans h2.2⟩
    · intro j hj1 hj2 hv hothers
      by_cases hji : j = i
      · subst hji
        have h1 := g4 (s.pages j).buffer
          (fun m hm1 hm2 hmv => hothers m (by omega) (by omega) (by omega) hmv)
        have h2 := finishStampSlot_effect lsn j s hv
        exact ⟨h1.1.trans h2.1, h1.2.trans h2.2⟩
      · have h1 := g5 j (by omega) (by omega) hv
          (fun m hm1 hm2 hmj hmv => hothers m (by omega) (by omega) hmj hmv)
        have h2 := f4 (s.pages j).buffer (by
          by_cases hvi : (s.pages i).buffer = InvalidBuffer
          · exact Or.inl hvi
          · exact Or.inr (hothers i (le_refl _) (by omega) (fun hc => hji hc.symm) hvi))
        rw [h2.1] at h1
        exact h1

/-- The bytes that `PageSetLSN` writes do not depend on the page, and the others are kept. -/
theorem PageSetLSN_congr (p q : Page) (lsn : XLogRecPtr) (k : Nat) (h : p k = q k) :
    PageSetLSN p lsn k = PageSetLSN q lsn k := by
  unfold PageSetLSN
  split
  · rfl
  · split
    · rfl
    · exact h

/-- The logged branch of `GenericXLogFinish` in terms of its two loops. -/
theorem finish_logged_eq (pg : Nat → PageData) (w : World) (s2 : System)
    (h2 : forSlotsM finishLoggedSlot MAX_GENERIC_XLOG_PAGES 0
      ⟨.GXLOG_LOGGED, pg, XLogBeginInsert (START_CRIT_SECTION w)⟩ = .ok s2) :
    GenericXLogFinish ⟨.GXLOG_LOGGED, pg, w⟩ =
      (.ok (XLogInsert s2.world).1,
       { forSlots (finishStampSlot (XLogInsert s2.world).1) MAX_GENERIC_XLOG_PAGES 0
           { s2 with world := (XLogInsert s2.world).2 } with
         world := END_CRIT_SECTION
           (forSlots (finishStampSlot (XLogInsert s2.world).1) MAX_GENERIC_XLOG_PAGES 0
             { s2 with world := (XLogInsert s2.world).2 }).world
         genericXlogStatus := .GXLOG_NOT_STARTED }) := by
  unfold GenericXLogFinish
  simp only [h2]

/-- In logged mode, in every state of a transaction in which `writeDifferentialData` is
defined on the region list of each registered slot that is not a full image,
`GenericXLogFinish` returns the LSN of the one WAL record it inserts (the new last record of
the log), sets the status to `GXLOG_NOT_STARTED`, and leaves the page of every registered
buffer equal to the working image of its slot as the caller left it, except for the LSN field
(the first eight bytes), which holds the returned LSN; each such buffer is marked dirty. -/
theorem finish_logged {n : Nat} {s : System} (h : Reach n s)
    (hs : s.genericXlogStatus = .GXLOG_LOGGED)
    (hwf : ∀ i, Registered s i → (s.pages i).fullImage = false →
      EncoderDefined (s.pages i).regions) :
    (GenericXLogFinish s).1 = .ok (s.world.wal.length + 1) ∧
    (∃ record, (GenericXLogFinish s).2.world.wal = s.world.wal ++ [record]) ∧
    (GenericXLogFinish s).2.world.wal.length = s.world.wal.length + 1 ∧
    (GenericXLogFinish s).2.genericXlogStatus = .GXLOG_NOT_STARTED ∧
    (∀ i, Registered s i →
      (∀ k, k < BLCKSZ →
        (GenericXLogFinish s).2.world.page (s.pages i).buffer k
          = PageSetLSN (s.pages i).image (s.world.wal.length + 1) k) ∧
      (∀ k, 8 ≤ k → k < BLCKSZ →
        (GenericXLogFinish s).2.world.page (s.pages i).buffer k = (s.pages i).image k) ∧
      (GenericXLogFinish s).2.world.dirty (s.pages i).buffer = true) := by
  have hok := reach_slotsOK h
  clear h
  obtain ⟨st, pg, w⟩ := s
  dsimp only at hs
  subst hs
  have hvalid := hok.valid
  have hdistinct := hok.distinct
  dsimp only at hvalid hdistinct hwf
  have hwf1 : ∀ j, 0 ≤ j → j < 0 + MAX_GENERIC_XLOG_PAGES →
      SlotEncodable ⟨.GXLOG_LOGGED, pg, XLogBeginInsert (START_CRIT_SECTION w)⟩ j := by
    intro j _ hj hv hf
    exact hwf j ⟨by omega, hv⟩ hf
  obtain ⟨s2, hs2, g1, g2, g3, g4, g5, g6⟩ :=
    forSlotsM_logged MAX_GENERIC_XLOG_PAGES 0
      ⟨.GXLOG_LOGGED, pg, XLogBeginInsert (START_CRIT_SECTION w)⟩ hwf1
  dsimp only at g1 g2 g3 g4 g5 g6
  rw [finish_logged_eq pg w s2 hs2]
  have hwal : s2.world.wal = w.wal := g3
  obtain ⟨k1, k2, k3, k4, k5⟩ :=
    forSlots_stamp (XLogInsert s2.world).1 MAX_GENERIC_XLOG_PAGES 0
      { s2 with world := (XLogInsert s2.world).2 }
  dsimp only at k1 k2 k3 k4 k5
  have hlsn : (XLogInsert s2.world).1 = w.wal.length + 1 := by
    simp [XLogInsert, hwal]
  refine ⟨?_, ?_, ?_, rfl, ?_⟩
  · show Except.ok (XLogInsert s2.world).1 = Except.ok (w.wal.length + 1)
    rw [hlsn]
  · refine ⟨s2.world.pending.map (fun b => { b with page := s2.world.page b.buffer }), ?_⟩
    show (forSlots (finishStampSlot (XLogInsert s2.world).1) MAX_GENERIC_XLOG_PAGES 0
      { s2 with world := (XLogInsert s2.world).2 }).world.wal = _
    rw [k3]
    simp [XLogInsert, hwal]
  · show (forSlots (finishStampSlot (XLogInsert s2.world).1) MAX_GENERIC_XLOG_PAGES 0
      { s2 with world := (XLogInsert s2.world).2 }).world.wal.length = _
    rw [k3]
    simp [XLogInsert, hwal]
  · intro i hi
    obtain ⟨hi1, hi2⟩ := hi
    dsimp only at hi2
    have hin : i < n := (hvalid i hi1).2 hi2
    have hi2s : (s2.pages i).buffer ≠ InvalidBuffer := by
      rw [g2 i]
      exact hi2
    have hstamp := k5 i (Nat.zero_le _) (by omega) hi2s (fun m _ hm2 hmi hmv hc => by
      rw [g2 m] at hmv hc
      rw [g2 i] at hc
      exact hmi (hdistinct m i ((hvalid m (by omega)).2 hmv) hin hc))
    rw [g2 i] at hstamp
    have hswap := g6 i (Nat.zero_le _) (by omega) hi2 (fun m hm1 hm2 hmv hc =>
      absurd (hdistinct m i ((hvalid m (by omega)).2 hmv) hin hc) (by omega))
    have hpage : ∀ k, k < BLCKSZ →
        (forSlots (finishStampSlot (XLogInsert s2.world).1) MAX_GENERIC_XLOG_PAGES 0
          { s2 with world := (XLogInsert s2.world).2 }).world.page (pg i).buffer k
        = PageSetLSN (pg i).image (w.wal.length + 1) k := by
      intro k hk
      rw [hstamp.1, hlsn]
      exact PageSetLSN_congr _ _ _ k (hswap k hk)
    refine ⟨hpage, ?_, hstamp.2⟩
    intro k hk8 hk
    refine (hpage k hk).trans ?_
    unfold PageSetLSN
    rw [if_neg (by omega), if_neg (by omega)]

/-- Instance of `finish_logged` after one registration on a relation with WAL. -/
theorem finish_logged_witness :
    Reach 1 registeredSystem ∧
    registeredSystem.genericXlogStatus = .GXLOG_LOGGED ∧
    (GenericXLogFinish registeredSystem).1 = .ok 1 ∧
    (GenericXLogFinish registeredSystem).2.genericXlogStatus = .GXLOG_NOT_STARTED ∧
    (GenericXLogFinish registeredSystem).2.world.wal.length = 1 ∧
    (GenericXLogFinish registeredSystem).2.world.dirty (registeredSystem.pages 0).buffer = true :=
  have hwf : ∀ i, Registered registeredSystem i → (registeredSystem.pages i).fullImage = false →
      EncoderDefined (registeredSystem.pages i).regions := by
    intro i hi _
    obtain ⟨hi1, hi2⟩ := hi
    have h3 : MAX_GENERIC_XLOG_PAGES = 3 := rfl
    rw [h3] at hi1
    interval_cases i
    · refine encoderDefined_of_wellFormed _ rfl ?_
      intro r hr
      have hr1 : r ∈ [identityRegion] := hr
      simp only [List.mem_singleton] at hr1
      subst hr1
      exact Nat.le_of_eq rfl
    · exact absurd rfl hi2
    · exact absurd rfl hi2
  have hreg : Registered registeredSystem 0 :=
    ⟨by decide, fun hc => absurd (hc : (7 : Buffer) = 0) (by decide)⟩
  have h := finish_logged reach_registered rfl hwf
  ⟨reach_registered, rfl, h.1, h.2.2.2.1, h.2.2.1, (h.2.2.2.2 0 hreg).2.2⟩


/-! ## Transaction controller: the claims -/

/-- C6: a successful `GenericXLogRegister(buffer, isNew)` in a started state that has seen `n`
successful registrations since `GenericXLogStart` takes slot `n`, which is the lowest-numbered
free slot; it sets the image of that slot to a copy of the current page of the buffer, the
region list to the single region `(0, 0, BLCKSZ)` with `regionsCount = 1` and `dataLen = 0`,
`fullImage` to `isNew`, and returns the address of the image of that slot.  The other slots,
the status and the buffer manager are left as they were. -/
theorem register_success {n : Nat} {s s1 : System} (h : Reach n s) (buffer : Buffer)
    (isNew : Bool) (p : Int) (hreg : GenericXLogRegister buffer isNew s = (.ok p, s1)) :
    n < MAX_GENERIC_XLOG_PAGES ∧
    (∀ j, j < n → (s.pages j).buffer ≠ InvalidBuffer) ∧
    (s.pages n).buffer = InvalidBuffer ∧
    p = imageAddr n ∧
    (s1.pages n).buffer = buffer ∧
    (∀ k, k < BLCKSZ → (s1.pages n).image k = s.world.page buffer k) ∧
    (s1.pages n).regions = [identityRegion] ∧
    (s1.pages n).regionsCount = 1 ∧
    (s1.pages n).dataLen = 0 ∧
    (s1.pages n).fullImage = isNew ∧
    (∀ j, j ≠ n → s1.pages j = s.pages j) ∧
    s1.genericXlogStatus = s.genericXlogStatus ∧
    s1.world = s.world := by
  have hs := reach_slotsOK h
  rcases register_cases hs buffer isNew with ⟨hb, hn, hnew, heq⟩ | ⟨_, heq⟩ | ⟨_, _, heq⟩ |
    ⟨_, _, heq⟩
  · rw [heq] at hreg
    have hp : imageAddr n = p := by
      have := congrArg Prod.fst hreg
      simpa using this
    have hs1 : s1 = { s with pages := setPage s.pages n (freshSlot buffer isNew s n) } :=
      (congrArg Prod.snd hreg).symm
    subst hs1
    refine ⟨hn, ?_, ?_, hp.symm, ?_, ?_, ?_, ?_, ?_, ?_, ?_, rfl, rfl⟩
    · intro j hj
      exact (hs.valid j (by omega)).1 hj
    · by_contra hc
      exact absurd ((hs.valid n hn).2 hc) (lt_irrefl n)
    · simp [setPage, freshSlot]
    · intro k hk
      simp [setPage, freshSlot, memcpy, hk]
    · simp [setPage, freshSlot]
    · simp [setPage, freshSlot, PageData.regionsCount]
    · simp [setPage, freshSlot, PageData.dataLen]
    · simp [setPage, freshSlot]
    · intro j hj
      simp [setPage, hj]
  · rw [heq] at hreg
    cases hreg
  · rw [heq] at hreg
    cases hreg
  · rw [heq] at hreg
    cases hreg

/-- Instance of `register_success`: the first registration after `GenericXLogStart` takes
slot 0. -/
theorem register_success_witness :
    Reach 0 startedSystem ∧
    GenericXLogRegister 7 false startedSystem = (.ok (imageAddr 0), registeredSystem) ∧
    (registeredSystem.pages 0).buffer = 7 ∧
    (registeredSystem.pages 0).regions = [identityRegion] ∧
    (registeredSystem.pages 0).fullImage = false :=
  have h := register_success reach_started 7 false (imageAddr 0)
    (rfl : GenericXLogRegister 7 false startedSystem = (.ok (imageAddr 0), registeredSystem))
  ⟨reach_started, rfl, h.2.2.2.2.1, h.2.2.2.2.2.2.1, h.2.2.2.2.2.2.2.2.2.1⟩

/-- C7: in a started state reached from `GenericXLogStart`, `GenericXLogRegister` of a valid
buffer fails if and only if some slot already holds that buffer or all
`MAX_GENERIC_XLOG_PAGES` slots hold a valid buffer; a failing call leaves the slot table, the
status and the rest of the state unchanged. -/
theorem register_failure {n : Nat} {s : System} (h : Reach n s) (buffer : Buffer) (isNew : Bool)
    (hb : buffer ≠ InvalidBuffer) :
    ((∃ e, (GenericXLogRegister buffer isNew s).1 = .error e) ↔
      ((∃ k, k < MAX_GENERIC_XLOG_PAGES ∧ (s.pages k).buffer = buffer) ∨
       (∀ k, k < MAX_GENERIC_XLOG_PAGES → (s.pages k).buffer ≠ InvalidBuffer))) ∧
    (∀ e, (GenericXLogRegister buffer isNew s).1 = .error e →
      (GenericXLogRegister buffer isNew s).2 = s) := by
  have hs := reach_slotsOK h
  rcases register_cases hs buffer isNew with ⟨_, hn, hnew, heq⟩ | ⟨⟨k, hk, hkb⟩, heq⟩ |
    ⟨hn, hnew, heq⟩ | ⟨hinv, _, _⟩
  · rw [heq]
    refine ⟨⟨?_, ?_⟩, ?_⟩
    · rintro ⟨e, he⟩
      cases he
    · rintro (⟨k, hk, hkb⟩ | hall)
      · exfalso
        by_cases hkn : k < n
        · exact hnew k hkn hkb
        · have := (hs.valid k hk).2 (by rw [hkb]; exact hb)
          exact hkn this
      · exfalso
        have := (hs.valid n hn).2 (hall n hn)
        omega
    · intro e he
      cases he
  · rw [heq]
    have hbound := hs.bound
    exact ⟨⟨fun _ => Or.inl ⟨k, by omega, hkb⟩, fun _ => ⟨_, rfl⟩⟩, fun _ _ => rfl⟩
  · rw [heq]
    refine ⟨⟨fun _ => Or.inr ?_, fun _ => ⟨_, rfl⟩⟩, fun _ _ => rfl⟩
    intro k hk
    exact (hs.valid k hk).1 (by omega)
  · exact absurd hinv hb

/-- Instance of `register_failure`: registering buffer 7 a second time fails and changes
nothing. -/
theorem register_failure_witness :
    Reach 1 registeredSystem ∧ (7 : Buffer) ≠ InvalidBuffer ∧
    (GenericXLogRegister 7 true registeredSystem).1 = .error .duplicateBuffer ∧
    (GenericXLogRegister 7 true registeredSystem).2 = registeredSystem :=
  have h := register_failure reach_registered 7 true (by decide)
  ⟨reach_registered, by decide, rfl, h.2 .duplicateBuffer rfl⟩

/-- C8: `GenericXLogStart` fails, leaving the state unchanged, if and only if the status is
not `GXLOG_NOT_STARTED`; otherwise it succeeds, sets the status to `GXLOG_LOGGED` when the
relation needs WAL and to `GXLOG_UNLOGGED` when it does not, sets the buffer handle of all three
slots to `InvalidBuffer`, and changes nothing else. -/
theorem start_contract (needsWAL : Bool) (s : System) :
    ((∃ e, (GenericXLogStart needsWAL s).1 = .error e) ↔
      s.genericXlogStatus ≠ .GXLOG_NOT_STARTED) ∧
    ((∃ e, (GenericXLogStart needsWAL s).1 = .error e) →
      GenericXLogStart needsWAL s = (.error .alreadyStarted, s)) ∧
    (s.genericXlogStatus = .GXLOG_NOT_STARTED →
      (GenericXLogStart needsWAL s).1 = .ok () ∧
      (GenericXLogStart needsWAL s).2.genericXlogStatus =
        (if needsWAL then .GXLOG_LOGGED else .GXLOG_UNLOGGED) ∧
      (∀ i, i < MAX_GENERIC_XLOG_PAGES →
        ((GenericXLogStart needsWAL s).2.pages i).buffer = InvalidBuffer ∧
        ((GenericXLogStart needsWAL s).2.pages i).image = (s.pages i).image ∧
        ((GenericXLogStart needsWAL s).2.pages i).regions = (s.pages i).regions ∧
        ((GenericXLogStart needsWAL s).2.pages i).overflow = (s.pages i).overflow ∧
        ((GenericXLogStart needsWAL s).2.pages i).data = (s.pages i).data ∧
        ((GenericXLogStart needsWAL s).2.pages i).fullImage = (s.pages i).fullImage) ∧
      (GenericXLogStart needsWAL s).2.world = s.world) := by
  by_cases hs : s.genericXlogStatus = .GXLOG_NOT_STARTED
  · refine ⟨⟨?_, fun hne => absurd hs hne⟩, ?_, ?_⟩
    · rintro ⟨e, he⟩
      rw [start_fst needsWAL s hs] at he
      cases he
    · rintro ⟨e, he⟩
      rw [start_fst needsWAL s hs] at he
      cases he
    · intro _
      rw [start_snd needsWAL s hs]
      refine ⟨start_fst needsWAL s hs, rfl, ?_, rfl⟩
      intro i hi
      simp [hi]
  · have heq : GenericXLogStart needsWAL s = (.error .alreadyStarted, s) := by
      simp [GenericXLogStart, hs]
    refine ⟨⟨fun _ => hs, fun _ => ⟨.alreadyStarted, by rw [heq]⟩⟩, fun _ => heq, ?_⟩
    intro h
    exact absurd h hs

/-- C9: when the status is `GXLOG_NOT_STARTED`, each of `GenericXLogRegister`,
`GenericXLogMemmove`, `GenericXLogFinish` and `GenericXLogAbort` fails with its error and
leaves the whole state (status, slot table, working images, buffer pages) unchanged. -/
theorem not_started_calls_fail (s : System) (hs : s.genericXlogStatus = .GXLOG_NOT_STARTED)
    (buffer : Buffer) (isNew : Bool) (dst src : Int) (len : Nat) :
    GenericXLogRegister buffer isNew s = (.error .registerNotStarted, s) ∧
    GenericXLogMemmove dst src len s = (.error .memmoveNotStarted, s) ∧
    GenericXLogFinish s = (.error .finishNotStarted, s) ∧
    GenericXLogAbort s = (.error .abortNotStarted, s) := by
  refine ⟨?_, ?_, ?_, ?_⟩
  · simp [GenericXLogRegister, hs]
  · simp [GenericXLogMemmove, hs]
  · simp [GenericXLogFinish, hs]
  · simp [GenericXLogAbort, hs]

/-- Instance of `not_started_calls_fail` in the state of a backend that never started a
transaction. -/
theorem not_started_calls_fail_witness :
    idleSystem.genericXlogStatus = .GXLOG_NOT_STARTED ∧
    GenericXLogRegister 7 false idleSystem = (.error .registerNotStarted, idleSystem) ∧
    GenericXLogMemmove 0 16 4 idleSystem = (.error .memmoveNotStarted, idleSystem) ∧
    GenericXLogFinish idleSystem = (.error .finishNotStarted, idleSystem) ∧
    GenericXLogAbort idleSystem = (.error .abortNotStarted, idleSystem) :=
  ⟨rfl, not_started_calls_fail idleSystem rfl 7 false 0 16 4⟩

/-- C10: from every started state (logged or unlogged, whatever the slots and the working
images hold) `GenericXLogAbort` succeeds, sets the status to `GXLOG_NOT_STARTED`, and changes
nothing else: no slot, no buffer page, no dirty flag and no WAL state. -/
theorem abort_contract (s : System) (hs : s.genericXlogStatus ≠ .GXLOG_NOT_STARTED) :
    (GenericXLogAbort s).1 = .ok () ∧
    (GenericXLogAbort s).2.genericXlogStatus = .GXLOG_NOT_STARTED ∧
    (GenericXLogAbort s).2.pages = s.pages ∧
    (GenericXLogAbort s).2.world = s.world := by
  simp [GenericXLogAbort, hs]

/-- Instance of `abort_contract` after one registration. -/
theorem abort_contract_witness :
    registeredSystem.genericXlogStatus ≠ .GXLOG_NOT_STARTED ∧
    (GenericXLogAbort registeredSystem).1 = .ok () ∧
    (GenericXLogAbort registeredSystem).2.genericXlogStatus = .GXLOG_NOT_STARTED ∧
    (GenericXLogAbort registeredSystem).2.world = registeredSystem.world :=
  have h := abort_contract registeredSystem (by decide)
  ⟨by decide, h.1, h.2.1, h.2.2.2⟩

/-! ## Region tracker: what two and three moves do -/

/-- C2: the tile invariant does not survive a move whose source range spans two regions.  On a
freshly registered slot, `GenericXLogMemmove(image + 40, image, 30)` leaves the tile-valid list
`(0,0,40) (40,0,30) (70,70,8122)`; then `GenericXLogMemmove(image, image + 55, 40)`, in
bounds and without overflow, leaves `(0,15,15) (0,70,25) (40,0,30) (70,70,8122)`: the second
region starts at 0 instead of 15, because `curOffset` is not advanced in the loop that makes
the new regions. -/
theorem tile_invariant_broken_by_spanning_move :
    (GenericXLogMemmove (imageAddr 0 + 40) (imageAddr 0) 30 registeredSystem).1 = .ok () ∧
    (movedOnce.pages 0).regions = [⟨0, 0, 40⟩, ⟨40, 0, 30⟩, ⟨70, 70, 8122⟩] ∧
    TileValid (movedOnce.pages 0).regions ∧
    (GenericXLogMemmove (imageAddr 0) (imageAddr 0 + 55) 40 movedOnce).1 = .ok () ∧
    (movedTwice.pages 0).overflow = false ∧
    (movedTwice.pages 0).regions = [⟨0, 15, 15⟩, ⟨0, 70, 25⟩, ⟨40, 0, 30⟩, ⟨70, 70, 8122⟩] ∧
    ¬ TileValid (movedTwice.pages 0).regions := by
  refine ⟨rfl, rfl, rfl, rfl, rfl, rfl, ?_⟩
  intro h
  have h2 : tilesFrom 0 [⟨0, 15, 15⟩, ⟨0, 70, 25⟩, ⟨40, 0, 30⟩, ⟨70, 70, 8122⟩] = true := h
  revert h2
  decide

/-- C3: after the same two moves the region list no longer describes the working image.  With
the pre-image `P[k] = k % 256`, the second region `(0, 70, 25)` says that byte 0 of the image
is `P[70] = 70`, while the image holds `P[15] = 15` there. -/
theorem region_map_broken_by_spanning_move :
    registeredSystem.world.page 7 = samplePage ∧
    (GenericXLogMemmove (imageAddr 0 + 40) (imageAddr 0) 30 registeredSystem).1 = .ok () ∧
    (GenericXLogMemmove (imageAddr 0) (imageAddr 0 + 55) 40 movedOnce).1 = .ok () ∧
    (movedTwice.pages 0).regions[1]? = some ⟨0, 70, 25⟩ ∧
    (movedTwice.pages 0).image (0 + 0) = 15 ∧
    samplePage (70 + 0) = 70 ∧
    ¬ RegionMapCorrect samplePage (movedTwice.pages 0).image (movedTwice.pages 0).regions := by
  refine ⟨rfl, rfl, rfl, rfl, rfl, rfl, ?_⟩
  intro h
  have h1 := h ⟨0, 70, 25⟩ (by decide) 0 (by decide)
  revert h1
  decide

/-- C1: the round trip is lost after three moves.  On a registered page of zero bytes, the
calls `GenericXLogMemmove(image + 40, image, 30)`, `GenericXLogMemmove(image, image + 55, 40)`
and `GenericXLogMemmove(image + 100, image + 15, 55)` are in bounds, return normally and do
not overflow, and leave the region `(100, 65521, 45)` in the list.  `writeDifferentialData`
then reads the pre-image at index 65521, outside the page, so neither the encoder nor
`GenericXLogFinish` yields a record that `applyPageRedo` could turn into the working image. -/
theorem round_trip_lost_after_spanning_move :
    zeroRegistered.world.page 9 = zeroPage ∧
    (GenericXLogMemmove (imageAddr 0 + 40) (imageAddr 0) 30 zeroRegistered).1 = .ok () ∧
    (GenericXLogMemmove (imageAddr 0) (imageAddr 0 + 55) 40 zeroMovedOnce).1 = .ok () ∧
    (GenericXLogMemmove (imageAddr 0 + 100) (imageAddr 0 + 15) 55 zeroMovedTwice).1 = .ok () ∧
    (zeroMovedThrice.pages 0).overflow = false ∧
    (zeroMovedThrice.pages 0).regions =
      [⟨0, 15, 15⟩, ⟨0, 70, 25⟩, ⟨40, 0, 30⟩, ⟨70, 70, 30⟩, ⟨100, 85, 10⟩, ⟨100, 65521, 45⟩,
        ⟨155, 155, 8037⟩] ∧
    encodePage (zeroMovedThrice.pages 0).image zeroPage (zeroMovedThrice.pages 0).regions [] =
      .error .undefinedBehaviour ∧
    roundTrip (zeroMovedThrice.pages 0).image zeroPage (zeroMovedThrice.pages 0).regions =
      .error .undefinedBehaviour ∧
    (GenericXLogFinish zeroMovedThrice).1 = .error .undefinedBehaviour := by
  refine ⟨rfl, rfl, rfl, rfl, rfl, rfl, rfl, rfl, rfl⟩

/-! ## `GenericXLogMemmove` on a slot found by its address -/

/-- The loop `Find block` of `GenericXLogMemmove` stops at slot `i` when `dst` points into
the image of slot `i`. -/
theorem find_block (i : Nat) (hi : i < MAX_GENERIC_XLOG_PAGES) (dstOff : Nat)
    (hd : dstOff < BLCKSZ) :
    (List.range MAX_GENERIC_XLOG_PAGES).find?
        (fun j => decide (imageAddr i + (dstOff : Int) ≥ imageAddr j ∧
          imageAddr i + (dstOff : Int) < imageAddr j + BLCKSZ)) = some i := by
  have hB : BLCKSZ = 8192 := rfl
  have h3 : MAX_GENERIC_XLOG_PAGES = 3 := rfl
  have hr : List.range MAX_GENERIC_XLOG_PAGES = [0, 1, 2] := rfl
  rw [hr]
  rw [h3] at hi
  simp only [imageAddr, hB]
  interval_cases i
  · rw [List.find?_cons_of_pos]
    simp only [decide_eq_true_eq]
    omega
  · rw [List.find?_cons_of_neg, List.find?_cons_of_pos]
    · simp only [decide_eq_true_eq]
      omega
    · simp only [decide_eq_true_eq]
      omega
  · rw [List.find?_cons_of_neg, List.find?_cons_of_neg, List.find?_cons_of_pos]
    · simp only [decide_eq_true_eq]
      omega
    · simp only [decide_eq_true_eq]
      omega
    · simp only [decide_eq_true_eq]
      omega

/-- `GenericXLogMemmove` in a started state, called with both ranges inside the image of
slot `i`: the checks pass and the call comes down to `memoryMove` followed by `memmove`. -/
theorem memmove_eq (s : System) (i dstOff srcOff len : Nat)
    (hs : s.genericXlogStatus ≠ .GXLOG_NOT_STARTED) (hi : i < MAX_GENERIC_XLOG_PAGES)
    (hd0 : dstOff < BLCKSZ) (hd : dstOff + len ≤ BLCKSZ) (hsrc : srcOff + len ≤ BLCKSZ) :
    GenericXLogMemmove (imageAddr i + dstOff) (imageAddr i + srcOff) len s =
      if (s.pages i).fullImage then (.ok (), s)
      else
        match memoryMove s.world (s.pages i) dstOff srcOff len with
        | .error e => (.error e, s)
        | .ok pageData =>
          (.ok (), { s with pages := setPage s.pages i (movedImage pageData dstOff srcOff len) }) := by
  have hB : BLCKSZ = 8192 := rfl
  unfold GenericXLogMemmove
  rw [if_neg hs, find_block i hi dstOff hd0]
  dsimp only
  have h1 : ¬ (imageAddr i + (srcOff : Int) < imageAddr i ∨
      imageAddr i + (srcOff : Int) + (len : Int) > imageAddr i + (BLCKSZ : Int)) := by
    omega
  have h2 : ¬ (imageAddr i + (dstOff : Int) < imageAddr i ∨
      imageAddr i + (dstOff : Int) + (len : Int) > imageAddr i + (BLCKSZ : Int)) := by
    omega
  rw [if_neg h1, if_neg h2]
  have e1 : imageAddr i + (dstOff : Int) - imageAddr i = (dstOff : Int) := by omega
  have e2 : imageAddr i + (srcOff : Int) - imageAddr i = (srcOff : Int) := by omega
  rw [e1, e2, asOffsetNumber_of_lt dstOff (by omega), asOffsetNumber_of_lt srcOff (by omega)]
  simp only [Int.toNat_ofNat]
  rfl

/-! ## `findRegion` on a region list that tiles the page -/

theorem tilesFrom_le (l : List Region) :
    ∀ (pos : Nat), tilesFrom pos l = true → pos ≤ BLCKSZ := by
  induction l with
  | nil =>
    intro p hp
    simp only [tilesFrom, beq_iff_eq] at hp
    omega
  | cons b l2 ih2 =>
    intro p hp
    simp only [tilesFrom, Bool.and_eq_true, beq_iff_eq, decide_eq_true_eq] at hp
    have := ih2 (p + b.length) hp.2
    omega

/-- In a tiling every offset from the start of the tiling to the end of the page lies in some
region. -/
theorem tilesFrom_cover (l : List Region) :
    ∀ (pos key : Nat), tilesFrom pos l = true → pos ≤ key → key < BLCKSZ →
      ∃ (j : Nat) (r : Region), l[j]? = some r ∧ r.dstOffset ≤ key ∧
        key < r.dstOffset + r.length := by
  induction l with
  | nil =>
    intro pos key ht h1 h2
    simp only [tilesFrom, beq_iff_eq] at ht
    omega
  | cons a rest ih =>
    intro pos key ht h1 h2
    simp only [tilesFrom, Bool.and_eq_true, beq_iff_eq, decide_eq_true_eq] at ht
    obtain ⟨⟨hdst, hlen⟩, hrest⟩ := ht
    by_cases hk : key < pos + a.length
    · exact ⟨0, a, List.getElem?_cons_zero, by omega, by omega⟩
    · obtain ⟨j, r, hj, hr1, hr2⟩ := ih (pos + a.length) key hrest (by omega) h2
      refine ⟨j + 1, r, ?_, hr1, hr2⟩
      rw [List.getElem?_cons_succ]
      exact hj

/-- In a tiling a region ends before every later region starts. -/
theorem tilesFrom_sorted (l : List Region) :
    ∀ (pos i j : Nat) (a b : Region), tilesFrom pos l = true → l[i]? = some a →
      l[j]? = some b → i < j → a.dstOffset + a.length ≤ b.dstOffset := by
  induction l with
  | nil =>
    intro pos i j a b _ hi
    simp at hi
  | cons c rest ih =>
    intro pos i j a b ht hi hj hij
    simp only [tilesFrom, Bool.and_eq_true, beq_iff_eq, decide_eq_true_eq] at ht
    obtain ⟨⟨hdst, hlen⟩, hrest⟩ := ht
    cases j with
    | zero => omega
    | succ j1 =>
      simp only [List.getElem?_cons_succ] at hj
      cases i with
      | zero =>
        simp only [List.getElem?_cons_zero, Option.some.injEq] at hi
        subst hi
        obtain ⟨_, _, h3, _, _⟩ := tilesFrom_get rest (pos + c.length) j1 b hrest hj
        omega
      | succ i1 =>
        simp only [List.getElem?_cons_succ] at hi
        exact ih (pos + c.length) i1 j1 a b hrest hi hj (by omega)

/-- The part of a tiling from region `j` on is a tiling that starts where region `j` does. -/
theorem tilesFrom_drop (l : List Region) :
    ∀ (pos j : Nat) (r : Region), tilesFrom pos l = true → l[j]? = some r →
      tilesFrom r.dstOffset (l.drop j) = true := by
  induction l with
  | nil =>
    intro pos j r _ hj
    simp at hj
  | cons c rest ih =>
    intro pos j r ht hj
    cases j with
    | zero =>
      simp only [List.getElem?_cons_zero, Option.some.injEq] at hj
      subst hj
      have hd : c.dstOffset = pos := by
        simp only [tilesFrom, Bool.and_eq_true, beq_iff_eq, decide_eq_true_eq] at ht
        exact ht.1.1
      rw [List.drop_zero, hd]
      exact ht
    | succ j1 =>
      simp only [tilesFrom, Bool.and_eq_true, beq_iff_eq, decide_eq_true_eq] at ht
      simp only [List.getElem?_cons_succ] at hj
      rw [List.drop_succ_cons]
      exact ih (pos + c.length) j1 r ht.2 hj

/-- The region that holds an offset is unique in a tiling. -/
theorem tilesFrom_unique (l : List Region) (pos i j key : Nat) (a b : Region)
    (ht : tilesFrom pos l = true) (hi : l[i]? = some a) (hj : l[j]? = some b)
    (ha : a.dstOffset ≤ key ∧ key < a.dstOffset + a.length)
    (hb : b.dstOffset ≤ key ∧ key < b.dstOffset + b.length) : i = j := by
  rcases Nat.lt_trichotomy i j with h | h | h
  · have := tilesFrom_sorted l pos i j a b ht hi hj h
    omega
  · exact h
  · have := tilesFrom_sorted l pos j i b a ht hj hi h
    omega

/-- The binary search of the C library finds the region of a tiling that holds the key. -/
theorem bsearchLoop_tile (base : List Region) (pos : Nat) (ht : tilesFrom pos base = true)
    (key j : Nat) (r : Region) (hj : base[j]? = some r)
    (hcov : r.dstOffset ≤ key ∧ key < r.dstOffset + r.length) :
    ∀ (fuel l u : Nat), l ≤ j → j < u → u ≤ base.length → u - l < fuel →
      bsearchLoop key base fuel l u = some j := by
  intro fuel
  induction fuel with
  | zero =>
    intro l u _ _ _ hf
    omega
  | succ fuel ih =>
    intro l u hl hu hlen hf
    have hlu : l < u := by omega
    have hidx : (l + u) / 2 < base.length := by omega
    obtain ⟨r1, hr1⟩ : ∃ r1, base[(l + u) / 2]? = some r1 :=
      ⟨base[(l + u) / 2], List.getElem?_eq_getElem hidx⟩
    unfold bsearchLoop
    rw [if_pos hlu]
    dsimp only
    rw [hr1]
    dsimp only
    rcases Nat.lt_trichotomy ((l + u) / 2) j with h | h | h
    · have hs := tilesFrom_sorted base pos _ j r1 r ht hr1 hj h
      have hc : regionOffsetCmp key r1 = 1 := by
        unfold regionOffsetCmp
        rw [if_neg (by omega), if_pos (by omega)]
      rw [hc, if_neg (by decide), if_pos (by decide)]
      exact ih ((l + u) / 2 + 1) u (by omega) hu hlen (by omega)
    · have hrr : r1 = r := by
        rw [h, hj] at hr1
        exact (Option.some.inj hr1).symm
      have hc : regionOffsetCmp key r1 = 0 := by
        unfold regionOffsetCmp
        rw [hrr, if_neg (by omega), if_neg (by omega)]
      rw [hc, if_neg (by decide), if_neg (by decide), h]
    · have hs := tilesFrom_sorted base pos j _ r r1 ht hj hr1 h
      have hc : regionOffsetCmp key r1 = -1 := by
        unfold regionOffsetCmp
        rw [if_pos (by omega)]
      rw [hc, if_pos (by decide)]
      exact ih l ((l + u) / 2) hl h (by omega) (by omega)

/-- On a region list that tiles the page `findRegion` returns the index of the region that
holds the offset. -/
theorem findRegion_tile (pd : PageData) (ht : TileValid pd.regions) (key : Nat)
    (hkey : key < BLCKSZ) :
    ∃ (j : Nat) (r : Region), findRegion pd key = .ok j ∧ pd.regions[j]? = some r ∧
      r.dstOffset ≤ key ∧ key < r.dstOffset + r.length := by
  obtain ⟨j, r, hj, h1, h2⟩ := tilesFrom_cover pd.regions 0 key ht (Nat.zero_le _) hkey
  have hjl : j < pd.regions.length := by
    by_contra hc
    rw [List.getElem?_eq_none (by omega)] at hj
    cases hj
  have hb := bsearchLoop_tile pd.regions 0 ht key j r hj ⟨h1, h2⟩ (pd.regions.length + 1) 0
    pd.regions.length (Nat.zero_le _) hjl (Nat.le_refl _) (by omega)
  refine ⟨j, r, ?_, hj, h1, h2⟩
  unfold findRegion bsearch
  rw [hb]

/-! ## `memoryMove` on a region list that tiles the page -/

/-- The function `memoryMoveRegions` is `memoryMovePlan` followed by the capacity check and
the splice. -/
theorem memoryMoveRegions_eq_plan (pd : PageData) (d s l : Nat) :
    memoryMoveRegions pd d s l =
      match memoryMovePlan pd d s l with
      | .error e => .error e
      | .ok sp =>
        if (pd.regionsCount : Int) + sp.shift > MAX_REGIONS then .ok none
        else .ok (some sp.spliced) := by
  unfold memoryMoveRegions memoryMovePlan
  simp only [bind, Except.bind, pure, Except.pure]
  cases findRegion pd s with
  | error e => rfl
  | ok srcRegion =>
    dsimp only
    cases makeNewRegions d (List.drop srcRegion pd.regions) s l [] with
    | error e => rfl
    | ok newRegions0 =>
      dsimp only
      cases findRegion pd (if d > 0 then d - 1 else 0) with
      | error e => rfl
      | ok dstRegionLeft =>
        dsimp only
        cases fetch pd.regions dstRegionLeft with
        | error e => rfl
        | ok left =>
          dsimp only
          cases fetchNew newRegions0 0 with
          | error e => rfl
          | ok first =>
            dsimp only
            cases findRegion pd (if d + l < BLCKSZ then asOffsetNumber ((d : Int) + l)
                else BLCKSZ - 1) with
            | error e => rfl
            | ok dstRegionRight =>
              dsimp only
              cases fetch pd.regions dstRegionRight with
              | error e => rfl
              | ok right =>
                dsimp only
                cases fetchNew (checkLeft left d first newRegions0).newRegions
                    ((checkLeft left d first newRegions0).newRegions.length - 1) with
                | error e => rfl
                | ok last =>
                  dsimp only
                  cases checkRight pd.regions dstRegionRight right d l
                      (checkLeft left d first newRegions0).leftAdjacent
                      (checkLeft left d first newRegions0).newRegions last with
                  | error e => rfl
                  | ok rc => rfl

theorem makeNewRegions_zero (curOffset : Nat) (srcRegions : List Region) (srcOffset : Nat)
    (newRegions : List Region) :
    makeNewRegions curOffset srcRegions srcOffset 0 newRegions = .ok newRegions := by
  unfold makeNewRegions
  rw [if_pos rfl]

/-- The loop `while (curLength > 0)` on a tiling: it returns after writing at least one and at
most as many entries as there are regions from `srcRegion` on. -/
theorem makeNewRegions_tile (curOffset : Nat) (srcRegions : List Region) :
    ∀ (pos srcOffset curLength : Nat) (newRegions : List Region),
      tilesFrom pos srcRegions = true → pos ≤ srcOffset →
      (∀ r, srcRegions[0]? = some r → srcOffset < r.dstOffset + r.length) →
      srcOffset + curLength ≤ BLCKSZ →
      newRegions.length + srcRegions.length ≤ MAX_REGIONS →
      ∃ added, makeNewRegions curOffset srcRegions srcOffset curLength newRegions
          = .ok (newRegions ++ added) ∧
        added.length ≤ srcRegions.length ∧ (1 ≤ curLength → 1 ≤ added.length) := by
  have hB : BLCKSZ = 8192 := rfl
  have hM : MAX_REGIONS = 256 := rfl
  induction srcRegions with
  | nil =>
    intro pos srcOffset curLength newRegions ht hpos _ hbound _
    simp only [tilesFrom, beq_iff_eq] at ht
    have h0 : curLength = 0 := by omega
    subst h0
    exact ⟨[], by rw [makeNewRegions_zero, List.append_nil], Nat.le_refl _, fun h => by omega⟩
  | cons r rest ih =>
    intro pos srcOffset curLength newRegions ht hpos hin hbound hcap
    simp only [tilesFrom, Bool.and_eq_true, beq_iff_eq, decide_eq_true_eq] at ht
    obtain ⟨⟨hdst, hlen⟩, hrest⟩ := ht
    have hin1 := hin r List.getElem?_cons_zero
    by_cases h0 : curLength = 0
    · subst h0
      exact ⟨[], by rw [makeNewRegions_zero, List.append_nil], Nat.zero_le _, fun h => by omega⟩
    · have hshift : asOffsetNumber ((srcOffset : Int) - (r.dstOffset : Int))
          = srcOffset - r.dstOffset := asOffsetNumber_eq _ _ (by omega) (by omega)
      have hcapn : ¬ (newRegions.length ≥ MAX_REGIONS) := by
        simp only [List.length_cons] at hcap
        omega
      unfold makeNewRegions
      rw [if_neg h0]
      dsimp only
      rw [if_neg hcapn, hshift]
      by_cases hle : curLength ≤ r.length - (srcOffset - r.dstOffset)
      · have hl : asOffsetNumber (min ((r.length : Int) - ((srcOffset - r.dstOffset : Nat) : Int))
            (curLength : Int)) = curLength :=
          asOffsetNumber_eq _ _ (by omega) (by omega)
        rw [hl]
        have hc : asOffsetNumber ((curLength : Int) - (curLength : Int)) = 0 := by
          rw [Int.sub_self]
          rfl
        rw [hc, makeNewRegions_zero]
        exact ⟨_, rfl, by simp, fun _ => by simp⟩
      · have hl : asOffsetNumber (min ((r.length : Int) - ((srcOffset - r.dstOffset : Nat) : Int))
            (curLength : Int)) = r.length - (srcOffset - r.dstOffset) :=
          asOffsetNumber_eq _ _ (by omega) (by omega)
        rw [hl]
        have hs : asOffsetNumber ((srcOffset : Int)
            + ((r.length - (srcOffset - r.dstOffset) : Nat) : Int)) = pos + r.length :=
          asOffsetNumber_eq _ _ (by omega) (by omega)
        have hc : asOffsetNumber ((curLength : Int)
            - ((r.length - (srcOffset - r.dstOffset) : Nat) : Int))
            = curLength - (r.length - (srcOffset - r.dstOffset)) :=
          asOffsetNumber_eq _ _ (by omega) (by omega)
        rw [hs, hc]
        obtain ⟨added, hadd, hlen1, _⟩ := ih (pos + r.length) (pos + r.length)
          (curLength - (r.length - (srcOffset - r.dstOffset)))
          (newRegions ++ [{ dstOffset := curOffset
                            srcOffset := asOffsetNumber ((r.srcOffset : Int)
                              + ((srcOffset - r.dstOffset : Nat) : Int))
                            length := r.length - (srcOffset - r.dstOffset) }])
          hrest (Nat.le_refl _)
          (fun r1 hr1 => by
            obtain ⟨h1, _, _, h4, _⟩ := tilesFrom_get rest (pos + r.length) 0 r1 hrest hr1
            have := h4 rfl
            omega)
          (by omega)
          (by
            simp only [List.length_append, List.length_cons, List.length_nil] at hcap ⊢
            omega)
        rw [hadd, List.append_assoc]
        refine ⟨_, rfl, ?_, fun _ => ?_⟩
        · simp only [List.singleton_append, List.length_cons]
          omega
        · simp only [List.singleton_append, List.length_cons]
          omega

theorem fetch_ok {l : List Region} {i : Nat} {r : Region} (h : fetch l i = .ok r) :
    l[i]? = some r := by
  unfold fetch at h
  split at h
  · rename_i r1 hr1
    cases h
    exact hr1
  · cases h

theorem fetchNew_ok {l : List Region} {i : Nat} {r : Region} (h : fetchNew l i = .ok r) :
    l[i]? = some r := by
  unfold fetchNew at h
  split at h
  · rename_i r1 hr1
    cases h
    exact hr1
  · cases h

theorem fetchNew_of_get {l : List Region} {i : Nat} {r : Region} (h : l[i]? = some r) :
    fetchNew l i = .ok r := by
  simp [fetchNew, h]

theorem getElem?_lt {l : List Region} {i : Nat} {r : Region} (h : l[i]? = some r) :
    i < l.length := by
  by_contra hc
  rw [List.getElem?_eq_none (by omega)] at h
  cases h

theorem checkLeft_length (left : Region) (d : Nat) (first : Region) (nr : List Region) :
    (checkLeft left d first nr).newRegions.length = nr.length := by
  unfold checkLeft
  dsimp only
  split
  · rfl
  · split
    · simp
    · rfl

/-- The block `Check right region` keeps the length of `regions` and adds at most one entry to
`newRegions`, never beyond `MAX_REGIONS` entries when there were at most that many. -/
theorem checkRight_ok {regions : List Region} {R : Nat} {right : Region} {d l : Nat}
    {la : Bool} {nr : List Region} {last : Region} {rc : RightCheck}
    (h : checkRight regions R right d l la nr last = .ok rc) :
    rc.regions.length = regions.length ∧ nr.length ≤ rc.newRegions.length ∧
      rc.newRegions.length ≤ nr.length + 1 ∧
      (nr.length ≤ MAX_REGIONS → rc.newRegions.length ≤ MAX_REGIONS) ∧
      (la = false → rc.rightAdjacent = true) := by
  unfold checkRight at h
  dsimp only at h
  split at h
  · cases h
    exact ⟨rfl, Nat.le_refl _, Nat.le_succ _, fun h => h, fun _ => rfl⟩
  · split at h
    · cases h
      refine ⟨rfl, ?_, ?_, fun h => ?_, fun _ => rfl⟩
      · simp
      · simp
      · simpa using h
    · split at h
      · split at h
        · cases h
        · rename_i hcap
          cases h
          refine ⟨rfl, ?_, ?_, fun _ => ?_, fun _ => rfl⟩
          · simp
          · simp
          · simp only [List.length_append, List.length_cons, List.length_nil]
            omega
      · rename_i hla
        cases h
        refine ⟨?_, Nat.le_refl _, Nat.le_succ _, fun h => h, fun hf => ?_⟩
        · simp
        · rw [hf] at hla
          exact absurd (by simp) hla

/-- Bounds on what `memoryMove` has computed when it reaches the block `Move data`. -/
theorem memoryMovePlan_bounds {pd : PageData} {d s l : Nat} {sp : Splice}
    (h : memoryMovePlan pd d s l = .ok sp) :
    sp.regions.length = pd.regions.length ∧ 1 ≤ sp.newRegions.length ∧
      0 ≤ sp.leftIndex ∧ sp.leftIndex ≤ pd.regions.length ∧
      0 ≤ sp.rightIndex ∧ sp.rightIndex ≤ pd.regions.length := by
  unfold memoryMovePlan at h
  simp only [bind, Except.bind, pure, Except.pure] at h
  cases h1 : findRegion pd s with
  | error e =>
    rw [h1] at h
    cases h
  | ok srcRegion =>
    rw [h1] at h
    dsimp only at h
    cases h2 : makeNewRegions d (List.drop srcRegion pd.regions) s l [] with
    | error e =>
      rw [h2] at h
      cases h
    | ok newRegions0 =>
      rw [h2] at h
      dsimp only at h
      cases h3 : findRegion pd (if d > 0 then d - 1 else 0) with
      | error e =>
        rw [h3] at h
        cases h
      | ok dstRegionLeft =>
        rw [h3] at h
        dsimp only at h
        cases h4 : fetch pd.regions dstRegionLeft with
        | error e =>
          rw [h4] at h
          cases h
        | ok left =>
          rw [h4] at h
          dsimp only at h
          cases h5 : fetchNew newRegions0 0 with
          | error e =>
            rw [h5] at h
            cases h
          | ok first =>
            rw [h5] at h
            dsimp only at h
            cases h6 : findRegion pd (if d + l < BLCKSZ then asOffsetNumber ((d : Int) + l)
                else BLCKSZ - 1) with
            | error e =>
              rw [h6] at h
              cases h
            | ok dstRegionRight =>
              rw [h6] at h
              dsimp only at h
              cases h7 : fetch pd.regions dstRegionRight with
              | error e =>
                rw [h7] at h
                cases h
              | ok right =>
                rw [h7] at h
                dsimp only at h
                cases h8 : fetchNew (checkLeft left d first newRegions0).newRegions
                    ((checkLeft left d first newRegions0).newRegions.length - 1) with
                | error e =>
                  rw [h8] at h
                  cases h
                | ok last =>
                  rw [h8] at h
                  dsimp only at h
                  cases h9 : checkRight pd.regions dstRegionRight right d l
                      (checkLeft left d first newRegions0).leftAdjacent
                      (checkLeft left d first newRegions0).newRegions last with
                  | error e =>
                    rw [h9] at h
                    cases h
                  | ok rc =>
                    rw [h9] at h
                    dsimp only at h
                    cases h
                    obtain ⟨g1, g2, _, _, _⟩ := checkRight_ok h9
                    have hL := getElem?_lt (fetch_ok h4)
                    have hR := getElem?_lt (fetch_ok h7)
                    have hN := getElem?_lt (fetchNew_ok h5)
                    rw [checkLeft_length] at g2
                    dsimp only
                    refine ⟨?_, by omega, ?_, ?_, ?_, ?_⟩
                    · split
                      · rw [List.length_set]
                        exact g1
                      · exact g1
                    · split <;> omega
                    · split <;> omega
                    · split <;> omega
                    · split <;> omega

/-- On a slot whose region list tiles the page and leaves room in `newRegions`, an in-bounds
`memoryMove` of at least one byte finds its three regions and reaches the block `Move data`. -/
theorem memoryMovePlan_total (pd : PageData) (ht : TileValid pd.regions) (d s l : Nat)
    (hl : 1 ≤ l) (hs : s + l ≤ BLCKSZ) (hd : d + l ≤ BLCKSZ)
    (hcap : pd.regionsCount < MAX_REGIONS) :
    ∃ sp, memoryMovePlan pd d s l = .ok sp := by
  have hB : BLCKSZ = 8192 := rfl
  have hM : MAX_REGIONS = 256 := rfl
  unfold PageData.regionsCount at hcap
  obtain ⟨j, r, hj, hjr, hr1, hr2⟩ := findRegion_tile pd ht s (by omega)
  have hdropj : (pd.regions.drop j)[0]? = some r := by
    rw [List.getElem?_drop]
    exact hjr
  obtain ⟨added, hadd, ha1, ha2⟩ := makeNewRegions_tile d (pd.regions.drop j) r.dstOffset s l []
    (tilesFrom_drop pd.regions 0 j r ht hjr) hr1
    (fun r1 hr => by
      rw [hdropj] at hr
      cases hr
      exact hr2)
    hs (by
      simp only [List.length_nil, List.length_drop]
      omega)
  rw [List.nil_append] at hadd
  have ha3 := ha2 hl
  have ha4 : added.length ≤ pd.regions.length := by
    rw [List.length_drop] at ha1
    omega
  obtain ⟨jl, rl, hjl, hjlr, _, _⟩ :=
    findRegion_tile pd ht (if d > 0 then d - 1 else 0) (by split <;> omega)
  obtain ⟨jr, rr, hjrr, hjrrr, _, _⟩ :=
    findRegion_tile pd ht
      (if d + l < BLCKSZ then asOffsetNumber ((d : Int) + l) else BLCKSZ - 1) (by
        split
        · rw [asOffsetNumber_eq _ (d + l) (by omega) (by omega)]
          omega
        · omega)
  obtain ⟨first, hfirst⟩ : ∃ first, added[0]? = some first :=
    ⟨added[0], List.getElem?_eq_getElem (by omega)⟩
  obtain ⟨last, hlast⟩ : ∃ last, (checkLeft rl d first added).newRegions[
      (checkLeft rl d first added).newRegions.length - 1]? = some last := by
    have hlen := checkLeft_length rl d first added
    exact ⟨_, List.getElem?_eq_getElem (by omega)⟩
  unfold memoryMovePlan
  simp only [bind, Except.bind, pure, Except.pure, hj, hadd, hjl, fetch_of_get hjlr,
    fetchNew_of_get hfirst, hjrr, fetch_of_get hjrrr, fetchNew_of_get hlast]
  cases h9 : checkRight pd.regions jr rr d l (checkLeft rl d first added).leftAdjacent
      (checkLeft rl d first added).newRegions last with
  | ok rc => exact ⟨_, rfl⟩
  | error e =>
    exfalso
    unfold checkRight at h9
    dsimp only at h9
    split at h9
    · cases h9
    · split at h9
      · cases h9
      · split at h9
        · split at h9
          · rename_i hge
            rw [checkLeft_length] at hge
            omega
          · cases h9
        · cases h9

/-- The count that the capacity check of `memoryMove` compares with `MAX_REGIONS`,
`regionsCount + shift`, is the length of the list that the splice produces. -/
theorem spliced_length {pd : PageData} {d s l : Nat} {sp : Splice}
    (h : memoryMovePlan pd d s l = .ok sp) :
    (sp.spliced.length : Int) = (pd.regionsCount : Int) + sp.shift ∧ 1 ≤ sp.spliced.length := by
  obtain ⟨h1, h2, h3, h4, h5, h6⟩ := memoryMovePlan_bounds h
  unfold Splice.spliced Splice.shift PageData.regionsCount
  simp only [List.length_append, List.length_take, List.length_drop, h1]
  omega

/-- Outcome of `memoryMove` on a slot without overflow, in terms of what it has computed when
it reaches the block `Move data`. -/
theorem memoryMove_of_plan (w : World) (pd : PageData) (d s l : Nat) (sp : Splice)
    (hov : pd.overflow = false) (hb : pd.buffer ≠ InvalidBuffer)
    (h : memoryMovePlan pd d s l = .ok sp) :
    memoryMove w pd d s l =
      if (pd.regionsCount : Int) + sp.shift > MAX_REGIONS then
        .ok { pd with image := memcpy pd.image 0 (w.page pd.buffer) 0 BLCKSZ
                      regions := [identityRegion], data := [], overflow := true }
      else .ok { pd with regions := sp.spliced } := by
  unfold memoryMove
  rw [if_neg (by rw [hov]; exact Bool.false_ne_true), memoryMoveRegions_eq_plan, h]
  dsimp only
  by_cases hc : (pd.regionsCount : Int) + sp.shift > MAX_REGIONS
  · rw [if_pos hc, if_pos hc]
    dsimp only
    rw [initPageData_ok w pd pd.buffer hb]
  · rw [if_neg hc, if_neg hc]

/-! ## A move out of the first region into the last one, away from its ends -/

/-- The last region of a tiling ends at the end of the page. -/
theorem tilesFrom_last (pre : List Region) (t : Region) (pos : Nat)
    (ht : tilesFrom pos (pre ++ [t]) = true) :
    (pre ++ [t])[pre.length]? = some t ∧ 1 ≤ t.length ∧ t.dstOffset + t.length = BLCKSZ := by
  have hget : (pre ++ [t])[pre.length]? = some t := by
    rw [List.getElem?_append_right (Nat.le_refl _), Nat.sub_self]
    rfl
  obtain ⟨h1, h2, _, _, h5⟩ := tilesFrom_get (pre ++ [t]) pos pre.length t ht hget
  refine ⟨hget, h1, ?_⟩
  by_contra hne
  obtain ⟨r1, hr1, _⟩ := h5 (by omega)
  rw [List.getElem?_eq_none (by simp)] at hr1
  cases hr1

/-- Replacing the end of a tiling by another end that tiles the same range gives a tiling. -/
theorem tilesFrom_append (a b b1 : List Region)
    (hb : ∀ p, tilesFrom p b = true → tilesFrom p b1 = true) :
    ∀ pos, tilesFrom pos (a ++ b) = true → tilesFrom pos (a ++ b1) = true := by
  induction a with
  | nil =>
    intro pos h
    exact hb pos h
  | cons c rest ih =>
    intro pos h
    simp only [List.cons_append, tilesFrom, Bool.and_eq_true, beq_iff_eq,
      decide_eq_true_eq] at h ⊢
    exact ⟨h.1, ih (pos + c.length) h.2⟩

/-- What `memoryMove(dstOffset, 0, length)` computes when the source range lies in the first
region, which maps to offset 0 of the pre-image, and the destination range lies inside the
last region, which maps to itself, away from both of its ends: the last region is cut at
`dstOffset`, and `newRegions` holds the new region and the rest of the last region. -/
theorem plan_split_tail (pd : PageData) (pre : List Region) (t r0 : Region) (d l : Nat)
    (hreg : pd.regions = pre ++ [t]) (ht : TileValid pd.regions)
    (h0 : pd.regions[0]? = some r0) (hr0s : r0.srcOffset = 0) (hr0l : l ≤ r0.length)
    (hts : t.srcOffset = t.dstOffset) (hl : 1 ≤ l) (hd1 : t.dstOffset < d)
    (hd2 : d + l < BLCKSZ) :
    memoryMovePlan pd d 0 l = .ok
      { regions := pre ++ [{ t with length := d - t.dstOffset }]
        newRegions := [⟨d, 0, l⟩, ⟨d + l, d + l, BLCKSZ - (d + l)⟩]
        leftIndex := (pre.length : Int) + 1
        rightIndex := (pre.length : Int) + 1 } := by
  have hB : BLCKSZ = 8192 := rfl
  have hM : MAX_REGIONS = 256 := rfl
  have ht1 : tilesFrom 0 (pre ++ [t]) = true := by
    rw [← hreg]
    exact ht
  obtain ⟨hget, htl, htend⟩ := tilesFrom_last pre t 0 ht1
  rw [← hreg] at hget
  obtain ⟨hr0len, _, _, hr0d, _⟩ := tilesFrom_get pd.regions 0 0 r0 ht h0
  have hr0d0 : r0.dstOffset = 0 := hr0d rfl
  -- the three searches
  have hfind : ∀ key, key < BLCKSZ → ∀ (j : Nat) (r : Region), pd.regions[j]? = some r →
      r.dstOffset ≤ key → key < r.dstOffset + r.length → findRegion pd key = .ok j := by
    intro key hkey j r hj h1 h2
    obtain ⟨j1, r1, hf, hj1, h3, h4⟩ := findRegion_tile pd ht key hkey
    have := tilesFrom_unique pd.regions 0 j1 j key r1 r ht hj1 hj ⟨h3, h4⟩ ⟨h1, h2⟩
    rw [hf, this]
  have hsrc : findRegion pd 0 = .ok 0 := hfind 0 (by omega) 0 r0 h0 (by omega) (by omega)
  have hleft : findRegion pd (if d > 0 then d - 1 else 0) = .ok pre.length := by
    rw [if_pos (by omega)]
    exact hfind (d - 1) (by omega) pre.length t hget (by omega) (by omega)
  have hright : findRegion pd
      (if d + l < BLCKSZ then asOffsetNumber ((d : Int) + l) else BLCKSZ - 1) = .ok pre.length := by
    rw [if_pos hd2, asOffsetNumber_eq _ (d + l) (by omega) (by omega)]
    exact hfind (d + l) (by omega) pre.length t hget (by omega) (by omega)
  -- the new region
  obtain ⟨rest, hrest⟩ : ∃ rest, pd.regions = r0 :: rest := by
    cases hc : pd.regions with
    | nil =>
      rw [hc] at h0
      cases h0
    | cons a rest =>
      rw [hc, List.getElem?_cons_zero] at h0
      cases h0
      exact ⟨rest, rfl⟩
  have hnew : makeNewRegions d (pd.regions.drop 0) 0 l [] = .ok [⟨d, 0, l⟩] := by
    rw [List.drop_zero, hrest]
    unfold makeNewRegions
    rw [if_neg (by omega)]
    dsimp only
    rw [if_neg (by rw [List.length_nil]; omega)]
    have e1 : asOffsetNumber (((0 : Nat) : Int) - (r0.dstOffset : Int)) = 0 :=
      asOffsetNumber_eq _ 0 (by omega) (by omega)
    rw [e1]
    have e2 : asOffsetNumber (min ((r0.length : Int) - ((0 : Nat) : Int)) (l : Int)) = l :=
      asOffsetNumber_eq _ l (by omega) (by omega)
    rw [e2]
    have e3 : asOffsetNumber ((r0.srcOffset : Int) + ((0 : Nat) : Int)) = 0 :=
      asOffsetNumber_eq _ 0 (by omega) (by omega)
    have e4 : asOffsetNumber ((l : Int) - (l : Int)) = 0 :=
      asOffsetNumber_eq _ 0 (by omega) (by omega)
    rw [e3, e4, makeNewRegions_zero]
    rfl
  have hcl : checkLeft t d ⟨d, 0, l⟩ [⟨d, 0, l⟩] =
      { newRegions := [⟨d, 0, l⟩], leftAdjacent := false, leftLength := d - t.dstOffset } := by
    unfold checkLeft
    dsimp only
    rw [if_neg (by omega), if_neg (by omega),
      asOffsetNumber_eq _ (d - t.dstOffset) (by omega) (by omega)]
  have hcr : checkRight pd.regions pre.length t d l false [⟨d, 0, l⟩] ⟨d, 0, l⟩ =
      .ok { newRegions := [⟨d, 0, l⟩, ⟨d + l, d + l, BLCKSZ - (d + l)⟩], regions := pd.regions,
            rightAdjacent := true } := by
    unfold checkRight
    dsimp only
    rw [if_neg (by omega), if_neg (by omega)]
    simp only [Bool.false_eq_true, not_false_eq_true, if_true, List.length_cons, List.length_nil]
    rw [if_neg (by omega),
      asOffsetNumber_eq _ (d + l) (by omega) (by omega),
      asOffsetNumber_eq _ (d + l) (by omega) (by omega),
      asOffsetNumber_eq _ (BLCKSZ - (d + l)) (by omega) (by omega)]
    rfl
  unfold memoryMovePlan
  simp only [bind, Except.bind, pure, Except.pure, hsrc, hnew, hleft, fetch_of_get hget,
    fetchNew, List.getElem?_cons_zero, hcl, hright, List.length_cons, List.length_nil,
    Nat.zero_add, Nat.sub_self, hcr, Bool.false_eq_true, not_false_eq_true, if_true, if_false]
  congr 1
  rw [hreg, List.set_append_right _ _ (Nat.le_refl _), Nat.sub_self]
  rfl

/-! ## A run of moves that fills the region array -/

theorem overflowRun_zero : overflowRun 0 = registeredSystem := rfl

theorem overflowRun_succ (k : Nat) :
    overflowRun (k + 1) =
      (GenericXLogMemmove (imageAddr 0 + ((100 + 40 * k : Nat) : Int))
        (imageAddr 0 + ((0 : Nat) : Int)) 10 (overflowRun k)).2 := rfl

attribute [irreducible] overflowRun

theorem runInv_zero : RunInv 0 registeredSystem where
  status := rfl
  world := rfl
  buffer := rfl
  full := rfl
  overflow := rfl
  tile := rfl
  regions := ⟨[], identityRegion, identityRegion, rfl, rfl, rfl, rfl, by decide, rfl,
    Nat.zero_le _⟩
  low := fun x hx => by
    show memcpy _ 0 samplePage 0 BLCKSZ x = samplePage x
    have hB : BLCKSZ = 8192 := rfl
    unfold memcpy
    rw [if_pos (by omega)]
    congr 1
    omega
  moved := fun h => absurd h (by decide)
  others := fun _ _ => rfl

/-- One more call of the run, while the region array has room: the call returns and the
invariant of the run holds with one more call made. -/
theorem runInv_step (k : Nat) (hk : k ≤ 126) (s : System) (h : RunInv k s) :
    (GenericXLogMemmove (imageAddr 0 + ((100 + 40 * k : Nat) : Int))
      (imageAddr 0 + ((0 : Nat) : Int)) 10 s).1 = .ok () ∧
    RunInv (k + 1) (GenericXLogMemmove (imageAddr 0 + ((100 + 40 * k : Nat) : Int))
      (imageAddr 0 + ((0 : Nat) : Int)) 10 s).2 := by
  have hB : BLCKSZ = 8192 := rfl
  have hM : MAX_REGIONS = 256 := rfl
  obtain ⟨hst, hw, hbuf, hfull, hov, htile, ⟨pre, t, r0, hreg, hpre, h0, hr0s, hr0l, hts, htd⟩,
    hlow, hmoved, hothers⟩ := h
  have hplan := plan_split_tail (s.pages 0) pre t r0 (100 + 40 * k) 10 hreg htile h0 hr0s hr0l hts
    (by omega) (by omega) (by omega)
  have hb : (s.pages 0).buffer ≠ InvalidBuffer := by
    rw [hbuf]
    decide
  have hmm := memoryMove_of_plan s.world (s.pages 0) (100 + 40 * k) 0 10 _ hov hb hplan
  have hcount : (s.pages 0).regionsCount = 2 * k + 1 := by
    unfold PageData.regionsCount
    rw [hreg, List.length_append, hpre]
    rfl
  have hfit : ¬ (((s.pages 0).regionsCount : Int) +
      (Splice.shift
        { regions := pre ++ [{ t with length := 100 + 40 * k - t.dstOffset }]
          newRegions := [⟨100 + 40 * k, 0, 10⟩,
            ⟨100 + 40 * k + 10, 100 + 40 * k + 10, BLCKSZ - (100 + 40 * k + 10)⟩]
          leftIndex := (pre.length : Int) + 1
          rightIndex := (pre.length : Int) + 1 }) > (MAX_REGIONS : Int)) := by
    unfold Splice.shift
    simp only [List.length_cons, List.length_nil]
    rw [hcount]
    omega
  rw [if_neg hfit] at hmm
  have hsp : Splice.spliced
      { regions := pre ++ [{ t with length := 100 + 40 * k - t.dstOffset }]
        newRegions := [⟨100 + 40 * k, 0, 10⟩,
          ⟨100 + 40 * k + 10, 100 + 40 * k + 10, BLCKSZ - (100 + 40 * k + 10)⟩]
        leftIndex := (pre.length : Int) + 1
        rightIndex := (pre.length : Int) + 1 }
      = (pre ++ [{ t with length := 100 + 40 * k - t.dstOffset }, ⟨100 + 40 * k, 0, 10⟩])
        ++ [⟨100 + 40 * k + 10, 100 + 40 * k + 10, BLCKSZ - (100 + 40 * k + 10)⟩] := by
    unfold Splice.spliced
    dsimp only
    have e1 : ((pre.length : Int) + 1).toNat = pre.length + 1 := by omega
    rw [e1]
    have e2 : (pre ++ [{ t with length := 100 + 40 * k - t.dstOffset }]).length
        = pre.length + 1 := by simp
    rw [← e2, List.take_length, List.drop_length]
    simp
  rw [hsp] at hmm
  have hcall := memmove_eq s 0 (100 + 40 * k) 0 10 (by rw [hst]; decide) (by decide)
    (by omega) (by omega) (by omega)
  rw [hfull] at hcall
  simp only [Bool.false_eq_true, if_false, hmm] at hcall
  rw [hcall]
  obtain ⟨_, htl, htend⟩ := tilesFrom_last pre t 0 (by rw [← hreg]; exact htile)
  refine ⟨rfl, ⟨hst, hw, hbuf, hfull, hov, ?_, ?_, ?_, ?_, ?_⟩⟩
  · -- the new list tiles the page
    show tilesFrom 0 ((pre ++ [{ t with length := 100 + 40 * k - t.dstOffset },
      ⟨100 + 40 * k, 0, 10⟩])
        ++ [⟨100 + 40 * k + 10, 100 + 40 * k + 10, BLCKSZ - (100 + 40 * k + 10)⟩]) = true
    rw [List.append_assoc]
    refine tilesFrom_append pre [t] _ ?_ 0 (by rw [← hreg]; exact htile)
    intro p hp
    simp only [tilesFrom, Bool.and_eq_true, beq_iff_eq, decide_eq_true_eq, List.cons_append,
      List.nil_append] at hp ⊢
    omega
  · refine ⟨pre ++ [({ t with length := 100 + 40 * k - t.dstOffset } : Region),
        (⟨100 + 40 * k, 0, 10⟩ : Region)],
      (⟨100 + 40 * k + 10, 100 + 40 * k + 10, BLCKSZ - (100 + 40 * k + 10)⟩ : Region),
      ({ r0 with length := if pre = [] then 100 + 40 * k - t.dstOffset else r0.length } : Region),
      rfl, ?_, ?_, hr0s, ?_, rfl, by show 100 + 40 * k + 10 ≤ 70 + 40 * (k + 1); omega⟩
    · simp only [List.length_append, List.length_cons, List.length_nil]
      omega
    · show ((pre ++ [{ t with length := 100 + 40 * k - t.dstOffset },
        ⟨100 + 40 * k, 0, 10⟩])
          ++ [⟨100 + 40 * k + 10, 100 + 40 * k + 10, BLCKSZ - (100 + 40 * k + 10)⟩])[0]? = _
      cases pre with
      | nil =>
        rw [hreg] at h0
        simp only [List.nil_append, List.getElem?_cons_zero, Option.some.injEq] at h0
        subst h0
        simp
      | cons c rest =>
        rw [hreg] at h0
        simp only [List.cons_append, List.getElem?_cons_zero, Option.some.injEq] at h0
        subst h0
        simp
    · show 10 ≤ if pre = [] then 100 + 40 * k - t.dstOffset else r0.length
      split
      · omega
      · exact hr0l
  · intro x hx
    show memcpy (s.pages 0).image (100 + 40 * k) (s.pages 0).image 0 10 x = samplePage x
    unfold memcpy
    rw [if_neg (by omega)]
    exact hlow x hx
  · intro _
    show memcpy (s.pages 0).image (100 + 40 * k) (s.pages 0).image 0 10 100 = 0
    unfold memcpy
    by_cases hk0 : k = 0
    · subst hk0
      rw [if_pos (by omega)]
      exact hlow 0 (by omega)
    · rw [if_neg (by omega)]
      exact hmoved (by omega)
  · intro j hj
    show setPage s.pages 0 _ j = _
    unfold setPage
    rw [if_neg hj]
    exact hothers j hj

/-- The invariant of the run holds after each of the first 127 calls. -/
theorem runInv_all : ∀ k, k ≤ 127 → RunInv k (overflowRun k) := by
  intro k
  induction k with
  | zero =>
    intro _
    rw [overflowRun_zero]
    exact runInv_zero
  | succ k ih =>
    intro hk
    rw [overflowRun_succ]
    exact (runInv_step k (by omega) (overflowRun k) (ih (by omega))).2

/-- The slot of the run has `2 * k + 1` regions after `k` calls. -/
theorem runInv_count {k : Nat} {s : System} (h : RunInv k s) :
    (s.pages 0).regionsCount = 2 * k + 1 := by
  obtain ⟨pre, t, r0, hreg, hpre, _⟩ := h.regions
  unfold PageData.regionsCount
  rw [hreg, List.length_append, hpre]
  rfl

/-- The call number 128 of the run finds 255 regions and would leave 257: the capacity check
fires, `initPageData` loads the page of the buffer into the image again, and the bytes are
moved on that. -/
theorem run_overflows (s : System) (h : RunInv 127 s) :
    GenericXLogMemmove (imageAddr 0 + ((100 + 40 * 127 : Nat) : Int))
        (imageAddr 0 + ((0 : Nat) : Int)) 10 s =
      (.ok (), { s with pages := setPage s.pages 0 (movedImage
        { s.pages 0 with image := memcpy (s.pages 0).image 0 samplePage 0 BLCKSZ
                         regions := [identityRegion], data := [], overflow := true }
        (100 + 40 * 127) 0 10) }) := by
  have hB : BLCKSZ = 8192 := rfl
  have hM : MAX_REGIONS = 256 := rfl
  have hcount := runInv_count h
  obtain ⟨hst, hw, hbuf, hfull, hov, htile, ⟨pre, t, r0, hreg, hpre, h0, hr0s, hr0l, hts, htd⟩,
    hlow, hmoved, hothers⟩ := h
  have hplan := plan_split_tail (s.pages 0) pre t r0 (100 + 40 * 127) 10 hreg htile h0 hr0s hr0l
    hts (by omega) (by omega) (by omega)
  have hb : (s.pages 0).buffer ≠ InvalidBuffer := by
    rw [hbuf]
    decide
  have hmm := memoryMove_of_plan s.world (s.pages 0) (100 + 40 * 127) 0 10 _ hov hb hplan
  have hfit : ((s.pages 0).regionsCount : Int) +
      (Splice.shift
        { regions := pre ++ [{ t with length := 100 + 40 * 127 - t.dstOffset }]
          newRegions := [⟨100 + 40 * 127, 0, 10⟩,
            ⟨100 + 40 * 127 + 10, 100 + 40 * 127 + 10, BLCKSZ - (100 + 40 * 127 + 10)⟩]
          leftIndex := (pre.length : Int) + 1
          rightIndex := (pre.length : Int) + 1 }) > (MAX_REGIONS : Int) := by
    unfold Splice.shift
    simp only [List.length_cons, List.length_nil]
    rw [hcount]
    omega
  rw [if_pos hfit] at hmm
  have hpage : s.world.page (s.pages 0).buffer = samplePage := by
    rw [hw, hbuf]
    rfl
  rw [hpage] at hmm
  have hcall := memmove_eq s 0 (100 + 40 * 127) 0 10 (by rw [hst]; decide) (by decide)
    (by omega) (by omega) (by omega)
  rw [hfull] at hcall
  simp only [Bool.false_eq_true, if_false, hmm] at hcall
  exact hcall

/-- Every call of the run finds the same situation: it would add two regions. -/
theorem run_plan {k : Nat} {s : System} (h : RunInv k s) (hk : k ≤ 127) :
    ∃ sp, memoryMovePlan (s.pages 0) (100 + 40 * k) 0 10 = .ok sp ∧ sp.shift = 2 := by
  have hB : BLCKSZ = 8192 := rfl
  obtain ⟨pre, t, r0, hreg, hpre, h0, hr0s, hr0l, hts, htd⟩ := h.regions
  have hplan := plan_split_tail (s.pages 0) pre t r0 (100 + 40 * k) 10 hreg h.tile h0 hr0s hr0l
    hts (by omega) (by omega) (by omega)
  refine ⟨_, hplan, ?_⟩
  unfold Splice.shift
  simp only [List.length_cons, List.length_nil]
  omega

/-- Call number 128 of the run returns, and leaves slot 0 overflowed with the page of the buffer
loaded again. -/
theorem run_overflowed (s : System) (h : RunInv 127 s) :
    (GenericXLogMemmove (imageAddr 0 + ((100 + 40 * 127 : Nat) : Int))
      (imageAddr 0 + ((0 : Nat) : Int)) 10 s).1 = .ok () ∧
    OverflowedInv (GenericXLogMemmove (imageAddr 0 + ((100 + 40 * 127 : Nat) : Int))
      (imageAddr 0 + ((0 : Nat) : Int)) 10 s).2 := by
  have hB : BLCKSZ = 8192 := rfl
  refine ⟨by rw [run_overflows s h], ⟨?_, ?_, ?_, ?_, ?_, ?_, ?_, ?_, ?_⟩⟩
  · rw [run_overflows s h]
    exact h.status
  · rw [run_overflows s h]
    exact h.world
  · rw [run_overflows s h]
    exact h.buffer
  · rw [run_overflows s h]
    exact h.full
  · rw [run_overflows s h]
    rfl
  · rw [run_overflows s h]
    rfl
  · rw [run_overflows s h]
    rfl
  · intro k hk
    have e : (GenericXLogMemmove (imageAddr 0 + ((100 + 40 * 127 : Nat) : Int))
        (imageAddr 0 + ((0 : Nat) : Int)) 10 s).2.pages 0 = movedImage
          { s.pages 0 with image := memcpy (s.pages 0).image 0 samplePage 0 BLCKSZ
                           regions := [identityRegion], data := [], overflow := true }
          (100 + 40 * 127) 0 10 := by
      rw [run_overflows s h]
      rfl
    rw [e]
    unfold movedImage memcpy
    dsimp only
    by_cases hin : 5180 ≤ k ∧ k < 5190
    · have e : 0 + (0 + (k - (100 + 40 * 127)) - 0) = k - 5180 := by omega
      rw [if_pos (show 100 + 40 * 127 ≤ k ∧ k < 100 + 40 * 127 + 10 by omega),
        if_pos (show 0 ≤ 0 + (k - (100 + 40 * 127)) ∧ 0 + (k - (100 + 40 * 127)) < 0 + BLCKSZ
          by omega), if_pos hin, e]
    · have e : 0 + (k - 0) = k := by omega
      rw [if_neg (show ¬ (100 + 40 * 127 ≤ k ∧ k < 100 + 40 * 127 + 10) by omega),
        if_pos (show 0 ≤ k ∧ k < 0 + BLCKSZ by omega), if_neg hin, e]
  · intro j hj
    rw [run_overflows s h]
    show setPage s.pages 0 _ j = _
    unfold setPage
    rw [if_neg hj]
    exact h.others j hj

/-- The state after the 128 calls of the run. -/
theorem overflowRun_overflowed : OverflowedInv (overflowRun 128) := by
  rw [overflowRun_succ 127]
  exact (run_overflowed (overflowRun 127) (runInv_all 127 (Nat.le_refl _))).2

/-! ## `GenericXLogMemmove`: the claims -/

/-- When `memoryMove` returns without having set `overflow` in this call, it has left the
image alone. -/
theorem memoryMove_image {w : World} {pd pd1 : PageData} {d s l : Nat}
    (h : memoryMove w pd d s l = .ok pd1)
    (hno : pd.overflow = true ∨ pd1.overflow = false) : pd1.image = pd.image := by
  unfold memoryMove at h
  split at h
  · cases h
    rfl
  · rename_i hov
    split at h
    · cases h
    · cases h
      rfl
    · split at h
      · cases h
      · cases h
        rcases hno with hno | hno
        · exact absurd hno hov
        · cases hno

/-- For a registered slot with `fullImage = false`, a `GenericXLogMemmove(dst, src, len)`
with `len ≥ 1` and both ranges inside the image of the slot that returns without triggering
the overflow in this call leaves `image'[dst + k] = image[src + k]` for every `k < len`, also
when the two ranges overlap, and leaves every byte outside `[dst, dst + len)` unchanged.  The
call does return when the slot has its overflow flag set, and when its region list tiles the
page and has fewer than `MAX_REGIONS` entries. -/
theorem memmove_moves_bytes (s : System) (i dstOff srcOff len : Nat)
    (hs : s.genericXlogStatus ≠ .GXLOG_NOT_STARTED) (hreg : Registered s i)
    (hfull : (s.pages i).fullImage = false) (hlen : 1 ≤ len)
    (hd : dstOff + len ≤ BLCKSZ) (hsrc : srcOff + len ≤ BLCKSZ) :
    (((s.pages i).overflow = true ∨
        (TileValid (s.pages i).regions ∧ (s.pages i).regionsCount < MAX_REGIONS)) →
      (GenericXLogMemmove (imageAddr i + dstOff) (imageAddr i + srcOff) len s).1 = .ok ()) ∧
    ((GenericXLogMemmove (imageAddr i + dstOff) (imageAddr i + srcOff) len s).1 = .ok () →
      ((s.pages i).overflow = true ∨
        ((GenericXLogMemmove (imageAddr i + dstOff) (imageAddr i + srcOff) len s).2.pages
          i).overflow = false) →
      (∀ k, k < len →
        ((GenericXLogMemmove (imageAddr i + dstOff) (imageAddr i + srcOff) len s).2.pages
          i).image (dstOff + k) = (s.pages i).image (srcOff + k)) ∧
      (∀ k, ¬ (dstOff ≤ k ∧ k < dstOff + len) →
        ((GenericXLogMemmove (imageAddr i + dstOff) (imageAddr i + srcOff) len s).2.pages
          i).image k = (s.pages i).image k)) := by
  obtain ⟨hi, hb⟩ := hreg
  rw [memmove_eq s i dstOff srcOff len hs hi (by omega) hd hsrc, hfull]
  simp only [Bool.false_eq_true, if_false]
  constructor
  · intro hret
    have hok : ∃ pd1, memoryMove s.world (s.pages i) dstOff srcOff len = .ok pd1 := by
      cases hov : (s.pages i).overflow with
      | true =>
        refine ⟨s.pages i, ?_⟩
        unfold memoryMove
        rw [if_pos hov]
      | false =>
        rcases hret with hret | ⟨ht, hc⟩
        · rw [hov] at hret
          cases hret
        · obtain ⟨sp, hsp⟩ := memoryMovePlan_total (s.pages i) ht dstOff srcOff len hlen hsrc hd hc
          rw [memoryMove_of_plan s.world (s.pages i) dstOff srcOff len sp hov hb hsp]
          split
          · exact ⟨_, rfl⟩
          · exact ⟨_, rfl⟩
    obtain ⟨pd1, hpd1⟩ := hok
    rw [hpd1]
  · cases hmm : memoryMove s.world (s.pages i) dstOff srcOff len with
    | error e =>
      intro hret
      cases hret
    | ok pd1 =>
      intro _ hno
      have himg : pd1.image = (s.pages i).image := by
        refine memoryMove_image hmm ?_
        rcases hno with hno | hno
        · exact Or.inl hno
        · refine Or.inr ?_
          simpa [setPage, movedImage] using hno
      constructor
      · intro k hk
        show (setPage s.pages i (movedImage pd1 dstOff srcOff len) i).image (dstOff + k) = _
        simp only [setPage, if_true, movedImage, memcpy, himg]
        rw [if_pos (by omega)]
        congr 1
        omega
      · intro k hk
        show (setPage s.pages i (movedImage pd1 dstOff srcOff len) i).image k = _
        simp only [setPage, if_true, movedImage, memcpy, himg]
        rw [if_neg hk]

/-- Instance of `memmove_moves_bytes`: the first move of the sample run, on the fresh slot. -/
theorem memmove_moves_bytes_witness :
    Registered registeredSystem 0 ∧
    (GenericXLogMemmove (imageAddr 0 + ((40 : Nat) : Int)) (imageAddr 0 + ((0 : Nat) : Int)) 30
      registeredSystem).1 = .ok () ∧
    (∀ k, k < 30 →
      ((GenericXLogMemmove (imageAddr 0 + ((40 : Nat) : Int)) (imageAddr 0 + ((0 : Nat) : Int)) 30
        registeredSystem).2.pages 0).image (40 + k) = (registeredSystem.pages 0).image (0 + k)) :=
  have hreg : Registered registeredSystem 0 :=
    ⟨by decide, fun hc => absurd (hc : (7 : Buffer) = 0) (by decide)⟩
  have h := memmove_moves_bytes registeredSystem 0 40 0 30 (by decide) hreg rfl (by decide)
    (Nat.le_of_lt_succ (by decide)) (Nat.le_of_lt_succ (by decide))
  have hret := h.1 (Or.inr ⟨rfl, by decide⟩)
  ⟨hreg, hret, (h.2 hret (Or.inr rfl)).1⟩

/-- C12: on a slot registered with `isNew = true` a `GenericXLogMemmove` with both ranges
inside the image returns at the test of `fullImage`, before `memoryMove` and before
`memmove`: the whole state, and with it the working image and the region list, is as it was
before the call.  No byte is moved. -/
theorem memmove_on_full_image_is_skipped (s : System) (i dstOff srcOff len : Nat)
    (hs : s.genericXlogStatus ≠ .GXLOG_NOT_STARTED) (hi : i < MAX_GENERIC_XLOG_PAGES)
    (hfull : (s.pages i).fullImage = true) (hd0 : dstOff < BLCKSZ)
    (hd : dstOff + len ≤ BLCKSZ) (hsrc : srcOff + len ≤ BLCKSZ) :
    GenericXLogMemmove (imageAddr i + dstOff) (imageAddr i + srcOff) len s = (.ok (), s) := by
  rw [memmove_eq s i dstOff srcOff len hs hi hd0 hd hsrc, hfull]
  rfl

/-- Instance of `memmove_on_full_image_is_skipped`: after `GenericXLogRegister(7, true)` on
a page with `P[k] = k % 256`, the call `GenericXLogMemmove(image + 40, image, 30)` returns
normally and byte 40 of the image is still 40, not the byte 0 found at offset 0. -/
theorem memmove_on_full_image_is_skipped_witness :
    (GenericXLogRegister 7 true startedSystem).1 = .ok (imageAddr 0) ∧
    (registeredNew.pages 0).fullImage = true ∧
    GenericXLogMemmove (imageAddr 0 + ((40 : Nat) : Int)) (imageAddr 0 + ((0 : Nat) : Int)) 30
      registeredNew = (.ok (), registeredNew) ∧
    (registeredNew.pages 0).image 0 = 0 ∧
    (registeredNew.pages 0).image 40 = 40 :=
  ⟨rfl, rfl,
    memmove_on_full_image_is_skipped registeredNew 0 40 0 30 (by decide) (by decide) rfl
      (by decide) (Nat.le_of_lt_succ (by decide)) (Nat.le_of_lt_succ (by decide)),
    rfl, rfl⟩

/-- C13: on a slot whose region list tiles the page and whose overflow flag is clear, an
in-bounds `memoryMove` of at least one byte that returns has set `overflow` exactly when the
region count after the splice, `regionsCount + shift`, exceeds `MAX_REGIONS`; in that case the
region list is the single identity region and `regionsCount = 1`; otherwise `overflow` is
still clear, the list is the spliced one, and `regionsCount` lies between 1 and `MAX_REGIONS`.
The call returns whenever the list has fewer than `MAX_REGIONS` entries. -/
theorem capacity_check (w : World) (pd : PageData) (d s l : Nat)
    (ht : TileValid pd.regions) (hov : pd.overflow = false) (hb : pd.buffer ≠ InvalidBuffer)
    (hl : 1 ≤ l) (hs : s + l ≤ BLCKSZ) (hd : d + l ≤ BLCKSZ) :
    (pd.regionsCount < MAX_REGIONS → ∃ pd1, memoryMove w pd d s l = .ok pd1) ∧
    (∀ pd1, memoryMove w pd d s l = .ok pd1 →
      ∃ sp, memoryMovePlan pd d s l = .ok sp ∧
        (sp.spliced.length : Int) = (pd.regionsCount : Int) + sp.shift ∧
        (pd1.overflow = true ↔ sp.spliced.length > MAX_REGIONS) ∧
        (pd1.overflow = true → pd1.regions = [identityRegion] ∧ pd1.regionsCount = 1) ∧
        (pd1.overflow = false →
          pd1.regions = sp.spliced ∧ 1 ≤ pd1.regionsCount ∧ pd1.regionsCount ≤ MAX_REGIONS)) := by
  constructor
  · intro hc
    obtain ⟨sp, hsp⟩ := memoryMovePlan_total pd ht d s l hl hs hd hc
    rw [memoryMove_of_plan w pd d s l sp hov hb hsp]
    split
    · exact ⟨_, rfl⟩
    · exact ⟨_, rfl⟩
  · intro pd1 hmm
    cases hplan : memoryMovePlan pd d s l with
    | error e =>
      exfalso
      unfold memoryMove at hmm
      rw [if_neg (by rw [hov]; exact Bool.false_ne_true), memoryMoveRegions_eq_plan, hplan] at hmm
      cases hmm
    | ok sp =>
      obtain ⟨hlen, hpos⟩ := spliced_length hplan
      rw [memoryMove_of_plan w pd d s l sp hov hb hplan] at hmm
      refine ⟨sp, rfl, hlen, ?_⟩
      by_cases hc : (pd.regionsCount : Int) + sp.shift > MAX_REGIONS
      · rw [if_pos hc] at hmm
        cases hmm
        refine ⟨⟨fun _ => ?_, fun _ => rfl⟩, fun _ => ⟨rfl, rfl⟩, fun hf => ?_⟩
        · have : ((sp.spliced.length : Nat) : Int) > (MAX_REGIONS : Int) := by
            rw [hlen]
            exact hc
          exact_mod_cast this
        · cases hf
      · rw [if_neg hc] at hmm
        cases hmm
        have hle : sp.spliced.length ≤ MAX_REGIONS := by
          have : ((sp.spliced.length : Nat) : Int) ≤ (MAX_REGIONS : Int) := by
            rw [hlen]
            omega
          exact_mod_cast this
        refine ⟨⟨fun hf => ?_, fun hgt => ?_⟩, fun hf => ?_, fun _ => ⟨rfl, hpos, hle⟩⟩
        · rw [hov] at hf
          cases hf
        · exact absurd hle (by omega)
        · rw [hov] at hf
          cases hf

/-- Instance of `capacity_check` on the slot of the run after 127 moves, which holds 255
regions: the next move of the run would leave 257, and it returns with `overflow` set and the
identity region. -/
theorem capacity_check_witness :
    TileValid ((overflowRun 127).pages 0).regions ∧
    ((overflowRun 127).pages 0).overflow = false ∧
    ((overflowRun 127).pages 0).regionsCount = 255 ∧
    (∃ pd1 sp, memoryMove sampleWorld ((overflowRun 127).pages 0) 5180 0 10 = .ok pd1 ∧
      memoryMovePlan ((overflowRun 127).pages 0) 5180 0 10 = .ok sp ∧
      sp.spliced.length = 257 ∧ pd1.overflow = true ∧ pd1.regions = [identityRegion] ∧
      pd1.regionsCount = 1) := by
  have hinv := runInv_all 127 (Nat.le_refl _)
  have hbuf : ((overflowRun 127).pages 0).buffer ≠ InvalidBuffer := by
    rw [hinv.buffer]
    decide
  have h := capacity_check sampleWorld ((overflowRun 127).pages 0) 5180 0 10 hinv.tile
    hinv.overflow hbuf (by decide) (Nat.le_of_lt_succ (by decide))
    (Nat.le_of_lt_succ (by decide))
  have hcount := runInv_count hinv
  obtain ⟨pd1, hpd1⟩ := h.1 (by rw [hcount]; decide)
  obtain ⟨sp, hsp, hlen, hiff, hov, _⟩ := h.2 pd1 hpd1
  obtain ⟨sp1, hsp1, hshift⟩ := run_plan hinv (Nat.le_refl _)
  have hsame : sp1 = sp := by
    have h5180 : 100 + 40 * 127 = 5180 := rfl
    rw [h5180, hsp] at hsp1
    cases hsp1
    rfl
  subst hsame
  have h257 : sp1.spliced.length = 257 := by
    rw [hcount, hshift] at hlen
    omega
  have hov1 : pd1.overflow = true := hiff.2 (by rw [h257]; decide)
  exact ⟨hinv.tile, hinv.overflow, hcount, pd1, sp1, hpd1, hsp, h257, hov1, (hov hov1).1,
    (hov hov1).2⟩

/-- C14: the run of 128 calls `GenericXLogMemmove(image + 100 + 40 * k, image, 10)`,
`k = 0, ..., 127`, on a slot registered for a page with `P[j] = j % 256`.  Every call returns
normally.  After 127 calls the slot holds 255 regions and byte 100 of the working image is 0,
copied there by the first call.  Call number 128 triggers the overflow: `initPageData` loads the
page of the buffer into the image again, so that afterwards byte 100 of the working image is
100, the byte of the buffer page, whereas a plain `memmove` of ten bytes from offset 0 to
offset 5180 on the working image would have left it 0. -/
theorem overflow_reloads_image :
    (∀ k, k < 128 →
      (GenericXLogMemmove (imageAddr 0 + ((100 + 40 * k : Nat) : Int))
        (imageAddr 0 + ((0 : Nat) : Int)) 10 (overflowRun k)).1 = .ok ()) ∧
    ((overflowRun 127).pages 0).overflow = false ∧
    ((overflowRun 127).pages 0).regionsCount = 255 ∧
    ((overflowRun 127).pages 0).image 100 = 0 ∧
    ((overflowRun 128).pages 0).overflow = true ∧
    ((overflowRun 128).pages 0).regions = [identityRegion] ∧
    ((overflowRun 128).pages 0).image 100 = 100 ∧
    memcpy ((overflowRun 127).pages 0).image 5180 ((overflowRun 127).pages 0).image 0 10 100
      = 0 := by
  have hinv := runInv_all 127 (Nat.le_refl _)
  refine ⟨?_, hinv.overflow, runInv_count hinv, hinv.moved (by decide), ?_, ?_, ?_, ?_⟩
  · intro k hk
    by_cases h127 : k = 127
    · subst h127
      exact (run_overflowed (overflowRun 127) hinv).1
    · exact (runInv_step k (by omega) (overflowRun k) (runInv_all k (by omega))).1
  · exact overflowRun_overflowed.overflow
  · exact overflowRun_overflowed.regions
  · rw [overflowRun_overflowed.image 100 (by decide), if_neg (by omega)]
    rfl
  · unfold memcpy
    rw [if_neg (by omega)]
    exact hinv.moved (by decide)

/-- With `overflow` set `memoryMove` returns at once and `GenericXLogMemmove` goes on to
`memmove`: the region list is kept and the bytes are moved. -/
theorem memmove_of_overflow (s : System) (i dstOff srcOff len : Nat)
    (hs : s.genericXlogStatus ≠ .GXLOG_NOT_STARTED) (hi : i < MAX_GENERIC_XLOG_PAGES)
    (hfull : (s.pages i).fullImage = false) (hov : (s.pages i).overflow = true)
    (hd0 : dstOff < BLCKSZ) (hd : dstOff + len ≤ BLCKSZ) (hsrc : srcOff + len ≤ BLCKSZ) :
    (GenericXLogMemmove (imageAddr i + dstOff) (imageAddr i + srcOff) len s).1 = .ok () ∧
    ((GenericXLogMemmove (imageAddr i + dstOff) (imageAddr i + srcOff) len s).2.pages i).regions
      = (s.pages i).regions ∧
    ((GenericXLogMemmove (imageAddr i + dstOff) (imageAddr i + srcOff) len s).2.pages
      i).regionsCount = (s.pages i).regionsCount ∧
    ((GenericXLogMemmove (imageAddr i + dstOff) (imageAddr i + srcOff) len s).2.pages i).overflow
      = true ∧
    ((s.pages i).regions = [identityRegion] →
      ((GenericXLogMemmove (imageAddr i + dstOff) (imageAddr i + srcOff) len s).2.pages
        i).regions = [identityRegion]) ∧
    ((GenericXLogMemmove (imageAddr i + dstOff) (imageAddr i + srcOff) len s).2.pages i).image
      = memcpy (s.pages i).image dstOff (s.pages i).image srcOff len ∧
    (∀ j, j ≠ i →
      (GenericXLogMemmove (imageAddr i + dstOff) (imageAddr i + srcOff) len s).2.pages j
        = s.pages j) := by
  have hmm : memoryMove s.world (s.pages i) dstOff srcOff len = .ok (s.pages i) := by
    unfold memoryMove
    rw [if_pos hov]
  rw [memmove_eq s i dstOff srcOff len hs hi hd0 hd hsrc, hfull, if_neg Bool.false_ne_true, hmm]
  dsimp only
  refine ⟨rfl, ?_, ?_, ?_, ?_, ?_, ?_⟩
  · simp [setPage, movedImage]
  · simp [setPage, movedImage, PageData.regionsCount]
  · simp [setPage, movedImage, hov]
  · intro hid
    simp [setPage, movedImage, hid]
  · simp [setPage, movedImage]
  · intro j hj
    simp [setPage, hj]

/-- C15: on a slot that is not a full image and whose overflow flag is set, a
`GenericXLogMemmove` with both ranges inside the image returns normally, leaves `regions`,
`regionsCount` and `overflow` as they were (a list that is the single identity region stays
so), and makes the image the result of a plain `memmove` of `len` bytes from `src` to `dst`;
the other slots are untouched. -/
theorem memmove_after_overflow (s : System) (i dstOff srcOff len : Nat)
    (hs : s.genericXlogStatus ≠ .GXLOG_NOT_STARTED) (hi : i < MAX_GENERIC_XLOG_PAGES)
    (hfull : (s.pages i).fullImage = false) (hov : (s.pages i).overflow = true)
    (hd0 : dstOff < BLCKSZ) (hd : dstOff + len ≤ BLCKSZ) (hsrc : srcOff + len ≤ BLCKSZ) :
    (GenericXLogMemmove (imageAddr i + dstOff) (imageAddr i + srcOff) len s).1 = .ok () ∧
    ((GenericXLogMemmove (imageAddr i + dstOff) (imageAddr i + srcOff) len s).2.pages i).regions
      = (s.pages i).regions ∧
    ((GenericXLogMemmove (imageAddr i + dstOff) (imageAddr i + srcOff) len s).2.pages
      i).regionsCount = (s.pages i).regionsCount ∧
    ((GenericXLogMemmove (imageAddr i + dstOff) (imageAddr i + srcOff) len s).2.pages i).overflow
      = true ∧
    ((s.pages i).regions = [identityRegion] →
      ((GenericXLogMemmove (imageAddr i + dstOff) (imageAddr i + srcOff) len s).2.pages
        i).regions = [identityRegion]) ∧
    ((GenericXLogMemmove (imageAddr i + dstOff) (imageAddr i + srcOff) len s).2.pages i).image
      = memcpy (s.pages i).image dstOff (s.pages i).image srcOff len ∧
    (∀ j, j ≠ i →
      (GenericXLogMemmove (imageAddr i + dstOff) (imageAddr i + srcOff) len s).2.pages j
        = s.pages j) :=
  memmove_of_overflow s i dstOff srcOff len hs hi hfull hov hd0 hd hsrc

/-- Instance of `memmove_after_overflow` on the slot that the run of 128 moves has
overflowed: a further move of eight bytes from offset 16 to offset 0. -/
theorem memmove_after_overflow_witness :
    ((overflowRun 128).pages 0).fullImage = false ∧
    ((overflowRun 128).pages 0).overflow = true ∧
    (GenericXLogMemmove (imageAddr 0 + ((0 : Nat) : Int)) (imageAddr 0 + ((16 : Nat) : Int)) 8
      (overflowRun 128)).1 = .ok () ∧
    ((GenericXLogMemmove (imageAddr 0 + ((0 : Nat) : Int)) (imageAddr 0 + ((16 : Nat) : Int)) 8
      (overflowRun 128)).2.pages 0).regions = [identityRegion] ∧
    ((GenericXLogMemmove (imageAddr 0 + ((0 : Nat) : Int)) (imageAddr 0 + ((16 : Nat) : Int)) 8
      (overflowRun 128)).2.pages 0).image
      = memcpy ((overflowRun 128).pages 0).image 0 ((overflowRun 128).pages 0).image 16 8 := by
  have hst : (overflowRun 128).genericXlogStatus ≠ .GXLOG_NOT_STARTED := by
    rw [overflowRun_overflowed.status]
    decide
  have hov := overflowRun_overflowed.overflow
  have hreg := overflowRun_overflowed.regions
  have hfull := overflowRun_overflowed.full
  have h := memmove_after_overflow (overflowRun 128) 0 0 16 8 hst (by decide) hfull hov
    (by decide) (Nat.le_of_lt_succ (by decide)) (Nat.le_of_lt_succ (by decide))
  exact ⟨hfull, hov, h.1, h.2.2.2.2.1 hreg, h.2.2.2.2.2.1⟩

/-- Giving up a transaction, starting a new one and registering a valid buffer: the calls
succeed, the buffer goes to slot 0 with a copy of its page, the identity region and no data,
and the overflow flag of slot 0 is left as it was. -/
theorem register_after_restart (s : System) (buffer : Buffer) (isNew needsWAL : Bool)
    (hs : s.genericXlogStatus ≠ .GXLOG_NOT_STARTED) (hb : buffer ≠ InvalidBuffer) :
    (GenericXLogAbort s).1 = .ok () ∧
    (GenericXLogStart needsWAL (GenericXLogAbort s).2).1 = .ok () ∧
    (GenericXLogRegister buffer isNew
      (GenericXLogStart needsWAL (GenericXLogAbort s).2).2).1 = .ok (imageAddr 0) ∧
    (GenericXLogRegister buffer isNew
      (GenericXLogStart needsWAL (GenericXLogAbort s).2).2).2.genericXlogStatus
        ≠ .GXLOG_NOT_STARTED ∧
    ((GenericXLogRegister buffer isNew
      (GenericXLogStart needsWAL (GenericXLogAbort s).2).2).2.pages 0).buffer = buffer ∧
    ((GenericXLogRegister buffer isNew
      (GenericXLogStart needsWAL (GenericXLogAbort s).2).2).2.pages 0).regions
        = [identityRegion] ∧
    ((GenericXLogRegister buffer isNew
      (GenericXLogStart needsWAL (GenericXLogAbort s).2).2).2.pages 0).fullImage = isNew ∧
    ((GenericXLogRegister buffer isNew
      (GenericXLogStart needsWAL (GenericXLogAbort s).2).2).2.pages 0).overflow
        = (s.pages 0).overflow ∧
    ((GenericXLogRegister buffer isNew
      (GenericXLogStart needsWAL (GenericXLogAbort s).2).2).2.pages 0).data = [] ∧
    (∀ k, k < BLCKSZ →
      ((GenericXLogRegister buffer isNew
        (GenericXLogStart needsWAL (GenericXLogAbort s).2).2).2.pages 0).image k
          = s.world.page buffer k) ∧
    (GenericXLogRegister buffer isNew
      (GenericXLogStart needsWAL (GenericXLogAbort s).2).2).2.world = s.world := by
  have hab : GenericXLogAbort s = (.ok (), { s with genericXlogStatus := .GXLOG_NOT_STARTED }) := by
    unfold GenericXLogAbort
    rw [if_neg hs]
  have hst : (GenericXLogAbort s).2.genericXlogStatus = .GXLOG_NOT_STARTED := by
    rw [hab]
  have hreach : Reach 0 (GenericXLogStart needsWAL (GenericXLogAbort s).2).2 :=
    Reach.start needsWAL _ hst
  have hreg := register_fresh (reach_slotsOK hreach) buffer isNew hb (by decide)
    (fun j hj => absurd hj (Nat.not_lt_zero j))
  have hov : ((GenericXLogStart needsWAL (GenericXLogAbort s).2).2.pages 0).overflow
      = (s.pages 0).overflow := by
    rw [start_snd needsWAL _ hst, hab]
    dsimp only
    rw [if_pos (by decide)]
  have hworld : (GenericXLogStart needsWAL (GenericXLogAbort s).2).2.world = s.world := by
    rw [start_snd needsWAL _ hst, hab]
  have hstarted := (reach_slotsOK hreach).started
  rw [hreg]
  refine ⟨by rw [hab], start_fst needsWAL _ hst, rfl, hstarted, ?_, ?_, ?_, ?_, ?_, ?_, hworld⟩
  · simp [setPage, freshSlot]
  · simp [setPage, freshSlot]
  · simp [setPage, freshSlot]
  · simp only [setPage, if_true, freshSlot]
    exact hov
  · simp [setPage, freshSlot]
  · intro k hk
    simp only [setPage, if_true, freshSlot, memcpy, hworld]
    rw [if_pos ⟨Nat.zero_le _, by omega⟩]
    congr 1
    omega

/-- C17: `initPageData` does not assign `overflow`, and neither do `GenericXLogAbort` and
`GenericXLogStart`.  From every started state, giving up the transaction, starting a new one
and registering a valid buffer succeeds and takes slot 0, with the identity region, and the
overflow flag of slot 0 is what it was at the end of the earlier transaction. -/
theorem overflow_survives_restart (s : System) (buffer : Buffer) (isNew needsWAL : Bool)
    (hs : s.genericXlogStatus ≠ .GXLOG_NOT_STARTED) (hb : buffer ≠ InvalidBuffer) :
    (GenericXLogAbort s).1 = .ok () ∧
    (GenericXLogStart needsWAL (GenericXLogAbort s).2).1 = .ok () ∧
    (GenericXLogRegister buffer isNew
      (GenericXLogStart needsWAL (GenericXLogAbort s).2).2).1 = .ok (imageAddr 0) ∧
    (GenericXLogRegister buffer isNew
      (GenericXLogStart needsWAL (GenericXLogAbort s).2).2).2.genericXlogStatus
        ≠ .GXLOG_NOT_STARTED ∧
    ((GenericXLogRegister buffer isNew
      (GenericXLogStart needsWAL (GenericXLogAbort s).2).2).2.pages 0).buffer = buffer ∧
    ((GenericXLogRegister buffer isNew
      (GenericXLogStart needsWAL (GenericXLogAbort s).2).2).2.pages 0).regions
        = [identityRegion] ∧
    ((GenericXLogRegister buffer isNew
      (GenericXLogStart needsWAL (GenericXLogAbort s).2).2).2.pages 0).fullImage = isNew ∧
    ((GenericXLogRegister buffer isNew
      (GenericXLogStart needsWAL (GenericXLogAbort s).2).2).2.pages 0).overflow
        = (s.pages 0).overflow :=
  have h := register_after_restart s buffer isNew needsWAL hs hb
  ⟨h.1, h.2.1, h.2.2.1, h.2.2.2.1, h.2.2.2.2.1, h.2.2.2.2.2.1, h.2.2.2.2.2.2.1,
    h.2.2.2.2.2.2.2.1⟩

/-- Instance of `overflow_survives_restart` after the run of 128 moves has overflowed slot 0:
in the next transaction the slot registered for buffer 7 has `overflow = true` from the
start, and the move `GenericXLogMemmove(image + 40, image, 30)` leaves its region list the
single identity region. -/
theorem overflow_survives_restart_witness :
    ((overflowRun 128).pages 0).overflow = true ∧
    (GenericXLogAbort (overflowRun 128)).1 = .ok () ∧
    (GenericXLogStart true (GenericXLogAbort (overflowRun 128)).2).1 = .ok () ∧
    (GenericXLogRegister 7 false
      (GenericXLogStart true (GenericXLogAbort (overflowRun 128)).2).2).1 = .ok (imageAddr 0) ∧
    ((GenericXLogRegister 7 false
      (GenericXLogStart true (GenericXLogAbort (overflowRun 128)).2).2).2.pages 0).regions
        = [identityRegion] ∧
    ((GenericXLogRegister 7 false
      (GenericXLogStart true (GenericXLogAbort (overflowRun 128)).2).2).2.pages 0).overflow
        = true ∧
    (GenericXLogMemmove (imageAddr 0 + ((40 : Nat) : Int)) (imageAddr 0 + ((0 : Nat) : Int)) 30
      (GenericXLogRegister 7 false
        (GenericXLogStart true (GenericXLogAbort (overflowRun 128)).2).2).2).1 = .ok () ∧
    ((GenericXLogMemmove (imageAddr 0 + ((40 : Nat) : Int)) (imageAddr 0 + ((0 : Nat) : Int)) 30
      (GenericXLogRegister 7 false
        (GenericXLogStart true (GenericXLogAbort (overflowRun 128)).2).2).2).2.pages 0).regions
        = [identityRegion] := by
  have hst : (overflowRun 128).genericXlogStatus ≠ .GXLOG_NOT_STARTED := by
    rw [overflowRun_overflowed.status]
    decide
  obtain ⟨h1, h2, h3, h4, _, h5, h6, h7⟩ :=
    overflow_survives_restart (overflowRun 128) 7 false true hst (by decide)
  rw [overflowRun_overflowed.overflow] at h7
  have hm := memmove_of_overflow _ 0 40 0 30 h4 (by decide) h6 h7
    (by decide) (Nat.le_of_lt_succ (by decide)) (Nat.le_of_lt_succ (by decide))
  exact ⟨overflowRun_overflowed.overflow, h1, h2, h3, h5, h7, hm.1, hm.2.2.2.2.1 h5⟩

/-! ## The encoder on the single identity region -/

theorem writeCopyFlagment_eq (data : List Nat) (len : Nat) (W : Page) (off : Nat) :
    writeCopyFlagment data len W off = data ++ (Instr.copy (pageBytes W off len)).bytes := by
  unfold writeCopyFlagment Instr.bytes pageBytes
  simp only [List.length_map, List.length_range, List.append_assoc]

theorem writeMoveFlagment_eq (data : List Nat) (len source : Nat) :
    writeMoveFlagment data len source = data ++ (Instr.move len source).bytes := by
  rfl

theorem serialize_append (a b : List Instr) : serialize (a ++ b) = serialize a ++ serialize b := by
  induction a with
  | nil => rfl
  | cons x rest ih =>
    show x.bytes ++ serialize (rest ++ b) = (x.bytes ++ serialize rest) ++ serialize b
    rw [ih, List.append_assoc]

theorem serialize_one (x : Instr) : serialize [x] = x.bytes := by
  show x.bytes ++ [] = x.bytes
  rw [List.append_nil]

theorem serialize_cons (x : Instr) (rest : List Instr) :
    serialize (x :: rest) = x.bytes ++ serialize rest := rfl

/-- The statement `CHECK_SET` when the run from `match` to `i` is longer than
`MATCH_THRESHOLD`: a `COPY` of the bytes from `notMatch` to `match`, if there are any, then a
`MOVE` of the run. -/
theorem CHECK_SET_flush (W : Page) (region : Region) (i : Nat) (data : List Nat)
    (r ro nm ms source : Nat) (hi : i ≤ BLCKSZ) (hnm : nm ≤ ms) (hrun : ms + MATCH_THRESHOLD < i)
    (hsrc : region.srcOffset + ro = source + (i - ms)) (hsb : source < 65536) :
    CHECK_SET W region i ⟨data, r, ro, nm, ms⟩ =
      ⟨(if nm < ms then data ++ (Instr.copy (pageBytes W nm (ms - nm))).bytes else data)
          ++ (Instr.move (i - ms) source).bytes, r, ro, i, ms⟩ := by
  have hB : BLCKSZ = 8192 := rfl
  have hT : MATCH_THRESHOLD = 16 := rfl
  unfold CHECK_SET
  dsimp only
  rw [if_pos (by omega),
    asOffsetNumber_eq _ (ms - nm) (by omega) (by omega),
    asOffsetNumber_eq _ (i - ms) (by omega) (by omega),
    asOffsetNumber_eq _ source (by omega) hsb]
  rw [writeMoveFlagment_eq]
  split
  · rw [writeCopyFlagment_eq]
  · rfl

/-- The statement `CHECK_SET` when the run from `match` to `i` is not longer than
`MATCH_THRESHOLD`: nothing is written. -/
theorem CHECK_SET_keep (W : Page) (region : Region) (i : Nat) (st : EncState)
    (hrun : i ≤ st.matchStart + MATCH_THRESHOLD) : CHECK_SET W region i st = st := by
  have hT : MATCH_THRESHOLD = 16 := rfl
  unfold CHECK_SET
  rw [if_neg (by omega)]

theorem encodeLoop_succ (W P : Page) (regions : List Region) (n i : Nat) (st : EncState) :
    encodeLoop W P regions (n + 1) i st =
      match encodeStep W P regions i st with
      | .error e => .error e
      | .ok st1 => encodeLoop W P regions n (i + 1) st1 := by
  have h : encodeLoop W P regions (n + 1) i st =
      (encodeStep W P regions i st >>= fun st1 => encodeLoop W P regions n (i + 1) st1) := rfl
  rw [h]
  simp only [bind, Except.bind]
  cases encodeStep W P regions i st <;> rfl

/-- The loop of the encoder over `n + m` bytes is the loop over `n` bytes followed by the loop
over `m` bytes. -/
theorem encodeLoop_add (W P : Page) (regions : List Region) (n m : Nat) :
    ∀ (i : Nat) (st : EncState),
      encodeLoop W P regions (n + m) i st =
        match encodeLoop W P regions n i st with
        | .error e => .error e
        | .ok st1 => encodeLoop W P regions m (i + n) st1 := by
  induction n with
  | zero =>
    intro i st
    rw [Nat.zero_add]
    rfl
  | succ n ih =>
    intro i st
    have e : n + 1 + m = (n + m) + 1 := by omega
    rw [e, encodeLoop_succ, encodeLoop_succ]
    cases encodeStep W P regions i st with
    | error e => rfl
    | ok st1 =>
      dsimp only
      rw [ih (i + 1) st1]
      have e2 : i + (n + 1) = i + 1 + n := by omega
      rw [e2]

/-- One iteration of the encoder loop inside the identity region, on a byte that the page and
the image have in common. -/
theorem encodeStep_identity_match (W P : Page) (i : Nat) (hi : i < BLCKSZ)
    (data : List Nat) (nm ms : Nat) (h : W i = P i) :
    encodeStep W P [identityRegion] i ⟨data, 0, i, nm, ms⟩ = .ok ⟨data, 0, i + 1, nm, ms⟩ := by
  have hB : BLCKSZ = 8192 := rfl
  unfold encodeStep
  simp only [bind, Except.bind, pure, Except.pure, fetch, List.getElem?_cons_zero]
  have h1 : ¬ (i ≥ identityRegion.length) := by
    show ¬ (i ≥ BLCKSZ)
    omega
  rw [if_neg h1]
  have h2 : ¬ (identityRegion.srcOffset + i ≥ BLCKSZ) := by
    show ¬ (0 + i ≥ BLCKSZ)
    omega
  rw [if_neg h2]
  have h3 : ¬ (W i ≠ P (identityRegion.srcOffset + i)) := by
    show ¬ (W i ≠ P (0 + i))
    rw [Nat.zero_add]
    exact not_not.mpr h
  rw [if_neg h3]
  dsimp only
  rw [asOffsetNumber_eq _ (i + 1) (by omega) (by omega)]

/-- One iteration of the encoder loop inside the identity region, on a byte that differs. -/
theorem encodeStep_identity_mismatch (W P : Page) (i : Nat) (hi : i < BLCKSZ)
    (st : EncState) (hr : st.region = 0) (hro : st.regionOffset = i) (h : W i ≠ P i) :
    encodeStep W P [identityRegion] i st =
      .ok { CHECK_SET W identityRegion i st with matchStart := i + 1, regionOffset := i + 1 } := by
  have hB : BLCKSZ = 8192 := rfl
  unfold encodeStep
  simp only [bind, Except.bind, pure, Except.pure, fetch, hr, hro, List.getElem?_cons_zero]
  have h1 : ¬ (i ≥ identityRegion.length) := by
    show ¬ (i ≥ BLCKSZ)
    omega
  rw [if_neg h1]
  have h2 : ¬ (identityRegion.srcOffset + i ≥ BLCKSZ) := by
    show ¬ (0 + i ≥ BLCKSZ)
    omega
  rw [if_neg h2]
  have h3 : W i ≠ P (identityRegion.srcOffset + i) := by
    show W i ≠ P (0 + i)
    rw [Nat.zero_add]
    exact h
  rw [if_pos h3]
  dsimp only
  rw [CHECK_SET_regionOffset, hro, asOffsetNumber_eq _ (i + 1) (by omega) (by omega)]

/-- The encoder loop over a stretch of the identity region in which the page and the image
agree: only the cursor moves. -/
theorem encodeLoop_identity_match (W P : Page) :
    ∀ (n i : Nat) (data : List Nat) (nm ms : Nat), i + n ≤ BLCKSZ →
      (∀ k, i ≤ k → k < i + n → W k = P k) →
      encodeLoop W P [identityRegion] n i ⟨data, 0, i, nm, ms⟩ = .ok ⟨data, 0, i + n, nm, ms⟩ := by
  intro n
  induction n with
  | zero =>
    intro i data nm ms _ _
    rfl
  | succ n ih =>
    intro i data nm ms hin h
    rw [encodeLoop_succ, encodeStep_identity_match W P i (by omega) data nm ms
      (h i (Nat.le_refl _) (by omega))]
    dsimp only
    rw [ih (i + 1) data nm ms (by omega) (fun k hk1 hk2 => h k (by omega) (by omega))]
    have e : i + 1 + n = i + (n + 1) := by omega
    rw [e]

/-- The encoder loop over a stretch of the identity region in which every byte of the page
differs from the image: `CHECK_SET` runs with effect at the first byte at most, and `match`
ends just after the stretch. -/
theorem encodeLoop_identity_mismatch (W P : Page) :
    ∀ (n i : Nat) (st : EncState), st.region = 0 → st.regionOffset = i →
      i + (n + 1) ≤ BLCKSZ → (∀ k, i ≤ k → k < i + (n + 1) → W k ≠ P k) →
      encodeLoop W P [identityRegion] (n + 1) i st =
        .ok { CHECK_SET W identityRegion i st with
              matchStart := i + (n + 1), regionOffset := i + (n + 1) } := by
  intro n
  induction n with
  | zero =>
    intro i st hr hro hin h
    rw [encodeLoop_succ, encodeStep_identity_mismatch W P i (by omega) st hr hro
      (h i (Nat.le_refl _) (by omega))]
    rfl
  | succ n ih =>
    intro i st hr hro hin h
    rw [encodeLoop_succ, encodeStep_identity_mismatch W P i (by omega) st hr hro
      (h i (Nat.le_refl _) (by omega))]
    dsimp only
    rw [ih (i + 1) _ (by rw [CHECK_SET_region]; exact hr) rfl (by omega)
      (fun k hk1 hk2 => h k (by omega) (by omega))]
    rw [CHECK_SET_keep W identityRegion (i + 1) _ (by
      show i + 1 ≤ i + 1 + MATCH_THRESHOLD
      omega)]
    have e : i + 1 + (n + 1) = i + (n + 1 + 1) := by omega
    rw [e]

/-- The end of `writeDifferentialData` on the identity region, given the state in which the
loop ends. -/
theorem encodePage_identity_end (W P : Page) (st : EncState) (hr : st.region = 0)
    (h : encodeLoop W P [identityRegion] BLCKSZ 0 ⟨[], 0, 0, 0, 0⟩ = .ok st) :
    encodePage W P [identityRegion] [] =
      .ok (if (CHECK_SET W identityRegion BLCKSZ st).notMatch < BLCKSZ then
            (CHECK_SET W identityRegion BLCKSZ st).data ++
              (Instr.copy (pageBytes W (CHECK_SET W identityRegion BLCKSZ st).notMatch
                (BLCKSZ - (CHECK_SET W identityRegion BLCKSZ st).notMatch))).bytes
          else (CHECK_SET W identityRegion BLCKSZ st).data) := by
  have hB : BLCKSZ = 8192 := rfl
  unfold encodePage
  simp only [bind, Except.bind, pure, Except.pure, h, fetch, hr, List.getElem?_cons_zero]
  split
  · rename_i hlt
    rw [asOffsetNumber_eq _ (BLCKSZ - (CHECK_SET W identityRegion BLCKSZ st).notMatch)
      (by omega) (by omega), writeCopyFlagment_eq]
  · rfl

/-- A page that has not changed is encoded as the single instruction
`MOVE(BLCKSZ, source = 0)`. -/
theorem encode_unchanged (W P : Page) (h : ∀ k, k < BLCKSZ → W k = P k) :
    encodePage W P [identityRegion] [] = .ok (serialize [.move BLCKSZ 0]) := by
  have hB : BLCKSZ = 8192 := rfl
  have hT : MATCH_THRESHOLD = 16 := rfl
  have hloop := encodeLoop_identity_match W P BLCKSZ 0 [] 0 0 (by omega)
    (fun k _ hk => h k (by omega))
  rw [Nat.zero_add] at hloop
  rw [encodePage_identity_end W P _ rfl hloop,
    CHECK_SET_flush W identityRegion BLCKSZ [] 0 BLCKSZ 0 0 0 (Nat.le_refl _) (Nat.le_refl _)
      (by omega) (by show 0 + BLCKSZ = 0 + (BLCKSZ - 0); omega) (by omega)]
  dsimp only
  rw [if_neg (Nat.lt_irrefl _), if_neg (Nat.lt_irrefl _), Nat.sub_zero,
    List.nil_append, serialize_one]

/-- A page of which every byte has changed is encoded as the single instruction `COPY` of
`BLCKSZ` bytes. -/
theorem encode_all_changed (W P : Page) (h : ∀ k, k < BLCKSZ → W k ≠ P k) :
    encodePage W P [identityRegion] [] = .ok (serialize [.copy (pageBytes W 0 BLCKSZ)]) := by
  have hB : BLCKSZ = 8192 := rfl
  have hT : MATCH_THRESHOLD = 16 := rfl
  have hloop := encodeLoop_identity_mismatch W P 8191 0 ⟨[], 0, 0, 0, 0⟩ rfl rfl (by omega)
    (fun k _ hk => h k (by omega))
  rw [CHECK_SET_keep W identityRegion 0 _ (Nat.zero_le _)] at hloop
  have e : (8191 : Nat) + 1 = BLCKSZ := rfl
  rw [e] at hloop
  dsimp only at hloop
  rw [encodePage_identity_end W P _ rfl hloop,
    CHECK_SET_keep W identityRegion BLCKSZ _ (by show BLCKSZ ≤ BLCKSZ + MATCH_THRESHOLD; omega)]
  dsimp only
  rw [if_pos (by omega), Nat.sub_zero, List.nil_append, serialize_one]

/-- A page that differs from the image exactly on the bytes `[a, a + n)`, with more than
`MATCH_THRESHOLD` unchanged bytes on either side, is encoded as a `MOVE` of the first `a`
bytes, a `COPY` of the `n` changed bytes, and a `MOVE` of the rest. -/
theorem encode_changed_window (W P : Page) (a n : Nat) (hn : 1 ≤ n)
    (ha : MATCH_THRESHOLD < a) (hc : a + n + MATCH_THRESHOLD < BLCKSZ)
    (hsame : ∀ k, k < BLCKSZ → (k < a ∨ a + n ≤ k) → W k = P k)
    (hdiff : ∀ k, a ≤ k → k < a + n → W k ≠ P k) :
    encodePage W P [identityRegion] [] =
      .ok (serialize [.move a 0, .copy (pageBytes W a n),
        .move (BLCKSZ - (a + n)) (a + n)]) := by
  have hB : BLCKSZ = 8192 := rfl
  have hT : MATCH_THRESHOLD = 16 := rfl
  -- the three stretches of the loop
  have h1 := encodeLoop_identity_match W P a 0 [] 0 0 (by omega)
    (fun k _ hk => hsame k (by omega) (Or.inl (by omega)))
  rw [Nat.zero_add] at h1
  have h2 := encodeLoop_identity_mismatch W P (n - 1) a ⟨[], 0, a, 0, 0⟩ rfl rfl (by omega)
    (fun k hk1 hk2 => hdiff k hk1 (by omega))
  have en : n - 1 + 1 = n := by omega
  rw [en, CHECK_SET_flush W identityRegion a [] 0 a 0 0 0 (by omega) (Nat.le_refl _) (by omega)
    (by show 0 + a = 0 + (a - 0); omega) (by omega)] at h2
  dsimp only at h2
  rw [if_neg (Nat.lt_irrefl _), List.nil_append, Nat.sub_zero] at h2
  have h3 := encodeLoop_identity_match W P (BLCKSZ - (a + n)) (a + n) (Instr.move a 0).bytes a
    (a + n) (by omega) (fun k hk1 hk2 => hsame k (by omega) (Or.inr hk1))
  have e3 : a + n + (BLCKSZ - (a + n)) = BLCKSZ := by omega
  rw [e3] at h3
  have hloop : encodeLoop W P [identityRegion] BLCKSZ 0 ⟨[], 0, 0, 0, 0⟩ =
      .ok ⟨(Instr.move a 0).bytes, 0, BLCKSZ, a, a + n⟩ := by
    have e : BLCKSZ = a + (n + (BLCKSZ - (a + n))) := by omega
    have hadd := encodeLoop_add W P [identityRegion] a (n + (BLCKSZ - (a + n))) 0 ⟨[], 0, 0, 0, 0⟩
    rw [← e, h1] at hadd
    dsimp only at hadd
    rw [Nat.zero_add, encodeLoop_add W P [identityRegion] n (BLCKSZ - (a + n)) a, h2] at hadd
    dsimp only at hadd
    rw [h3] at hadd
    exact hadd
  rw [encodePage_identity_end W P _ rfl hloop,
    CHECK_SET_flush W identityRegion BLCKSZ (Instr.move a 0).bytes 0 BLCKSZ a (a + n) (a + n)
      (Nat.le_refl _) (by omega) (by omega)
      (by show 0 + BLCKSZ = a + n + (BLCKSZ - (a + n)); omega) (by omega)]
  dsimp only
  rw [if_neg (Nat.lt_irrefl _), if_pos (by omega), Nat.add_sub_cancel_left, serialize_cons,
    serialize_cons, serialize_one, List.append_assoc]

/-- A page that agrees with the image exactly on the bytes `[a, a + n)`, with a differing byte
just before and just after, is encoded with one `MOVE` for the run if the run is longer than
`MATCH_THRESHOLD`, and as a single `COPY` of the whole page otherwise. -/
theorem encode_matched_window (W P : Page) (a n : Nat) (ha : 1 ≤ a) (hc : a + n < BLCKSZ)
    (hdiff : ∀ k, k < BLCKSZ → (k < a ∨ a + n ≤ k) → W k ≠ P k)
    (hsame : ∀ k, a ≤ k → k < a + n → W k = P k) :
    encodePage W P [identityRegion] [] =
      .ok (if MATCH_THRESHOLD < n then
            serialize [.copy (pageBytes W 0 a), .move n a,
              .copy (pageBytes W (a + n) (BLCKSZ - (a + n)))]
          else serialize [.copy (pageBytes W 0 BLCKSZ)]) := by
  have hB : BLCKSZ = 8192 := rfl
  have hT : MATCH_THRESHOLD = 16 := rfl
  have h1 := encodeLoop_identity_mismatch W P (a - 1) 0 ⟨[], 0, 0, 0, 0⟩ rfl rfl (by omega)
    (fun k _ hk => hdiff k (by omega) (Or.inl (by omega)))
  have ea : a - 1 + 1 = a := by omega
  rw [ea, CHECK_SET_keep W identityRegion 0 _ (Nat.zero_le _), Nat.zero_add] at h1
  dsimp only at h1
  have h2 := encodeLoop_identity_match W P n a [] 0 a (by omega) hsame
  have h3 := encodeLoop_identity_mismatch W P (BLCKSZ - (a + n) - 1) (a + n)
    ⟨[], 0, a + n, 0, a⟩ rfl rfl (by omega) (fun k hk1 hk2 => hdiff k (by omega) (Or.inr hk1))
  have ec : BLCKSZ - (a + n) - 1 + 1 = BLCKSZ - (a + n) := by omega
  have e3 : a + n + (BLCKSZ - (a + n)) = BLCKSZ := by omega
  rw [ec, e3] at h3
  have hloop : encodeLoop W P [identityRegion] BLCKSZ 0 ⟨[], 0, 0, 0, 0⟩ =
      .ok { CHECK_SET W identityRegion (a + n) ⟨[], 0, a + n, 0, a⟩ with
            matchStart := BLCKSZ, regionOffset := BLCKSZ } := by
    have e : BLCKSZ = a + (n + (BLCKSZ - (a + n))) := by omega
    have hadd := encodeLoop_add W P [identityRegion] a (n + (BLCKSZ - (a + n))) 0 ⟨[], 0, 0, 0, 0⟩
    rw [← e, h1] at hadd
    dsimp only at hadd
    rw [Nat.zero_add, encodeLoop_add W P [identityRegion] n (BLCKSZ - (a + n)) a, h2] at hadd
    dsimp only at hadd
    rw [h3] at hadd
    exact hadd
  rw [encodePage_identity_end W P _ (by rw [CHECK_SET_region]) hloop,
    CHECK_SET_keep W identityRegion BLCKSZ _
      (by show BLCKSZ ≤ BLCKSZ + MATCH_THRESHOLD; omega)]
  dsimp only
  by_cases hrun : MATCH_THRESHOLD < n
  · rw [if_pos hrun, CHECK_SET_flush W identityRegion (a + n) [] 0 (a + n) 0 a a (by omega)
      (Nat.zero_le _) (by omega) (by show 0 + (a + n) = a + (a + n - a); omega) (by omega)]
    dsimp only
    rw [if_pos (by omega), if_pos (by omega), Nat.add_sub_cancel_left, Nat.sub_zero,
      List.nil_append, serialize_cons, serialize_cons, serialize_one, List.append_assoc]
  · rw [if_neg hrun, CHECK_SET_keep W identityRegion (a + n) _ (by
      show a + n ≤ a + MATCH_THRESHOLD
      omega)]
    dsimp only
    rw [if_pos (by omega), Nat.sub_zero, List.nil_append, serialize_one]

/-! ## The first loop of the logged `GenericXLogFinish` on one slot -/

/-- The body of the first logged loop on a registered slot that is not a full image, in terms
of the record that the encoder returns for the buffer page and the image after the swap:
the slot keeps the former page of the buffer as its image and holds the record, and the
buffer holds the former image of the slot. -/
theorem finishLoggedSlot_diff (i : Nat) (s : System) (d : List Nat)
    (hb : (s.pages i).buffer ≠ InvalidBuffer) (hfull : (s.pages i).fullImage = false)
    (henc : encodePage
      (memcpy (s.world.page (s.pages i).buffer) 0
        (memcpy (fun _ => 0) 0 (s.pages i).image 0 BLCKSZ) 0 BLCKSZ)
      (memcpy (s.pages i).image 0 (s.world.page (s.pages i).buffer) 0 BLCKSZ)
      (s.pages i).regions (s.pages i).data = .ok d) :
    ∃ s1, finishLoggedSlot i s = .ok s1 ∧
      s1.pages i =
        { s.pages i with
          image := memcpy (s.pages i).image 0 (s.world.page (s.pages i).buffer) 0 BLCKSZ
          data := d } ∧
      s1.world.page (s.pages i).buffer =
        memcpy (s.world.page (s.pages i).buffer) 0
          (memcpy (fun _ => 0) 0 (s.pages i).image 0 BLCKSZ) 0 BLCKSZ := by
  unfold finishLoggedSlot
  rw [bufferIsInvalid_false hb, if_neg Bool.false_ne_true]
  simp only [BufferGetPage, bufferIsInvalid_false hb, Bool.false_eq_true, if_false, bind,
    Except.bind, hfull, writeDifferentialData, XLogRegisterBuffer, setBufferPage, if_true, henc,
    pure, Except.pure]
  refine ⟨_, rfl, ?_, ?_⟩
  · simp [setPage]
  · simp [XLogRegisterBufData, setBufferPage]

/-! ## The encoder and the overflow flag -/

/-- On a slot overflowed by the run of 128 moves the first loop of the logged
`GenericXLogFinish` writes a record of three instructions, two of them `MOVE`. -/
theorem overflowed_finish (s : System) (h : OverflowedInv s) :
    ∃ s1, finishLoggedSlot 0 s = .ok s1 ∧ (s1.pages 0).overflow = true ∧
      (s1.pages 0).data =
        serialize [.move 5180 0, .copy [0, 1, 2, 3, 4, 5, 6, 7, 8, 9], .move 3002 5190] ∧
      (s1.pages 0).dataLen = 20 := by
  have hB : BLCKSZ = 8192 := rfl
  have hb : (s.pages 0).buffer ≠ InvalidBuffer := by
    rw [h.buffer]
    decide
  have hpage : s.world.page (s.pages 0).buffer = samplePage := by
    rw [h.world, h.buffer]
    rfl
  have hW : ∀ k, k < BLCKSZ →
      memcpy samplePage 0 (memcpy (fun _ => 0) 0 (s.pages 0).image 0 BLCKSZ) 0 BLCKSZ k
        = if 5180 ≤ k ∧ k < 5190 then samplePage (k - 5180) else samplePage k := by
    intro k hk
    rw [← h.image k hk]
    unfold memcpy
    have e : 0 + (0 + (k - 0) - 0) = k := by omega
    rw [if_pos (show 0 ≤ k ∧ k < 0 + BLCKSZ by omega),
      if_pos (show 0 ≤ 0 + (k - 0) ∧ 0 + (k - 0) < 0 + BLCKSZ by omega), e]
  have hP : ∀ k, k < BLCKSZ →
      memcpy (s.pages 0).image 0 samplePage 0 BLCKSZ k = samplePage k := by
    intro k hk
    unfold memcpy
    have e : 0 + (k - 0) = k := by omega
    rw [if_pos (show 0 ≤ k ∧ k < 0 + BLCKSZ by omega), e]
  have hbytes : pageBytes
      (memcpy samplePage 0 (memcpy (fun _ => 0) 0 (s.pages 0).image 0 BLCKSZ) 0 BLCKSZ) 5180 10
        = [0, 1, 2, 3, 4, 5, 6, 7, 8, 9] := by
    have hv : ∀ t, t < 10 →
        memcpy samplePage 0 (memcpy (fun _ => 0) 0 (s.pages 0).image 0 BLCKSZ) 0 BLCKSZ
          (5180 + t) = t := by
      intro t ht
      rw [hW (5180 + t) (by omega), if_pos (by omega)]
      unfold samplePage
      omega
    unfold pageBytes
    have hr : List.range 10 = [0, 1, 2, 3, 4, 5, 6, 7, 8, 9] := rfl
    rw [hr]
    simp only [List.map_cons, List.map_nil]
    rw [hv 0 (by omega), hv 1 (by omega), hv 2 (by omega), hv 3 (by omega), hv 4 (by omega),
      hv 5 (by omega), hv 6 (by omega), hv 7 (by omega), hv 8 (by omega), hv 9 (by omega)]
  have henc := encode_changed_window
    (memcpy samplePage 0 (memcpy (fun _ => 0) 0 (s.pages 0).image 0 BLCKSZ) 0 BLCKSZ)
    (memcpy (s.pages 0).image 0 samplePage 0 BLCKSZ) 5180 10 (by decide) (by decide) (by decide)
    (fun k hk hout => by
      rw [hW k hk, hP k hk, if_neg (by omega)])
    (fun k hk1 hk2 => by
      rw [hW k (by omega), hP k (by omega), if_pos (by omega)]
      unfold samplePage
      omega)
  rw [hbytes] at henc
  have e3002 : BLCKSZ - (5180 + 10) = 3002 := rfl
  have e5190 : 5180 + 10 = 5190 := rfl
  rw [e3002, e5190] at henc
  obtain ⟨s1, hs1, hslot, _⟩ := finishLoggedSlot_diff 0 s _ hb h.full (by
    rw [hpage, h.regions, h.data]
    exact henc)
  refine ⟨s1, hs1, ?_, ?_, ?_⟩
  · rw [hslot]
    exact h.overflow
  · rw [hslot]
  · rw [hslot]
    rfl

/-- C16, what the code does after an overflow: the run of 128 moves sets `overflow` on slot 0
and leaves the identity region; the first loop of the logged `GenericXLogFinish` then encodes
the slot as `MOVE(5180, 0)`, a `COPY` of the ten bytes moved by the last call, and
`MOVE(3002, 5190)`.  The record has `dataLen = 20` and two `MOVE` instructions; it is not one
`COPY` of `BLCKSZ` bytes. -/
theorem overflowed_slot_record_has_moves :
    ((overflowRun 128).pages 0).overflow = true ∧
    ((overflowRun 128).pages 0).regions = [identityRegion] ∧
    (∃ s1, finishLoggedSlot 0 (overflowRun 128) = .ok s1 ∧
      (s1.pages 0).overflow = true ∧
      (s1.pages 0).data =
        serialize [.move 5180 0, .copy [0, 1, 2, 3, 4, 5, 6, 7, 8, 9], .move 3002 5190] ∧
      (s1.pages 0).dataLen = 20) ∧
    BLCKSZ + 2 = 8194 :=
  ⟨overflowRun_overflowed.overflow, overflowRun_overflowed.regions,
    overflowed_finish (overflowRun 128) overflowRun_overflowed, rfl⟩

/-- The function `writeDifferentialData` in terms of the encoder, on a valid buffer. -/
theorem writeDifferentialData_of_encode (w : World) (pd : PageData) (d : List Nat)
    (hb : pd.buffer ≠ InvalidBuffer)
    (h : encodePage (w.page pd.buffer) pd.image pd.regions pd.data = .ok d) :
    writeDifferentialData w pd = .ok { pd with data := d } := by
  unfold writeDifferentialData
  simp only [BufferGetPage, bufferIsInvalid_false hb, Bool.false_eq_true, if_false, bind,
    Except.bind, h, pure, Except.pure]

theorem tileValid_identity : TileValid [identityRegion] := by
  unfold TileValid tilesFrom tilesFrom identityRegion
  decide

theorem srcBounded_identity : SrcBounded [identityRegion] := by
  intro r hr
  rw [List.mem_singleton] at hr
  rw [hr]
  exact Nat.le_refl _

theorem pageBytes_length (W : Page) (off len : Nat) : (pageBytes W off len).length = len := by
  unfold pageBytes
  rw [List.length_map, List.length_range]

theorem copy_bytes_length (bytes : List Nat) :
    (Instr.copy bytes).bytes.length = 2 + bytes.length := by
  unfold Instr.bytes
  rw [List.length_append]
  rfl

theorem move_bytes_length (len source : Nat) : (Instr.move len source).bytes.length = 4 := rfl

/-- C16, as the code has it: `writeDifferentialData` does not read the overflow flag.  On a
slot whose flag is set, with the identity region that the overflow leaves and no data yet,
the call returns a record from which `applyPageRedo` rebuilds the page of the buffer out of
the image of the slot.  The record is the single instruction `MOVE(BLCKSZ, 0)`, four bytes,
when the two pages are equal, and it is the single `COPY` of `BLCKSZ` bytes, with
`dataLen = BLCKSZ + 2`, when the two pages differ at every byte. -/
theorem overflow_slot_encoding (w : World) (pd : PageData)
    (hov : pd.overflow = true) (hreg : pd.regions = [identityRegion]) (hdata : pd.data = [])
    (hb : pd.buffer ≠ InvalidBuffer) :
    ∃ (pd1 : PageData) (page : Page),
      writeDifferentialData w pd = .ok pd1 ∧ pd1.overflow = true ∧
      applyPageRedo pd.image pd.image pd1.data = .ok page ∧
      (∀ k, k < BLCKSZ → page k = w.page pd.buffer k) ∧
      ((∀ k, k < BLCKSZ → w.page pd.buffer k = pd.image k) →
        pd1.data = serialize [.move BLCKSZ 0] ∧ pd1.dataLen = 4) ∧
      ((∀ k, k < BLCKSZ → w.page pd.buffer k ≠ pd.image k) →
        pd1.data = serialize [.copy (pageBytes (w.page pd.buffer) 0 BLCKSZ)] ∧
        pd1.dataLen = BLCKSZ + 2) := by
  obtain ⟨data, page, henc, hredo, hpage⟩ :=
    round_trip_of_well_formed (w.page pd.buffer) pd.image pd.image [identityRegion]
      tileValid_identity srcBounded_identity
  have henc1 : encodePage (w.page pd.buffer) pd.image pd.regions pd.data = .ok data := by
    rw [hreg, hdata]
    exact henc
  refine ⟨{ pd with data := data }, page, writeDifferentialData_of_encode w pd data hb henc1,
    hov, hredo, hpage, ?_, ?_⟩
  · intro hsame
    have h := encode_unchanged (w.page pd.buffer) pd.image hsame
    rw [henc] at h
    have hd : data = serialize [.move BLCKSZ 0] := Except.ok.inj h
    refine ⟨hd, ?_⟩
    show data.length = 4
    rw [hd]
    rfl
  · intro hdiff
    have h := encode_all_changed (w.page pd.buffer) pd.image hdiff
    rw [henc] at h
    have hd : data = serialize [.copy (pageBytes (w.page pd.buffer) 0 BLCKSZ)] := Except.ok.inj h
    refine ⟨hd, ?_⟩
    show data.length = BLCKSZ + 2
    rw [hd, serialize_one, copy_bytes_length, pageBytes_length, Nat.add_comm]

/-- Instance of `overflow_slot_encoding`: slot 0 overflows in the run of 128 moves, the
transaction is given up, and buffer 7 is registered again in a new transaction.  The slot
still has its overflow flag set, and the record of the unchanged page is one `MOVE`. -/
theorem overflow_slot_encoding_witness :
    ((GenericXLogRegister 7 false
      (GenericXLogStart true (GenericXLogAbort (overflowRun 128)).2).2).2.pages 0).overflow
        = true ∧
    ((GenericXLogRegister 7 false
      (GenericXLogStart true (GenericXLogAbort (overflowRun 128)).2).2).2.pages 0).regions
        = [identityRegion] ∧
    ((GenericXLogRegister 7 false
      (GenericXLogStart true (GenericXLogAbort (overflowRun 128)).2).2).2.pages 0).data = [] ∧
    ((GenericXLogRegister 7 false
      (GenericXLogStart true (GenericXLogAbort (overflowRun 128)).2).2).2.pages 0).buffer
        ≠ InvalidBuffer ∧
    ∃ pd1, writeDifferentialData sampleWorld
        ((GenericXLogRegister 7 false
          (GenericXLogStart true (GenericXLogAbort (overflowRun 128)).2).2).2.pages 0) = .ok pd1 ∧
      pd1.overflow = true ∧ pd1.data = serialize [.move BLCKSZ 0] ∧ pd1.dataLen = 4 := by
  have hst : (overflowRun 128).genericXlogStatus ≠ .GXLOG_NOT_STARTED := by
    rw [overflowRun_overflowed.status]
    decide
  obtain ⟨_, _, _, _, hbuf, hreg, _, hov, hdata, himg, _⟩ :=
    register_after_restart (overflowRun 128) 7 false true hst (by decide)
  have hov1 := hov.trans overflowRun_overflowed.overflow
  have hb : ((GenericXLogRegister 7 false
      (GenericXLogStart true (GenericXLogAbort (overflowRun 128)).2).2).2.pages 0).buffer
        ≠ InvalidBuffer := by
    rw [hbuf]
    decide
  obtain ⟨pd1, _, hw, ho, _, _, hsame, _⟩ :=
    overflow_slot_encoding sampleWorld _ hov1 hreg hdata hb
  have hs := hsame (fun k hk => by rw [hbuf, himg k hk, overflowRun_overflowed.world])
  exact ⟨hov1, hreg, hdata, hb, pd1, hw, ho, hs.1, hs.2⟩

/-! ## The match threshold -/

/-- The statement `CHECK_SET` at a point `i` of the page with `notMatch ≤ match ≤ i`: when
the run from `match` to `i` is longer than `MATCH_THRESHOLD` it appends a `COPY` of the bytes
from `notMatch` to `match`, if there are any, and one `MOVE` of the run, and sets `notMatch`
to `i`; otherwise it does nothing. -/
theorem CHECK_SET_eq (W : Page) (region : Region) (i : Nat) (st : EncState) (hi : i ≤ BLCKSZ)
    (hnm : st.notMatch ≤ st.matchStart) (hms : st.matchStart ≤ i) :
    CHECK_SET W region i st =
      if MATCH_THRESHOLD < i - st.matchStart then
        { st with
          data :=
            (if st.notMatch < st.matchStart then
              st.data ++
                (Instr.copy (pageBytes W st.notMatch (st.matchStart - st.notMatch))).bytes
            else st.data) ++
            (Instr.move (i - st.matchStart)
              (asOffsetNumber ((region.srcOffset : Int) + st.regionOffset
                - ((i : Int) - st.matchStart)))).bytes
          notMatch := i }
      else st := by
  have hB : BLCKSZ = 8192 := rfl
  have hT : MATCH_THRESHOLD = 16 := rfl
  by_cases hrun : MATCH_THRESHOLD < i - st.matchStart
  · rw [if_pos hrun]
    unfold CHECK_SET
    dsimp only
    rw [if_pos (by omega),
      asOffsetNumber_eq _ (st.matchStart - st.notMatch) (by omega) (by omega),
      asOffsetNumber_eq ((i : Int) - st.matchStart) (i - st.matchStart) (by omega) (by omega)]
    rw [writeMoveFlagment_eq]
    split
    · rw [writeCopyFlagment_eq]
    · rfl
  · rw [if_neg hrun]
    exact CHECK_SET_keep W region i st (by omega)

theorem matchedRun_same (a n k : Nat) (h1 : a ≤ k) (h2 : k < a + n) :
    matchedRun a n k = zeroPage k := by
  unfold matchedRun zeroPage
  rw [if_pos ⟨h1, h2⟩]

theorem matchedRun_diff (a n k : Nat) (h : k < a ∨ a + n ≤ k) :
    matchedRun a n k ≠ zeroPage k := by
  unfold matchedRun zeroPage
  rw [if_neg (by omega)]
  exact Nat.one_ne_zero

/-- C19, a run of exactly `MATCH_THRESHOLD` bytes: the page `matchedRun 100 16` agrees with
the page of zero bytes on the 16 bytes `[100, 116)` and differs from it at every other byte,
among them bytes 99 and 116.  The flush at byte 116 writes nothing, and the record is the
single `COPY` of the whole page: it holds no `MOVE`. -/
theorem run_of_sixteen_is_copied :
    (∀ k, 100 ≤ k → k < 100 + MATCH_THRESHOLD → matchedRun 100 16 k = zeroPage k) ∧
    matchedRun 100 16 99 ≠ zeroPage 99 ∧ matchedRun 100 16 116 ≠ zeroPage 116 ∧
    CHECK_SET (matchedRun 100 16) identityRegion 116 ⟨[], 0, 116, 0, 100⟩
      = ⟨[], 0, 116, 0, 100⟩ ∧
    encodePage (matchedRun 100 16) zeroPage [identityRegion] [] =
      .ok (serialize [.copy (pageBytes (matchedRun 100 16) 0 BLCKSZ)]) ∧
    [Instr.copy (pageBytes (matchedRun 100 16) 0 BLCKSZ)].all (fun x => !x.isMove) = true := by
  refine ⟨fun k h1 h2 => matchedRun_same 100 16 k h1 h2, matchedRun_diff 100 16 99 (by omega),
    matchedRun_diff 100 16 116 (by omega), CHECK_SET_keep _ _ _ _ (by decide), ?_, rfl⟩
  have h := encode_matched_window (matchedRun 100 16) zeroPage 100 16 (by decide) (by decide)
    (fun k _ hk => matchedRun_diff 100 16 k hk) (fun k h1 h2 => matchedRun_same 100 16 k h1 h2)
  rw [if_neg (by decide)] at h
  exact h

/-- C19, as the code has it: `CHECK_SET` tests `i - match > MATCH_THRESHOLD`.  At every
flush a matched run longer than `MATCH_THRESHOLD`, that is of 17 bytes or more, is written as
exactly one `MOVE`, after a `COPY` of the pending bytes, and a run of `MATCH_THRESHOLD` bytes
or fewer is left to the next `COPY`.  A page that agrees with the image exactly on the bytes
`[a, a + n)`, with a differing byte on both sides, gives the record `COPY`, `MOVE(n, a)`,
`COPY` when `n > MATCH_THRESHOLD`, and a single `COPY` of the page when
`n ≤ MATCH_THRESHOLD`. -/
theorem match_threshold (W P : Page) (a n : Nat) (ha : 1 ≤ a) (hc : a + n < BLCKSZ)
    (hdiff : ∀ k, k < BLCKSZ → (k < a ∨ a + n ≤ k) → W k ≠ P k)
    (hsame : ∀ k, a ≤ k → k < a + n → W k = P k) :
    (∀ (region : Region) (i : Nat) (st : EncState), i ≤ BLCKSZ →
      st.notMatch ≤ st.matchStart → st.matchStart ≤ i →
      CHECK_SET W region i st =
        if MATCH_THRESHOLD < i - st.matchStart then
          { st with
            data :=
              (if st.notMatch < st.matchStart then
                st.data ++
                  (Instr.copy (pageBytes W st.notMatch (st.matchStart - st.notMatch))).bytes
              else st.data) ++
              (Instr.move (i - st.matchStart)
                (asOffsetNumber ((region.srcOffset : Int) + st.regionOffset
                  - ((i : Int) - st.matchStart)))).bytes
            notMatch := i }
        else st) ∧
    (MATCH_THRESHOLD < n →
      encodePage W P [identityRegion] [] =
        .ok (serialize [.copy (pageBytes W 0 a), .move n a,
          .copy (pageBytes W (a + n) (BLCKSZ - (a + n)))])) ∧
    (n ≤ MATCH_THRESHOLD →
      encodePage W P [identityRegion] [] = .ok (serialize [.copy (pageBytes W 0 BLCKSZ)])) := by
  have h := encode_matched_window W P a n ha hc hdiff hsame
  refine ⟨fun region i st hi hnm hms => CHECK_SET_eq W region i st hi hnm hms, ?_, ?_⟩
  · intro hn
    rw [if_pos hn] at h
    exact h
  · intro hn
    rw [if_neg (Nat.not_lt.mpr hn)] at h
    exact h

/-- Instance of `match_threshold`: a run of 17 matching bytes at `[100, 117)` between
differing bytes is written as `MOVE(17, 100)` between two `COPY` instructions. -/
theorem match_threshold_witness :
    1 ≤ 100 ∧ 100 + 17 < BLCKSZ ∧
    (∀ k, k < BLCKSZ → (k < 100 ∨ 100 + 17 ≤ k) → matchedRun 100 17 k ≠ zeroPage k) ∧
    (∀ k, 100 ≤ k → k < 100 + 17 → matchedRun 100 17 k = zeroPage k) ∧
    encodePage (matchedRun 100 17) zeroPage [identityRegion] [] =
      .ok (serialize [.copy (pageBytes (matchedRun 100 17) 0 100), .move 17 100,
        .copy (pageBytes (matchedRun 100 17) (100 + 17) (BLCKSZ - (100 + 17)))]) :=
  ⟨by decide, by decide, fun k _ hk => matchedRun_diff 100 17 k hk,
    fun k h1 h2 => matchedRun_same 100 17 k h1 h2,
    (match_threshold (matchedRun 100 17) zeroPage 100 17 (by decide) (by decide)
      (fun k _ hk => matchedRun_diff 100 17 k hk)
      (fun k h1 h2 => matchedRun_same 100 17 k h1 h2)).2.1 (by decide)⟩

/-! ## The length fields of a record -/

theorem cursorAt_zero (instrs : List Instr) : cursorAt instrs 0 = 0 := rfl

theorem cursorAt_succ (x : Instr) (rest : List Instr) (j : Nat) :
    cursorAt (x :: rest) (j + 1) = x.length + cursorAt rest j := by
  unfold cursorAt
  rw [List.take_succ_cons, List.map_cons, List.sum_cons]

theorem cursorAt_length (instrs : List Instr) :
    cursorAt instrs instrs.length = (instrs.map Instr.length).sum := by
  unfold cursorAt
  rw [List.take_length]

/-- The ranges `[cursorAt j, cursorAt (j + 1))` of the instructions of a record split the
bytes below the sum of the length fields: every such byte lies in exactly one of them. -/
theorem cursorAt_cover (instrs : List Instr) :
    ∀ k, k < (instrs.map Instr.length).sum →
      ∃ j, (j < instrs.length ∧ cursorAt instrs j ≤ k ∧ k < cursorAt instrs (j + 1)) ∧
        ∀ j1, j1 < instrs.length ∧ cursorAt instrs j1 ≤ k ∧ k < cursorAt instrs (j1 + 1) →
          j1 = j := by
  induction instrs with
  | nil =>
    intro k hk
    exact absurd hk (Nat.not_lt_zero k)
  | cons x rest ih =>
    intro k hk
    rw [List.map_cons, List.sum_cons] at hk
    have h1 : cursorAt (x :: rest) 1 = x.length := by
      rw [cursorAt_succ, cursorAt_zero, Nat.add_zero]
    by_cases hx : k < x.length
    · refine ⟨0, ⟨Nat.succ_pos _, Nat.zero_le _, by rw [h1]; exact hx⟩, ?_⟩
      rintro j ⟨_, h2, _⟩
      cases j with
      | zero => rfl
      | succ j =>
        rw [cursorAt_succ] at h2
        omega
    · obtain ⟨j, ⟨hj, h2, h3⟩, huniq⟩ := ih (k - x.length) (by omega)
      refine ⟨j + 1, ⟨Nat.succ_lt_succ hj, by rw [cursorAt_succ]; omega,
        by rw [cursorAt_succ]; omega⟩, ?_⟩
      rintro j1 ⟨hj1, h4, h5⟩
      cases j1 with
      | zero =>
        rw [h1] at h5
        omega
      | succ j1 =>
        rw [cursorAt_succ] at h4 h5
        have := huniq j1 ⟨Nat.lt_of_succ_lt_succ hj1, by omega, by omega⟩
        omega

theorem sum_map_append (a b : List Instr) :
    ((a ++ b).map Instr.length).sum = (a.map Instr.length).sum + (b.map Instr.length).sum := by
  rw [List.map_append, List.sum_append]

/-- The statement `CHECK_SET` keeps the data made of whole instructions whose length fields
sum to `notMatch`. -/
theorem CHECK_SET_sum (W : Page) (region : Region) (i : Nat) (st : EncState) (hi : i ≤ BLCKSZ)
    (h : EncSum i st) :
    ∃ instrs : List Instr, (CHECK_SET W region i st).data = serialize instrs ∧
      (instrs.map Instr.length).sum = (CHECK_SET W region i st).notMatch ∧
      (∀ x ∈ instrs, 1 ≤ x.length) ∧ (CHECK_SET W region i st).notMatch ≤ i := by
  have hT : MATCH_THRESHOLD = 16 := rfl
  obtain ⟨instrs, hd, hsum, hpos, hnm, hms⟩ := h
  rw [CHECK_SET_eq W region i st hi hnm hms]
  by_cases hrun : MATCH_THRESHOLD < i - st.matchStart
  · rw [if_pos hrun]
    dsimp only
    by_cases hlt : st.notMatch < st.matchStart
    · rw [if_pos hlt]
      refine ⟨instrs ++ [Instr.copy (pageBytes W st.notMatch (st.matchStart - st.notMatch)),
        Instr.move (i - st.matchStart)
          (asOffsetNumber ((region.srcOffset : Int) + st.regionOffset
            - ((i : Int) - st.matchStart)))], ?_, ?_, ?_, Nat.le_refl _⟩
      · rw [serialize_append, serialize_cons, serialize_one, hd, List.append_assoc]
      · rw [sum_map_append, hsum]
        simp only [List.map_cons, List.map_nil, List.sum_cons, List.sum_nil, Instr.length,
          pageBytes_length]
        omega
      · intro x hx
        rw [List.mem_append] at hx
        rcases hx with hx | hx
        · exact hpos x hx
        · simp only [List.mem_cons, List.mem_singleton, List.not_mem_nil, or_false] at hx
          rcases hx with hx | hx
          · rw [hx]
            simp only [Instr.length, pageBytes_length]
            omega
          · rw [hx]
            simp only [Instr.length]
            omega
    · rw [if_neg hlt]
      refine ⟨instrs ++ [Instr.move (i - st.matchStart)
          (asOffsetNumber ((region.srcOffset : Int) + st.regionOffset
            - ((i : Int) - st.matchStart)))], ?_, ?_, ?_, Nat.le_refl _⟩
      · rw [serialize_append, serialize_one, hd]
      · rw [sum_map_append, hsum]
        simp only [List.map_cons, List.map_nil, List.sum_cons, List.sum_nil, Instr.length]
        omega
      · intro x hx
        rw [List.mem_append] at hx
        rcases hx with hx | hx
        · exact hpos x hx
        · rw [List.mem_singleton] at hx
          rw [hx]
          simp only [Instr.length]
          omega
  · rw [if_neg hrun]
    exact ⟨instrs, hd, hsum, hpos, by omega⟩

/-- After `CHECK_SET` at `i` and an assignment of `i` or more to `match`. -/
theorem encSum_flush (W : Page) (region : Region) (i j : Nat) (st st1 : EncState)
    (hi : i ≤ BLCKSZ) (h : EncSum i st)
    (hd : st1.data = (CHECK_SET W region i st).data)
    (hn : st1.notMatch = (CHECK_SET W region i st).notMatch)
    (h1 : i ≤ st1.matchStart) (h2 : st1.matchStart ≤ j) : EncSum j st1 := by
  obtain ⟨instrs, hd1, hsum, hpos, hle⟩ := CHECK_SET_sum W region i st hi h
  exact ⟨instrs, by rw [hd, hd1], by rw [hn, hsum], hpos, by rw [hn]; omega, h2⟩

theorem encSum_keep (i j : Nat) (st st1 : EncState) (h : EncSum i st)
    (hd : st1.data = st.data) (hn : st1.notMatch = st.notMatch)
    (hm : st1.matchStart = st.matchStart) (hij : i ≤ j) : EncSum j st1 := by
  obtain ⟨instrs, hd1, hsum, hpos, hnm, hms⟩ := h
  exact ⟨instrs, by rw [hd, hd1], by rw [hn, hsum], hpos, by rw [hn, hm]; exact hnm,
    by rw [hm]; omega⟩

/-- One iteration of the loop of `writeDifferentialData`, on any region list: if it stays
inside its arrays, the data are still whole instructions whose length fields sum to
`notMatch`. -/
theorem encodeStep_sum (W P : Page) (regions : List Region) (i : Nat) (hi : i < BLCKSZ)
    (st st1 : EncState) (hinv : EncSum i st) (h : encodeStep W P regions i st = .ok st1) :
    EncSum (i + 1) st1 := by
  have hB : BLCKSZ = 8192 := rfl
  have hi1 : asOffsetNumber ((i : Int) + 1) = i + 1 :=
    asOffsetNumber_eq _ (i + 1) (by omega) (by omega)
  unfold encodeStep at h
  cases hf : fetch regions st.region with
  | error e =>
    rw [hf] at h
    cases h
  | ok region =>
    rw [hf] at h
    simp only [bind, Except.bind, pure, Except.pure] at h
    by_cases hge : st.regionOffset ≥ region.length
    · rw [if_pos hge] at h
      have hA : EncSum i
          { data := (CHECK_SET W region i st).data, region := st.region + 1, regionOffset := 0,
            notMatch := (CHECK_SET W region i st).notMatch, matchStart := i } :=
        encSum_flush W region i i st _ (by omega) hinv rfl rfl (Nat.le_refl _) (Nat.le_refl _)
      cases hf1 : fetch regions (st.region + 1) with
      | error e =>
        rw [hf1] at h
        cases h
      | ok region1 =>
        rw [hf1] at h
        dsimp only at h
        by_cases hub : region1.srcOffset + 0 ≥ BLCKSZ
        · rw [if_pos hub] at h
          cases h
        · rw [if_neg hub] at h
          have h1 := Except.ok.inj h
          rw [← h1]
          by_cases hne : W i ≠ P (region1.srcOffset + 0)
          · simp only [if_pos hne]
            exact encSum_flush W region1 i (i + 1) _ _ (by omega) hA rfl rfl
              (by show i ≤ asOffsetNumber ((i : Int) + 1); rw [hi1]; omega)
              (by show asOffsetNumber ((i : Int) + 1) ≤ i + 1; rw [hi1])
          · simp only [if_neg hne]
            exact encSum_keep i (i + 1) _ _ hA rfl rfl rfl (by omega)
    · rw [if_neg hge] at h
      rw [hf] at h
      dsimp only at h
      by_cases hub : region.srcOffset + st.regionOffset ≥ BLCKSZ
      · rw [if_pos hub] at h
        cases h
      · rw [if_neg hub] at h
        have h1 := Except.ok.inj h
        rw [← h1]
        by_cases hne : W i ≠ P (region.srcOffset + st.regionOffset)
        · simp only [if_pos hne]
          exact encSum_flush W region i (i + 1) _ _ (by omega) hinv rfl rfl
            (by show i ≤ asOffsetNumber ((i : Int) + 1); rw [hi1]; omega)
            (by show asOffsetNumber ((i : Int) + 1) ≤ i + 1; rw [hi1])
        · simp only [if_neg hne]
          exact encSum_keep i (i + 1) _ _ hinv rfl rfl rfl (by omega)

/-- The loop of `writeDifferentialData`, on any region list: if it stays inside its arrays,
the data are whole instructions whose length fields sum to `notMatch`. -/
theorem encodeLoop_sum (W P : Page) (regions : List Region) :
    ∀ (n i : Nat) (st st1 : EncState), i + n ≤ BLCKSZ → EncSum i st →
      encodeLoop W P regions n i st = .ok st1 → EncSum (i + n) st1 := by
  intro n
  induction n with
  | zero =>
    intro i st st1 _ hinv h
    have h1 : st = st1 := Except.ok.inj h
    rw [← h1]
    exact hinv
  | succ n ih =>
    intro i st st1 hin hinv h
    rw [encodeLoop_succ] at h
    cases hs : encodeStep W P regions i st with
    | error e =>
      rw [hs] at h
      cases h
    | ok st2 =>
      rw [hs] at h
      have e : i + (n + 1) = i + 1 + n := by omega
      rw [e]
      exact ih (i + 1) st2 st1 (by omega) (encodeStep_sum W P regions i (by omega) st st2 hinv hs) h

/-- The end of `writeDifferentialData` after its loop: the last `CHECK_SET` and the `COPY`
of the bytes left. -/
theorem encodePage_end (W P : Page) (regions : List Region) (st : EncState) (region : Region)
    (h : encodeLoop W P regions BLCKSZ 0 ⟨[], 0, 0, 0, 0⟩ = .ok st)
    (hf : fetch regions st.region = .ok region) :
    encodePage W P regions [] =
      .ok (if (CHECK_SET W region BLCKSZ st).notMatch < BLCKSZ then
            (CHECK_SET W region BLCKSZ st).data ++
              (Instr.copy (pageBytes W (CHECK_SET W region BLCKSZ st).notMatch
                (BLCKSZ - (CHECK_SET W region BLCKSZ st).notMatch))).bytes
          else (CHECK_SET W region BLCKSZ st).data) := by
  have hB : BLCKSZ = 8192 := rfl
  unfold encodePage
  simp only [bind, Except.bind, pure, Except.pure, h, hf]
  split
  · rename_i hlt
    rw [asOffsetNumber_eq _ (BLCKSZ - (CHECK_SET W region BLCKSZ st).notMatch)
      (by omega) (by omega), writeCopyFlagment_eq]
  · rfl

/-- Every record that `writeDifferentialData` returns, on any region list, is made of whole
instructions, each with a length field of at least one, whose length fields sum to
`BLCKSZ`. -/
theorem encodePage_sum (W P : Page) (regions : List Region) (data : List Nat)
    (h : encodePage W P regions [] = .ok data) :
    ∃ instrs : List Instr, data = serialize instrs ∧
      (instrs.map Instr.length).sum = BLCKSZ ∧ (∀ x ∈ instrs, 1 ≤ x.length) := by
  have hB : BLCKSZ = 8192 := rfl
  have hinit : EncSum 0 ⟨[], 0, 0, 0, 0⟩ :=
    ⟨[], rfl, rfl, fun x hx => absurd hx (List.not_mem_nil x), Nat.le_refl _, Nat.le_refl _⟩
  cases hl : encodeLoop W P regions BLCKSZ 0 ⟨[], 0, 0, 0, 0⟩ with
  | error e =>
    unfold encodePage at h
    simp only [bind, Except.bind, hl] at h
    cases h
  | ok st =>
    have hsum := encodeLoop_sum W P regions BLCKSZ 0 _ st (by omega) hinit hl
    rw [Nat.zero_add] at hsum
    cases hf : fetch regions st.region with
    | error e =>
      unfold encodePage at h
      simp only [bind, Except.bind, hl, hf] at h
      cases h
    | ok region =>
      rw [encodePage_end W P regions st region hl hf] at h
      obtain ⟨instrs, hd, hs, hpos, hle⟩ := CHECK_SET_sum W region BLCKSZ st (Nat.le_refl _) hsum
      have hdata := Except.ok.inj h
      by_cases hlt : (CHECK_SET W region BLCKSZ st).notMatch < BLCKSZ
      · rw [if_pos hlt] at hdata
        refine ⟨instrs ++ [Instr.copy (pageBytes W (CHECK_SET W region BLCKSZ st).notMatch
          (BLCKSZ - (CHECK_SET W region BLCKSZ st).notMatch))], ?_, ?_, ?_⟩
        · rw [← hdata, serialize_append, serialize_one, hd]
        · rw [sum_map_append, hs]
          simp only [List.map_cons, List.map_nil, List.sum_cons, List.sum_nil, Instr.length,
            pageBytes_length]
          omega
        · intro x hx
          rw [List.mem_append] at hx
          rcases hx with hx | hx
          · exact hpos x hx
          · rw [List.mem_singleton] at hx
            rw [hx]
            simp only [Instr.length, pageBytes_length]
            omega
      · rw [if_neg hlt] at hdata
        exact ⟨instrs, by rw [← hdata, hd], by rw [hs]; omega, hpos⟩

theorem length_le_sum (instrs : List Instr) (x : Instr) (hx : x ∈ instrs) :
    x.length ≤ (instrs.map Instr.length).sum :=
  List.single_le_sum (fun _ _ => Nat.zero_le _) _ (List.mem_map_of_mem Instr.length hx)

/-- On a region list that tiles the page and maps into the pre-image, the record that
`writeDifferentialData` returns is read by the loop of `applyPageRedo` as whole
instructions, and the cursor `offset` of the loop is `BLCKSZ` after the last of them. -/
theorem encodePage_decodes (W P page0 : Page) (regions : List Region)
    (ht : TileValid regions) (hsrc : SrcBounded regions) :
    ∃ (data : List Nat) (m : Nat) (pg : Page),
      encodePage W P regions [] = .ok data ∧ Decodes P data page0 m pg BLCKSZ := by
  have hB : BLCKSZ = 8192 := rfl
  obtain ⟨r0, hr0, hr0d⟩ := tilesFrom_ne_nil regions ht
  have hinit : EncInv W P regions page0 0
      { data := [], region := 0, regionOffset := 0, notMatch := 0, matchStart := 0 } :=
    ⟨r0, 0, page0, hr0, by simpa using hr0d, Nat.zero_le _, decodes_nil P page0,
      fun k hk => absurd hk (Nat.not_lt_zero k), Nat.le_refl _, Nat.le_refl _,
      by simpa using hr0d, fun k _ hk => absurd hk (Nat.not_lt_zero k)⟩
  obtain ⟨st, hloop, r, m, pg, hr, hpos, hoff, hdec, hpg, h1, h2, h3, hrun⟩ :=
    encodeLoop_inv W P page0 regions ht hsrc BLCKSZ 0 _ (by omega) hinit
  have hs := hsrc r (List.getElem?_mem hr)
  obtain ⟨m1, pg1, hdec1, hpg1, hnm⟩ :=
    CHECK_SET_decodes W P page0 r BLCKSZ st m pg (Nat.le_refl _) hdec hpg h1 (by omega)
      (r.srcOffset + (st.matchStart - r.dstOffset)) (by omega) (by omega)
      (fun k hk1 hk2 => by
        rw [hrun k hk1 (by omega)]
        congr 1
        omega)
  have hle := CHECK_SET_notMatch_le W r BLCKSZ st (by omega)
  unfold encodePage
  simp only [bind, Except.bind, hloop, fetch_of_get hr, pure, Except.pure]
  by_cases hlt : (CHECK_SET W r BLCKSZ st).notMatch < BLCKSZ
  · rw [if_pos hlt]
    have hlen : asOffsetNumber ((BLCKSZ : Int) - ((CHECK_SET W r BLCKSZ st).notMatch : Int))
        = BLCKSZ - (CHECK_SET W r BLCKSZ st).notMatch :=
      asOffsetNumber_eq _ _ (by omega) (by omega)
    rw [hlen]
    have hd := decodes_copy hdec1 W (BLCKSZ - (CHECK_SET W r BLCKSZ st).notMatch)
      (CHECK_SET W r BLCKSZ st).notMatch (by omega) (by omega)
    have hend : (CHECK_SET W r BLCKSZ st).notMatch
        + (BLCKSZ - (CHECK_SET W r BLCKSZ st).notMatch) = BLCKSZ := by omega
    rw [hend] at hd
    exact ⟨_, _, _, rfl, hd⟩
  · rw [if_neg hlt]
    have hend : (CHECK_SET W r BLCKSZ st).notMatch = BLCKSZ := by omega
    rw [hend] at hdec1
    exact ⟨_, _, _, rfl, hdec1⟩

/-- C18: on a tile-valid region list, every record that `writeDifferentialData` returns from
`dataLen = 0` is a sequence of whole instructions whose length fields, each between 1 and
`BLCKSZ` and so held by the low 15 bits, sum to exactly `BLCKSZ`; every byte of the page lies
in the range of exactly one instruction.  When the regions also map into the image, so that
the encoder reads nothing outside it, the record is returned, and the loop of
`applyPageRedo` reads it as whole instructions with its cursor at `BLCKSZ` after the last
one. -/
theorem instruction_lengths_sum (W P page0 : Page) (regions : List Region)
    (ht : TileValid regions) :
    (SrcBounded regions →
      ∃ (data : List Nat) (m : Nat) (pg : Page),
        encodePage W P regions [] = .ok data ∧ Decodes P data page0 m pg BLCKSZ) ∧
    (∀ data, encodePage W P regions [] = .ok data →
      ∃ instrs : List Instr, data = serialize instrs ∧
        (instrs.map Instr.length).sum = BLCKSZ ∧
        (∀ x ∈ instrs, 1 ≤ x.length ∧ x.length ≤ BLCKSZ ∧ x.length &&& LENGTH_MASK = x.length) ∧
        cursorAt instrs instrs.length = BLCKSZ ∧
        ∀ k, k < BLCKSZ →
          ∃ j, (j < instrs.length ∧ cursorAt instrs j ≤ k ∧ k < cursorAt instrs (j + 1)) ∧
            ∀ j1, j1 < instrs.length ∧ cursorAt instrs j1 ≤ k ∧ k < cursorAt instrs (j1 + 1) →
              j1 = j) := by
  have hB : BLCKSZ = 8192 := rfl
  refine ⟨fun hsrc => encodePage_decodes W P page0 regions ht hsrc, ?_⟩
  intro data h
  obtain ⟨instrs, hd, hs, hpos⟩ := encodePage_sum W P regions data h
  refine ⟨instrs, hd, hs, ?_, by rw [cursorAt_length, hs], ?_⟩
  · intro x hx
    have hle := length_le_sum instrs x hx
    rw [hs] at hle
    refine ⟨hpos x hx, hle, ?_⟩
    have hm : LENGTH_MASK = 2 ^ 15 - 1 := rfl
    rw [hm, Nat.and_pow_two_sub_one_eq_mod]
    exact Nat.mod_eq_of_lt (by omega)
  · intro k hk
    exact cursorAt_cover instrs k (by rw [hs]; exact hk)

/-- Instance of `instruction_lengths_sum`: the record of an unchanged page under the
identity region, the single instruction `MOVE(BLCKSZ, 0)`. -/
theorem instruction_lengths_sum_witness :
    TileValid [identityRegion] ∧
    encodePage samplePage samplePage [identityRegion] [] = .ok (serialize [.move BLCKSZ 0]) ∧
    ∃ instrs : List Instr, serialize [.move BLCKSZ 0] = serialize instrs ∧
      (instrs.map Instr.length).sum = BLCKSZ ∧ cursorAt instrs instrs.length = BLCKSZ := by
  have henc := encode_unchanged samplePage samplePage (fun _ _ => rfl)
  obtain ⟨instrs, hd, hs, _, hc, _⟩ :=
    (instruction_lengths_sum samplePage samplePage samplePage [identityRegion]
      tileValid_identity).2 _ henc
  exact ⟨tileValid_identity, henc, instrs, hd, hs, hc⟩

/-! ## The decoder against its reference semantics -/

theorem bytes_eq_range (bytes : List Nat) :
    bytes = (List.range bytes.length).map (fun k => (fun t => bytes.getD t 0) (0 + k)) := by
  apply List.ext_getElem
  · rw [List.length_map, List.length_range]
  · intro n h1 h2
    rw [List.getElem_map, List.getElem_range, Nat.zero_add]
    exact (List.getD_eq_getElem bytes 0 h1).symm

theorem emit_copy (P page : Page) (bytes : List Nat) (o : Nat) :
    memcpy page o (fun t => bytes.getD t 0) 0 bytes.length
      = (Instr.copy bytes).emit P page o := by
  funext k
  unfold memcpy Instr.emit Instr.byteAt Instr.length
  rw [Nat.zero_add]

theorem emit_move (P page : Page) (len source o : Nat) :
    memcpy page o P source len = (Instr.move len source).emit P page o := rfl

/-- The loop of `applyPageRedo` on the bytes of a well-formed instruction stream: it reads
one instruction per iteration and does what the reference semantics says. -/
theorem applyLoop_serialize (P : Page) (instrs : List Instr) :
    ∀ (page : Page) (o fuel : Nat) (rest : List Nat),
      o + (instrs.map Instr.length).sum ≤ BLCKSZ → (∀ x ∈ instrs, x.sourceInPage) →
      applyLoop P (fuel + instrs.length) (serialize instrs ++ rest) page o
        = applyLoop P fuel rest (decodeReference P instrs page o)
            (o + (instrs.map Instr.length).sum) := by
  have hB : BLCKSZ = 8192 := rfl
  induction instrs with
  | nil =>
    intro page o fuel rest _ _
    rfl
  | cons x tl ih =>
    intro page o fuel rest hsum hsrc
    rw [List.map_cons, List.sum_cons] at hsum
    have htl : ∀ y ∈ tl, y.sourceInPage := fun y hy => hsrc y (List.mem_cons_of_mem x hy)
    have hx := hsrc x (List.mem_cons_self x tl)
    have e1 : fuel + (x :: tl).length = (fuel + tl.length) + 1 := by
      rw [List.length_cons]
      omega
    rw [e1, serialize_cons, List.append_assoc, List.map_cons, List.sum_cons,
      decodeReference]
    cases x with
    | copy bytes =>
      have hb : (Instr.copy bytes).bytes ++ (serialize tl ++ rest) =
          [bytes.length % 256, bytes.length / 256] ++
            (List.range bytes.length).map (fun k => (fun t => bytes.getD t 0) (0 + k)) ++
            (serialize tl ++ rest) := by
        rw [← bytes_eq_range bytes]
        rfl
      have hl : (Instr.copy bytes).length = bytes.length := rfl
      rw [hl] at hsum
      rw [hb, applyLoop_copy P page (fun t => bytes.getD t 0) (fuel + tl.length) bytes.length 0 o
        (serialize tl ++ rest) (by omega) (by omega), emit_copy P page bytes o, hl,
        ih _ (o + bytes.length) fuel rest (by omega) htl, Nat.add_assoc]
    | move len source =>
      have hl : (Instr.move len source).length = len := rfl
      have hs : source + len ≤ BLCKSZ := hx
      rw [hl] at hsum
      have hb : (Instr.move len source).bytes ++ (serialize tl ++ rest) =
          [(len ||| MOVE_FLAG) % 256, (len ||| MOVE_FLAG) / 256, source % 256, source / 256] ++
            (serialize tl ++ rest) := rfl
      rw [hb, applyLoop_move P page (fuel + tl.length) len source o (serialize tl ++ rest)
        (by omega) (by omega) hs, emit_move P page len source o, hl,
        ih _ (o + len) fuel rest (by omega) htl, Nat.add_assoc]

theorem serialize_length_ge (instrs : List Instr) : instrs.length ≤ (serialize instrs).length := by
  induction instrs with
  | nil => exact Nat.le_refl _
  | cons x tl ih =>
    rw [serialize_cons, List.length_append, List.length_cons]
    have : 2 ≤ x.bytes.length := by
      cases x with
      | copy bytes =>
        rw [copy_bytes_length]
        omega
      | move len source =>
        rw [move_bytes_length]
        omega
    omega

/-- The function `applyPageRedo` on the bytes of a well-formed instruction stream returns
the page of the reference semantics. -/
theorem applyPageRedo_serialize (page P : Page) (instrs : List Instr)
    (hwf : WellFormedStream instrs) :
    applyPageRedo page P (serialize instrs) = .ok (decodeReference P instrs page 0) := by
  have hdec : Decodes P (serialize instrs) page instrs.length (decodeReference P instrs page 0)
      (0 + (instrs.map Instr.length).sum) :=
    ⟨serialize_length_ge instrs, fun rest fuel =>
      applyLoop_serialize P instrs page 0 fuel rest (by rw [Nat.zero_add]; exact hwf.1) hwf.2⟩
  exact decodes_applyPageRedo hdec

/-- The reference semantics leaves the bytes below the cursor alone. -/
theorem decodeReference_below (P : Page) (instrs : List Instr) :
    ∀ (page : Page) (o k : Nat), k < o → decodeReference P instrs page o k = page k := by
  induction instrs with
  | nil =>
    intro page o k _
    rfl
  | cons x tl ih =>
    intro page o k hk
    rw [decodeReference, ih _ (o + x.length) k (by omega)]
    unfold Instr.emit
    rw [if_neg (by omega)]

/-- The reference semantics leaves the bytes after the last instruction alone. -/
theorem decodeReference_above (P : Page) (instrs : List Instr) :
    ∀ (page : Page) (o k : Nat), o + (instrs.map Instr.length).sum ≤ k →
      decodeReference P instrs page o k = page k := by
  induction instrs with
  | nil =>
    intro page o k _
    rfl
  | cons x tl ih =>
    intro page o k hk
    rw [List.map_cons, List.sum_cons] at hk
    rw [decodeReference, ih _ (o + x.length) k (by omega)]
    unfold Instr.emit
    rw [if_neg (by omega)]

/-- In the page of the reference semantics, the range of instruction `j` holds the bytes of
instruction `j`. -/
theorem decodeReference_at (P : Page) (instrs : List Instr) :
    ∀ (page : Page) (o j : Nat) (x : Instr), instrs[j]? = some x →
      ∀ k, o + cursorAt instrs j ≤ k → k < o + cursorAt instrs j + x.length →
        decodeReference P instrs page o k = x.byteAt P (k - (o + cursorAt instrs j)) := by
  induction instrs with
  | nil =>
    intro page o j x hx
    rw [List.getElem?_nil] at hx
    cases hx
  | cons y tl ih =>
    intro page o j x hx k h1 h2
    cases j with
    | zero =>
      rw [List.getElem?_cons_zero] at hx
      have hy : y = x := Option.some.inj hx
      rw [hy] at *
      rw [cursorAt_zero, Nat.add_zero] at h1 h2 ⊢
      rw [decodeReference, decodeReference_below P tl _ (o + x.length) k h2]
      unfold Instr.emit
      rw [if_pos ⟨h1, h2⟩]
    | succ j =>
      rw [List.getElem?_cons_succ] at hx
      rw [cursorAt_succ] at h1 h2 ⊢
      rw [decodeReference, ih _ (o + y.length) j x hx k (by omega) (by omega), Nat.add_assoc]

/-- The byte that an instruction gives depends on the pre-image only inside the source
range of the instruction. -/
theorem byteAt_congr (P Q : Page) (x : Instr) (hx : x.sourceInPage) (t : Nat) (ht : t < x.length)
    (h : ∀ k, k < BLCKSZ → P k = Q k) : x.byteAt P t = x.byteAt Q t := by
  cases x with
  | copy bytes => rfl
  | move len source =>
    have hs : source + len ≤ BLCKSZ := hx
    have hl : t < len := ht
    exact h (source + t) (by omega)

/-- C20: for every page, every pre-image copy `P` and every well-formed instruction stream,
`applyPageRedo` returns the page of the reference semantics: the range
`[o, o + length)` of instruction `j`, with `o` the sum of the earlier length fields, holds
the literal bytes of a `COPY` and the bytes `P[source .. source + length)` of a `MOVE`, and
the bytes after the last range are untouched.  In `generic_redo` the pre-image copy is
taken from the page before `applyPageRedo` runs, so a `MOVE` yields the bytes that the page
held before the redo, whatever earlier instructions wrote there. -/
theorem decoder_reference (page P : Page) (instrs : List Instr)
    (hwf : WellFormedStream instrs) :
    ∃ result : Page, applyPageRedo page P (serialize instrs) = .ok result ∧
      result = decodeReference P instrs page 0 ∧
      (∀ (j : Nat) (x : Instr), instrs[j]? = some x →
        ∀ k, cursorAt instrs j ≤ k → k < cursorAt instrs j + x.length →
          result k = x.byteAt P (k - cursorAt instrs j)) ∧
      (∀ k, cursorAt instrs instrs.length ≤ k → result k = page k) ∧
      (∀ lsn : XLogRecPtr, ∃ result1 : Page,
        redoBlock page (serialize instrs) lsn = .ok (PageSetLSN result1 lsn) ∧
        ∀ (j : Nat) (x : Instr), instrs[j]? = some x →
          ∀ k, cursorAt instrs j ≤ k → k < cursorAt instrs j + x.length →
            result1 k = x.byteAt page (k - cursorAt instrs j)) := by
  have hat : ∀ (Q : Page) (j : Nat) (x : Instr), instrs[j]? = some x →
      ∀ k, cursorAt instrs j ≤ k → k < cursorAt instrs j + x.length →
        decodeReference Q instrs page 0 k = x.byteAt Q (k - cursorAt instrs j) := by
    intro Q j x hx k h1 h2
    have h := decodeReference_at Q instrs page 0 j x hx k (by omega) (by omega)
    rw [Nat.zero_add] at h
    exact h
  refine ⟨_, applyPageRedo_serialize page P instrs hwf, rfl, hat P, ?_, ?_⟩
  · intro k hk
    rw [cursorAt_length] at hk
    exact decodeReference_above P instrs page 0 k (by omega)
  · intro lsn
    refine ⟨decodeReference (memcpy (fun _ => 0) 0 page 0 BLCKSZ) instrs page 0, ?_, ?_⟩
    · unfold redoBlock
      simp only [bind, Except.bind, pure, Except.pure,
        applyPageRedo_serialize page (memcpy (fun _ => 0) 0 page 0 BLCKSZ) instrs hwf]
    · intro j x hx k h1 h2
      rw [hat _ j x hx k h1 h2]
      apply byteAt_congr _ _ x (hwf.2 x (List.getElem?_mem hx)) _ (by omega)
      intro t ht
      unfold memcpy
      rw [if_pos ⟨Nat.zero_le _, by omega⟩]
      congr 1
      omega

theorem wellFormed_copy_move : WellFormedStream [.copy [7, 8, 9], .move 3 0] := by
  refine ⟨by decide, ?_⟩
  intro x hx
  simp only [List.mem_cons, List.mem_singleton, List.not_mem_nil, or_false] at hx
  rcases hx with hx | hx
  · rw [hx]
    trivial
  · rw [hx]
    show 0 + 3 ≤ BLCKSZ
    decide

/-- Instance of `decoder_reference`: the stream `COPY(3, {7, 8, 9})`, `MOVE(3, source = 0)`
on the page `samplePage`, with the pre-image copy taken from the page.  The `COPY`
overwrites the bytes `[0, 3)`, and the `MOVE` that follows still reads the bytes 0, 1, 2
that the page held there before the redo. -/
theorem decoder_reference_witness :
    WellFormedStream [.copy [7, 8, 9], .move 3 0] ∧
    ∃ result : Page,
      applyPageRedo samplePage samplePage (serialize [.copy [7, 8, 9], .move 3 0]) = .ok result ∧
      result 0 = 7 ∧ result 1 = 8 ∧ result 2 = 9 ∧
      result 3 = 0 ∧ result 4 = 1 ∧ result 5 = 2 ∧ result 6 = 6 := by
  obtain ⟨result, hr, _, hat, habove, _⟩ :=
    decoder_reference samplePage samplePage [.copy [7, 8, 9], .move 3 0] wellFormed_copy_move
  refine ⟨wellFormed_copy_move, result, hr,
    hat 0 (.copy [7, 8, 9]) rfl 0 (by decide) (by decide),
    hat 0 (.copy [7, 8, 9]) rfl 1 (by decide) (by decide),
    hat 0 (.copy [7, 8, 9]) rfl 2 (by decide) (by decide),
    hat 1 (.move 3 0) rfl 3 (by decide) (by decide),
    hat 1 (.move 3 0) rfl 4 (by decide) (by decide),
    hat 1 (.move 3 0) rfl 5 (by decide) (by decide),
    habove 6 (by decide)⟩

/-- The loop of `applyPageRedo` has no failure other than an access outside its arrays. -/
theorem applyLoop_error (image : Page) :
    ∀ (fuel : Nat) (data : List Nat) (page : Page) (offset : Nat) (e : GxError),
      applyLoop image fuel data page offset = .error e → e = .undefinedBehaviour := by
  intro fuel
  induction fuel with
  | zero =>
    intro data page offset e h
    cases data with
    | nil => cases h
    | cons a tl =>
      rw [applyLoop] at h
      exact (Except.error.inj h).symm
  | succ fuel ih =>
    intro data page offset e h
    match data, h with
    | [], h => cases h
    | [_], h =>
      rw [applyLoop] at h
      exact (Except.error.inj h).symm
    | lo :: hi :: rest, h =>
      rw [applyLoop] at h
      dsimp only at h
      split at h
      · split at h
        · split at h
          · exact (Except.error.inj h).symm
          · exact ih _ _ _ _ h
        · exact (Except.error.inj h).symm
      · split at h
        · exact (Except.error.inj h).symm
        · exact ih _ _ _ _ h

/-- C21, what the code does with a malformed record: `applyPageRedo` holds no test and no
`elog` call, so the only way it fails to give a page is by an access outside the page, the
image or the record, which is undefined behaviour and reports nothing.  This is the outcome
for a `MOVE` whose source range leaves the image (`MOVE(10, source = 8190)`), for a stream
whose cursor passes `BLCKSZ` (`MOVE(BLCKSZ, 0)` then `COPY(1)`), and for a stream that ends
inside an instruction. -/
theorem redo_does_not_validate :
    (∀ (page image : Page) (data : List Nat) (e : GxError),
      applyPageRedo page image data = .error e → e = .undefinedBehaviour) ∧
    applyPageRedo zeroPage zeroPage (serialize [.move 10 8190]) = .error .undefinedBehaviour ∧
    applyPageRedo zeroPage zeroPage (serialize [.move BLCKSZ 0, .copy [1]])
      = .error .undefinedBehaviour ∧
    applyPageRedo zeroPage zeroPage [10, 128, 0] = .error .undefinedBehaviour ∧
    applyPageRedo zeroPage zeroPage [3, 0, 1] = .error .undefinedBehaviour :=
  ⟨fun page image data e h => applyLoop_error image data.length data page 0 e h,
    rfl, rfl, rfl, rfl⟩

/-! ## The WAL record of the logged `GenericXLogFinish` -/

/-- The body of the first logged loop on a registered slot that is a full image: the swap,
then `XLogRegisterBuffer` with `REGBUF_FORCE_IMAGE`, and nothing else. -/
theorem finishLoggedSlot_full (i : Nat) (s : System)
    (hb : (s.pages i).buffer ≠ InvalidBuffer) (hfull : (s.pages i).fullImage = true) :
    finishLoggedSlot i s = .ok
      { s with
        pages := setPage s.pages i
          { s.pages i with
            image := memcpy (s.pages i).image 0 (s.world.page (s.pages i).buffer) 0 BLCKSZ }
        world := XLogRegisterBuffer
          { s.world with
            page := setBufferPage s.world.page (s.pages i).buffer
              (memcpy (s.world.page (s.pages i).buffer) 0
                (memcpy (fun _ => 0) 0 (s.pages i).image 0 BLCKSZ) 0 BLCKSZ) }
          i (s.pages i).buffer true } := by
  unfold finishLoggedSlot
  rw [bufferIsInvalid_false hb, if_neg Bool.false_ne_true]
  simp only [BufferGetPage, bufferIsInvalid_false hb, Bool.false_eq_true, if_false, bind,
    Except.bind, hfull, if_true]

theorem initPageData_data {w : World} {pd pd1 : PageData} {b : Buffer}
    (h : initPageData w pd b = .ok pd1) : pd1.data = [] := by
  by_cases hb : b = InvalidBuffer
  · subst hb
    rw [initPageData_invalid] at h
    cases h
  · rw [initPageData_ok w pd b hb] at h
    cases h
    rfl

theorem memoryMove_data {w : World} {pd pd1 : PageData} {d s l : Nat}
    (h : memoryMove w pd d s l = .ok pd1) (hd : pd.data = []) : pd1.data = [] := by
  unfold memoryMove at h
  split at h
  · cases h
    exact hd
  · split at h
    · cases h
    · cases h
      exact hd
    · split at h
      · cases h
      · rename_i pd2 hinit
        cases h
        show pd2.data = []
        exact initPageData_data hinit

theorem memmove_data (dst src : Int) (len : Nat) (s : System) (i : Nat)
    (hd : (s.pages i).data = []) :
    ((GenericXLogMemmove dst src len s).2.pages i).data = [] := by
  unfold GenericXLogMemmove
  dsimp only
  repeat' split
  all_goals first
    | exact hd
    | skip
  rename_i block_id _ _ _ _ pd hmm
  simp only [setPage]
  split
  · rename_i hi
    subst hi
    show pd.data = []
    exact memoryMove_data hmm hd
  · exact hd

/-- In a transaction in progress every registered slot has `dataLen = 0`: the data are
written by `GenericXLogFinish` only. -/
theorem reach_data {n : Nat} {s : System} (h : Reach n s) :
    ∀ i, i < MAX_GENERIC_XLOG_PAGES → (s.pages i).buffer ≠ InvalidBuffer →
      (s.pages i).data = [] := by
  induction h with
  | start needsWAL s hs =>
    intro i hi hb
    rw [start_snd needsWAL s hs] at hb
    dsimp only at hb
    rw [if_pos hi] at hb
    exact absurd rfl hb
  | register n s buffer isNew p hreach _ ih =>
    intro i hi hb
    rcases register_cases (reach_slotsOK hreach) buffer isNew with
      ⟨_, _, _, heq⟩ | ⟨_, heq⟩ | ⟨_, _, heq⟩ | ⟨_, _, heq⟩
    · rw [heq] at hb ⊢
      dsimp only at hb ⊢
      unfold setPage at hb ⊢
      by_cases hin : i = n
      · rw [if_pos hin]
        rfl
      · rw [if_neg hin] at hb ⊢
        exact ih i hi hb
    · rw [heq] at hb ⊢
      exact ih i hi hb
    · rw [heq] at hb ⊢
      exact ih i hi hb
    · rw [heq] at hb ⊢
      exact ih i hi hb
  | failed n s buffer isNew e hreach _ ih =>
    intro i hi hb
    rcases register_cases (reach_slotsOK hreach) buffer isNew with
      ⟨_, _, _, heq⟩ | ⟨_, heq⟩ | ⟨_, _, heq⟩ | ⟨_, _, heq⟩
    · rw [heq] at hb ⊢
      dsimp only at hb ⊢
      unfold setPage at hb ⊢
      by_cases hin : i = n
      · rw [if_pos hin]
        rfl
      · rw [if_neg hin] at hb ⊢
        exact ih i hi hb
    · rw [heq] at hb ⊢
      exact ih i hi hb
    · rw [heq] at hb ⊢
      exact ih i hi hb
    · rw [heq] at hb ⊢
      exact ih i hi hb
  | memmove n s dst src len _ ih =>
    intro i hi hb
    rw [memmove_buffer] at hb
    exact memmove_data dst src len s i (ih i hi hb)
  | write n s j image _ ih =>
    intro i hi hb
    dsimp only at hb ⊢
    unfold setPage at hb ⊢
    by_cases hij : i = j
    · rw [if_pos hij] at hb ⊢
      rw [← hij] at hb ⊢
      exact ih i hi hb
    · rw [if_neg hij] at hb ⊢
      exact ih i hi hb
  | environment n s w _ ih =>
    intro i hi hb
    exact ih i hi hb

/-- The body of the first logged loop on a registered slot that can be encoded: after the
three `memcpy` calls the page of the buffer holds what the image of the slot held, and the
image of the slot holds what the page of the buffer held.  On a slot that is not a full
image, `writeDifferentialData` then encodes the page of the buffer against the image of the
slot. -/
theorem finishLoggedSlot_swap (i : Nat) (s : System) (hb : (s.pages i).buffer ≠ InvalidBuffer)
    (hwf : SlotEncodable s i) :
    ∃ s1, finishLoggedSlot i s = .ok s1 ∧
      (∀ k, k < BLCKSZ → s1.world.page (s.pages i).buffer k = (s.pages i).image k) ∧
      (∀ k, k < BLCKSZ → (s1.pages i).image k = s.world.page (s.pages i).buffer k) ∧
      ((s.pages i).fullImage = false →
        encodePage (s1.world.page (s.pages i).buffer) (s1.pages i).image (s.pages i).regions
          (s.pages i).data = .ok (s1.pages i).data) := by
  have hpage : ∀ k, k < BLCKSZ →
      memcpy (s.world.page (s.pages i).buffer) 0
        (memcpy (fun _ => 0) 0 (s.pages i).image 0 BLCKSZ) 0 BLCKSZ k = (s.pages i).image k := by
    intro k hk
    unfold memcpy
    have e : 0 + (0 + (k - 0) - 0) = k := by omega
    rw [if_pos (show 0 ≤ k ∧ k < 0 + BLCKSZ by omega),
      if_pos (show 0 ≤ 0 + (k - 0) ∧ 0 + (k - 0) < 0 + BLCKSZ by omega), e]
  have himage : ∀ k, k < BLCKSZ →
      memcpy (s.pages i).image 0 (s.world.page (s.pages i).buffer) 0 BLCKSZ k
        = s.world.page (s.pages i).buffer k := by
    intro k hk
    unfold memcpy
    have e : 0 + (k - 0) = k := by omega
    rw [if_pos (show 0 ≤ k ∧ k < 0 + BLCKSZ by omega), e]
  cases hfull : (s.pages i).fullImage with
  | true =>
    refine ⟨_, finishLoggedSlot_full i s hb hfull, ?_, ?_, fun hc => absurd hc (by decide)⟩
    · intro k hk
      show setBufferPage s.world.page (s.pages i).buffer _ (s.pages i).buffer k = _
      unfold setBufferPage
      rw [if_pos rfl]
      exact hpage k hk
    · intro k hk
      show (setPage s.pages i _ i).image k = _
      unfold setPage
      rw [if_pos rfl]
      exact himage k hk
  | false =>
    obtain ⟨d, hd⟩ := hwf hb hfull
      (memcpy (s.world.page (s.pages i).buffer) 0
        (memcpy (fun _ => 0) 0 (s.pages i).image 0 BLCKSZ) 0 BLCKSZ)
      (memcpy (s.pages i).image 0 (s.world.page (s.pages i).buffer) 0 BLCKSZ)
      (s.pages i).data
    obtain ⟨s1, hs1, hp, hw⟩ := finishLoggedSlot_diff i s d hb hfull hd
    refine ⟨s1, hs1, ?_, ?_, ?_⟩
    · intro k hk
      rw [hw]
      exact hpage k hk
    · intro k hk
      rw [hp]
      exact himage k hk
    · intro _
      rw [hw, hp]
      exact hd

theorem slotEncodable_overwritten : SlotEncodable overwrittenSystem 0 :=
  fun _ _ => encoderDefined_of_wellFormed _ tileValid_identity srcBounded_identity

/-- C23, the swap on a concrete slot: buffer 7 holds the page with byte 1 equal to 1 (the
pre-image), and the caller has written zero bytes over the working image of slot 0 (the
post-image).  After the body of the first logged loop the page of the buffer has byte 1
equal to 0, the post-image, and the image of the slot has byte 1 equal to 1, the
pre-image. -/
theorem swap_leaves_post_image_in_buffer :
    overwrittenSystem.world.page 7 1 = 1 ∧ (overwrittenSystem.pages 0).image 1 = 0 ∧
    ∃ s1, finishLoggedSlot 0 overwrittenSystem = .ok s1 ∧
      s1.world.page 7 1 = 0 ∧ (s1.pages 0).image 1 = 1 := by
  obtain ⟨s1, hs1, hpage, himage, _⟩ :=
    finishLoggedSlot_swap 0 overwrittenSystem (by decide) slotEncodable_overwritten
  exact ⟨rfl, rfl, s1, hs1, hpage 1 (by decide), himage 1 (by decide)⟩

/-- C23, as the code has it: in the logged path of `GenericXLogFinish`, after the three
`memcpy` calls on a registered slot, the page of the buffer holds the post-image (the working
image of the caller) and the image of the slot holds the pre-image (the page of the buffer
as it was before the swap).  `writeDifferentialData` reads them that way: it encodes the
page of the buffer against the image of the slot. -/
theorem swap_roles (i : Nat) (s : System) (hb : (s.pages i).buffer ≠ InvalidBuffer)
    (hwf : SlotEncodable s i) :
    ∃ s1, finishLoggedSlot i s = .ok s1 ∧
      (∀ k, k < BLCKSZ → s1.world.page (s.pages i).buffer k = (s.pages i).image k) ∧
      (∀ k, k < BLCKSZ → (s1.pages i).image k = s.world.page (s.pages i).buffer k) ∧
      ((s.pages i).fullImage = false →
        encodePage (s1.world.page (s.pages i).buffer) (s1.pages i).image (s.pages i).regions
          (s.pages i).data = .ok (s1.pages i).data) :=
  finishLoggedSlot_swap i s hb hwf

/-- Instance of `swap_roles` on the slot whose working image the caller has overwritten
with zero bytes. -/
theorem swap_roles_witness :
    (overwrittenSystem.pages 0).buffer ≠ InvalidBuffer ∧ SlotEncodable overwrittenSystem 0 ∧
    ∃ s1, finishLoggedSlot 0 overwrittenSystem = .ok s1 ∧
      (∀ k, k < BLCKSZ → s1.world.page 7 k = zeroPage k) ∧
      (∀ k, k < BLCKSZ → (s1.pages 0).image k = samplePage k) := by
  obtain ⟨s1, hs1, hpage, himage, _⟩ :=
    swap_roles 0 overwrittenSystem (by decide) slotEncodable_overwritten
  exact ⟨by decide, slotEncodable_overwritten, s1, hs1, hpage, himage⟩

/-! ## The checks of `GenericXLogMemmove` -/

/-- A source range that leaves the image of the slot found by `dst` is refused, and the state
is left as it was. -/
theorem memmove_source_outside (s : System) (i dstOff len : Nat) (srcOff : Int)
    (hs : s.genericXlogStatus ≠ .GXLOG_NOT_STARTED) (hi : i < MAX_GENERIC_XLOG_PAGES)
    (hd0 : dstOff < BLCKSZ) (hsrc : srcOff < 0 ∨ srcOff + len > BLCKSZ) :
    GenericXLogMemmove (imageAddr i + dstOff) (imageAddr i + srcOff) len s
      = (.error .sourceOutside, s) := by
  unfold GenericXLogMemmove
  rw [if_neg hs, find_block i hi dstOff hd0]
  dsimp only
  have h1 : imageAddr i + srcOff < imageAddr i ∨
      imageAddr i + srcOff + (len : Int) > imageAddr i + (BLCKSZ : Int) := by
    omega
  rw [if_pos h1]

/-- A destination range that ends past the image of the slot found by `dst` is refused, and
the state is left as it was. -/
theorem memmove_destination_outside (s : System) (i dstOff srcOff len : Nat)
    (hs : s.genericXlogStatus ≠ .GXLOG_NOT_STARTED) (hi : i < MAX_GENERIC_XLOG_PAGES)
    (hd0 : dstOff < BLCKSZ) (hsrc : srcOff + len ≤ BLCKSZ) (hd : dstOff + len > BLCKSZ) :
    GenericXLogMemmove (imageAddr i + dstOff) (imageAddr i + srcOff) len s
      = (.error .destinationOutside, s) := by
  unfold GenericXLogMemmove
  rw [if_neg hs, find_block i hi dstOff hd0]
  dsimp only
  have h1 : ¬ (imageAddr i + (srcOff : Int) < imageAddr i ∨
      imageAddr i + (srcOff : Int) + (len : Int) > imageAddr i + (BLCKSZ : Int)) := by
    omega
  have h2 : imageAddr i + (dstOff : Int) < imageAddr i ∨
      imageAddr i + (dstOff : Int) + (len : Int) > imageAddr i + (BLCKSZ : Int) := by
    omega
  rw [if_neg h1, if_pos h2]

theorem reach_movedTwice : Reach 1 movedTwice :=
  Reach.memmove 1 movedOnce _ _ 40
    (Reach.memmove 1 registeredSystem _ _ 30 reach_registered)

/-- C24: the two range checks of `GenericXLogMemmove` refuse a source range or a destination
range that leaves the image and leave the state as it was, but a call with both ranges
inside the image can still fail.  After `GenericXLogMemmove(image + 40, image, 30)` and
`GenericXLogMemmove(image, image + 55, 40)` on a registered slot, the region list is
`(0,15,15) (0,70,25) (40,0,30) (70,70,8122)`, in which no region holds offset 30, and the
call `GenericXLogMemmove(image, image + 30, 1)`, with both ranges inside the image, fails in
`findRegion`. -/
theorem memmove_in_bounds_can_fail :
    (∀ (s : System) (i dstOff len : Nat) (srcOff : Int),
      s.genericXlogStatus ≠ .GXLOG_NOT_STARTED → i < MAX_GENERIC_XLOG_PAGES → dstOff < BLCKSZ →
      (srcOff < 0 ∨ srcOff + len > BLCKSZ) →
      GenericXLogMemmove (imageAddr i + dstOff) (imageAddr i + srcOff) len s
        = (.error .sourceOutside, s)) ∧
    (∀ (s : System) (i dstOff srcOff len : Nat),
      s.genericXlogStatus ≠ .GXLOG_NOT_STARTED → i < MAX_GENERIC_XLOG_PAGES → dstOff < BLCKSZ →
      srcOff + len ≤ BLCKSZ → dstOff + len > BLCKSZ →
      GenericXLogMemmove (imageAddr i + dstOff) (imageAddr i + srcOff) len s
        = (.error .destinationOutside, s)) ∧
    Reach 1 movedTwice ∧
    (movedTwice.pages 0).regions = [⟨0, 15, 15⟩, ⟨0, 70, 25⟩, ⟨40, 0, 30⟩, ⟨70, 70, 8122⟩] ∧
    findRegion (movedTwice.pages 0) 30 = .error .cantFindRegion ∧
    0 + 1 ≤ BLCKSZ ∧ 30 + 1 ≤ BLCKSZ ∧
    (GenericXLogMemmove (imageAddr 0 + 0) (imageAddr 0 + 30) 1 movedTwice).1
      = .error .cantFindRegion :=
  ⟨memmove_source_outside, memmove_destination_outside, reach_movedTwice, rfl, rfl,
    by decide, by decide, rfl⟩

/-! ## `GenericXLogMemmove` and the registration of the slot -/

/-- C25: `GenericXLogMemmove` finds the slot by the address of `dst` alone and does not look
at `pages[i].buffer`.  After `GenericXLogStart`, `GenericXLogRegister(7, false)`,
`GenericXLogAbort` and a second `GenericXLogStart`, no slot is registered, slot 0 still holds
the image and the region list of the transaction given up, and
`GenericXLogMemmove(image + 40, image, 30)` returns normally and moves the bytes. -/
theorem memmove_on_unregistered_slot :
    restartedSystem.genericXlogStatus = .GXLOG_LOGGED ∧
    (∀ i, ¬ Registered restartedSystem i) ∧
    (restartedSystem.pages 0).buffer = InvalidBuffer ∧
    (restartedSystem.pages 0).regions = [identityRegion] ∧
    (GenericXLogMemmove (imageAddr 0 + 40) (imageAddr 0) 30 restartedSystem).1 = .ok () ∧
    (restartedSystem.pages 0).image 40 = 40 ∧
    ((GenericXLogMemmove (imageAddr 0 + 40) (imageAddr 0) 30 restartedSystem).2.pages 0).image 40
      = 0 ∧
    ((GenericXLogMemmove (imageAddr 0 + 40) (imageAddr 0) 30 restartedSystem).2.pages 0).regions
      = [⟨0, 0, 40⟩, ⟨40, 0, 30⟩, ⟨70, 70, 8122⟩] := by
  refine ⟨rfl, ?_, rfl, rfl, rfl, rfl, rfl, rfl⟩
  intro i hi
  obtain ⟨hi1, hi2⟩ := hi
  have h3 : MAX_GENERIC_XLOG_PAGES = 3 := rfl
  rw [h3] at hi1
  interval_cases i
  · exact hi2 rfl
  · exact hi2 rfl
  · exact hi2 rfl

/-! ## Records of the identity commit and of a single-byte write -/

theorem registered_image (k : Nat) (hk : k < BLCKSZ) :
    (registeredSystem.pages 0).image k = samplePage k := by
  show memcpy (fun _ => 0) 0 samplePage 0 BLCKSZ k = samplePage k
  unfold memcpy
  rw [if_pos ⟨Nat.zero_le _, by omega⟩]
  congr 1
  omega

/-- C26: identity commit.  On a slot with the identity region list and `dataLen = 0`, as
`GenericXLogRegister` leaves it, whose image equals the page of its buffer,
`writeDifferentialData` writes exactly one instruction, `MOVE(BLCKSZ, source = 0)`: the four
bytes `00 A0 00 00`, `dataLen = 4`, and no `COPY` after it. -/
theorem identity_commit (w : World) (pd : PageData) (hb : pd.buffer ≠ InvalidBuffer)
    (hreg : pd.regions = [identityRegion]) (hdata : pd.data = [])
    (hsame : ∀ k, k < BLCKSZ → w.page pd.buffer k = pd.image k) :
    ∃ pd1, writeDifferentialData w pd = .ok pd1 ∧
      pd1 = { pd with data := serialize [.move BLCKSZ 0] } ∧
      pd1.data = [0, 160, 0, 0] ∧ pd1.dataLen = 4 := by
  have henc : encodePage (w.page pd.buffer) pd.image pd.regions pd.data
      = .ok (serialize [.move BLCKSZ 0]) := by
    rw [hreg, hdata]
    exact encode_unchanged (w.page pd.buffer) pd.image hsame
  exact ⟨_, writeDifferentialData_of_encode w pd _ hb henc, rfl, rfl, rfl⟩

/-- Instance of `identity_commit`: the slot of `registeredSystem`, whose image is a copy of
the page of buffer 7. -/
theorem identity_commit_witness :
    (registeredSystem.pages 0).buffer ≠ InvalidBuffer ∧
    (registeredSystem.pages 0).regions = [identityRegion] ∧
    (registeredSystem.pages 0).data = [] ∧
    ∃ pd1, writeDifferentialData sampleWorld (registeredSystem.pages 0) = .ok pd1 ∧
      pd1.data = [0, 160, 0, 0] ∧ pd1.dataLen = 4 := by
  obtain ⟨pd1, h1, _, h3, h4⟩ :=
    identity_commit sampleWorld (registeredSystem.pages 0) (by decide) rfl rfl
      (fun k hk => (registered_image k hk).symm)
  exact ⟨by decide, rfl, rfl, pd1, h1, h3, h4⟩

/-- C27: single-byte write.  On a slot with the identity region list and `dataLen = 0`, if
the page of the buffer differs from the image of the slot at byte `p` only, with
`MATCH_THRESHOLD < p` and `MATCH_THRESHOLD < BLCKSZ - p - 1`, then `writeDifferentialData`
writes exactly `MOVE(p, source = 0)`, `COPY(1, {W[p]})`,
`MOVE(BLCKSZ - p - 1, source = p + 1)`. -/
theorem single_byte_write (w : World) (pd : PageData) (p : Nat)
    (hb : pd.buffer ≠ InvalidBuffer) (hreg : pd.regions = [identityRegion])
    (hdata : pd.data = []) (hp1 : MATCH_THRESHOLD < p) (hp2 : MATCH_THRESHOLD < BLCKSZ - p - 1)
    (hsame : ∀ k, k < BLCKSZ → k ≠ p → w.page pd.buffer k = pd.image k)
    (hdiff : w.page pd.buffer p ≠ pd.image p) :
    writeDifferentialData w pd = .ok
      { pd with
        data := serialize [.move p 0, .copy [w.page pd.buffer p],
          .move (BLCKSZ - p - 1) (p + 1)] } := by
  have hB : BLCKSZ = 8192 := rfl
  have hT : MATCH_THRESHOLD = 16 := rfl
  have henc := encode_changed_window (w.page pd.buffer) pd.image p 1 (Nat.le_refl _) hp1
    (by omega) (fun k hk hkp => hsame k hk (by omega))
    (fun k h1 h2 => by
      have e : k = p := by omega
      rw [e]
      exact hdiff)
  have hbytes : pageBytes (w.page pd.buffer) p 1 = [w.page pd.buffer p] := rfl
  rw [hbytes, ← Nat.sub_sub] at henc
  apply writeDifferentialData_of_encode w pd _ hb
  rw [hreg, hdata]
  exact henc

/-- Instance of `single_byte_write` with `p = 100` and `W[100] = 0xBB`: the record is
`MOVE(100, 0)`, `COPY(1, {0xBB})`, `MOVE(BLCKSZ - 101, 101)`. -/
theorem single_byte_write_witness :
    MATCH_THRESHOLD < 100 ∧ MATCH_THRESHOLD < BLCKSZ - 100 - 1 ∧
    pokedWorld.page (registeredSystem.pages 0).buffer 100 = 0xBB ∧
    (registeredSystem.pages 0).image 100 = 100 ∧
    writeDifferentialData pokedWorld (registeredSystem.pages 0) = .ok
      { registeredSystem.pages 0 with
        data := serialize [.move 100 0, .copy [0xBB], .move (BLCKSZ - 101) 101] } :=
  ⟨by decide, by decide, rfl, rfl,
    single_byte_write pokedWorld (registeredSystem.pages 0) 100 (by decide) rfl rfl
      (by decide) (by decide)
      (fun k hk hne => by
        rw [registered_image k hk]
        show pokedPage k = samplePage k
        unfold pokedPage
        rw [if_neg hne])
      (by decide)⟩

/-! ## The encoder on a list of several regions -/

/-- One iteration of the encoder loop inside a region, on a byte that equals the byte of the
image that the region points at. -/
theorem encodeStep_match (W P : Page) (regions : List Region) (i : Nat)
    (data : List Nat) (r ro nm ms : Nat) (reg : Region) (hr : regions[r]? = some reg)
    (hro : ro < reg.length) (hs : reg.srcOffset + ro < BLCKSZ)
    (h : W i = P (reg.srcOffset + ro)) :
    encodeStep W P regions i ⟨data, r, ro, nm, ms⟩ = .ok ⟨data, r, ro + 1, nm, ms⟩ := by
  have hB : BLCKSZ = 8192 := rfl
  unfold encodeStep
  simp only [bind, Except.bind, pure, Except.pure, fetch_of_get hr]
  rw [if_neg (show ¬ (ro ≥ reg.length) by omega)]
  rw [if_neg (show ¬ (reg.srcOffset + ro ≥ BLCKSZ) by omega), if_neg (not_not.mpr h)]
  dsimp only
  rw [asOffsetNumber_eq _ (ro + 1) (by omega) (by omega)]

/-- One iteration of the encoder loop at the end of a region, when the first byte of the
next region equals the byte of the image that this region points at: `CHECK_SET` runs for
the region left, and a new run starts. -/
theorem encodeStep_boundary_match (W P : Page) (regions : List Region) (i : Nat)
    (data : List Nat) (r ro nm ms : Nat) (reg reg1 : Region) (hr : regions[r]? = some reg)
    (hr1 : regions[r + 1]? = some reg1) (hro : reg.length ≤ ro)
    (hs : reg1.srcOffset < BLCKSZ) (h : W i = P reg1.srcOffset) :
    encodeStep W P regions i ⟨data, r, ro, nm, ms⟩ =
      .ok { CHECK_SET W reg i ⟨data, r, ro, nm, ms⟩ with
            matchStart := i, region := r + 1, regionOffset := 1 } := by
  have hB : BLCKSZ = 8192 := rfl
  unfold encodeStep
  simp only [bind, Except.bind, pure, Except.pure, fetch_of_get hr]
  rw [if_pos (show ro ≥ reg.length from hro)]
  rw [fetch_of_get hr1]
  dsimp only
  rw [if_neg (show ¬ (reg1.srcOffset + 0 ≥ BLCKSZ) by omega),
    if_neg (show ¬ (W i ≠ P (reg1.srcOffset + 0)) from not_not.mpr h)]
  rfl

/-- The encoder loop over a stretch of a region in which the page equals the bytes of the
image that the region points at: only the cursor moves. -/
theorem encodeLoop_match (W P : Page) (regions : List Region) (r : Nat) (reg : Region)
    (hr : regions[r]? = some reg) (hsrc : reg.srcOffset + reg.length ≤ BLCKSZ) :
    ∀ (n i ro : Nat) (data : List Nat) (nm ms : Nat), i + n ≤ BLCKSZ → ro + n ≤ reg.length →
      (∀ t, t < n → W (i + t) = P (reg.srcOffset + ro + t)) →
      encodeLoop W P regions n i ⟨data, r, ro, nm, ms⟩ = .ok ⟨data, r, ro + n, nm, ms⟩ := by
  intro n
  induction n with
  | zero =>
    intro i ro data nm ms _ _ _
    rfl
  | succ n ih =>
    intro i ro data nm ms hin hron h
    rw [encodeLoop_succ, encodeStep_match W P regions i data r ro nm ms reg hr
      (by omega) (by omega) (h 0 (by omega))]
    dsimp only
    rw [ih (i + 1) (ro + 1) data nm ms (by omega) (by omega) (fun t ht => by
      have := h (t + 1) (by omega)
      have e1 : i + 1 + t = i + (t + 1) := by omega
      have e2 : reg.srcOffset + (ro + 1) + t = reg.srcOffset + ro + (t + 1) := by omega
      rw [e1, e2]
      exact this)]
    have e : ro + 1 + n = ro + (n + 1) := by omega
    rw [e]

/-- The record of a page whose two halves both equal the second half of the image, under
the region list `(0, 4096, 4096) (4096, 4096, 4096)`: two `MOVE` instructions of 4096 bytes
with source 4096. -/
theorem encode_two_halves (W P : Page)
    (h1 : ∀ k, k < 4096 → W k = P (4096 + k))
    (h2 : ∀ k, k < 4096 → W (4096 + k) = P (4096 + k)) :
    encodePage W P [⟨0, 4096, 4096⟩, ⟨4096, 4096, 4096⟩] [] =
      .ok (serialize [.move 4096 4096, .move 4096 4096]) := by
  have hB : BLCKSZ = 8192 := rfl
  have hT : MATCH_THRESHOLD = 16 := rfl
  have hr0 : ([⟨0, 4096, 4096⟩, ⟨4096, 4096, 4096⟩] : List Region)[0]?
      = some ⟨0, 4096, 4096⟩ := rfl
  have hr1 : ([⟨0, 4096, 4096⟩, ⟨4096, 4096, 4096⟩] : List Region)[0 + 1]?
      = some ⟨4096, 4096, 4096⟩ := rfl
  have hr1b : ([⟨0, 4096, 4096⟩, ⟨4096, 4096, 4096⟩] : List Region)[1]?
      = some ⟨4096, 4096, 4096⟩ := rfl
  -- the first half
  have l1 := encodeLoop_match W P _ 0 _ hr0 (by show 4096 + 4096 ≤ BLCKSZ; omega)
    4096 0 0 [] 0 0 (by omega) (by show 0 + 4096 ≤ 4096; omega) (fun t ht => by
      show W (0 + t) = P (4096 + 0 + t)
      rw [Nat.zero_add, Nat.add_zero]
      exact h1 t ht)
  rw [Nat.zero_add] at l1
  -- the step into the second region
  have l2 := encodeStep_boundary_match W P _ 4096 [] 0 4096 0 0 _ _ hr0 hr1
    (Nat.le_refl _) (by show 4096 < BLCKSZ; omega) (h2 0 (by omega))
  rw [CHECK_SET_flush W ⟨0, 4096, 4096⟩ 4096 [] 0 4096 0 0 4096 (by omega) (Nat.le_refl _)
    (by omega) (by show 4096 + 4096 = 4096 + (4096 - 0); omega) (by omega)] at l2
  dsimp only at l2
  rw [if_neg (Nat.lt_irrefl _), List.nil_append, Nat.sub_zero] at l2
  -- the rest of the second half
  have l3 := encodeLoop_match W P _ 1 _ hr1b (by show 4096 + 4096 ≤ BLCKSZ; omega)
    4095 4097 1 (Instr.move 4096 4096).bytes 4096 4096 (by omega)
    (by show 1 + 4095 ≤ 4096; omega) (fun t ht => by
      show W (4097 + t) = P (4096 + 1 + t)
      have := h2 (1 + t) (by omega)
      have e1 : 4097 + t = 4096 + (1 + t) := by omega
      rw [e1]
      exact this)
  have hloop : encodeLoop W P [⟨0, 4096, 4096⟩, ⟨4096, 4096, 4096⟩] BLCKSZ 0 ⟨[], 0, 0, 0, 0⟩ =
      .ok ⟨(Instr.move 4096 4096).bytes, 1, 4096, 4096, 4096⟩ := by
    have e : BLCKSZ = 4096 + (1 + 4095) := by omega
    rw [e, encodeLoop_add, l1]
    dsimp only
    rw [Nat.zero_add, encodeLoop_add, encodeLoop_succ, l2]
    dsimp only
    have z : encodeLoop W P [⟨0, 4096, 4096⟩, ⟨4096, 4096, 4096⟩] 0 (4096 + 1)
        ⟨(Instr.move 4096 4096).bytes, 0 + 1, 1, 4096, 4096⟩
          = .ok ⟨(Instr.move 4096 4096).bytes, 0 + 1, 1, 4096, 4096⟩ := rfl
    rw [z]
    dsimp only
    exact l3
  rw [encodePage_end W P _ _ ⟨4096, 4096, 4096⟩ hloop (fetch_of_get hr1b),
    CHECK_SET_flush W ⟨4096, 4096, 4096⟩ BLCKSZ (Instr.move 4096 4096).bytes 1 4096 4096 4096
      4096 (Nat.le_refl _) (Nat.le_refl _) (by omega)
      (by show 4096 + 4096 = 4096 + (BLCKSZ - 4096); omega) (by omega)]
  dsimp only
  have e4 : BLCKSZ - 4096 = 4096 := by omega
  rw [if_neg (Nat.lt_irrefl _), if_neg (Nat.lt_irrefl _), serialize_cons, serialize_one, e4]

/-! ## The half-page shift -/

/-- The function `memoryMoveRegions` reads the slot through its region list only. -/
theorem memoryMoveRegions_congr (pd pd1 : PageData) (h : pd.regions = pd1.regions)
    (d s l : Nat) : memoryMoveRegions pd d s l = memoryMoveRegions pd1 d s l := by
  unfold memoryMoveRegions findRegion PageData.regionsCount
  rw [h]

/-- The function `memoryMove` on a slot with its overflow flag clear, in terms of the region
list that the same call leaves on the blank slot with the same regions. -/
theorem memoryMove_regions (w : World) (pd : PageData) (regions regions1 : List Region)
    (d s l : Nat) (hreg : pd.regions = regions) (hov : pd.overflow = false)
    (h : memoryMoveRegions { blankSlot with regions := regions } d s l = .ok (some regions1)) :
    memoryMove w pd d s l = .ok { pd with regions := regions1 } := by
  unfold memoryMove
  rw [hov, if_neg Bool.false_ne_true,
    memoryMoveRegions_congr pd { blankSlot with regions := regions } hreg, h]

theorem swapped_page (page image : Page) (k : Nat) (hk : k < BLCKSZ) :
    memcpy page 0 (memcpy (fun _ => 0) 0 image 0 BLCKSZ) 0 BLCKSZ k = image k := by
  unfold memcpy
  have e : 0 + (0 + (k - 0) - 0) = k := by omega
  rw [if_pos (show 0 ≤ k ∧ k < 0 + BLCKSZ by omega),
    if_pos (show 0 ≤ 0 + (k - 0) ∧ 0 + (k - 0) < 0 + BLCKSZ by omega), e]

theorem swapped_image (page image : Page) (k : Nat) (hk : k < BLCKSZ) :
    memcpy image 0 page 0 BLCKSZ k = page k := by
  unfold memcpy
  have e : 0 + (k - 0) = k := by omega
  rw [if_pos (show 0 ≤ k ∧ k < 0 + BLCKSZ by omega), e]

theorem wellFormed_two_halves : WellFormedStream [.move 4096 4096, .move 4096 4096] := by
  refine ⟨by decide, ?_⟩
  intro x hx
  simp only [List.mem_cons, List.mem_singleton, List.not_mem_nil, or_false, or_self] at hx
  rw [hx]
  show 4096 + 4096 ≤ BLCKSZ
  decide

/-- The half-page shift with the overflow flag clear.  On a slot as `GenericXLogRegister(buf, false)` leaves it, with the
image equal to the page `P` of the buffer, `GenericXLogMemmove(image, image + BLCKSZ/2,
BLCKSZ/2)` returns and leaves the region list `(0, 4096, 4096) (4096, 4096, 4096)`; the first
loop of the logged `GenericXLogFinish` then writes the record `MOVE(4096, source = 4096)`,
`MOVE(4096, source = 4096)`; and `applyPageRedo` of that record on `P` gives the page whose
two halves both equal the second half of `P`. -/
theorem half_page_shift (s : System) (i : Nat)
    (hs : s.genericXlogStatus ≠ .GXLOG_NOT_STARTED) (hi : i < MAX_GENERIC_XLOG_PAGES)
    (hb : (s.pages i).buffer ≠ InvalidBuffer) (hreg : (s.pages i).regions = [identityRegion])
    (hov : (s.pages i).overflow = false) (hfull : (s.pages i).fullImage = false)
    (hdata : (s.pages i).data = [])
    (himg : ∀ k, k < BLCKSZ → (s.pages i).image k = s.world.page (s.pages i).buffer k) :
    BLCKSZ / 2 = 4096 ∧
    ∃ s1, GenericXLogMemmove (imageAddr i + ((0 : Nat) : Int)) (imageAddr i + ((4096 : Nat) : Int))
        4096 s = (.ok (), s1) ∧
      (s1.pages i).regions = [⟨0, 4096, 4096⟩, ⟨4096, 4096, 4096⟩] ∧
      ∃ s2, finishLoggedSlot i s1 = .ok s2 ∧
        (s2.pages i).data = serialize [.move 4096 4096, .move 4096 4096] ∧
        ∃ page : Page,
          applyPageRedo (s.world.page (s.pages i).buffer) (s.world.page (s.pages i).buffer)
            (s2.pages i).data = .ok page ∧
          ∀ k, k < 4096 →
            page k = s.world.page (s.pages i).buffer (4096 + k) ∧
            page (4096 + k) = s.world.page (s.pages i).buffer (4096 + k) := by
  have hB : BLCKSZ = 8192 := rfl
  refine ⟨rfl, ?_⟩
  have hmm := memoryMove_regions s.world (s.pages i) [identityRegion]
    [⟨0, 4096, 4096⟩, ⟨4096, 4096, 4096⟩] 0 4096 4096 hreg hov rfl
  have heq := memmove_eq s i 0 4096 4096 hs hi (by decide) (by decide) (by decide)
  rw [hfull, if_neg Bool.false_ne_true, hmm] at heq
  dsimp only at heq
  refine ⟨_, heq, ?_, ?_⟩
  · show (setPage s.pages i _ i).regions = _
    unfold setPage
    rw [if_pos rfl]
    rfl
  · have hp : setPage s.pages i
        (movedImage { s.pages i with regions := [⟨0, 4096, 4096⟩, ⟨4096, 4096, 4096⟩] }
          0 4096 4096) i
        = movedImage { s.pages i with regions := [⟨0, 4096, 4096⟩, ⟨4096, 4096, 4096⟩] }
          0 4096 4096 := by
      unfold setPage
      rw [if_pos rfl]
    have henc : encodePage
        (memcpy (s.world.page (s.pages i).buffer) 0
          (memcpy (fun _ => 0) 0
            (memcpy (s.pages i).image 0 (s.pages i).image 4096 4096) 0 BLCKSZ) 0 BLCKSZ)
        (memcpy (memcpy (s.pages i).image 0 (s.pages i).image 4096 4096) 0
          (s.world.page (s.pages i).buffer) 0 BLCKSZ)
        [⟨0, 4096, 4096⟩, ⟨4096, 4096, 4096⟩] [] =
          .ok (serialize [.move 4096 4096, .move 4096 4096]) := by
      apply encode_two_halves
      · intro k hk
        rw [swapped_page _ _ k (by omega), swapped_image _ _ (4096 + k) (by omega)]
        unfold memcpy
        rw [if_pos ⟨Nat.zero_le _, by omega⟩, Nat.sub_zero]
        exact himg (4096 + k) (by omega)
      · intro k hk
        rw [swapped_page _ _ (4096 + k) (by omega), swapped_image _ _ (4096 + k) (by omega)]
        unfold memcpy
        rw [if_neg (by omega)]
        exact himg (4096 + k) (by omega)
    obtain ⟨s2, hs2, hpages, _⟩ := finishLoggedSlot_diff i
      { s with
        pages := setPage s.pages i
          (movedImage { s.pages i with regions := [⟨0, 4096, 4096⟩, ⟨4096, 4096, 4096⟩] }
            0 4096 4096) }
      (serialize [.move 4096 4096, .move 4096 4096])
      (by
        show (setPage s.pages i _ i).buffer ≠ InvalidBuffer
        rw [hp]
        exact hb)
      (by
        show (setPage s.pages i _ i).fullImage = false
        rw [hp]
        exact hfull)
      (by
        show encodePage
          (memcpy (s.world.page (setPage s.pages i _ i).buffer) 0
            (memcpy (fun _ => 0) 0 (setPage s.pages i _ i).image 0 BLCKSZ) 0 BLCKSZ)
          (memcpy (setPage s.pages i _ i).image 0
            (s.world.page (setPage s.pages i _ i).buffer) 0 BLCKSZ)
          (setPage s.pages i _ i).regions (setPage s.pages i _ i).data = _
        rw [hp]
        show encodePage _ _ _ (s.pages i).data = _
        rw [hdata]
        exact henc)
    refine ⟨s2, hs2, by rw [hpages], ?_⟩
    rw [hpages]
    dsimp only
    refine ⟨_, applyPageRedo_serialize _ _ _ wellFormed_two_halves, ?_⟩
    intro k hk
    constructor
    · have h := decodeReference_at (s.world.page (s.pages i).buffer)
        [.move 4096 4096, .move 4096 4096] (s.world.page (s.pages i).buffer) 0 0
        (.move 4096 4096) rfl k (Nat.zero_le _) (by
          show k < 0 + 0 + 4096
          omega)
      rw [h]
      show s.world.page (s.pages i).buffer (4096 + (k - (0 + 0))) = _
      have e : 4096 + (k - (0 + 0)) = 4096 + k := by omega
      rw [e]
    · have h := decodeReference_at (s.world.page (s.pages i).buffer)
        [.move 4096 4096, .move 4096 4096] (s.world.page (s.pages i).buffer) 0 1
        (.move 4096 4096) rfl (4096 + k) (by
          show 0 + 4096 ≤ 4096 + k
          omega) (by
          show 4096 + k < 0 + 4096 + 4096
          omega)
      rw [h]
      show s.world.page (s.pages i).buffer (4096 + (4096 + k - (0 + 4096))) = _
      have e : 4096 + (4096 + k - (0 + 4096)) = 4096 + k := by omega
      rw [e]

/-- Instance of `half_page_shift` on the slot of `registeredSystem`, after
`GenericXLogStart` and `GenericXLogRegister(7, false)`. -/
theorem half_page_shift_witness :
    registeredSystem.genericXlogStatus ≠ .GXLOG_NOT_STARTED ∧
    (registeredSystem.pages 0).buffer ≠ InvalidBuffer ∧
    (registeredSystem.pages 0).regions = [identityRegion] ∧
    ∃ s1, GenericXLogMemmove (imageAddr 0 + ((0 : Nat) : Int)) (imageAddr 0 + ((4096 : Nat) : Int))
        4096 registeredSystem = (.ok (), s1) ∧
      (s1.pages 0).regions = [⟨0, 4096, 4096⟩, ⟨4096, 4096, 4096⟩] ∧
      ∃ s2, finishLoggedSlot 0 s1 = .ok s2 ∧
        (s2.pages 0).data = serialize [.move 4096 4096, .move 4096 4096] := by
  obtain ⟨_, s1, h1, h2, s2, h3, h4, _⟩ :=
    half_page_shift registeredSystem 0 (by decide) (by decide) (by decide) rfl rfl rfl rfl
      (fun k hk => registered_image k hk)
  exact ⟨by decide, by decide, rfl, s1, h1, h2, s2, h3, h4⟩

/-! ## Cascading shifts -/

theorem copy_header_length (len : Nat) (h : len < 32768) :
    (len % 256 + 256 * (len / 256)) &&& LENGTH_MASK = len := by
  have h1 : len % 256 + 256 * (len / 256) = len := Nat.mod_add_div len 256
  have hL : LENGTH_MASK = 2 ^ 15 - 1 := rfl
  rw [h1, hL, Nat.and_pow_two_sub_one_eq_mod]
  exact Nat.mod_eq_of_lt (by omega)

/-- C30: the format of an instruction.  For every length from 1 to `BLCKSZ` and every
16-bit source, `writeMoveFlagment` appends exactly four bytes, the 16-bit value
`length | MOVE_FLAG` and the 16-bit source, low byte first, and `writeCopyFlagment` appends
exactly `2 + length` bytes, the 16-bit length, whose high bit is clear, and the `length`
literal bytes.  The test `length & MOVE_FLAG` of the decoder tells the two kinds apart, the
mask `length & LENGTH_MASK` gives back the length, the two bytes after the header of a `MOVE`
give back the source, and the loop of `applyPageRedo` carries out the `memcpy` of the
instruction and advances its cursor by `length`. -/
theorem instruction_format (data : List Nat) (length source : Nat) (page : Page) (off : Nat)
    (hl1 : 1 ≤ length) (hl2 : length ≤ BLCKSZ) (hs : source < 65536) :
    MOVE_FLAG = 0x8000 ∧ LENGTH_MASK = 0x7FFF ∧ BLCKSZ < MOVE_FLAG ∧
    (∃ b0 b1 b2 b3 : Nat,
      writeMoveFlagment data length source = data ++ [b0, b1, b2, b3] ∧
      b0 < 256 ∧ b1 < 256 ∧ b2 < 256 ∧ b3 < 256 ∧
      b0 + 256 * b1 = length ||| MOVE_FLAG ∧ b2 + 256 * b3 = source ∧
      (b0 + 256 * b1) &&& MOVE_FLAG ≠ 0 ∧ (b0 + 256 * b1) &&& LENGTH_MASK = length) ∧
    (writeMoveFlagment data length source).length = data.length + 4 ∧
    (∃ c0 c1 : Nat,
      writeCopyFlagment data length page off = data ++ [c0, c1] ++ pageBytes page off length ∧
      c0 < 256 ∧ c1 < 256 ∧ c0 + 256 * c1 = length ∧
      (c0 + 256 * c1) &&& MOVE_FLAG = 0 ∧ (c0 + 256 * c1) &&& LENGTH_MASK = length) ∧
    (writeCopyFlagment data length page off).length = data.length + (2 + length) ∧
    (∀ (image pg : Page) (fuel o : Nat) (rest : List Nat), o + length ≤ BLCKSZ →
      (source + length ≤ BLCKSZ →
        applyLoop image (fuel + 1) (writeMoveFlagment [] length source ++ rest) pg o
          = applyLoop image fuel rest (memcpy pg o image source length) (o + length)) ∧
      applyLoop image (fuel + 1) (writeCopyFlagment [] length page off ++ rest) pg o
        = applyLoop image fuel rest (memcpy pg o page off length) (o + length)) := by
  have hB : BLCKSZ = 8192 := rfl
  have hlen : length < 32768 := by omega
  have hv := move_header_value length hlen
  refine ⟨rfl, rfl, by decide, ?_, ?_, ?_, ?_, ?_⟩
  · refine ⟨(length ||| MOVE_FLAG) % 256, (length ||| MOVE_FLAG) / 256, source % 256,
      source / 256, rfl, Nat.mod_lt _ (by omega), ?_, Nat.mod_lt _ (by omega), by omega,
      Nat.mod_add_div _ 256, Nat.mod_add_div _ 256, move_header_flag length hlen,
      move_header_length length hlen⟩
    rw [hv]
    omega
  · unfold writeMoveFlagment
    rw [List.length_append]
    rfl
  · refine ⟨length % 256, length / 256, ?_, Nat.mod_lt _ (by omega), by omega,
      Nat.mod_add_div _ 256, copy_header_flag length hlen, copy_header_length length hlen⟩
    rfl
  · unfold writeCopyFlagment
    rw [List.length_append, List.length_append, List.length_map, List.length_range]
    show data.length + 2 + length = data.length + (2 + length)
    omega
  · intro image pg fuel o rest ho
    refine ⟨fun hsrc => ?_, ?_⟩
    · exact applyLoop_move image pg fuel length source o rest hlen ho hsrc
    · exact applyLoop_copy image pg page fuel length off o rest hlen ho

/-- Instance of `instruction_format`: `MOVE(100, source = 300)` is the four bytes
`64 80 2C 01`, and `COPY` of the three bytes at offset 5 of `samplePage` is the five bytes
`03 00 05 06 07`. -/
theorem instruction_format_witness :
    1 ≤ 100 ∧ 100 ≤ BLCKSZ ∧ 300 < 65536 ∧
    writeMoveFlagment [] 100 300 = [100, 128, 44, 1] ∧
    (writeMoveFlagment [] 100 300).length = 0 + 4 ∧
    writeCopyFlagment [] 3 samplePage 5 = [3, 0, 5, 6, 7] ∧
    (∃ b0 b1 b2 b3 : Nat,
      writeMoveFlagment [] 100 300 = [] ++ [b0, b1, b2, b3] ∧
      (b0 + 256 * b1) &&& MOVE_FLAG ≠ 0 ∧ (b0 + 256 * b1) &&& LENGTH_MASK = 100 ∧
      b2 + 256 * b3 = 300) := by
  have h := instruction_format [] 100 300 samplePage 5 (by decide) (by decide) (by decide)
  obtain ⟨_, _, _, ⟨b0, b1, b2, b3, h1, _, _, _, _, _, h2, h3, h4⟩, h5, _⟩ := h
  exact ⟨by decide, by decide, by decide, rfl, h5, rfl, b0, b1, b2, b3, h1, h3, h4, h2⟩

/-! ## The slot table -/

theorem reach_twoRegistered : Reach 2 twoRegistered :=
  Reach.register 1 _ 8 false (imageAddr 1)
    (Reach.failed 1 registeredSystem 7 false .duplicateBuffer reach_registered rfl) rfl

/-- C37: slot table invariant.  In every state of a transaction in progress that has seen
`n` successful registrations, reached from `GenericXLogStart` by `GenericXLogRegister` calls
that succeed or fail (and by `GenericXLogMemmove` calls and writes of the caller), `n` is at
most 3, the slots that hold a valid buffer are exactly the slots `0, ..., n - 1`, and the
buffers of these slots are pairwise distinct. -/
theorem slot_table_invariant {n : Nat} {s : System} (h : Reach n s) :
    MAX_GENERIC_XLOG_PAGES = 3 ∧ n ≤ MAX_GENERIC_XLOG_PAGES ∧
    (∀ i, i < MAX_GENERIC_XLOG_PAGES → (i < n ↔ (s.pages i).buffer ≠ InvalidBuffer)) ∧
    (∀ i j, i < n → j < n → (s.pages i).buffer = (s.pages j).buffer → i = j) :=
  ⟨rfl, (reach_slotsOK h).bound, (reach_slotsOK h).valid, (reach_slotsOK h).distinct⟩

/-- Instance of `slot_table_invariant` after the registration of buffer 7, a failed second
registration of buffer 7 and the registration of buffer 8: slots 0 and 1 hold the buffers 7
and 8, and slot 2 is free. -/
theorem slot_table_invariant_witness :
    Reach 2 twoRegistered ∧
    (GenericXLogRegister 7 false registeredSystem).1 = .error .duplicateBuffer ∧
    (twoRegistered.pages 0).buffer = 7 ∧ (twoRegistered.pages 1).buffer = 8 ∧
    (twoRegistered.pages 2).buffer = InvalidBuffer ∧
    (∀ i, i < MAX_GENERIC_XLOG_PAGES →
      (i < 2 ↔ (twoRegistered.pages i).buffer ≠ InvalidBuffer)) ∧
    (∀ i j, i < 2 → j < 2 →
      (twoRegistered.pages i).buffer = (twoRegistered.pages j).buffer → i = j) :=
  ⟨reach_twoRegistered, rfl, rfl, rfl, rfl,
    (slot_table_invariant reach_twoRegistered).2.2.1,
    (slot_table_invariant reach_twoRegistered).2.2.2⟩

/-! ## The frame of the decoder -/

/-- A `MOVE` whose source range leaves the page makes the loop of `applyPageRedo` read
outside the pre-image copy. -/
theorem applyLoop_move_outside (image page : Page) (fuel len source off : Nat)
    (rest : List Nat) (hlen : len < 32768) (hsrc : source + len > BLCKSZ) :
    applyLoop image (fuel + 1)
        ([(len ||| MOVE_FLAG) % 256, (len ||| MOVE_FLAG) / 256, source % 256, source / 256] ++ rest)
        page off
      = .error .undefinedBehaviour := by
  show applyLoop image (fuel + 1)
    ((len ||| MOVE_FLAG) % 256 :: (len ||| MOVE_FLAG) / 256 :: source % 256 :: source / 256 :: rest)
    page off = _
  rw [applyLoop]
  have h2 : source % 256 + 256 * (source / 256) = source := Nat.mod_add_div source 256
  simp only [move_header_flag len hlen, ne_eq, not_false_eq_true, if_true,
    move_header_length len hlen]
  rw [h2, if_pos (Or.inr hsrc)]

/-- The loop of `applyPageRedo` returns on the bytes of an instruction stream only if the
source range of every `MOVE` lies inside the page. -/
theorem applyLoop_sources (P : Page) (instrs : List Instr) :
    ∀ (page : Page) (o fuel : Nat) (rest : List Nat) (result : Page),
      o + (instrs.map Instr.length).sum ≤ BLCKSZ →
      applyLoop P (fuel + instrs.length) (serialize instrs ++ rest) page o = .ok result →
      ∀ x ∈ instrs, x.sourceInPage := by
  have hB : BLCKSZ = 8192 := rfl
  induction instrs with
  | nil =>
    intro page o fuel rest result _ _ x hx
    cases hx
  | cons x tl ih =>
    intro page o fuel rest result hsum h
    rw [List.map_cons, List.sum_cons] at hsum
    have e1 : fuel + (x :: tl).length = (fuel + tl.length) + 1 := by
      rw [List.length_cons]
      omega
    rw [e1, serialize_cons, List.append_assoc] at h
    cases x with
    | copy bytes =>
      have hb : (Instr.copy bytes).bytes ++ (serialize tl ++ rest) =
          [bytes.length % 256, bytes.length / 256] ++
            (List.range bytes.length).map (fun k => (fun t => bytes.getD t 0) (0 + k)) ++
            (serialize tl ++ rest) := by
        rw [← bytes_eq_range bytes]
        rfl
      have hl : (Instr.copy bytes).length = bytes.length := rfl
      rw [hl] at hsum
      rw [hb, applyLoop_copy P page (fun t => bytes.getD t 0) (fuel + tl.length) bytes.length 0 o
        (serialize tl ++ rest) (by omega) (by omega)] at h
      have htl := ih _ (o + bytes.length) fuel rest result (by omega) h
      intro y hy
      rcases List.mem_cons.mp hy with hy | hy
      · rw [hy]
        exact trivial
      · exact htl y hy
    | move len source =>
      have hl : (Instr.move len source).length = len := rfl
      rw [hl] at hsum
      have hb : (Instr.move len source).bytes ++ (serialize tl ++ rest) =
          [(len ||| MOVE_FLAG) % 256, (len ||| MOVE_FLAG) / 256, source % 256, source / 256] ++
            (serialize tl ++ rest) := rfl
      rw [hb] at h
      by_cases hs : source + len ≤ BLCKSZ
      · rw [applyLoop_move P page (fuel + tl.length) len source o (serialize tl ++ rest)
          (by omega) (by omega) hs] at h
        have htl := ih _ (o + len) fuel rest result (by omega) h
        intro y hy
        rcases List.mem_cons.mp hy with hy | hy
        · rw [hy]
          exact hs
        · exact htl y hy
      · rw [applyLoop_move_outside P page (fuel + tl.length) len source o (serialize tl ++ rest)
          (by omega) (by omega)] at h
        cases h

/-- The function `applyPageRedo` returns on the bytes of an instruction stream whose length
fields sum to at most `BLCKSZ` only if the stream is well-formed, and then with the page of
the reference semantics. -/
theorem applyPageRedo_ok (page P : Page) (instrs : List Instr)
    (hsum : (instrs.map Instr.length).sum ≤ BLCKSZ) (result : Page)
    (h : applyPageRedo page P (serialize instrs) = .ok result) :
    WellFormedStream instrs ∧ result = decodeReference P instrs page 0 := by
  have hlen := serialize_length_ge instrs
  have hwf : WellFormedStream instrs := by
    refine ⟨hsum, ?_⟩
    have e : (serialize instrs).length
        = ((serialize instrs).length - instrs.length) + instrs.length := by omega
    unfold applyPageRedo at h
    rw [e] at h
    have h1 : applyLoop P ((serialize instrs).length - instrs.length + instrs.length)
        (serialize instrs ++ []) page 0 = .ok result := by
      rw [List.append_nil]
      exact h
    exact applyLoop_sources P instrs page 0 _ [] result (by rw [Nat.zero_add]; exact hsum) h1
  rw [applyPageRedo_serialize page P instrs hwf] at h
  exact ⟨hwf, (Except.ok.inj h).symm⟩

/-- C38: decoder frame.  For every page, every pre-image copy and every instruction stream
whose length fields sum to `n ≤ BLCKSZ`, every page that `applyPageRedo` returns has, at the
offsets `n` and above, the bytes that the page held before the call, which in `generic_redo`
are the bytes of the pre-image copy; the call returns whenever the source range of every
`MOVE` lies inside the page; on the empty record (`dataSize = 0`) it returns the page
unchanged. -/
theorem decoder_frame (page P : Page) (instrs : List Instr)
    (hsum : (instrs.map Instr.length).sum ≤ BLCKSZ) :
    ((∀ x ∈ instrs, x.sourceInPage) →
      ∃ result : Page, applyPageRedo page P (serialize instrs) = .ok result) ∧
    (∀ result : Page, applyPageRedo page P (serialize instrs) = .ok result →
      ∀ k, (instrs.map Instr.length).sum ≤ k → result k = page k) ∧
    (∀ result : Page,
      applyPageRedo page (memcpy (fun _ => 0) 0 page 0 BLCKSZ) (serialize instrs) = .ok result →
      ∀ k, (instrs.map Instr.length).sum ≤ k → k < BLCKSZ →
        result k = memcpy (fun _ => 0) 0 page 0 BLCKSZ k) ∧
    applyPageRedo page P [] = .ok page := by
  refine ⟨fun hsrc => ⟨_, applyPageRedo_serialize page P instrs ⟨hsum, hsrc⟩⟩, ?_, ?_, rfl⟩
  · intro result h k hk
    rw [(applyPageRedo_ok page P instrs hsum result h).2]
    exact decodeReference_above P instrs page 0 k (by omega)
  · intro result h k hk hkB
    rw [(applyPageRedo_ok page _ instrs hsum result h).2,
      decodeReference_above _ instrs page 0 k (by omega)]
    unfold memcpy
    have e : 0 + (k - 0) = k := by omega
    rw [if_pos (show 0 ≤ k ∧ k < 0 + BLCKSZ by omega), e]

/-- Instance of `decoder_frame`: the stream `COPY(3, {7, 8, 9})`, `MOVE(3, source = 0)`,
whose length fields sum to 6, leaves the bytes of `samplePage` from offset 6 on as they
were. -/
theorem decoder_frame_witness :
    ([Instr.copy [7, 8, 9], Instr.move 3 0].map Instr.length).sum ≤ BLCKSZ ∧
    ∃ result : Page,
      applyPageRedo samplePage zeroPage (serialize [.copy [7, 8, 9], .move 3 0]) = .ok result ∧
      result 6 = 6 ∧ result 8191 = 255 ∧ ∀ k, 6 ≤ k → result k = samplePage k := by
  obtain ⟨hret, hframe, _, _⟩ :=
    decoder_frame samplePage zeroPage [.copy [7, 8, 9], .move 3 0] (by decide)
  obtain ⟨result, hr⟩ := hret wellFormed_copy_move.2
  exact ⟨by decide, result, hr, hframe result hr 6 (by decide), hframe result hr 8191 (by decide),
    fun k hk => hframe result hr k hk⟩

/-! ## The source bound of the regions -/

theorem reach_zeroMovedThrice : Reach 1 zeroMovedThrice :=
  Reach.memmove 1 zeroMovedTwice _ _ 55
    (Reach.memmove 1 zeroMovedOnce _ _ 40
      (Reach.memmove 1 zeroRegistered _ _ 30
        (Reach.register 0 startedSystem 9 false (imageAddr 0) reach_started rfl)))

/-- C34: the source bound is not an invariant.  After `GenericXLogRegister` and the three
calls `GenericXLogMemmove(image + 40, image, 30)`, `GenericXLogMemmove(image, image + 55, 40)`
and `GenericXLogMemmove(image + 100, image + 15, 55)`, each in bounds, of at least one byte
and returning normally without overflow, the region list holds the region
`(100, 65521, 45)`, whose `srcOffset + length` is 65566; `writeDifferentialData` then reads
the image outside its `BLCKSZ` bytes. -/
theorem source_bound_broken :
    Reach 1 zeroMovedThrice ∧
    40 + 30 ≤ BLCKSZ ∧ 0 + 30 ≤ BLCKSZ ∧ 0 + 40 ≤ BLCKSZ ∧ 55 + 40 ≤ BLCKSZ ∧
    100 + 55 ≤ BLCKSZ ∧ 15 + 55 ≤ BLCKSZ ∧
    (GenericXLogMemmove (imageAddr 0 + 40) (imageAddr 0) 30 zeroRegistered).1 = .ok () ∧
    (GenericXLogMemmove (imageAddr 0) (imageAddr 0 + 55) 40 zeroMovedOnce).1 = .ok () ∧
    (GenericXLogMemmove (imageAddr 0 + 100) (imageAddr 0 + 15) 55 zeroMovedTwice).1 = .ok () ∧
    (zeroMovedThrice.pages 0).overflow = false ∧
    (zeroMovedThrice.pages 0).regions[5]? = some ⟨100, 65521, 45⟩ ∧
    BLCKSZ < 65521 + 45 ∧
    ¬ SrcBounded (zeroMovedThrice.pages 0).regions ∧
    encodePage (zeroMovedThrice.pages 0).image zeroPage (zeroMovedThrice.pages 0).regions []
      = .error .undefinedBehaviour := by
  refine ⟨reach_zeroMovedThrice, by decide, by decide, by decide, by decide, by decide,
    by decide, rfl, rfl, rfl, rfl, rfl, by decide, ?_, rfl⟩
  intro h
  have h1 := h ⟨100, 65521, 45⟩ (by decide)
  revert h1
  decide

/-! ## A move of no bytes -/

/-- With `length = 0` the loop of `memoryMove` writes no entry of `newRegions`, and the
blocks that follow read `newRegions[0]` and `newRegions[newRegionsCount - 1]`, which hold no
value. -/
theorem memoryMove_zero (w : World) (pd : PageData) (d s : Nat) (hov : pd.overflow = false)
    (ht : TileValid pd.regions) (hd : d < BLCKSZ) (hs : s < BLCKSZ) :
    memoryMove w pd d s 0 = .error .undefinedBehaviour := by
  have hB : BLCKSZ = 8192 := rfl
  obtain ⟨j, _, hj, _, _, _⟩ := findRegion_tile pd ht s hs
  obtain ⟨j1, r1, hj1, hr1, _, _⟩ :=
    findRegion_tile pd ht (if d > 0 then d - 1 else 0) (by split <;> omega)
  unfold memoryMove
  rw [hov, if_neg Bool.false_ne_true]
  have hmm : memoryMoveRegions pd d s 0 = .error .undefinedBehaviour := by
    unfold memoryMoveRegions
    simp only [bind, Except.bind, hj, makeNewRegions_zero, hj1, fetch_of_get hr1, fetchNew,
      List.getElem?_nil]
  rw [hmm]

/-- The function `GenericXLogMemmove` with `len = 0` on a slot that is not a full image and
has not overflowed, with a region list that tiles the page: the call reaches `memoryMove` and
has no defined outcome. -/
theorem memmove_zero_length (s : System) (i dstOff srcOff : Nat)
    (hs : s.genericXlogStatus ≠ .GXLOG_NOT_STARTED) (hi : i < MAX_GENERIC_XLOG_PAGES)
    (hfull : (s.pages i).fullImage = false) (hov : (s.pages i).overflow = false)
    (ht : TileValid (s.pages i).regions) (hd : dstOff < BLCKSZ) (hsrc : srcOff < BLCKSZ) :
    GenericXLogMemmove (imageAddr i + dstOff) (imageAddr i + srcOff) 0 s
      = (.error .undefinedBehaviour, s) := by
  rw [memmove_eq s i dstOff srcOff 0 hs hi hd (by omega) (by omega), hfull,
    if_neg Bool.false_ne_true, memoryMove_zero s.world (s.pages i) dstOff srcOff hov ht hd hsrc]

/-- C39: a move of zero bytes is not a no-op.  On a registered slot that is not a full image
and has not overflowed, with a region list that tiles the page, `GenericXLogMemmove(dst, src,
0)` with `dst` and `src` inside the image passes the checks and enters `memoryMove`, whose
loop writes no entry of `newRegions`; the code then reads `newRegions[0]` and
`newRegions[-1]`, which is undefined behaviour.  This is so on the slot right after
`GenericXLogRegister(7, false)` for `GenericXLogMemmove(image + 40, image, 0)`. -/
theorem zero_length_move_is_undefined :
    (∀ (s : System) (i dstOff srcOff : Nat),
      s.genericXlogStatus ≠ .GXLOG_NOT_STARTED → i < MAX_GENERIC_XLOG_PAGES →
      (s.pages i).fullImage = false → (s.pages i).overflow = false →
      TileValid (s.pages i).regions → dstOff < BLCKSZ → srcOff < BLCKSZ →
      GenericXLogMemmove (imageAddr i + dstOff) (imageAddr i + srcOff) 0 s
        = (.error .undefinedBehaviour, s)) ∧
    Registered registeredSystem 0 ∧ (registeredSystem.pages 0).fullImage = false ∧
    TileValid (registeredSystem.pages 0).regions ∧
    makeNewRegions 40 (registeredSystem.pages 0).regions 0 0 [] = .ok [] ∧
    fetchNew [] 0 = .error .undefinedBehaviour ∧
    (GenericXLogMemmove (imageAddr 0 + 40) (imageAddr 0) 0 registeredSystem).1
      = .error .undefinedBehaviour :=
  ⟨memmove_zero_length, ⟨by decide, by decide⟩, rfl, tileValid_identity, rfl, rfl, rfl⟩

/-! ## A move of a range onto itself -/

theorem findRegion_identity (pd : PageData) (hreg : pd.regions = [identityRegion]) (key : Nat)
    (hkey : key < BLCKSZ) : findRegion pd key = .ok 0 := by
  have ht : TileValid pd.regions := by
    rw [hreg]
    exact tileValid_identity
  obtain ⟨j, r, hj, hr, _, _⟩ := findRegion_tile pd ht key hkey
  have hj0 : j = 0 := by
    rw [hreg] at hr
    cases j with
    | zero => rfl
    | succ j => simp at hr
  rw [hj, hj0]

/-- A move of a range onto itself on the identity region list: the new region is extended to
the left and to the right, and the list is the identity region again. -/
theorem self_move_fresh_regions (pd : PageData) (hreg : pd.regions = [identityRegion])
    (d l : Nat) (hl : 1 ≤ l) (hd : d + l ≤ BLCKSZ) :
    memoryMoveRegions pd d d l = .ok (some [identityRegion]) := by
  have hB : BLCKSZ = 8192 := rfl
  have hM : MAX_REGIONS = 256 := rfl
  have h1 := findRegion_identity pd hreg d (by omega)
  have h2 := findRegion_identity pd hreg (if d > 0 then d - 1 else 0) (by split <;> omega)
  have h3 := findRegion_identity pd hreg
    (if d + l < BLCKSZ then asOffsetNumber ((d : Int) + l) else BLCKSZ - 1) (by
      split
      · rw [asOffsetNumber_eq _ (d + l) (by omega) (by omega)]
        omega
      · omega)
  have hmk : makeNewRegions d [identityRegion] d l [] = .ok [⟨d, d, l⟩] := by
    unfold makeNewRegions
    rw [if_neg (by omega)]
    dsimp only
    rw [if_neg (by simp [hM])]
    have e1 : asOffsetNumber ((d : Int) - (identityRegion.dstOffset : Nat)) = d :=
      asOffsetNumber_eq _ d (by show (d : Int) - ((0 : Nat) : Int) = d; omega) (by omega)
    rw [e1]
    have e2 : asOffsetNumber (min ((identityRegion.length : Int) - (d : Nat)) (l : Int)) = l :=
      asOffsetNumber_eq _ l (by show min (((8192 : Nat) : Int) - (d : Nat)) (l : Int) = l; omega)
        (by omega)
    rw [e2]
    have e3 : asOffsetNumber ((identityRegion.srcOffset : Int) + (d : Nat)) = d :=
      asOffsetNumber_eq _ d (by show ((0 : Nat) : Int) + (d : Nat) = d; omega) (by omega)
    have e4 : asOffsetNumber ((l : Int) - (l : Nat)) = 0 :=
      asOffsetNumber_eq _ 0 (by omega) (by omega)
    rw [e3, e4, makeNewRegions_zero]
    rfl
  have hcl : checkLeft identityRegion d ⟨d, d, l⟩ [⟨d, d, l⟩] = ⟨[⟨0, 0, l + d⟩], true, 0⟩ := by
    unfold checkLeft
    dsimp only
    by_cases hd0 : d = 0
    · subst hd0
      rw [if_pos (by show ((0 : Nat) : Int) - ((0 : Nat) : Int) = 0; omega)]
      rfl
    · rw [if_neg (by show ¬ ((d : Int) - ((0 : Nat) : Int) = 0); omega),
        if_pos (by show (d : Int) = ((0 : Nat) : Int) + ((d : Int) - ((0 : Nat) : Int)); omega)]
      have e1 : asOffsetNumber ((d : Int) - ((d : Int) - (identityRegion.dstOffset : Nat))) = 0 :=
        asOffsetNumber_eq _ 0 (by show (d : Int) - ((d : Int) - ((0 : Nat) : Int)) = (0 : Nat); omega)
          (by omega)
      have e2 : asOffsetNumber ((l : Int) + ((d : Int) - (identityRegion.dstOffset : Nat)))
          = l + d :=
        asOffsetNumber_eq _ (l + d)
          (by show (l : Int) + ((d : Int) - ((0 : Nat) : Int)) = ((l + d : Nat) : Int); omega)
          (by omega)
      rw [e1, e2]
      rfl
  have hcr : checkRight [identityRegion] 0 identityRegion d l true [⟨0, 0, l + d⟩] ⟨0, 0, l + d⟩
      = .ok ⟨[identityRegion], [identityRegion], true⟩ := by
    unfold checkRight
    dsimp only
    by_cases hend : d + l = BLCKSZ
    · rw [if_pos (by
        show ((0 : Nat) : Int) + ((BLCKSZ : Nat) : Int) - ((d : Int) + (l : Int)) = 0
        omega)]
      have e : l + d = BLCKSZ := by omega
      rw [e]
      rfl
    · rw [if_neg (by
        show ¬ (((0 : Nat) : Int) + ((BLCKSZ : Nat) : Int) - ((d : Int) + (l : Int)) = 0)
        omega),
        if_pos (by
          show ((0 : Nat) : Int) + ((l + d : Nat) : Int)
            + (((0 : Nat) : Int) + ((BLCKSZ : Nat) : Int) - ((d : Int) + (l : Int)))
              = ((0 : Nat) : Int) + ((BLCKSZ : Nat) : Int)
          omega)]
      have e : asOffsetNumber (((l + d : Nat) : Int)
          + ((identityRegion.dstOffset : Int) + (identityRegion.length : Nat)
            - ((d : Int) + (l : Int)))) = BLCKSZ :=
        asOffsetNumber_eq _ BLCKSZ (by
          show ((l + d : Nat) : Int) + (((0 : Nat) : Int) + ((BLCKSZ : Nat) : Int)
            - ((d : Int) + (l : Int))) = ((BLCKSZ : Nat) : Int)
          omega) (by omega)
      rw [e]
      rfl
  unfold memoryMoveRegions
  simp only [bind, Except.bind, pure, Except.pure, h1, h2, h3, hreg, List.drop_zero, hmk, fetch,
    fetchNew, List.getElem?_cons_zero, hcl, List.length_cons, List.length_nil, Nat.zero_add,
    Nat.sub_self, hcr, PageData.regionsCount, if_true, not_true_eq_false, if_false]
  rw [if_neg (by
    show ¬ (((1 : Nat) : Int) + (((1 : Nat) : Int) - (((0 : Nat) : Int) + 1 - (((0 : Nat) : Int) + 0)))
      > ((MAX_REGIONS : Nat) : Int))
    omega)]
  rfl

/-- On a fresh slot every in-bounds move of a range onto itself leaves the slot as it was. -/
theorem self_move_fresh (w : World) (pd : PageData) (hreg : pd.regions = [identityRegion])
    (hov : pd.overflow = false) (d l : Nat) (hl : 1 ≤ l) (hd : d + l ≤ BLCKSZ) :
    memoryMove w pd d d l = .ok pd := by
  have e : ({ pd with regions := [identityRegion] } : PageData) = pd := by
    cases pd
    dsimp only at hreg ⊢
    rw [hreg]
  unfold memoryMove
  rw [if_neg (by rw [hov]; exact Bool.false_ne_true),
    self_move_fresh_regions pd hreg d l hl hd]
  dsimp only
  rw [e]

theorem movedOnce_map :
    RegionMapCorrect samplePage (movedOnce.pages 0).image (movedOnce.pages 0).regions := by
  have hB : BLCKSZ = 8192 := rfl
  intro r hr
  have hr1 : r ∈ [(⟨0, 0, 40⟩ : Region), ⟨40, 0, 30⟩, ⟨70, 70, 8122⟩] := hr
  simp only [List.mem_cons, List.mem_singleton, List.not_mem_nil, or_false] at hr1
  have himg : ∀ x, (movedOnce.pages 0).image x =
      memcpy (memcpy (fun _ => 0) 0 samplePage 0 BLCKSZ) 40
        (memcpy (fun _ => 0) 0 samplePage 0 BLCKSZ) 0 30 x := fun _ => rfl
  rcases hr1 with h | h | h
  · rw [h]
    intro k hk
    have hk1 : k < 40 := hk
    show (movedOnce.pages 0).image (0 + k) = samplePage (0 + k)
    rw [himg]
    unfold memcpy
    rw [if_neg (by omega), if_pos (by omega)]
    congr 1
    omega
  · rw [h]
    intro k hk
    have hk1 : k < 30 := hk
    show (movedOnce.pages 0).image (40 + k) = samplePage (0 + k)
    rw [himg]
    unfold memcpy
    rw [if_pos (by omega), if_pos (by omega)]
    congr 1
    omega
  · rw [h]
    intro k hk
    have hk1 : k < 8122 := hk
    show (movedOnce.pages 0).image (70 + k) = samplePage (70 + k)
    rw [himg]
    unfold memcpy
    rw [if_neg (by omega), if_pos (by omega)]
    congr 1
    omega

theorem reach_selfMoved : Reach 1 selfMoved :=
  Reach.memmove 1 movedOnce _ _ 20 (Reach.memmove 1 registeredSystem _ _ 30 reach_registered)

/-- C32: a move of a range onto itself can change the offset map.  After
`GenericXLogMemmove(image + 40, image, 30)` on a registered slot the region list
`(0,0,40) (40,0,30) (70,70,8122)` tiles the page.  The call
`GenericXLogMemmove(image + 30, image + 30, 20)`, in bounds, with `dst = src`, whose range
spans the first two regions, returns normally and leaves the image as it was, but the
region list becomes `(0,0,40) (30,0,30) (70,70,8122)`: the count is still 3, the second
region now starts at 30 instead of 40, the list no longer tiles the page, and it no longer
describes the image, since byte 30 of the image is `P[30]` and not `P[0]`.  On a fresh
slot every in-bounds move of a range onto itself leaves the identity region list as it
was. -/
theorem self_move_breaks_tiling :
    Reach 1 selfMoved ∧
    (movedOnce.pages 0).regions = [⟨0, 0, 40⟩, ⟨40, 0, 30⟩, ⟨70, 70, 8122⟩] ∧
    TileValid (movedOnce.pages 0).regions ∧
    RegionMapCorrect samplePage (movedOnce.pages 0).image (movedOnce.pages 0).regions ∧
    30 + 20 ≤ BLCKSZ ∧
    (GenericXLogMemmove (imageAddr 0 + 30) (imageAddr 0 + 30) 20 movedOnce).1 = .ok () ∧
    (selfMoved.pages 0).overflow = false ∧
    (selfMoved.pages 0).regions = [⟨0, 0, 40⟩, ⟨30, 0, 30⟩, ⟨70, 70, 8122⟩] ∧
    (selfMoved.pages 0).regionsCount = (movedOnce.pages 0).regionsCount ∧
    ¬ TileValid (selfMoved.pages 0).regions ∧
    (selfMoved.pages 0).image 30 = 30 ∧ samplePage 0 = 0 ∧
    ¬ RegionMapCorrect samplePage (selfMoved.pages 0).image (selfMoved.pages 0).regions ∧
    (∀ (w : World) (pd : PageData) (d l : Nat), pd.regions = [identityRegion] →
      pd.overflow = false → 1 ≤ l → d + l ≤ BLCKSZ → memoryMove w pd d d l = .ok pd) ∧
    (memoryMove sampleWorld (movedOnce.pages 0) 45 45 10).map PageData.regions
      = .ok [⟨0, 0, 40⟩, ⟨40, 0, 30⟩, ⟨70, 70, 8122⟩] := by
  refine ⟨reach_selfMoved, rfl, rfl, movedOnce_map, by decide, rfl, rfl, rfl, rfl, ?_, rfl, rfl,
    ?_, fun w pd d l hreg hov hl hd => self_move_fresh w pd hreg hov d l hl hd, rfl⟩
  · intro h
    have h2 : tilesFrom 0 [⟨0, 0, 40⟩, ⟨30, 0, 30⟩, ⟨70, 70, 8122⟩] = true := h
    revert h2
    decide
  · intro h
    have h1 := h ⟨30, 0, 30⟩ (by decide) 0 (by decide)
    revert h1
    decide

/-! ## The record of a page changed by moves only -/

/-- In a tiling, a region starts where the region before it ends. -/
theorem tilesFrom_next (l : List Region) (pos j : Nat) (r r1 : Region)
    (ht : tilesFrom pos l = true) (hr : l[j]? = some r) (hr1 : l[j + 1]? = some r1) :
    r1.dstOffset = r.dstOffset + r.length := by
  have hs := tilesFrom_sorted l pos j (j + 1) r r1 ht hr hr1 (Nat.lt_succ_self j)
  obtain ⟨h1, h2, _, _, _⟩ := tilesFrom_get l pos (j + 1) r1 ht hr1
  obtain ⟨_, _, _, _, hnext⟩ := tilesFrom_get l pos j r ht hr
  obtain ⟨r2, hr2, hd⟩ := hnext (by omega)
  rw [hr1] at hr2
  rw [Option.some.inj hr2]
  exact hd

/-- In a tiling, the last region ends at `BLCKSZ`. -/
theorem tilesFrom_end (l : List Region) (pos j : Nat) (r : Region)
    (ht : tilesFrom pos l = true) (hr : l[j]? = some r) (hj : j + 1 = l.length) :
    r.dstOffset + r.length = BLCKSZ := by
  obtain ⟨_, h2, _, _, hnext⟩ := tilesFrom_get l pos j r ht hr
  by_contra hne
  obtain ⟨r1, hr1, _⟩ := hnext (by omega)
  rw [List.getElem?_eq_none (by omega)] at hr1
  cases hr1

theorem take_succ_map (l : List Region) (j : Nat) (r : Region) (hr : l[j]? = some r)
    (f : Region → Instr) :
    serialize ((l.take (j + 1)).map f) = serialize ((l.take j).map f) ++ (f r).bytes := by
  rw [List.take_succ, hr, List.map_append, serialize_append]
  show _ ++ serialize [f r] = _
  rw [serialize_one]

/-- The encoder loop up to the end of region `j`, on a page that each region describes and
whose regions are all longer than `MATCH_THRESHOLD`: one `MOVE` has been written for every
region before `j`, and the run of region `j` is pending. -/
theorem encodeLoop_moves (W P : Page) (regions : List Region) (ht : TileValid regions)
    (hsrc : SrcBounded regions) (hlen : ∀ r ∈ regions, MATCH_THRESHOLD < r.length)
    (hmap : RegionMapCorrect P W regions) :
    ∀ (j : Nat) (r : Region), regions[j]? = some r →
      encodeLoop W P regions (r.dstOffset + r.length) 0 ⟨[], 0, 0, 0, 0⟩ =
        .ok ⟨serialize ((regions.take j).map (fun x => Instr.move x.length x.srcOffset)), j,
          r.length, r.dstOffset, r.dstOffset⟩ := by
  have hB : BLCKSZ = 8192 := rfl
  have hT : MATCH_THRESHOLD = 16 := rfl
  intro j
  induction j with
  | zero =>
    intro r hr
    obtain ⟨_, hend, _, hd0, _⟩ := tilesFrom_get regions 0 0 r ht hr
    have hd : r.dstOffset = 0 := hd0 rfl
    have hs := hsrc r (List.getElem?_mem hr)
    have h := encodeLoop_match W P regions 0 r hr hs r.length 0 0 [] 0 0 (by omega) (by omega)
      (fun t ht1 => by
        have := hmap r (List.getElem?_mem hr) t ht1
        rw [hd] at this
        rw [Nat.add_zero]
        exact this)
    rw [hd, Nat.zero_add]
    rw [Nat.zero_add] at h
    exact h
  | succ j ih =>
    intro r1 hr1
    have hjl : j + 1 < regions.length := getElem?_lt hr1
    have hr : regions[j]? = some (regions.get ⟨j, by omega⟩) :=
      List.getElem?_eq_getElem (by omega)
    have hnext := tilesFrom_next regions 0 j _ r1 ht hr hr1
    obtain ⟨_, hend, _, _, _⟩ := tilesFrom_get regions 0 j _ ht hr
    obtain ⟨hl1, hend1, _, _, _⟩ := tilesFrom_get regions 0 (j + 1) r1 ht hr1
    have hs := hsrc _ (List.getElem?_mem hr)
    have hs1 := hsrc r1 (List.getElem?_mem hr1)
    have hlong := hlen _ (List.getElem?_mem hr)
    have hprev := ih _ hr
    generalize regions.get ⟨j, by omega⟩ = r at hr hnext hend hs hlong hprev
    -- the step into region `j + 1`
    have hstep := encodeStep_boundary_match W P regions (r.dstOffset + r.length)
      (serialize ((regions.take j).map (fun x => Instr.move x.length x.srcOffset))) j r.length
      r.dstOffset r.dstOffset r r1 hr hr1 (Nat.le_refl _) (by omega) (by
        have := hmap r1 (List.getElem?_mem hr1) 0 (by omega)
        rw [Nat.add_zero, Nat.add_zero, hnext] at this
        exact this)
    rw [CHECK_SET_flush W r (r.dstOffset + r.length) _ j r.length r.dstOffset r.dstOffset
      r.srcOffset (by omega) (Nat.le_refl _) (by omega) (by omega) (by omega)] at hstep
    dsimp only at hstep
    rw [if_neg (Nat.lt_irrefl _), Nat.add_sub_cancel_left, ← take_succ_map regions j r hr] at hstep
    -- the rest of region `j + 1`
    have hrest := encodeLoop_match W P regions (j + 1) r1 hr1 hs1 (r1.length - 1)
      (r.dstOffset + r.length + 1) 1
      (serialize ((regions.take (j + 1)).map (fun x => Instr.move x.length x.srcOffset)))
      (r.dstOffset + r.length) (r.dstOffset + r.length) (by omega) (by omega)
      (fun t ht1 => by
        have := hmap r1 (List.getElem?_mem hr1) (1 + t) (by omega)
        rw [hnext] at this
        have e1 : r.dstOffset + r.length + 1 + t = r.dstOffset + r.length + (1 + t) := by omega
        have e2 : r1.srcOffset + 1 + t = r1.srcOffset + (1 + t) := by omega
        rw [e1, e2]
        exact this)
    have e : r1.dstOffset + r1.length = (r.dstOffset + r.length) + (1 + (r1.length - 1)) := by
      omega
    rw [e, encodeLoop_add, hprev]
    dsimp only
    rw [Nat.zero_add, encodeLoop_add, encodeLoop_succ, hstep]
    dsimp only
    have z : ∀ st : EncState,
        encodeLoop W P regions 0 (r.dstOffset + r.length + 1) st = .ok st := fun _ => rfl
    rw [z]
    dsimp only
    rw [hrest, hnext]
    have e3 : 1 + (r1.length - 1) = r1.length := by omega
    rw [e3]

theorem moves_length (l : List Region) :
    (serialize (l.map (fun x => Instr.move x.length x.srcOffset))).length = 4 * l.length := by
  induction l with
  | nil => rfl
  | cons a rest ih =>
    rw [List.map_cons, serialize_cons, List.length_append, ih, move_bytes_length,
      List.length_cons]
    omega

/-- C31: moves cost no payload.  For every image `P` of the slot, every page `W` of the
buffer and every region list that tiles the page and maps into the image, if every region is
longer than `MATCH_THRESHOLD` and `W[r.dstOffset + k] = P[r.srcOffset + k]` for every region
`r` and every `k < r.length`, then `writeDifferentialData` writes no `COPY` and exactly one
`MOVE(r.length, r.srcOffset)` per region, in the order of the list, so that
`dataLen = 4 * regionsCount`. -/
theorem moves_cost_no_payload (W P : Page) (regions : List Region) (ht : TileValid regions)
    (hsrc : SrcBounded regions) (hlen : ∀ r ∈ regions, MATCH_THRESHOLD < r.length)
    (hmap : RegionMapCorrect P W regions) :
    encodePage W P regions [] =
      .ok (serialize (regions.map (fun r => Instr.move r.length r.srcOffset))) ∧
    (serialize (regions.map (fun r => Instr.move r.length r.srcOffset))).length
      = 4 * regions.length ∧
    (regions.map (fun r => Instr.move r.length r.srcOffset)).all (fun x => x.isMove) = true := by
  have hB : BLCKSZ = 8192 := rfl
  have hT : MATCH_THRESHOLD = 16 := rfl
  refine ⟨?_, moves_length regions, ?_⟩
  · obtain ⟨r0, hr0, _⟩ := tilesFrom_ne_nil regions ht
    have hpos : 0 < regions.length := getElem?_lt hr0
    have hr : regions[regions.length - 1]? = some (regions.get ⟨regions.length - 1, by omega⟩) :=
      List.getElem?_eq_getElem (by omega)
    have hend := tilesFrom_end regions 0 (regions.length - 1) _ ht hr (by omega)
    have hloop := encodeLoop_moves W P regions ht hsrc hlen hmap (regions.length - 1) _ hr
    have hs := hsrc _ (List.getElem?_mem hr)
    have hlong := hlen _ (List.getElem?_mem hr)
    have htake := take_succ_map regions (regions.length - 1) _ hr
      (fun x => Instr.move x.length x.srcOffset)
    generalize regions.get ⟨regions.length - 1, by omega⟩ = r at hr hend hloop hs hlong htake
    rw [hend] at hloop
    rw [encodePage_end W P regions _ r hloop (fetch_of_get hr),
      CHECK_SET_flush W r BLCKSZ _ (regions.length - 1) r.length r.dstOffset r.dstOffset
        r.srcOffset (Nat.le_refl _) (Nat.le_refl _) (by omega) (by omega) (by omega)]
    dsimp only
    have e1 : BLCKSZ - r.dstOffset = r.length := by omega
    have e2 : regions.length - 1 + 1 = regions.length := by omega
    rw [if_neg (Nat.lt_irrefl _), if_neg (Nat.lt_irrefl _), e1, ← htake, e2, List.take_length]
  · rw [List.all_eq_true]
    intro x hx
    rw [List.mem_map] at hx
    obtain ⟨r, _, hrx⟩ := hx
    rw [← hrx]
    rfl

/-- Instance of `moves_cost_no_payload`: the page whose first half is a copy of the second
half of `samplePage`, under the region list `(0, 4096, 4096) (4096, 4096, 4096)` left by the
half-page shift.  The record is two `MOVE` instructions, eight bytes. -/
theorem moves_cost_no_payload_witness :
    TileValid [⟨0, 4096, 4096⟩, ⟨4096, 4096, 4096⟩] ∧
    SrcBounded [⟨0, 4096, 4096⟩, ⟨4096, 4096, 4096⟩] ∧
    encodePage (memcpy samplePage 0 samplePage 4096 4096) samplePage
        [⟨0, 4096, 4096⟩, ⟨4096, 4096, 4096⟩] [] =
      .ok (serialize [.move 4096 4096, .move 4096 4096]) ∧
    (serialize [.move 4096 4096, .move 4096 4096]).length = 4 * 2 := by
  have hB : BLCKSZ = 8192 := rfl
  have ht : TileValid [⟨0, 4096, 4096⟩, ⟨4096, 4096, 4096⟩] := by
    show tilesFrom 0 [⟨0, 4096, 4096⟩, ⟨4096, 4096, 4096⟩] = true
    decide
  have hsrc : SrcBounded [⟨0, 4096, 4096⟩, ⟨4096, 4096, 4096⟩] := by
    intro r hr
    simp only [List.mem_cons, List.mem_singleton, List.not_mem_nil, or_false] at hr
    rcases hr with hr | hr
    · rw [hr]
      show 4096 + 4096 ≤ BLCKSZ
      decide
    · rw [hr]
      show 4096 + 4096 ≤ BLCKSZ
      decide
  have hlen : ∀ r ∈ [(⟨0, 4096, 4096⟩ : Region), ⟨4096, 4096, 4096⟩],
      MATCH_THRESHOLD < r.length := by
    intro r hr
    simp only [List.mem_cons, List.mem_singleton, List.not_mem_nil, or_false] at hr
    rcases hr with hr | hr
    · rw [hr]
      decide
    · rw [hr]
      decide
  have hmap : RegionMapCorrect samplePage (memcpy samplePage 0 samplePage 4096 4096)
      [⟨0, 4096, 4096⟩, ⟨4096, 4096, 4096⟩] := by
    intro r hr
    simp only [List.mem_cons, List.mem_singleton, List.not_mem_nil, or_false] at hr
    rcases hr with hr | hr
    · rw [hr]
      intro k hk
      have hk1 : k < 4096 := hk
      show memcpy samplePage 0 samplePage 4096 4096 (0 + k) = samplePage (4096 + k)
      unfold memcpy
      rw [if_pos (by omega)]
      congr 1
      omega
    · rw [hr]
      intro k hk
      have hk1 : k < 4096 := hk
      show memcpy samplePage 0 samplePage 4096 4096 (4096 + k) = samplePage (4096 + k)
      unfold memcpy
      rw [if_neg (by omega)]
  have h := moves_cost_no_payload (memcpy samplePage 0 samplePage 4096 4096) samplePage
    [⟨0, 4096, 4096⟩, ⟨4096, 4096, 4096⟩] ht hsrc hlen hmap
  exact ⟨ht, hsrc, h.1, h.2.1⟩

/-! ## Invariants of the data written by the encoder -/

/-- One iteration of the loop of `writeDifferentialData` and a property `Inv` of the data
written and of `notMatch`: if `CHECK_SET` at the current position, with the current region,
keeps the property, then so does the iteration, whenever it stays inside its arrays. -/
theorem encodeStep_generic (W P : Page) (regions : List Region) (i : Nat) (hi : i < BLCKSZ)
    (st st1 : EncState) (Inv : List Nat → Nat → Prop)
    (hnm : st.notMatch ≤ st.matchStart) (hms : st.matchStart ≤ i)
    (hflush : ∀ region, fetch regions st.region = .ok region →
      Inv (CHECK_SET W region i st).data (CHECK_SET W region i st).notMatch)
    (hkeep : Inv st.data st.notMatch)
    (h : encodeStep W P regions i st = .ok st1) :
    Inv st1.data st1.notMatch ∧ st1.notMatch ≤ st1.matchStart ∧ st1.matchStart ≤ i + 1 := by
  have hB : BLCKSZ = 8192 := rfl
  have hi1 : asOffsetNumber ((i : Int) + 1) = i + 1 :=
    asOffsetNumber_eq _ (i + 1) (by omega) (by omega)
  unfold encodeStep at h
  cases hf : fetch regions st.region with
  | error e =>
    rw [hf] at h
    cases h
  | ok region =>
    have hle := CHECK_SET_notMatch_le W region i st (by omega)
    rw [hf] at h
    simp only [bind, Except.bind, pure, Except.pure] at h
    by_cases hge : st.regionOffset ≥ region.length
    · rw [if_pos hge] at h
      cases hf1 : fetch regions (st.region + 1) with
      | error e =>
        rw [hf1] at h
        cases h
      | ok region1 =>
        rw [hf1] at h
        dsimp only at h
        by_cases hub : region1.srcOffset + 0 ≥ BLCKSZ
        · rw [if_pos hub] at h
          cases h
        · rw [if_neg hub] at h
          have h1 := Except.ok.inj h
          rw [← h1]
          by_cases hne : W i ≠ P (region1.srcOffset + 0)
          · simp only [if_pos hne]
            rw [CHECK_SET_keep W region1 i
              { data := (CHECK_SET W region i st).data, region := st.region + 1,
                regionOffset := 0, notMatch := (CHECK_SET W region i st).notMatch,
                matchStart := i } (Nat.le_add_right i MATCH_THRESHOLD)]
            dsimp only
            rw [hi1]
            exact ⟨hflush region hf, by omega, Nat.le_refl _⟩
          · simp only [if_neg hne]
            exact ⟨hflush region hf, hle, by omega⟩
    · rw [if_neg hge] at h
      rw [hf] at h
      dsimp only at h
      by_cases hub : region.srcOffset + st.regionOffset ≥ BLCKSZ
      · rw [if_pos hub] at h
        cases h
      · rw [if_neg hub] at h
        have h1 := Except.ok.inj h
        rw [← h1]
        by_cases hne : W i ≠ P (region.srcOffset + st.regionOffset)
        · simp only [if_pos hne]
          rw [hi1]
          exact ⟨hflush region hf, by omega, Nat.le_refl _⟩
        · simp only [if_neg hne]
          exact ⟨hkeep, hnm, by omega⟩

/-- The loop of `writeDifferentialData` keeps every property of the data written and of
`notMatch` that `CHECK_SET` keeps, whenever it stays inside its arrays. -/
theorem encodeLoop_generic (W P : Page) (regions : List Region)
    (Inv : List Nat → Nat → Prop)
    (hflush : ∀ (region : Region) (i : Nat) (st : EncState), i ≤ BLCKSZ →
      Inv st.data st.notMatch → st.notMatch ≤ st.matchStart → st.matchStart ≤ i →
      Inv (CHECK_SET W region i st).data (CHECK_SET W region i st).notMatch) :
    ∀ (n i : Nat) (st st1 : EncState), i + n ≤ BLCKSZ →
      Inv st.data st.notMatch → st.notMatch ≤ st.matchStart → st.matchStart ≤ i →
      encodeLoop W P regions n i st = .ok st1 →
      Inv st1.data st1.notMatch ∧ st1.notMatch ≤ st1.matchStart ∧ st1.matchStart ≤ i + n := by
  intro n
  induction n with
  | zero =>
    intro i st st1 _ hinv hnm hms h
    have h1 : st = st1 := Except.ok.inj h
    rw [← h1]
    exact ⟨hinv, hnm, hms⟩
  | succ n ih =>
    intro i st st1 hin hinv hnm hms h
    rw [encodeLoop_succ] at h
    cases hs : encodeStep W P regions i st with
    | error e =>
      rw [hs] at h
      cases h
    | ok st2 =>
      rw [hs] at h
      obtain ⟨g1, g2, g3⟩ := encodeStep_generic W P regions i (by omega) st st2 Inv hnm hms
        (fun region _ => hflush region i st (by omega) hinv hnm hms) hinv hs
      have e : i + (n + 1) = i + 1 + n := by omega
      rw [e]
      exact ih (i + 1) st2 st1 (by omega) g1 g2 g3 h

/-- The statement `CHECK_SET` keeps `dataLen ≤ notMatch`: a `MOVE` costs four bytes and
stands for more than `MATCH_THRESHOLD` bytes of the page. -/
theorem CHECK_SET_length (W : Page) (region : Region) (i : Nat) (st : EncState)
    (hi : i ≤ BLCKSZ) (hinv : st.data.length ≤ st.notMatch)
    (hnm : st.notMatch ≤ st.matchStart) (hms : st.matchStart ≤ i) :
    (CHECK_SET W region i st).data.length ≤ (CHECK_SET W region i st).notMatch := by
  have hT : MATCH_THRESHOLD = 16 := rfl
  rw [CHECK_SET_eq W region i st hi hnm hms]
  by_cases hrun : MATCH_THRESHOLD < i - st.matchStart
  · rw [if_pos hrun]
    dsimp only
    rw [List.length_append, move_bytes_length]
    by_cases hlt : st.notMatch < st.matchStart
    · rw [if_pos hlt, List.length_append, copy_bytes_length, pageBytes_length]
      omega
    · rw [if_neg hlt]
      omega
  · rw [if_neg hrun]
    exact hinv

/-- Every record that `writeDifferentialData` returns from `dataLen = 0`, on any region
list, has at most `BLCKSZ + 2` bytes. -/
theorem encodePage_length (W P : Page) (regions : List Region) (data : List Nat)
    (h : encodePage W P regions [] = .ok data) : data.length ≤ BLCKSZ + 2 := by
  have hB : BLCKSZ = 8192 := rfl
  cases hl : encodeLoop W P regions BLCKSZ 0 ⟨[], 0, 0, 0, 0⟩ with
  | error e =>
    unfold encodePage at h
    simp only [bind, Except.bind, hl] at h
    cases h
  | ok st =>
    obtain ⟨g1, g2, g3⟩ := encodeLoop_generic W P regions (fun d nm => d.length ≤ nm)
      (fun region i st hi hinv hnm hms => CHECK_SET_length W region i st hi hinv hnm hms)
      BLCKSZ 0 _ st (by omega) (Nat.le_refl _) (Nat.le_refl _) (Nat.le_refl _) hl
    rw [Nat.zero_add] at g3
    cases hf : fetch regions st.region with
    | error e =>
      unfold encodePage at h
      simp only [bind, Except.bind, hl, hf] at h
      cases h
    | ok region =>
      rw [encodePage_end W P regions st region hl hf] at h
      have hlen := CHECK_SET_length W region BLCKSZ st (Nat.le_refl _) g1 g2 g3
      have hle := CHECK_SET_notMatch_le W region BLCKSZ st (by omega)
      have hdata := Except.ok.inj h
      rw [← hdata]
      by_cases hlt : (CHECK_SET W region BLCKSZ st).notMatch < BLCKSZ
      · rw [if_pos hlt, List.length_append, copy_bytes_length, pageBytes_length]
        omega
      · rw [if_neg hlt]
        omega

/-- C33: record size bound.  On a tile-valid region list, every record that
`writeDifferentialData` returns from `dataLen = 0` has `dataLen ≤ BLCKSZ + 2`, which is less
than the `2 * BLCKSZ` bytes of the array `data`; as the data only grow during the call, no
write goes past the array.  The record is returned whenever the regions also map into the
image, so that the encoder reads nothing outside it. -/
theorem record_size_bound (W P : Page) (regions : List Region) (ht : TileValid regions) :
    (SrcBounded regions → ∃ data, encodePage W P regions [] = .ok data) ∧
    (∀ data, encodePage W P regions [] = .ok data →
      data.length ≤ BLCKSZ + 2 ∧ data.length ≤ 2 * BLCKSZ) ∧
    (∀ (w : World) (pd pd1 : PageData), pd.regions = regions → pd.data = [] →
      writeDifferentialData w pd = .ok pd1 → pd1.dataLen ≤ BLCKSZ + 2) := by
  have hB : BLCKSZ = 8192 := rfl
  refine ⟨fun hsrc => encodePage_total W P regions [] ht hsrc, ?_, ?_⟩
  · intro data h
    have := encodePage_length W P regions data h
    exact ⟨this, by omega⟩
  · intro w pd pd1 hreg hdata h
    unfold writeDifferentialData at h
    simp only [bind, Except.bind, pure, Except.pure] at h
    split at h
    · cases h
    · rename_i page _
      split at h
      · cases h
      · rename_i d hd
        have h1 := Except.ok.inj h
        rw [← h1]
        show d.length ≤ BLCKSZ + 2
        rw [hreg, hdata] at hd
        exact encodePage_length page pd.image regions d hd

/-- Instance of `record_size_bound`: the record of a page of which every byte has changed,
one `COPY` of `BLCKSZ` bytes, has exactly `BLCKSZ + 2` bytes. -/
theorem record_size_bound_witness :
    TileValid [identityRegion] ∧
    encodePage (matchedRun 0 0) zeroPage [identityRegion] []
      = .ok (serialize [.copy (pageBytes (matchedRun 0 0) 0 BLCKSZ)]) ∧
    (serialize [.copy (pageBytes (matchedRun 0 0) 0 BLCKSZ)]).length = BLCKSZ + 2 ∧
    (serialize [.copy (pageBytes (matchedRun 0 0) 0 BLCKSZ)]).length ≤ BLCKSZ + 2 := by
  have henc := encode_all_changed (matchedRun 0 0) zeroPage
    (fun k _ => matchedRun_diff 0 0 k (Or.inr (Nat.zero_le k)))
  have hlen : (serialize [.copy (pageBytes (matchedRun 0 0) 0 BLCKSZ)]).length = BLCKSZ + 2 := by
    rw [serialize_one, copy_bytes_length, pageBytes_length, Nat.add_comm]
  exact ⟨tileValid_identity, henc, hlen,
    ((record_size_bound (matchedRun 0 0) zeroPage [identityRegion] tileValid_identity).2.1 _
      henc).1⟩

/-! ## What the encoder reads, and the shape of what it writes -/

/-- One iteration of the encoder loop that returns has read the image inside the page, at
the byte that the region covering `i` points at, and keeps the position invariant. -/
theorem encodeStep_reads (W P : Page) (regions : List Region) (ht : TileValid regions)
    (i : Nat) (hi : i < BLCKSZ) (st st1 : EncState) (hst : EncAt regions i st)
    (h : encodeStep W P regions i st = .ok st1) :
    EncAt regions (i + 1) st1 ∧
    ∃ (j : Nat) (r : Region), regions[j]? = some r ∧ r.dstOffset ≤ i ∧
      i < r.dstOffset + r.length ∧ r.srcOffset + (i - r.dstOffset) < BLCKSZ := by
  obtain ⟨r, hr, hpos, hoff⟩ := hst
  have hB : BLCKSZ = 8192 := rfl
  obtain ⟨hlen, hend, _, _, hnext⟩ := tilesFrom_get regions 0 st.region r ht hr
  have h01 : asOffsetNumber (((0 : Nat) : Int) + 1) = 1 := by decide
  unfold encodeStep at h
  simp only [bind, Except.bind, fetch_of_get hr, pure, Except.pure] at h
  by_cases hge : st.regionOffset ≥ r.length
  · have hlt : r.dstOffset + r.length < BLCKSZ := by omega
    obtain ⟨r1, hr1, hr1d⟩ := hnext hlt
    obtain ⟨hlen1, hend1, _, _, _⟩ := tilesFrom_get regions 0 (st.region + 1) r1 ht hr1
    simp only [hge, if_true, fetch_of_get hr1] at h
    by_cases hub : r1.srcOffset + 0 ≥ BLCKSZ
    · simp only [hub, if_true, throw, throwThe, MonadExceptOf.throw] at h
      cases h
    · simp only [hub, if_false] at h
      have hread : ∃ (j : Nat) (r : Region), regions[j]? = some r ∧ r.dstOffset ≤ i ∧
          i < r.dstOffset + r.length ∧ r.srcOffset + (i - r.dstOffset) < BLCKSZ :=
        ⟨st.region + 1, r1, hr1, by omega, by omega, by omega⟩
      refine ⟨?_, hread⟩
      split at h
      · have h1 := Except.ok.inj h
        rw [← h1]
        refine ⟨r1, ?_, ?_, ?_⟩
        · simp only [CHECK_SET_region]
          exact hr1
        · simp only [CHECK_SET_regionOffset, h01]
          omega
        · simp only [CHECK_SET_regionOffset, h01]
          exact hlen1
      · have h1 := Except.ok.inj h
        rw [← h1]
        refine ⟨r1, hr1, ?_, ?_⟩
        · simp only [h01]
          omega
        · simp only [h01]
          exact hlen1
  · simp only [hge, if_false, fetch_of_get hr] at h
    by_cases hub : r.srcOffset + st.regionOffset ≥ BLCKSZ
    · simp only [hub, if_true, throw, throwThe, MonadExceptOf.throw] at h
      cases h
    · simp only [hub, if_false] at h
      have h1 : asOffsetNumber ((st.regionOffset : Int) + 1) = st.regionOffset + 1 := by
        have := asOffsetNumber_of_lt (st.regionOffset + 1) (by omega)
        simpa using this
      have hread : ∃ (j : Nat) (r : Region), regions[j]? = some r ∧ r.dstOffset ≤ i ∧
          i < r.dstOffset + r.length ∧ r.srcOffset + (i - r.dstOffset) < BLCKSZ :=
        ⟨st.region, r, hr, by omega, by omega, by omega⟩
      refine ⟨?_, hread⟩
      split at h
      · have h2 := Except.ok.inj h
        rw [← h2]
        refine ⟨r, ?_, ?_, ?_⟩
        · simp only [CHECK_SET_region]
          exact hr
        · simp only [CHECK_SET_regionOffset, h1]
          omega
        · simp only [CHECK_SET_regionOffset, h1]
          omega
      · have h2 := Except.ok.inj h
        rw [← h2]
        refine ⟨r, hr, ?_, ?_⟩
        · simp only [h1]
          omega
        · simp only [h1]
          omega

/-- The encoder loop that returns has read, for every byte it went over, the image inside
the page. -/
theorem encodeLoop_reads (W P : Page) (regions : List Region) (ht : TileValid regions) :
    ∀ (n i : Nat) (st st1 : EncState), i + n ≤ BLCKSZ → EncAt regions i st →
      encodeLoop W P regions n i st = .ok st1 →
      EncAt regions (i + n) st1 ∧
      ∀ k, i ≤ k → k < i + n →
        ∃ (j : Nat) (r : Region), regions[j]? = some r ∧ r.dstOffset ≤ k ∧
          k < r.dstOffset + r.length ∧ r.srcOffset + (k - r.dstOffset) < BLCKSZ := by
  intro n
  induction n with
  | zero =>
    intro i st st1 _ hst h
    have h1 : st = st1 := Except.ok.inj h
    rw [← h1]
    exact ⟨hst, fun k h1 h2 => by omega⟩
  | succ n ih =>
    intro i st st1 hin hst h
    rw [encodeLoop_succ] at h
    cases hs : encodeStep W P regions i st with
    | error e =>
      rw [hs] at h
      cases h
    | ok st2 =>
      rw [hs] at h
      obtain ⟨g1, g2⟩ := encodeStep_reads W P regions ht i (by omega) st st2 hst hs
      obtain ⟨g3, g4⟩ := ih (i + 1) st2 st1 (by omega) g1 h
      have e : i + (n + 1) = i + 1 + n := by omega
      rw [e]
      refine ⟨g3, fun k hk1 hk2 => ?_⟩
      by_cases hk : k = i
      · rw [hk]
        exact g2
      · exact g4 k (by omega) hk2

/-- On a tile-valid region list, `writeDifferentialData` returns only if every region maps
into the image: otherwise it reads outside the image. -/
theorem srcBounded_of_encode (W P : Page) (regions : List Region) (data0 data : List Nat)
    (ht : TileValid regions) (h : encodePage W P regions data0 = .ok data) :
    SrcBounded regions := by
  have hB : BLCKSZ = 8192 := rfl
  obtain ⟨r0, hr0, hr0d⟩ := tilesFrom_ne_nil regions ht
  cases hl : encodeLoop W P regions BLCKSZ 0 ⟨data0, 0, 0, 0, 0⟩ with
  | error e =>
    unfold encodePage at h
    simp only [bind, Except.bind, hl] at h
    cases h
  | ok st =>
    obtain ⟨_, hreads⟩ := encodeLoop_reads W P regions ht BLCKSZ 0 _ st (by omega)
      ⟨r0, hr0, by simpa using hr0d, Nat.zero_le _⟩ hl
    intro r hr
    obtain ⟨j, hj⟩ := List.mem_iff_getElem?.mp hr
    obtain ⟨hlen, hend, _, _, _⟩ := tilesFrom_get regions 0 j r ht hj
    obtain ⟨j1, r1, hj1, ha, hb, hc⟩ := hreads (r.dstOffset + r.length - 1) (Nat.zero_le _)
      (by omega)
    have hjj : j = j1 := tilesFrom_unique regions 0 j j1 (r.dstOffset + r.length - 1) r r1 ht
      hj hj1 ⟨by omega, by omega⟩ ⟨ha, hb⟩
    rw [← hjj, hj] at hj1
    have hrr : r = r1 := Option.some.inj hj1
    rw [← hrr] at hc
    omega

theorem shapeFrom_copy (W P : Page) (o : Nat) (b : Bool) (bytes : List Nat)
    (rest : List Instr) :
    shapeFrom W P o b (.copy bytes :: rest) =
      (1 ≤ bytes.length ∧ b = false ∧ shapeFrom W P (o + bytes.length) true rest) := rfl

theorem shapeFrom_move (W P : Page) (o : Nat) (b : Bool) (len source : Nat)
    (rest : List Instr) :
    shapeFrom W P o b (.move len source :: rest) =
      (MATCH_THRESHOLD < len ∧ source + len ≤ BLCKSZ ∧
        (∀ k, k < len → W (o + k) = P (source + k)) ∧ shapeFrom W P (o + len) false rest) :=
  rfl

theorem endsWithCopy_append (l l1 : List Instr) :
    ∀ b, endsWithCopy b (l ++ l1) = endsWithCopy (endsWithCopy b l) l1 := by
  induction l with
  | nil =>
    intro b
    rfl
  | cons x rest ih =>
    intro b
    exact ih (!x.isMove)

/-- Two lists of the right shape, the second starting where the first ends, make a list of
the right shape. -/
theorem shapeFrom_append (W P : Page) (l l1 : List Instr) :
    ∀ (o : Nat) (b : Bool), shapeFrom W P o b l →
      shapeFrom W P (o + (l.map Instr.length).sum) (endsWithCopy b l) l1 →
      shapeFrom W P o b (l ++ l1) := by
  induction l with
  | nil =>
    intro o b _ h
    exact h
  | cons x rest ih =>
    intro o b h h1
    cases x with
    | copy bytes =>
      rw [shapeFrom_copy] at h
      rw [List.cons_append, shapeFrom_copy]
      refine ⟨h.1, h.2.1, ih _ _ h.2.2 ?_⟩
      have e : o + ((Instr.copy bytes :: rest).map Instr.length).sum =
          o + bytes.length + (rest.map Instr.length).sum := by
        rw [List.map_cons, List.sum_cons]
        show o + (bytes.length + _) = _
        omega
      rw [e] at h1
      exact h1
    | move len source =>
      rw [shapeFrom_move] at h
      rw [List.cons_append, shapeFrom_move]
      refine ⟨h.1, h.2.1, h.2.2.1, ih _ _ h.2.2.2 ?_⟩
      have e : o + ((Instr.move len source :: rest).map Instr.length).sum =
          o + len + (rest.map Instr.length).sum := by
        rw [List.map_cons, List.sum_cons]
        show o + (len + _) = _
        omega
      rw [e] at h1
      exact h1

/-- In a list of the right shape every instruction has a length of at least one. -/
theorem shapeFrom_lengths (W P : Page) (l : List Instr) :
    ∀ (o : Nat) (b : Bool), shapeFrom W P o b l → ∀ x ∈ l, 1 ≤ x.length := by
  have hT : MATCH_THRESHOLD = 16 := rfl
  induction l with
  | nil =>
    intro o b _ x hx
    cases hx
  | cons y rest ih =>
    intro o b h x hx
    cases y with
    | copy bytes =>
      rw [shapeFrom_copy] at h
      rcases List.mem_cons.mp hx with hx | hx
      · rw [hx]
        exact h.1
      · exact ih _ _ h.2.2 x hx
    | move len source =>
      rw [shapeFrom_move] at h
      rcases List.mem_cons.mp hx with hx | hx
      · rw [hx]
        show 1 ≤ len
        omega
      · exact ih _ _ h.2.2.2 x hx

/-- In a list of the right shape every `MOVE` is longer than `MATCH_THRESHOLD` and reads
inside the page. -/
theorem shapeFrom_moves (W P : Page) (l : List Instr) :
    ∀ (o : Nat) (b : Bool), shapeFrom W P o b l →
      ∀ len source, Instr.move len source ∈ l →
        MATCH_THRESHOLD < len ∧ source + len ≤ BLCKSZ := by
  induction l with
  | nil =>
    intro o b _ len source hx
    cases hx
  | cons y rest ih =>
    intro o b h len source hx
    cases y with
    | copy bytes =>
      rw [shapeFrom_copy] at h
      rcases List.mem_cons.mp hx with hx | hx
      · cases hx
      · exact ih _ _ h.2.2 len source hx
    | move len1 source1 =>
      rw [shapeFrom_move] at h
      rcases List.mem_cons.mp hx with hx | hx
      · cases hx
        exact ⟨h.1, h.2.1⟩
      · exact ih _ _ h.2.2.2 len source hx

/-- In a list of the right shape no `COPY` follows a `COPY`. -/
theorem shapeFrom_copies (W P : Page) (l : List Instr) :
    ∀ (o : Nat) (b : Bool), shapeFrom W P o b l →
      ∀ (j : Nat) (a c : List Nat), l[j]? = some (.copy a) → l[j + 1]? ≠ some (.copy c) := by
  induction l with
  | nil =>
    intro o b _ j a c hj
    simp at hj
  | cons y rest ih =>
    intro o b h j a c hj hj1
    cases j with
    | zero =>
      rw [List.getElem?_cons_zero] at hj
      rw [List.getElem?_cons_succ] at hj1
      cases Option.some.inj hj
      rw [shapeFrom_copy] at h
      cases rest with
      | nil => simp at hj1
      | cons z rest1 =>
        rw [List.getElem?_cons_zero] at hj1
        cases Option.some.inj hj1
        rw [shapeFrom_copy] at h
        exact Bool.noConfusion h.2.2.2.1
    | succ j =>
      rw [List.getElem?_cons_succ] at hj hj1
      cases y with
      | copy bytes =>
        rw [shapeFrom_copy] at h
        exact ih _ _ h.2.2 j a c hj hj1
      | move len source =>
        rw [shapeFrom_move] at h
        exact ih _ _ h.2.2.2 j a c hj hj1

/-- In a list of the right shape the bytes of the working image at the cursor of a `MOVE`
are the bytes of the pre-image at its source. -/
theorem shapeFrom_content (W P : Page) (l : List Instr) :
    ∀ (o : Nat) (b : Bool), shapeFrom W P o b l →
      ∀ (j len source : Nat), l[j]? = some (.move len source) →
        ∀ k, k < len → W (o + cursorAt l j + k) = P (source + k) := by
  induction l with
  | nil =>
    intro o b _ j len source hj
    simp at hj
  | cons y rest ih =>
    intro o b h j len source hj k hk
    cases j with
    | zero =>
      rw [List.getElem?_cons_zero] at hj
      cases Option.some.inj hj
      rw [shapeFrom_move] at h
      rw [cursorAt_zero, Nat.add_zero]
      exact h.2.2.1 k hk
    | succ j =>
      rw [List.getElem?_cons_succ] at hj
      rw [cursorAt_succ]
      cases y with
      | copy bytes =>
        rw [shapeFrom_copy] at h
        have := ih _ _ h.2.2 j len source hj k hk
        have e : o + ((Instr.copy bytes).length + cursorAt rest j) + k =
            o + bytes.length + cursorAt rest j + k := by
          show o + (bytes.length + _) + k = _
          omega
        rw [e]
        exact this
      | move len1 source1 =>
        rw [shapeFrom_move] at h
        have := ih _ _ h.2.2.2 j len source hj k hk
        have e : o + ((Instr.move len1 source1).length + cursorAt rest j) + k =
            o + len1 + cursorAt rest j + k := by
          show o + (len1 + _) + k = _
          omega
        rw [e]
        exact this

/-- The statement `CHECK_SET` keeps the shape of the data, when the bytes of the working
image from `match` to `i` are the bytes of the pre-image that the current region points
at. -/
theorem CHECK_SET_shape (W P : Page) (region : Region) (i : Nat) (st : EncState)
    (hi : i ≤ BLCKSZ) (hnm : st.notMatch ≤ st.matchStart) (hms : st.matchStart ≤ i)
    (hinv : EncShape W P st.data st.notMatch)
    (s0 : Nat) (hs0 : region.srcOffset + st.regionOffset = s0 + (i - st.matchStart))
    (hbound : s0 + (i - st.matchStart) ≤ BLCKSZ)
    (hrun : ∀ k, st.matchStart ≤ k → k < i → W k = P (s0 + (k - st.matchStart))) :
    EncShape W P (CHECK_SET W region i st).data (CHECK_SET W region i st).notMatch := by
  have hB : BLCKSZ = 8192 := rfl
  have hT : MATCH_THRESHOLD = 16 := rfl
  obtain ⟨instrs, hd, hsum, hshape, hends⟩ := hinv
  rw [CHECK_SET_eq W region i st hi hnm hms]
  by_cases hlong : MATCH_THRESHOLD < i - st.matchStart
  · rw [if_pos hlong]
    dsimp only
    have hsrc : asOffsetNumber ((region.srcOffset : Int) + st.regionOffset
        - ((i : Int) - st.matchStart)) = s0 :=
      asOffsetNumber_eq _ s0 (by omega) (by omega)
    rw [hsrc]
    have hcontent : ∀ k, k < i - st.matchStart → W (st.matchStart + k) = P (s0 + k) := by
      intro k hk
      rw [hrun (st.matchStart + k) (by omega) (by omega)]
      have e : st.matchStart + k - st.matchStart = k := by omega
      rw [e]
    by_cases hlt : st.notMatch < st.matchStart
    · rw [if_pos hlt]
      refine ⟨instrs ++ [Instr.copy (pageBytes W st.notMatch (st.matchStart - st.notMatch)),
        Instr.move (i - st.matchStart) s0], ?_, ?_, ?_, ?_⟩
      · rw [serialize_append, serialize_cons, serialize_one, hd, List.append_assoc]
      · rw [sum_map_append, hsum]
        simp only [List.map_cons, List.map_nil, List.sum_cons, List.sum_nil, Instr.length,
          pageBytes_length]
        omega
      · apply shapeFrom_append W P instrs _ 0 false hshape
        rw [hends, hsum, Nat.zero_add, shapeFrom_copy, shapeFrom_move, pageBytes_length]
        have e : st.notMatch + (st.matchStart - st.notMatch) = st.matchStart := by omega
        rw [e]
        exact ⟨by omega, rfl, hlong, hbound, hcontent, trivial⟩
      · rw [endsWithCopy_append]
        rfl
    · rw [if_neg hlt]
      have hnm1 : st.notMatch = st.matchStart := by omega
      refine ⟨instrs ++ [Instr.move (i - st.matchStart) s0], ?_, ?_, ?_, ?_⟩
      · rw [serialize_append, serialize_one, hd]
      · rw [sum_map_append, hsum]
        simp only [List.map_cons, List.map_nil, List.sum_cons, List.sum_nil, Instr.length]
        omega
      · apply shapeFrom_append W P instrs _ 0 false hshape
        rw [hends, hsum, Nat.zero_add, shapeFrom_move, hnm1]
        exact ⟨hlong, hbound, hcontent, trivial⟩
      · rw [endsWithCopy_append]
        rfl
  · rw [if_neg hlong]
    exact ⟨instrs, hd, hsum, hshape, hends⟩

/-- With the loop invariant, `CHECK_SET` with the current region keeps the shape of the
data. -/
theorem CHECK_SET_shape_inv (W P page0 : Page) (regions : List Region)
    (hsrc : SrcBounded regions) (i : Nat) (hi : i ≤ BLCKSZ) (st : EncState)
    (hinv : EncInv W P regions page0 i st) (hshape : EncShape W P st.data st.notMatch)
    (region : Region) (hf : fetch regions st.region = .ok region) :
    EncShape W P (CHECK_SET W region i st).data (CHECK_SET W region i st).notMatch := by
  obtain ⟨r, m, pg, hr, hpos, hoff, _, _, h1, h2, h3, hrun⟩ := hinv
  rw [fetch_of_get hr] at hf
  have hreg : r = region := Except.ok.inj hf
  rw [← hreg]
  have hs := hsrc r (List.getElem?_mem hr)
  exact CHECK_SET_shape W P r i st hi h1 h2 hshape
    (r.srcOffset + (st.matchStart - r.dstOffset)) (by omega) (by omega)
    (fun k hk1 hk2 => by
      rw [hrun k hk1 hk2]
      have e : r.srcOffset + (k - r.dstOffset) =
          r.srcOffset + (st.matchStart - r.dstOffset) + (k - st.matchStart) := by omega
      rw [e])

/-- The encoder loop keeps the loop invariant and the shape of the data. -/
theorem encodeLoop_shape (W P page0 : Page) (regions : List Region) (ht : TileValid regions)
    (hsrc : SrcBounded regions) :
    ∀ (n i : Nat) (st : EncState), i + n ≤ BLCKSZ → EncInv W P regions page0 i st →
      EncShape W P st.data st.notMatch →
      ∃ st1, encodeLoop W P regions n i st = .ok st1 ∧
        EncInv W P regions page0 (i + n) st1 ∧ EncShape W P st1.data st1.notMatch := by
  intro n
  induction n with
  | zero =>
    intro i st _ hst hshape
    exact ⟨st, rfl, hst, hshape⟩
  | succ n ih =>
    intro i st hin hst hshape
    obtain ⟨st1, hstep, hst1⟩ := encodeStep_inv W P page0 regions ht hsrc i (by omega) st hst
    have hnm : st.notMatch ≤ st.matchStart ∧ st.matchStart ≤ i := by
      obtain ⟨_, _, _, _, _, _, _, _, h1, h2, _⟩ := hst
      exact ⟨h1, h2⟩
    have hshape1 := (encodeStep_generic W P regions i (by omega) st st1 (EncShape W P)
      hnm.1 hnm.2
      (fun region hf =>
        CHECK_SET_shape_inv W P page0 regions hsrc i (by omega) st hst hshape region hf)
      hshape hstep).1
    obtain ⟨st2, hloop, hst2, hshape2⟩ := ih (i + 1) st1 (by omega) hst1 hshape1
    refine ⟨st2, ?_, ?_, hshape2⟩
    · rw [encodeLoop_succ, hstep]
      exact hloop
    · have e : i + (n + 1) = i + 1 + n := by omega
      rw [e]
      exact hst2

/-- On a region list that tiles the page and maps into the image, the record that
`writeDifferentialData` returns is a list of instructions of the right shape whose length
fields sum to `BLCKSZ`. -/
theorem encodePage_shape (W P : Page) (regions : List Region) (ht : TileValid regions)
    (hsrc : SrcBounded regions) :
    ∃ instrs : List Instr, encodePage W P regions [] = .ok (serialize instrs) ∧
      (instrs.map Instr.length).sum = BLCKSZ ∧ shapeFrom W P 0 false instrs := by
  have hB : BLCKSZ = 8192 := rfl
  obtain ⟨r0, hr0, hr0d⟩ := tilesFrom_ne_nil regions ht
  have hinit : EncInv W P regions W 0
      { data := [], region := 0, regionOffset := 0, notMatch := 0, matchStart := 0 } :=
    ⟨r0, 0, W, hr0, by simpa using hr0d, Nat.zero_le _, decodes_nil P W,
      fun k hk => absurd hk (Nat.not_lt_zero k), Nat.le_refl _, Nat.le_refl _,
      by simpa using hr0d, fun k _ hk => absurd hk (Nat.not_lt_zero k)⟩
  obtain ⟨st, hloop, hinv, hshape⟩ :=
    encodeLoop_shape W P W regions ht hsrc BLCKSZ 0 _ (by omega) hinit
      ⟨[], rfl, rfl, trivial, rfl⟩
  rw [Nat.zero_add] at hinv
  obtain ⟨r, hr⟩ : ∃ r, regions[st.region]? = some r := by
    obtain ⟨r, _, _, hr, _⟩ := hinv
    exact ⟨r, hr⟩
  have hnm : st.notMatch ≤ st.matchStart ∧ st.matchStart ≤ BLCKSZ := by
    obtain ⟨_, _, _, _, _, _, _, _, h1, h2, _⟩ := hinv
    exact ⟨h1, h2⟩
  obtain ⟨instrs, hd, hsum, hsh, hends⟩ :=
    CHECK_SET_shape_inv W P W regions hsrc BLCKSZ (Nat.le_refl _) st hinv hshape r
      (fetch_of_get hr)
  have hle := CHECK_SET_notMatch_le W r BLCKSZ st (by omega)
  rw [encodePage_end W P regions st r hloop (fetch_of_get hr)]
  by_cases hlt : (CHECK_SET W r BLCKSZ st).notMatch < BLCKSZ
  · rw [if_pos hlt]
    refine ⟨instrs ++ [Instr.copy (pageBytes W (CHECK_SET W r BLCKSZ st).notMatch
      (BLCKSZ - (CHECK_SET W r BLCKSZ st).notMatch))], ?_, ?_, ?_⟩
    · rw [serialize_append, serialize_one, hd]
    · rw [sum_map_append, hsum]
      simp only [List.map_cons, List.map_nil, List.sum_cons, List.sum_nil, Instr.length,
        pageBytes_length]
      omega
    · apply shapeFrom_append W P instrs _ 0 false hsh
      rw [hends, shapeFrom_copy, pageBytes_length]
      exact ⟨by omega, rfl, trivial⟩
  · rw [if_neg hlt]
    exact ⟨instrs, by rw [hd], by omega, hsh⟩

/-- C35: shape of the encoder output.  On a tile-valid region list, every record that
`writeDifferentialData` returns from `dataLen = 0` is a sequence of instructions in which
every length is between 1 and `BLCKSZ`, every `MOVE` is longer than `MATCH_THRESHOLD`, no two
`COPY` instructions are consecutive, and for every `MOVE(len, source)` at cursor `o` the
working image has `W[o + k] = P[source + k]` for every `k < len`.  The record is returned
whenever the regions also map into the image. -/
theorem encoder_output_shape (W P : Page) (regions : List Region) (ht : TileValid regions) :
    (SrcBounded regions → ∃ data, encodePage W P regions [] = .ok data) ∧
    ∀ data, encodePage W P regions [] = .ok data →
      ∃ instrs : List Instr, data = serialize instrs ∧
        (∀ x ∈ instrs, 1 ≤ x.length ∧ x.length ≤ BLCKSZ) ∧
        (∀ len source, Instr.move len source ∈ instrs → MATCH_THRESHOLD < len) ∧
        (∀ (j : Nat) (a c : List Nat), instrs[j]? = some (.copy a) →
          instrs[j + 1]? ≠ some (.copy c)) ∧
        (∀ (j len source : Nat), instrs[j]? = some (.move len source) →
          ∀ k, k < len → W (cursorAt instrs j + k) = P (source + k)) := by
  refine ⟨fun hsrc => encodePage_total W P regions [] ht hsrc, ?_⟩
  intro data h
  have hsrc := srcBounded_of_encode W P regions [] data ht h
  obtain ⟨instrs, henc, hsum, hsh⟩ := encodePage_shape W P regions ht hsrc
  rw [henc] at h
  have hdata : serialize instrs = data := Except.ok.inj h
  refine ⟨instrs, hdata.symm, ?_, ?_, shapeFrom_copies W P instrs 0 false hsh, ?_⟩
  · intro x hx
    refine ⟨shapeFrom_lengths W P instrs 0 false hsh x hx, ?_⟩
    rw [← hsum]
    exact length_le_sum instrs x hx
  · intro len source hx
    exact (shapeFrom_moves W P instrs 0 false hsh len source hx).1
  · intro j len source hj k hk
    have := shapeFrom_content W P instrs 0 false hsh j len source hj k hk
    rw [Nat.zero_add] at this
    exact this

/-- Instance of `encoder_output_shape`: a page that agrees with the zero pre-image on the
seventeen bytes from 100 and nowhere else. -/
theorem encoder_output_shape_witness :
    TileValid [identityRegion] ∧
    ∃ instrs : List Instr,
      serialize [.copy (pageBytes (matchedRun 100 17) 0 100), .move 17 100,
        .copy (pageBytes (matchedRun 100 17) (100 + 17) (BLCKSZ - (100 + 17)))]
        = serialize instrs ∧
      (∀ x ∈ instrs, 1 ≤ x.length ∧ x.length ≤ BLCKSZ) ∧
      (∀ len source, Instr.move len source ∈ instrs → MATCH_THRESHOLD < len) ∧
      (∀ (j : Nat) (a c : List Nat), instrs[j]? = some (.copy a) →
        instrs[j + 1]? ≠ some (.copy c)) ∧
      (∀ (j len source : Nat), instrs[j]? = some (.move len source) →
        ∀ k, k < len → matchedRun 100 17 (cursorAt instrs j + k) = zeroPage (source + k)) := by
  have h := encode_matched_window (matchedRun 100 17) zeroPage 100 17 (by decide) (by decide)
    (fun k _ hk => matchedRun_diff 100 17 k hk)
    (fun k h1 h2 => matchedRun_same 100 17 k h1 h2)
  rw [if_pos (by decide)] at h
  exact ⟨tileValid_identity,
    (encoder_output_shape (matchedRun 100 17) zeroPage [identityRegion] tileValid_identity).2 _
      h⟩

/-! ## The local array `newRegions` of `memoryMove` on a full region list -/

/-- One iteration of the loop `while (curLength > 0)` of `memoryMove`, when `srcOffset` lies
in the region that `srcRegion` points at and there is room in `newRegions`. -/
theorem makeNewRegions_step (cur : Nat) (r : Region) (rest : List Region) (so cl : Nat)
    (acc : List Region) (h0 : cl ≠ 0) (hcap : acc.length < MAX_REGIONS)
    (hdst : r.dstOffset ≤ so) (hin : so < r.dstOffset + r.length)
    (hb : so + cl ≤ BLCKSZ) (hs : r.srcOffset + r.length ≤ BLCKSZ) :
    makeNewRegions cur (r :: rest) so cl acc =
      makeNewRegions cur rest (so + min (r.length - (so - r.dstOffset)) cl)
        (cl - min (r.length - (so - r.dstOffset)) cl)
        (acc ++ [⟨cur, r.srcOffset + (so - r.dstOffset),
          min (r.length - (so - r.dstOffset)) cl⟩]) := by
  have hB : BLCKSZ = 8192 := rfl
  have hshift : asOffsetNumber ((so : Int) - (r.dstOffset : Int)) = so - r.dstOffset :=
    asOffsetNumber_eq _ _ (by omega) (by omega)
  have hl : asOffsetNumber (min ((r.length : Int) - ((so - r.dstOffset : Nat) : Int))
      (cl : Int)) = min (r.length - (so - r.dstOffset)) cl :=
    asOffsetNumber_eq _ _ (by omega) (by omega)
  have hsrc : asOffsetNumber ((r.srcOffset : Int) + ((so - r.dstOffset : Nat) : Int))
      = r.srcOffset + (so - r.dstOffset) :=
    asOffsetNumber_eq _ _ (by omega) (by omega)
  have hso : asOffsetNumber ((so : Int)
      + ((min (r.length - (so - r.dstOffset)) cl : Nat) : Int))
      = so + min (r.length - (so - r.dstOffset)) cl :=
    asOffsetNumber_eq _ _ (by omega) (by omega)
  have hcl : asOffsetNumber ((cl : Int)
      - ((min (r.length - (so - r.dstOffset)) cl : Nat) : Int))
      = cl - min (r.length - (so - r.dstOffset)) cl :=
    asOffsetNumber_eq _ _ (by omega) (by omega)
  conv => lhs; unfold makeNewRegions
  rw [if_neg h0]
  dsimp only
  rw [if_neg (by omega), hshift, hl, hsrc, hso, hcl]

/-- The block `Check left region` when the left region neither ends at `dstOffset` nor is
continued by the first new region: `leftAdjacent` is false and `newRegions` is unchanged. -/
theorem checkLeft_apart (left : Region) (d : Nat) (first : Region) (nr : List Region)
    (h1 : left.dstOffset ≠ d) (h2 : (first.srcOffset : Int) ≠ left.srcOffset + (d - left.dstOffset)) :
    checkLeft left d first nr =
      ⟨nr, false, asOffsetNumber ((d : Int) - left.dstOffset)⟩ := by
  unfold checkLeft
  dsimp only
  rw [if_neg (by omega), if_neg h2]

/-- The block `Check right region` when `leftAdjacent` is false, the right region neither
ends at `dstOffset + length` nor continues the last new region, and `newRegions` already
holds `MAX_REGIONS` entries: the statement `tmp = &newRegions[newRegionsCount - 1]` after
`newRegionsCount++` points past the end of the array, and `*tmp = *dstRegionRight` writes
there. -/
theorem checkRight_overrun (regions : List Region) (R : Nat) (right : Region) (d l : Nat)
    (nr : List Region) (last : Region)
    (h1 : right.dstOffset + right.length ≠ d + l)
    (h2 : (last.srcOffset : Int) + last.length
      + (((right.dstOffset : Int) + right.length) - ((d : Int) + l))
        ≠ (right.srcOffset : Int) + right.length)
    (hfull : MAX_REGIONS ≤ nr.length) :
    checkRight regions R right d l false nr last = .error .undefinedBehaviour := by
  unfold checkRight
  dsimp only
  rw [if_neg (by omega), if_neg h2, if_pos (by simp), if_pos hfull]

theorem evenRegions_get (j : Nat) (hj : j < MAX_REGIONS) :
    evenRegions[j]? = some ⟨32 * j, 32 * j, 32⟩ := by
  unfold evenRegions
  rw [List.getElem?_map, List.getElem?_range hj]
  rfl

theorem evenRegions_length : evenRegions.length = MAX_REGIONS := by
  unfold evenRegions
  rw [List.length_map, List.length_range]

theorem evenRegions_get_inv (j : Nat) (r : Region) (h : evenRegions[j]? = some r) :
    j < MAX_REGIONS ∧ r = ⟨32 * j, 32 * j, 32⟩ := by
  have hj : j < MAX_REGIONS := by
    have := getElem?_lt h
    rw [evenRegions_length] at this
    exact this
  rw [evenRegions_get j hj] at h
  exact ⟨hj, (Option.some.inj h).symm⟩

theorem evenNewRegions_get (j : Nat) (hj : j < MAX_REGIONS) :
    evenNewRegions[j]? = some ⟨8, 32 * j, if j < 255 then 32 else 1⟩ := by
  unfold evenNewRegions
  rw [List.getElem?_map, List.getElem?_range hj]
  rfl

theorem evenNewRegions_length : evenNewRegions.length = MAX_REGIONS := by
  unfold evenNewRegions
  rw [List.length_map, List.length_range]

/-- The regions of `evenRegions` from index `j` on tile the page from byte `32 * j` on. -/
theorem tilesFrom_even : ∀ (n j : Nat), j + n = MAX_REGIONS →
    tilesFrom (32 * j)
      ((List.range' j n).map (fun t => (⟨32 * t, 32 * t, 32⟩ : Region))) = true := by
  have hB : BLCKSZ = 8192 := rfl
  have hM : MAX_REGIONS = 256 := rfl
  intro n
  induction n with
  | zero =>
    intro j hj
    have e : 32 * j = BLCKSZ := by omega
    rw [e]
    rfl
  | succ n ih =>
    intro j hj
    have h3 := ih (j + 1) (by omega)
    have e : 32 * (j + 1) = 32 * j + 32 := by omega
    rw [e] at h3
    rw [List.range'_succ, List.map_cons]
    simp only [tilesFrom, Bool.and_eq_true, beq_iff_eq, decide_eq_true_eq]
    exact ⟨⟨trivial, by omega⟩, h3⟩

theorem tileValid_even : TileValid evenRegions := by
  unfold TileValid evenRegions
  rw [List.range_eq_range']
  exact tilesFrom_even MAX_REGIONS 0 (Nat.zero_add _)

/-- On `evenSlot`, `findRegion` returns the region of index `offset / 32`. -/
theorem findRegion_even (key j : Nat) (h1 : 32 * j ≤ key) (h2 : key < 32 * j + 32)
    (hkey : key < BLCKSZ) : findRegion evenSlot key = .ok j := by
  obtain ⟨j1, r, hf, hget, ha, hb⟩ := findRegion_tile evenSlot tileValid_even key hkey
  obtain ⟨_, hr⟩ := evenRegions_get_inv j1 r hget
  rw [hr] at ha hb
  dsimp only at ha hb
  have hj : j1 = j := by omega
  rw [← hj]
  exact hf

/-- The loop `while (curLength > 0)` of `memoryMove(8, 0, 8161)` on `evenSlot`, from the
region of index `j` on. -/
theorem makeNewRegions_even : ∀ (n j so cl : Nat) (acc : List Region),
    j + n = MAX_REGIONS → acc.length = j → cl = 8161 - 32 * j → (cl ≠ 0 → so = 32 * j) →
    makeNewRegions 8 ((List.range' j n).map (fun t => (⟨32 * t, 32 * t, 32⟩ : Region))) so cl acc
      = .ok (acc ++ (List.range' j n).map
          (fun t => (⟨8, 32 * t, if t < 255 then 32 else 1⟩ : Region))) := by
  have hB : BLCKSZ = 8192 := rfl
  have hM : MAX_REGIONS = 256 := rfl
  intro n
  induction n with
  | zero =>
    intro j so cl acc hj _ hcl _
    have h0 : cl = 0 := by omega
    rw [h0, makeNewRegions_zero]
    simp
  | succ n ih =>
    intro j so cl acc hj hacc hcl hso
    have hso1 := hso (by omega)
    rw [List.range'_succ, List.map_cons, List.map_cons,
      makeNewRegions_step 8 _ _ so cl acc (by omega) (by omega)
        (by show 32 * j ≤ so; omega) (by show so < 32 * j + 32; omega) (by omega)
        (by show 32 * j + 32 ≤ BLCKSZ; omega)]
    dsimp only
    have elen : min (32 - (so - 32 * j)) cl = if j < 255 then 32 else 1 := by
      split <;> omega
    rw [elen]
    have esrc : 32 * j + (so - 32 * j) = 32 * j := by omega
    rw [esrc]
    rw [ih (j + 1) _ _ _ (by omega)
      (by rw [List.length_append, hacc]; rfl)
      (by split <;> omega)
      (by split <;> omega),
      List.append_assoc]
    rfl

theorem makeNewRegions_evenSlot :
    makeNewRegions 8 evenRegions 0 8161 [] = .ok evenNewRegions := by
  have h := makeNewRegions_even MAX_REGIONS 0 0 8161 [] (Nat.zero_add _) rfl rfl (fun _ => rfl)
  rw [← List.range_eq_range', List.nil_append] at h
  exact h

/-- The function `memoryMove` writes past the end of `newRegions` when its loop has filled the
array, the left region neither ends at `dstOffset` nor is continued by the first new region,
and the right region neither ends at `dstOffset + length` nor continues the last new
region. -/
theorem memoryMoveRegions_overrun (pd : PageData) (d s l : Nat) (srcRegion : Nat)
    (nr : List Region) (L R : Nat) (left first right last : Region)
    (h1 : findRegion pd s = .ok srcRegion)
    (h2 : makeNewRegions d (pd.regions.drop srcRegion) s l [] = .ok nr)
    (h3 : findRegion pd (if d > 0 then d - 1 else 0) = .ok L)
    (h4 : pd.regions[L]? = some left) (h5 : nr[0]? = some first)
    (hl1 : left.dstOffset ≠ d)
    (hl2 : (first.srcOffset : Int) ≠ left.srcOffset + (d - left.dstOffset))
    (h6 : findRegion pd
      (if d + l < BLCKSZ then asOffsetNumber ((d : Int) + l) else BLCKSZ - 1) = .ok R)
    (h7 : pd.regions[R]? = some right) (h8 : nr[nr.length - 1]? = some last)
    (hr1 : right.dstOffset + right.length ≠ d + l)
    (hr2 : (last.srcOffset : Int) + last.length
      + (((right.dstOffset : Int) + right.length) - ((d : Int) + l))
        ≠ (right.srcOffset : Int) + right.length)
    (hfull : MAX_REGIONS ≤ nr.length) :
    memoryMoveRegions pd d s l = .error .undefinedBehaviour := by
  have hcl := checkLeft_apart left d first nr hl1 hl2
  have hcr := checkRight_overrun pd.regions R right d l nr last hr1 hr2 hfull
  unfold memoryMoveRegions
  simp only [bind, Except.bind, h1, h2, h3, fetch_of_get h4, fetchNew_of_get h5, hcl, h6,
    fetch_of_get h7, fetchNew_of_get h8, hcr]

/-- On `evenSlot`, a slot with `MAX_REGIONS` regions, `memoryMove(8, 0, 8161)` writes
`MAX_REGIONS` entries to `newRegions` in its loop and one more in the block
`Check right region`. -/
theorem memoryMoveRegions_even :
    memoryMoveRegions evenSlot 8 0 8161 = .error .undefinedBehaviour := by
  have hB : BLCKSZ = 8192 := rfl
  have hM : MAX_REGIONS = 256 := rfl
  have hreg : evenSlot.regions = evenRegions := rfl
  have h1 := findRegion_even 0 0 (by omega) (by omega) (by omega)
  have h2 : makeNewRegions 8 (evenSlot.regions.drop 0) 0 8161 [] = .ok evenNewRegions := by
    rw [hreg, List.drop_zero]
    exact makeNewRegions_evenSlot
  have h3 : findRegion evenSlot (if 8 > 0 then 8 - 1 else 0) = .ok 0 :=
    findRegion_even _ 0 (by decide) (by decide) (by decide)
  have h4 : evenSlot.regions[0]? = some ⟨32 * 0, 32 * 0, 32⟩ := by
    rw [hreg]
    exact evenRegions_get 0 (by omega)
  have h6 : findRegion evenSlot
      (if 8 + 8161 < BLCKSZ then asOffsetNumber (((8 : Nat) : Int) + ((8161 : Nat) : Int))
        else BLCKSZ - 1) = .ok 255 :=
    findRegion_even _ 255 (by decide) (by decide) (by decide)
  have h7 : evenSlot.regions[255]? = some ⟨32 * 255, 32 * 255, 32⟩ := by
    rw [hreg]
    exact evenRegions_get 255 (by omega)
  have h8 : evenNewRegions[evenNewRegions.length - 1]? =
      some ⟨8, 32 * 255, if 255 < 255 then 32 else 1⟩ := by
    rw [evenNewRegions_length]
    exact evenNewRegions_get 255 (by omega)
  exact memoryMoveRegions_overrun evenSlot 8 0 8161 0 evenNewRegions 0 255 _ _ _ _ h1 h2 h3 h4
    (evenNewRegions_get 0 (by omega)) (by decide) (by decide) h6 h7 h8 (by decide) (by decide)
    (by rw [evenNewRegions_length])

/-- The loop `while (curLength > 0)` of `memoryMove` on a tile-valid slot with at most
`MAX_REGIONS` regions, for an in-bounds source range: it writes at least one entry and at
most as many entries as the slot has regions from `srcRegion` on, so it stays inside
`newRegions`. -/
theorem makeNewRegions_in_bounds (pd : PageData) (ht : TileValid pd.regions)
    (hcount : pd.regionsCount ≤ MAX_REGIONS) (d s l : Nat) (hl : 1 ≤ l)
    (hs : s + l ≤ BLCKSZ) :
    ∃ (srcRegion : Nat) (nr : List Region), findRegion pd s = .ok srcRegion ∧
      makeNewRegions d (pd.regions.drop srcRegion) s l [] = .ok nr ∧
      1 ≤ nr.length ∧ nr.length + srcRegion ≤ pd.regionsCount := by
  have hB : BLCKSZ = 8192 := rfl
  obtain ⟨j, r, hf, hget, ha, hb⟩ := findRegion_tile pd ht s (by omega)
  have hj := getElem?_lt hget
  have hdrop := tilesFrom_drop pd.regions 0 j r ht hget
  obtain ⟨added, hadd, hlen, hpos⟩ := makeNewRegions_tile d (pd.regions.drop j) r.dstOffset s l []
    hdrop ha
    (fun r1 hr1 => by
      rw [List.getElem?_drop, Nat.add_zero, hget] at hr1
      rw [← Option.some.inj hr1]
      exact hb)
    hs
    (by
      rw [List.length_nil, Nat.zero_add, List.length_drop]
      unfold PageData.regionsCount at hcount
      omega)
  rw [List.nil_append] at hadd
  refine ⟨j, added, hf, hadd, hpos hl, ?_⟩
  rw [List.length_drop] at hlen
  unfold PageData.regionsCount
  omega


/-! ## A full region list reached through `GenericXLogMemmove` -/

/-- The loop `while (curLength > 0)` of `memoryMove` on a tiling, when the source range
starts in the first of the regions given and ends in the last one: it writes one entry for
each region. -/
theorem makeNewRegions_span (cur : Nat) (rs : List Region) :
    ∀ (pos so cl : Nat) (acc : List Region),
      tilesFrom pos rs = true → pos ≤ so →
      (∀ r, rs[0]? = some r → so < r.dstOffset + r.length) →
      so + cl ≤ BLCKSZ → 1 ≤ cl →
      (∀ r, rs.getLast? = some r → r.dstOffset < so + cl) →
      acc.length + rs.length ≤ MAX_REGIONS →
      ∃ added, makeNewRegions cur rs so cl acc = .ok (acc ++ added) ∧
        added.length = rs.length ∧
        (∀ r, rs[0]? = some r → added[0]? = some
          ⟨cur, asOffsetNumber ((r.srcOffset : Int) + ((so - r.dstOffset : Nat) : Int)),
            min (r.length - (so - r.dstOffset)) cl⟩) ∧
        (∀ r, rs.getLast? = some r → 2 ≤ rs.length → added.getLast? = some
          ⟨cur, asOffsetNumber ((r.srcOffset : Int) + ((0 : Nat) : Int)),
            so + cl - r.dstOffset⟩) := by
  have hB : BLCKSZ = 8192 := rfl
  have hM : MAX_REGIONS = 256 := rfl
  induction rs with
  | nil =>
    intro pos so cl acc ht hpos _ hbound hcl _ _
    simp only [tilesFrom, beq_iff_eq] at ht
    omega
  | cons r rest ih =>
    intro pos so cl acc ht hpos hin hbound hcl hlast hcap
    simp only [tilesFrom, Bool.and_eq_true, beq_iff_eq, decide_eq_true_eq] at ht
    obtain ⟨⟨hdst, hlen⟩, hrest⟩ := ht
    have hin1 := hin r List.getElem?_cons_zero
    have hshift : asOffsetNumber ((so : Int) - (r.dstOffset : Int)) = so - r.dstOffset :=
      asOffsetNumber_eq _ _ (by omega) (by omega)
    have hl : asOffsetNumber (min ((r.length : Int) - ((so - r.dstOffset : Nat) : Int))
        (cl : Int)) = min (r.length - (so - r.dstOffset)) cl :=
      asOffsetNumber_eq _ _ (by omega) (by omega)
    have hso : asOffsetNumber ((so : Int)
        + ((min (r.length - (so - r.dstOffset)) cl : Nat) : Int))
        = so + min (r.length - (so - r.dstOffset)) cl :=
      asOffsetNumber_eq _ _ (by omega) (by omega)
    have hcl1 : asOffsetNumber ((cl : Int)
        - ((min (r.length - (so - r.dstOffset)) cl : Nat) : Int))
        = cl - min (r.length - (so - r.dstOffset)) cl :=
      asOffsetNumber_eq _ _ (by omega) (by omega)
    have hcapn : ¬ (acc.length ≥ MAX_REGIONS) := by
      simp only [List.length_cons] at hcap
      omega
    conv => enter [1, added, 1, 1]; unfold makeNewRegions
    simp only [if_neg (show ¬ cl = 0 by omega), if_neg hcapn, hshift, hl, hso, hcl1]
    cases rest with
    | nil =>
      simp only [tilesFrom, beq_iff_eq] at hrest
      have e0 : cl - min (r.length - (so - r.dstOffset)) cl = 0 := by omega
      rw [e0, makeNewRegions_zero]
      refine ⟨_, rfl, rfl, ?_, ?_⟩
      · intro r1 hr1
        rw [List.getElem?_cons_zero] at hr1
        rw [← Option.some.inj hr1]
        rfl
      · intro r1 _ h2
        simp only [List.length_cons, List.length_nil] at h2
        omega
    | cons r1 rest1 =>
      have hr1 : r1.dstOffset = pos + r.length ∧ 1 ≤ r1.length := by
        simp only [tilesFrom, Bool.and_eq_true, beq_iff_eq, decide_eq_true_eq] at hrest
        exact ⟨hrest.1.1, hrest.1.2⟩
      have hlastge : ∀ x, (r1 :: rest1).getLast? = some x → pos + r.length ≤ x.dstOffset := by
        intro x hx
        rw [List.getLast?_eq_getElem?] at hx
        exact (tilesFrom_get (r1 :: rest1) (pos + r.length) _ x hrest hx).2.2.1
      have hlast1 : ∀ x, (r1 :: rest1).getLast? = some x → x.dstOffset < so + cl := by
        intro x hx
        apply hlast x
        rw [List.getLast?_cons_cons]
        exact hx
      obtain ⟨x, hx⟩ : ∃ x, (r1 :: rest1).getLast? = some x := by
        cases hc : (r1 :: rest1).getLast? with
        | none => simp at hc
        | some x => exact ⟨x, rfl⟩
      have hx1 := hlastge x hx
      have hx2 := hlast1 x hx
      have emin : min (r.length - (so - r.dstOffset)) cl = r.length - (so - r.dstOffset) := by
        omega
      obtain ⟨added, hadd, hlen1, hfirst, hlst⟩ := ih (pos + r.length)
        (so + min (r.length - (so - r.dstOffset)) cl)
        (cl - min (r.length - (so - r.dstOffset)) cl)
        (acc ++ [⟨cur, asOffsetNumber ((r.srcOffset : Int) + ((so - r.dstOffset : Nat) : Int)),
          min (r.length - (so - r.dstOffset)) cl⟩])
        hrest (by omega)
        (fun y hy => by
          rw [List.getElem?_cons_zero] at hy
          rw [← Option.some.inj hy]
          omega)
        (by omega) (by omega)
        (fun y hy => by
          have := hlast1 y hy
          omega)
        (by
          simp only [List.length_append, List.length_cons, List.length_nil] at hcap ⊢
          omega)
      rw [hadd, List.append_assoc]
      refine ⟨_, rfl, ?_, ?_, ?_⟩
      · simp only [List.singleton_append, List.length_cons] at hlen1 ⊢
        omega
      · intro y hy
        rw [List.getElem?_cons_zero] at hy
        rw [← Option.some.inj hy, List.singleton_append, List.getElem?_cons_zero]
      · intro y hy _
        rw [List.getLast?_cons_cons] at hy
        rw [hx] at hy
        have hxy : x = y := Option.some.inj hy
        rw [← hxy]
        cases added with
        | nil => simp at hlen1
        | cons a added1 =>
          rw [List.singleton_append, List.getLast?_cons_cons]
          cases rest1 with
          | nil =>
            have hxr : r1 = x := by
              simpa using hx
            have hf := hfirst r1 List.getElem?_cons_zero
            cases added1 with
            | nil =>
              rw [List.getElem?_cons_zero] at hf
              simp only [tilesFrom, Bool.and_eq_true, beq_iff_eq, decide_eq_true_eq] at hrest
              have e1 : so + min (r.length - (so - r.dstOffset)) cl - r1.dstOffset = 0 := by
                omega
              rw [e1] at hf
              have e2 : min (r1.length - 0) (cl - min (r.length - (so - r.dstOffset)) cl)
                  = so + cl - r1.dstOffset := by omega
              rw [e2, hxr] at hf
              exact hf
            | cons b added2 =>
              simp only [List.length_cons, List.length_nil] at hlen1
              omega
          | cons r2 rest2 =>
            have := hlst x hx (by simp only [List.length_cons]; omega)
            rw [this]
            have e3 : so + min (r.length - (so - r.dstOffset)) cl
                + (cl - min (r.length - (so - r.dstOffset)) cl) - x.dstOffset
                = so + cl - x.dstOffset := by omega
            rw [e3]

/-- What `memoryMove(dstOffset, 0, length)` computes when the source range lies in the first
region, which maps to offset 0 of the pre-image, and the destination range is the end of the
last region, which maps to itself: the last region is cut at `dstOffset`, and `newRegions`
holds the new region only. -/
theorem plan_append_tail (pd : PageData) (pre : List Region) (t r0 : Region) (d l : Nat)
    (hreg : pd.regions = pre ++ [t]) (ht : TileValid pd.regions)
    (h0 : pd.regions[0]? = some r0) (hr0s : r0.srcOffset = 0) (hr0l : l ≤ r0.length)
    (hts : t.srcOffset = t.dstOffset) (hl : 1 ≤ l) (hd1 : t.dstOffset < d)
    (hd2 : d + l = BLCKSZ) :
    memoryMovePlan pd d 0 l = .ok
      { regions := pre ++ [{ t with length := d - t.dstOffset }]
        newRegions := [⟨d, 0, l⟩]
        leftIndex := (pre.length : Int) + 1
        rightIndex := (pre.length : Int) + 1 } := by
  have hB : BLCKSZ = 8192 := rfl
  have hM : MAX_REGIONS = 256 := rfl
  have ht1 : tilesFrom 0 (pre ++ [t]) = true := by
    rw [← hreg]
    exact ht
  obtain ⟨hget, htl, htend⟩ := tilesFrom_last pre t 0 ht1
  rw [← hreg] at hget
  obtain ⟨hr0len, _, _, hr0d, _⟩ := tilesFrom_get pd.regions 0 0 r0 ht h0
  have hr0d0 : r0.dstOffset = 0 := hr0d rfl
  have hfind : ∀ key, key < BLCKSZ → ∀ (j : Nat) (r : Region), pd.regions[j]? = some r →
      r.dstOffset ≤ key → key < r.dstOffset + r.length → findRegion pd key = .ok j := by
    intro key hkey j r hj h1 h2
    obtain ⟨j1, r1, hf, hj1, h3, h4⟩ := findRegion_tile pd ht key hkey
    have := tilesFrom_unique pd.regions 0 j1 j key r1 r ht hj1 hj ⟨h3, h4⟩ ⟨h1, h2⟩
    rw [hf, this]
  have hsrc : findRegion pd 0 = .ok 0 := hfind 0 (by omega) 0 r0 h0 (by omega) (by omega)
  have hleft : findRegion pd (if d > 0 then d - 1 else 0) = .ok pre.length := by
    rw [if_pos (by omega)]
    exact hfind (d - 1) (by omega) pre.length t hget (by omega) (by omega)
  have hright : findRegion pd
      (if d + l < BLCKSZ then asOffsetNumber ((d : Int) + l) else BLCKSZ - 1) = .ok pre.length := by
    rw [if_neg (by omega)]
    exact hfind (BLCKSZ - 1) (by omega) pre.length t hget (by omega) (by omega)
  obtain ⟨rest, hrest⟩ : ∃ rest, pd.regions = r0 :: rest := by
    cases hc : pd.regions with
    | nil =>
      rw [hc] at h0
      cases h0
    | cons a rest =>
      rw [hc, List.getElem?_cons_zero] at h0
      cases h0
      exact ⟨rest, rfl⟩
  have hnew : makeNewRegions d (pd.regions.drop 0) 0 l [] = .ok [⟨d, 0, l⟩] := by
    rw [List.drop_zero, hrest]
    unfold makeNewRegions
    rw [if_neg (by omega)]
    dsimp only
    rw [if_neg (by rw [List.length_nil]; omega)]
    have e1 : asOffsetNumber (((0 : Nat) : Int) - (r0.dstOffset : Int)) = 0 :=
      asOffsetNumber_eq _ 0 (by omega) (by omega)
    rw [e1]
    have e2 : asOffsetNumber (min ((r0.length : Int) - ((0 : Nat) : Int)) (l : Int)) = l :=
      asOffsetNumber_eq _ l (by omega) (by omega)
    rw [e2]
    have e3 : asOffsetNumber ((r0.srcOffset : Int) + ((0 : Nat) : Int)) = 0 :=
      asOffsetNumber_eq _ 0 (by omega) (by omega)
    have e4 : asOffsetNumber ((l : Int) - (l : Int)) = 0 :=
      asOffsetNumber_eq _ 0 (by omega) (by omega)
    rw [e3, e4, makeNewRegions_zero]
    rfl
  have hcl : checkLeft t d ⟨d, 0, l⟩ [⟨d, 0, l⟩] =
      { newRegions := [⟨d, 0, l⟩], leftAdjacent := false, leftLength := d - t.dstOffset } := by
    unfold checkLeft
    dsimp only
    rw [if_neg (by omega), if_neg (by omega),
      asOffsetNumber_eq _ (d - t.dstOffset) (by omega) (by omega)]
  have hcr : checkRight pd.regions pre.length t d l false [⟨d, 0, l⟩] ⟨d, 0, l⟩ =
      .ok { newRegions := [⟨d, 0, l⟩], regions := pd.regions, rightAdjacent := true } := by
    unfold checkRight
    dsimp only
    rw [if_pos (by omega)]
  unfold memoryMovePlan
  simp only [bind, Except.bind, pure, Except.pure, hsrc, hnew, hleft, fetch_of_get hget,
    fetchNew, List.getElem?_cons_zero, hcl, hright, List.length_cons, List.length_nil,
    Nat.zero_add, Nat.sub_self, hcr, Bool.false_eq_true, not_false_eq_true, if_true, if_false]
  congr 1
  rw [hreg, List.set_append_right _ _ (Nat.le_refl _), Nat.sub_self]
  rfl

theorem reach_overflowRun : ∀ k, Reach 1 (overflowRun k) := by
  intro k
  induction k with
  | zero =>
    rw [overflowRun_zero]
    exact reach_registered
  | succ k ih =>
    rw [overflowRun_succ]
    exact Reach.memmove 1 _ _ _ 10 ih

/-- The call `GenericXLogMemmove(image + 8182, image, 10)` after the 127 calls of the run
returns, and leaves a slot without overflow whose region list tiles the page with
`MAX_REGIONS` regions, the first of which maps to offset 0 of the pre-image and the last of
which is `(8182, 0, 10)`. -/
theorem full_step (s : System) (h : RunInv 127 s) :
    (GenericXLogMemmove (imageAddr 0 + ((8182 : Nat) : Int))
      (imageAddr 0 + ((0 : Nat) : Int)) 10 s).1 = .ok () ∧
    (tailMoved s).genericXlogStatus = .GXLOG_LOGGED ∧
    ((tailMoved s).pages 0).fullImage = false ∧
    ((tailMoved s).pages 0).overflow = false ∧
    ((tailMoved s).pages 0).buffer = 7 ∧
    TileValid ((tailMoved s).pages 0).regions ∧
    ∃ (pre : List Region) (r0 : Region),
      ((tailMoved s).pages 0).regions = pre ++ [⟨8182, 0, 10⟩] ∧
      pre.length = 255 ∧ pre[0]? = some r0 ∧ r0.srcOffset = 0 ∧ 10 ≤ r0.length := by
  unfold tailMoved
  have hB : BLCKSZ = 8192 := rfl
  have hM : MAX_REGIONS = 256 := rfl
  obtain ⟨hst, hw, hbuf, hfull, hov, htile, ⟨pre, t, r0, hreg, hpre, h0, hr0s, hr0l, hts, htd⟩,
    hlow, hmoved, hothers⟩ := h
  have hplan := plan_append_tail (s.pages 0) pre t r0 8182 10 hreg htile h0 hr0s hr0l hts
    (by omega) (by omega) (by omega)
  have hb : (s.pages 0).buffer ≠ InvalidBuffer := by
    rw [hbuf]
    decide
  have hmm := memoryMove_of_plan s.world (s.pages 0) 8182 0 10 _ hov hb hplan
  have hcount : (s.pages 0).regionsCount = 255 := by
    unfold PageData.regionsCount
    rw [hreg, List.length_append, hpre]
    rfl
  have hfit : ¬ (((s.pages 0).regionsCount : Int) +
      (Splice.shift
        { regions := pre ++ [{ t with length := 8182 - t.dstOffset }]
          newRegions := [⟨8182, 0, 10⟩]
          leftIndex := (pre.length : Int) + 1
          rightIndex := (pre.length : Int) + 1 }) > (MAX_REGIONS : Int)) := by
    unfold Splice.shift
    simp only [List.length_cons, List.length_nil]
    rw [hcount]
    omega
  rw [if_neg hfit] at hmm
  have hsp : Splice.spliced
      { regions := pre ++ [{ t with length := 8182 - t.dstOffset }]
        newRegions := [⟨8182, 0, 10⟩]
        leftIndex := (pre.length : Int) + 1
        rightIndex := (pre.length : Int) + 1 }
      = (pre ++ [{ t with length := 8182 - t.dstOffset }]) ++ [⟨8182, 0, 10⟩] := by
    unfold Splice.spliced
    dsimp only
    have e1 : ((pre.length : Int) + 1).toNat = pre.length + 1 := by omega
    rw [e1]
    have e2 : (pre ++ [{ t with length := 8182 - t.dstOffset }]).length
        = pre.length + 1 := by simp
    rw [← e2, List.take_length, List.drop_length]
    simp
  rw [hsp] at hmm
  have hcall := memmove_eq s 0 8182 0 10 (by rw [hst]; decide) (by decide)
    (by omega) (by omega) (by omega)
  rw [hfull] at hcall
  simp only [Bool.false_eq_true, if_false, hmm] at hcall
  rw [hcall]
  obtain ⟨_, htl, htend⟩ := tilesFrom_last pre t 0 (by rw [← hreg]; exact htile)
  refine ⟨rfl, hst, hfull, hov, hbuf, ?_, ?_⟩
  · show tilesFrom 0 ((pre ++ [{ t with length := 8182 - t.dstOffset }])
        ++ [⟨8182, 0, 10⟩]) = true
    rw [List.append_assoc]
    refine tilesFrom_append pre [t] _ ?_ 0 (by rw [← hreg]; exact htile)
    intro p hp
    simp only [tilesFrom, Bool.and_eq_true, beq_iff_eq, decide_eq_true_eq, List.cons_append,
      List.nil_append] at hp ⊢
    omega
  · refine ⟨pre ++ [({ t with length := 8182 - t.dstOffset } : Region)], r0, rfl, ?_, ?_,
      hr0s, hr0l⟩
    · rw [List.length_append, hpre]
      rfl
    · cases pre with
      | nil => simp at hpre
      | cons c rest =>
        rw [hreg] at h0
        simp only [List.cons_append, List.getElem?_cons_zero] at h0 ⊢
        exact h0

/-- On a slot without overflow whose region list tiles the page with `MAX_REGIONS` regions,
the first mapping to offset 0 of the pre-image and the last being `(8182, 0, 10)`, the call
`GenericXLogMemmove(image + 5, image, 8183)`, with both ranges inside the image, makes
`memoryMove` write `newRegions[MAX_REGIONS]`. -/
theorem overrun_of_full (s : System) (hst : s.genericXlogStatus ≠ .GXLOG_NOT_STARTED)
    (hfull : (s.pages 0).fullImage = false) (hov : (s.pages 0).overflow = false)
    (ht : TileValid (s.pages 0).regions) (pre : List Region) (r0 : Region)
    (hreg : (s.pages 0).regions = pre ++ [⟨8182, 0, 10⟩]) (hpre : pre.length = 255)
    (h0 : pre[0]? = some r0) (hr0s : r0.srcOffset = 0) (hr0l : 10 ≤ r0.length) :
    GenericXLogMemmove (imageAddr 0 + ((5 : Nat) : Int)) (imageAddr 0 + ((0 : Nat) : Int)) 8183 s
      = (.error .undefinedBehaviour, s) := by
  have hB : BLCKSZ = 8192 := rfl
  have hM : MAX_REGIONS = 256 := rfl
  have hlen : (s.pages 0).regions.length = 256 := by
    rw [hreg, List.length_append, hpre]
    rfl
  have hget0 : (s.pages 0).regions[0]? = some r0 := by
    rw [hreg, List.getElem?_append_left (by omega)]
    exact h0
  have hgetu : (s.pages 0).regions[255]? = some ⟨8182, 0, 10⟩ := by
    rw [hreg, List.getElem?_append_right (by omega), hpre]
    rfl
  have hlastu : (s.pages 0).regions.getLast? = some ⟨8182, 0, 10⟩ := by
    rw [hreg, List.getLast?_append]
    rfl
  obtain ⟨hr0len, _, _, hr0d, _⟩ := tilesFrom_get (s.pages 0).regions 0 0 r0 ht hget0
  have hr0d0 : r0.dstOffset = 0 := hr0d rfl
  have hfind : ∀ key, key < BLCKSZ → ∀ (j : Nat) (r : Region),
      (s.pages 0).regions[j]? = some r →
      r.dstOffset ≤ key → key < r.dstOffset + r.length →
      findRegion (s.pages 0) key = .ok j := by
    intro key hkey j r hj h1 h2
    obtain ⟨j1, r1, hf, hj1, h3, h4⟩ := findRegion_tile (s.pages 0) ht key hkey
    have := tilesFrom_unique (s.pages 0).regions 0 j1 j key r1 r ht hj1 hj ⟨h3, h4⟩ ⟨h1, h2⟩
    rw [hf, this]
  have h1 : findRegion (s.pages 0) 0 = .ok 0 :=
    hfind 0 (by omega) 0 r0 hget0 (by omega) (by omega)
  have h3 : findRegion (s.pages 0) (if 5 > 0 then 5 - 1 else 0) = .ok 0 :=
    hfind _ (by decide) 0 r0 hget0 (by omega) (by
      show 4 < r0.dstOffset + r0.length
      omega)
  have h6 : findRegion (s.pages 0)
      (if 5 + 8183 < BLCKSZ then asOffsetNumber (((5 : Nat) : Int) + ((8183 : Nat) : Int))
        else BLCKSZ - 1) = .ok 255 :=
    hfind _ (by decide) 255 _ hgetu (by decide) (by decide)
  obtain ⟨nr, hmk, hnrlen, hfirst, hlast⟩ := makeNewRegions_span 5 (s.pages 0).regions 0 0 8183 []
    ht (Nat.le_refl _)
    (fun r hr => by
      rw [hget0] at hr
      rw [← Option.some.inj hr]
      omega)
    (by omega) (by omega)
    (fun r hr => by
      rw [hlastu] at hr
      rw [← Option.some.inj hr]
      decide)
    (by
      rw [hlen]
      decide)
  rw [List.nil_append] at hmk
  have h2 : makeNewRegions 5 ((s.pages 0).regions.drop 0) 0 8183 [] = .ok nr := by
    rw [List.drop_zero]
    exact hmk
  have e1 : asOffsetNumber ((r0.srcOffset : Int) + ((0 - r0.dstOffset : Nat) : Int)) = 0 :=
    asOffsetNumber_eq _ 0 (by omega) (by omega)
  have h5 : nr[0]? = some ⟨5, 0, min (r0.length - (0 - r0.dstOffset)) 8183⟩ := by
    have := hfirst r0 hget0
    rw [e1] at this
    exact this
  have e2 : asOffsetNumber ((((⟨8182, 0, 10⟩ : Region).srcOffset : Nat) : Int)
      + ((0 : Nat) : Int)) = 0 := by decide
  have h8 : nr[nr.length - 1]? = some ⟨5, 0, 0 + 8183 - 8182⟩ := by
    have := hlast _ hlastu (by omega)
    rw [e2, List.getLast?_eq_getElem?] at this
    exact this
  have hmr := memoryMoveRegions_overrun (s.pages 0) 5 0 8183 0 nr 0 255 r0 _ _ _ h1 h2 h3 hget0
    h5 (by omega) (by
      show ((0 : Nat) : Int) ≠ (r0.srcOffset : Int) + (((5 : Nat) : Int) - (r0.dstOffset : Int))
      omega)
    h6 hgetu h8 (by decide) (by decide) (by omega)
  have hcall := memmove_eq s 0 5 0 8183 hst (by decide) (by omega) (by omega) (by omega)
  rw [hcall, hfull, if_neg Bool.false_ne_true]
  unfold memoryMove
  rw [if_neg (by rw [hov]; exact Bool.false_ne_true), hmr]

theorem tailMoved_eq (s : System) :
    tailMoved s = (GenericXLogMemmove (imageAddr 0 + ((8182 : Nat) : Int))
      (imageAddr 0 + ((0 : Nat) : Int)) 10 s).2 := rfl

theorem fullRun_eq : fullRun = tailMoved (overflowRun 127) := rfl

theorem reach_fullRun : Reach 1 fullRun := by
  rw [fullRun_eq, tailMoved_eq]
  exact Reach.memmove 1 _ _ _ 10 (reach_overflowRun 127)

/-- The state `fullRun`: the call that leads to it returns, the slot holds buffer 7 without
overflow, its region list tiles the page with `MAX_REGIONS` regions, and the call
`GenericXLogMemmove(image + 5, image, 8183)` makes `memoryMove` write
`newRegions[MAX_REGIONS]`. -/
theorem overrun_fullRun :
    (GenericXLogMemmove (imageAddr 0 + ((8182 : Nat) : Int))
      (imageAddr 0 + ((0 : Nat) : Int)) 10 (overflowRun 127)).1 = .ok () ∧
    (fullRun.pages 0).fullImage = false ∧ (fullRun.pages 0).overflow = false ∧
    (fullRun.pages 0).buffer = 7 ∧ TileValid (fullRun.pages 0).regions ∧
    (fullRun.pages 0).regionsCount = MAX_REGIONS ∧
    GenericXLogMemmove (imageAddr 0 + ((5 : Nat) : Int)) (imageAddr 0 + ((0 : Nat) : Int)) 8183
      fullRun = (.error .undefinedBehaviour, fullRun) := by
  obtain ⟨hok, hst, hfull, hov, hbuf, ht, pre, r0, hreg, hpre, h0, hr0s, hr0l⟩ :=
    full_step (overflowRun 127) (runInv_all 127 (Nat.le_refl _))
  rw [fullRun_eq]
  refine ⟨hok, hfull, hov, hbuf, ht, ?_, ?_⟩
  · unfold PageData.regionsCount
    rw [hreg, List.length_append, hpre]
    rfl
  · exact overrun_of_full _ (by rw [hst]; decide) hfull hov ht pre r0 hreg hpre h0 hr0s hr0l

/-- C36: scratch array bound.  The slot `evenSlot` is tile-valid and has
`regionsCount = MAX_REGIONS`; the call `memoryMove(8, 0, 8161)` on it is in bounds with
`len ≥ 1`.  Its loop writes the `MAX_REGIONS` entries `evenNewRegions` to `newRegions`, the
block `Check left region` finds the left side not adjacent, and the block
`Check right region` then increments `newRegionsCount` to `MAX_REGIONS + 1` and writes
`newRegions[MAX_REGIONS]`, past the end of the array: the call has undefined behaviour.  The
same happens in the state `fullRun`, reached from `GenericXLogRegister(7, false)` by 128
calls of `GenericXLogMemmove` that return normally, on the in-bounds call
`GenericXLogMemmove(image + 5, image, 8183)`.  On every tile-valid slot with
`regionsCount ≤ MAX_REGIONS` the loop alone stays within the array. -/
theorem scratch_array_overrun :
    TileValid evenSlot.regions ∧ evenSlot.regionsCount = MAX_REGIONS ∧
    evenSlot.overflow = false ∧
    (1 ≤ 8161 ∧ 8 + 8161 ≤ BLCKSZ ∧ 0 + 8161 ≤ BLCKSZ) ∧
    makeNewRegions 8 evenSlot.regions 0 8161 [] = .ok evenNewRegions ∧
    evenNewRegions.length = MAX_REGIONS ∧
    evenSlot.regions[0]? = some ⟨0, 0, 32⟩ ∧ evenNewRegions[0]? = some ⟨8, 0, 32⟩ ∧
    (checkLeft ⟨0, 0, 32⟩ 8 ⟨8, 0, 32⟩ evenNewRegions).leftAdjacent = false ∧
    (checkLeft ⟨0, 0, 32⟩ 8 ⟨8, 0, 32⟩ evenNewRegions).newRegions = evenNewRegions ∧
    evenSlot.regions[255]? = some ⟨8160, 8160, 32⟩ ∧
    evenNewRegions[255]? = some ⟨8, 8160, 1⟩ ∧
    checkRight evenSlot.regions 255 ⟨8160, 8160, 32⟩ 8 8161 false evenNewRegions ⟨8, 8160, 1⟩
      = .error .undefinedBehaviour ∧
    (∀ w, memoryMove w evenSlot 8 0 8161 = .error .undefinedBehaviour) ∧
    (∀ (pd : PageData) (d s l : Nat), TileValid pd.regions →
      pd.regionsCount ≤ MAX_REGIONS → 1 ≤ l → s + l ≤ BLCKSZ →
      ∃ (srcRegion : Nat) (nr : List Region), findRegion pd s = .ok srcRegion ∧
        makeNewRegions d (pd.regions.drop srcRegion) s l [] = .ok nr ∧
        nr.length ≤ MAX_REGIONS) ∧
    Reach 1 fullRun ∧
    (GenericXLogMemmove (imageAddr 0 + ((8182 : Nat) : Int))
      (imageAddr 0 + ((0 : Nat) : Int)) 10 (overflowRun 127)).1 = .ok () ∧
    (fullRun.pages 0).fullImage = false ∧ (fullRun.pages 0).overflow = false ∧
    (fullRun.pages 0).buffer = 7 ∧ TileValid (fullRun.pages 0).regions ∧
    (fullRun.pages 0).regionsCount = MAX_REGIONS ∧
    (1 ≤ 8183 ∧ 5 + 8183 ≤ BLCKSZ ∧ 0 + 8183 ≤ BLCKSZ) ∧
    GenericXLogMemmove (imageAddr 0 + ((5 : Nat) : Int)) (imageAddr 0 + ((0 : Nat) : Int)) 8183
      fullRun = (.error .undefinedBehaviour, fullRun) := by
  have hcl := checkLeft_apart ⟨0, 0, 32⟩ 8 ⟨8, 0, 32⟩ evenNewRegions (by decide) (by decide)
  obtain ⟨g1, g2, g3, g4, g5, g6, g7⟩ := overrun_fullRun
  refine ⟨tileValid_even, evenRegions_length, rfl, by decide, makeNewRegions_evenSlot,
    evenNewRegions_length, evenRegions_get 0 (by decide), evenNewRegions_get 0 (by decide),
    by rw [hcl], by rw [hcl], evenRegions_get 255 (by decide),
    evenNewRegions_get 255 (by decide),
    checkRight_overrun _ 255 ⟨8160, 8160, 32⟩ 8 8161 evenNewRegions ⟨8, 8160, 1⟩ (by decide)
      (by decide) (by rw [evenNewRegions_length]), ?_, ?_, reach_fullRun, g1, g2, g3, g4, g5,
    g6, by decide, g7⟩
  · intro w
    unfold memoryMove
    rw [if_neg (by decide), memoryMoveRegions_even]
  · intro pd d s l ht hcount hl hs
    obtain ⟨j, nr, hf, hmk, _, hlen⟩ := makeNewRegions_in_bounds pd ht hcount d s l hl hs
    exact ⟨j, nr, hf, hmk, by omega⟩

/-! ## Moves on a region list that an earlier move has corrupted -/

/-- C11: a move on a registered slot can move no byte.  After
`GenericXLogMemmove(image + 40, image, 30)` and `GenericXLogMemmove(image, image + 55, 40)` on
the slot of buffer 7, which is not a full image and has not overflowed, the call
`GenericXLogMemmove(image, image + 30, 1)`, with both ranges inside the image, fails in
`findRegion` and leaves the state as it was: no overflow is triggered, and byte 0 of the
working image is still 15, not the 85 found at offset 30.  Whenever a call does return
without setting `overflow`, the bytes are moved as `memmove` moves them. -/
theorem memmove_can_leave_bytes_unmoved :
    Reach 1 movedTwice ∧ Registered movedTwice 0 ∧
    (movedTwice.pages 0).fullImage = false ∧ (movedTwice.pages 0).overflow = false ∧
    (1 ≤ 1 ∧ 0 + 1 ≤ BLCKSZ ∧ 30 + 1 ≤ BLCKSZ) ∧
    GenericXLogMemmove (imageAddr 0 + 0) (imageAddr 0 + 30) 1 movedTwice
      = (.error .cantFindRegion, movedTwice) ∧
    (movedTwice.pages 0).image (30 + 0) = 85 ∧
    ((GenericXLogMemmove (imageAddr 0 + 0) (imageAddr 0 + 30) 1 movedTwice).2.pages 0).image
      (0 + 0) = 15 ∧
    ((GenericXLogMemmove (imageAddr 0 + 0) (imageAddr 0 + 30) 1 movedTwice).2.pages 0).overflow
      = false ∧
    (∀ (s : System) (i dstOff srcOff len : Nat),
      s.genericXlogStatus ≠ .GXLOG_NOT_STARTED → Registered s i →
      (s.pages i).fullImage = false → 1 ≤ len →
      dstOff + len ≤ BLCKSZ → srcOff + len ≤ BLCKSZ →
      (GenericXLogMemmove (imageAddr i + dstOff) (imageAddr i + srcOff) len s).1 = .ok () →
      ((s.pages i).overflow = true ∨
        ((GenericXLogMemmove (imageAddr i + dstOff) (imageAddr i + srcOff) len s).2.pages
          i).overflow = false) →
      (∀ k, k < len →
        ((GenericXLogMemmove (imageAddr i + dstOff) (imageAddr i + srcOff) len s).2.pages
          i).image (dstOff + k) = (s.pages i).image (srcOff + k)) ∧
      (∀ k, ¬ (dstOff ≤ k ∧ k < dstOff + len) →
        ((GenericXLogMemmove (imageAddr i + dstOff) (imageAddr i + srcOff) len s).2.pages
          i).image k = (s.pages i).image k)) :=
  ⟨reach_movedTwice, ⟨by decide, by decide⟩, rfl, rfl, by decide, rfl, rfl, rfl, rfl,
    fun s i dstOff srcOff len hs hreg hfull hlen hd hsrc hok hno =>
      (memmove_moves_bytes s i dstOff srcOff len hs hreg hfull hlen hd hsrc).2 hok hno⟩

/-! ## The half-page shift on a slot that keeps the overflow flag of an earlier transaction -/

/-- A page that differs from the image at every byte of `[0, a)` and equals it from `a` on,
with more than `MATCH_THRESHOLD` equal bytes, is encoded under the identity region as a
`COPY` of the first `a` bytes and a `MOVE` of the rest. -/
theorem encode_changed_head (W P : Page) (a : Nat) (ha : 1 ≤ a)
    (hc : a + MATCH_THRESHOLD < BLCKSZ)
    (hdiff : ∀ k, k < a → W k ≠ P k)
    (hsame : ∀ k, a ≤ k → k < BLCKSZ → W k = P k) :
    encodePage W P [identityRegion] [] =
      .ok (serialize [.copy (pageBytes W 0 a), .move (BLCKSZ - a) a]) := by
  have hB : BLCKSZ = 8192 := rfl
  have hT : MATCH_THRESHOLD = 16 := rfl
  have h1 := encodeLoop_identity_mismatch W P (a - 1) 0 ⟨[], 0, 0, 0, 0⟩ rfl rfl (by omega)
    (fun k _ hk => hdiff k (by omega))
  have ea : a - 1 + 1 = a := by omega
  rw [ea, CHECK_SET_keep W identityRegion 0 _ (Nat.zero_le _), Nat.zero_add] at h1
  dsimp only at h1
  have h2 := encodeLoop_identity_match W P (BLCKSZ - a) a [] 0 a (by omega)
    (fun k hk1 hk2 => hsame k hk1 (by omega))
  have e2 : a + (BLCKSZ - a) = BLCKSZ := by omega
  rw [e2] at h2
  have hloop : encodeLoop W P [identityRegion] BLCKSZ 0 ⟨[], 0, 0, 0, 0⟩ =
      .ok ⟨[], 0, BLCKSZ, 0, a⟩ := by
    have hadd := encodeLoop_add W P [identityRegion] a (BLCKSZ - a) 0 ⟨[], 0, 0, 0, 0⟩
    rw [e2, h1] at hadd
    dsimp only at hadd
    rw [Nat.zero_add, h2] at hadd
    exact hadd
  rw [encodePage_identity_end W P _ rfl hloop,
    CHECK_SET_flush W identityRegion BLCKSZ [] 0 BLCKSZ 0 a a (Nat.le_refl _) (Nat.zero_le _)
      (by omega) (by show 0 + BLCKSZ = a + (BLCKSZ - a); omega) (by omega)]
  dsimp only
  rw [if_neg (Nat.lt_irrefl _), if_pos (by omega), Nat.sub_zero, List.nil_append,
    serialize_cons, serialize_one]

theorem reRegistered_eq (s : System) (buffer : Buffer) :
    reRegistered s buffer =
      (GenericXLogRegister buffer false (GenericXLogStart true (GenericXLogAbort s).2).2).2 :=
  rfl

theorem halfShifted_eq (s : System) :
    halfShifted s = (GenericXLogMemmove (imageAddr 0 + ((0 : Nat) : Int))
      (imageAddr 0 + ((4096 : Nat) : Int)) 4096 s).2 := rfl

/-- A transaction given up with `overflow` set on slot 0, then a new transaction and
`GenericXLogRegister(buffer, false)`: the calls succeed and leave slot 0 as a registration
leaves it, except that its overflow flag is still set. -/
theorem reRegistered_slot (s : System) (buffer : Buffer)
    (hs : s.genericXlogStatus ≠ .GXLOG_NOT_STARTED) (hb : buffer ≠ InvalidBuffer)
    (hov : (s.pages 0).overflow = true) :
    (GenericXLogAbort s).1 = .ok () ∧
    (GenericXLogStart true (GenericXLogAbort s).2).1 = .ok () ∧
    (GenericXLogRegister buffer false (GenericXLogStart true (GenericXLogAbort s).2).2).1
      = .ok (imageAddr 0) ∧
    (reRegistered s buffer).genericXlogStatus ≠ .GXLOG_NOT_STARTED ∧
    ((reRegistered s buffer).pages 0).buffer = buffer ∧
    ((reRegistered s buffer).pages 0).regions = [identityRegion] ∧
    ((reRegistered s buffer).pages 0).fullImage = false ∧
    ((reRegistered s buffer).pages 0).overflow = true ∧
    ((reRegistered s buffer).pages 0).data = [] ∧
    (∀ k, k < BLCKSZ → ((reRegistered s buffer).pages 0).image k = s.world.page buffer k) ∧
    (reRegistered s buffer).world = s.world := by
  obtain ⟨h1, h2, h3, h4, h5, h6, h7, h8, h9, h10, h11⟩ :=
    register_after_restart s buffer false true hs hb
  rw [reRegistered_eq]
  exact ⟨h1, h2, h3, h4, h5, h6, h7, h8.trans hov, h9, h10, h11⟩

/-- The half-page shift on a slot whose overflow flag is set and whose region list is the
identity region: the call returns, the bytes are moved, and the region list is left as it
is. -/
theorem halfShifted_slot (s : System) (hs : s.genericXlogStatus ≠ .GXLOG_NOT_STARTED)
    (hfull : (s.pages 0).fullImage = false) (hov : (s.pages 0).overflow = true)
    (hreg : (s.pages 0).regions = [identityRegion]) :
    (GenericXLogMemmove (imageAddr 0 + ((0 : Nat) : Int)) (imageAddr 0 + ((4096 : Nat) : Int))
      4096 s).1 = .ok () ∧
    ((halfShifted s).pages 0).regions = [identityRegion] ∧
    ((halfShifted s).pages 0).regionsCount = 1 ∧
    ((halfShifted s).pages 0).overflow = true ∧
    ((halfShifted s).pages 0).image = memcpy (s.pages 0).image 0 (s.pages 0).image 4096 4096 ∧
    ((halfShifted s).pages 0).buffer = (s.pages 0).buffer ∧
    ((halfShifted s).pages 0).fullImage = false ∧
    ((halfShifted s).pages 0).data = (s.pages 0).data ∧
    (halfShifted s).world = s.world := by
  have hmm : memoryMove s.world (s.pages 0) 0 4096 4096 = .ok (s.pages 0) := by
    unfold memoryMove
    rw [if_pos hov]
  have heq := memmove_eq s 0 0 4096 4096 hs (by decide) (by decide) (by decide) (by decide)
  rw [hfull, if_neg Bool.false_ne_true, hmm] at heq
  dsimp only at heq
  rw [halfShifted_eq, heq]
  refine ⟨rfl, ?_, ?_, ?_, ?_, ?_, ?_, ?_, rfl⟩
  · simp [setPage, movedImage, hreg]
  · simp [setPage, movedImage, PageData.regionsCount, hreg]
  · simp [setPage, movedImage, hov]
  · simp [setPage, movedImage]
  · simp [setPage, movedImage]
  · simp [setPage, movedImage, hfull]
  · simp [setPage, movedImage]

/-- The record that the first loop of the logged `GenericXLogFinish` writes after the
half-page shift on a slot that a registration has left with the overflow flag set: the
region list is still the identity region, so the record is that of a byte-by-byte comparison
of the shifted image with the page `P` of the buffer.  It is `COPY` of the first half and
`MOVE(4096, source = 4096)` when the two halves of `P` differ at every byte, and
`MOVE(BLCKSZ, source = 0)` when they are equal. -/
theorem halfShifted_record (s : System) (hb : (s.pages 0).buffer ≠ InvalidBuffer)
    (hs : s.genericXlogStatus ≠ .GXLOG_NOT_STARTED)
    (hfull : (s.pages 0).fullImage = false) (hov : (s.pages 0).overflow = true)
    (hreg : (s.pages 0).regions = [identityRegion]) (hdata : (s.pages 0).data = [])
    (himg : ∀ k, k < BLCKSZ → (s.pages 0).image k = s.world.page (s.pages 0).buffer k) :
    ((∀ k, k < 4096 → s.world.page (s.pages 0).buffer (4096 + k)
        ≠ s.world.page (s.pages 0).buffer k) →
      ∃ s2, finishLoggedSlot 0 (halfShifted s) = .ok s2 ∧
        (s2.pages 0).data = serialize
          [.copy (pageBytes (fun k => s.world.page (s.pages 0).buffer (4096 + k)) 0 4096),
            .move 4096 4096]) ∧
    ((∀ k, k < 4096 → s.world.page (s.pages 0).buffer (4096 + k)
        = s.world.page (s.pages 0).buffer k) →
      ∃ s2, finishLoggedSlot 0 (halfShifted s) = .ok s2 ∧
        (s2.pages 0).data = serialize [.move BLCKSZ 0]) := by
  have hB : BLCKSZ = 8192 := rfl
  have hT : MATCH_THRESHOLD = 16 := rfl
  obtain ⟨_, g2, _, _, g5, g6, g7, g8, g9⟩ := halfShifted_slot s hs hfull hov hreg
  have hW : ∀ k, k < BLCKSZ →
      memcpy ((halfShifted s).world.page ((halfShifted s).pages 0).buffer) 0
        (memcpy (fun _ => 0) 0 ((halfShifted s).pages 0).image 0 BLCKSZ) 0 BLCKSZ k
      = if k < 4096 then s.world.page (s.pages 0).buffer (4096 + k)
        else s.world.page (s.pages 0).buffer k := by
    intro k hk
    rw [swapped_page _ _ k hk, g5]
    unfold memcpy
    by_cases hk1 : k < 4096
    · rw [if_pos ⟨Nat.zero_le _, by omega⟩, if_pos hk1, Nat.sub_zero]
      exact himg (4096 + k) (by omega)
    · rw [if_neg (by omega), if_neg hk1]
      exact himg k hk
  have hP : ∀ k, k < BLCKSZ →
      memcpy ((halfShifted s).pages 0).image 0
        ((halfShifted s).world.page ((halfShifted s).pages 0).buffer) 0 BLCKSZ k
      = s.world.page (s.pages 0).buffer k := by
    intro k hk
    rw [swapped_image _ _ k hk, g9, g6]
  have hfin : ∀ d, encodePage
      (memcpy ((halfShifted s).world.page ((halfShifted s).pages 0).buffer) 0
        (memcpy (fun _ => 0) 0 ((halfShifted s).pages 0).image 0 BLCKSZ) 0 BLCKSZ)
      (memcpy ((halfShifted s).pages 0).image 0
        ((halfShifted s).world.page ((halfShifted s).pages 0).buffer) 0 BLCKSZ)
      [identityRegion] [] = .ok d →
      ∃ s2, finishLoggedSlot 0 (halfShifted s) = .ok s2 ∧ (s2.pages 0).data = d := by
    intro d hd
    obtain ⟨s2, hs2, hpages, _⟩ := finishLoggedSlot_diff 0 (halfShifted s) d
      (by rw [g6]; exact hb) g7 (by rw [g2, g8, hdata]; exact hd)
    exact ⟨s2, hs2, by rw [hpages]⟩
  constructor
  · intro hdiff
    have henc := encode_changed_head
      (memcpy ((halfShifted s).world.page ((halfShifted s).pages 0).buffer) 0
        (memcpy (fun _ => 0) 0 ((halfShifted s).pages 0).image 0 BLCKSZ) 0 BLCKSZ)
      (memcpy ((halfShifted s).pages 0).image 0
        ((halfShifted s).world.page ((halfShifted s).pages 0).buffer) 0 BLCKSZ)
      4096 (by decide) (by decide)
      (fun k hk => by
        rw [hW k (by omega), hP k (by omega), if_pos hk]
        exact hdiff k hk)
      (fun k hk1 hk2 => by
        rw [hW k hk2, hP k hk2, if_neg (by omega)])
    have hbytes : pageBytes
        (memcpy ((halfShifted s).world.page ((halfShifted s).pages 0).buffer) 0
          (memcpy (fun _ => 0) 0 ((halfShifted s).pages 0).image 0 BLCKSZ) 0 BLCKSZ) 0 4096
        = pageBytes (fun k => s.world.page (s.pages 0).buffer (4096 + k)) 0 4096 := by
      unfold pageBytes
      apply List.map_congr_left
      intro k hk
      rw [List.mem_range] at hk
      rw [Nat.zero_add, hW k (by omega), if_pos hk]
    rw [hbytes] at henc
    exact hfin _ henc
  · intro hsame
    have henc := encode_unchanged
      (memcpy ((halfShifted s).world.page ((halfShifted s).pages 0).buffer) 0
        (memcpy (fun _ => 0) 0 ((halfShifted s).pages 0).image 0 BLCKSZ) 0 BLCKSZ)
      (memcpy ((halfShifted s).pages 0).image 0
        ((halfShifted s).world.page ((halfShifted s).pages 0).buffer) 0 BLCKSZ)
      (fun k hk => by
      rw [hW k hk, hP k hk]
      by_cases hk1 : k < 4096
      · rw [if_pos hk1]
        exact hsame k hk1
      · rw [if_neg hk1])
    exact hfin _ henc

theorem reach_reRegistered (s : System) (buffer : Buffer)
    (hs : s.genericXlogStatus ≠ .GXLOG_NOT_STARTED) (hb : buffer ≠ InvalidBuffer) :
    Reach 1 (reRegistered s buffer) := by
  have hab : GenericXLogAbort s = (.ok (), { s with genericXlogStatus := .GXLOG_NOT_STARTED }) := by
    unfold GenericXLogAbort
    rw [if_neg hs]
  have hst : (GenericXLogAbort s).2.genericXlogStatus = .GXLOG_NOT_STARTED := by
    rw [hab]
  rw [reRegistered_eq]
  exact Reach.register 0 _ buffer false (imageAddr 0)
    (Reach.start true (GenericXLogAbort s).2 hst)
    (register_after_restart s buffer false true hs hb).2.2.1

/-- The half-page shift in the transaction that follows one given up with `overflow` set on
slot 0, when the buffer manager is `sampleWorld`, in which the two halves of the page of
buffer 7 are equal: the region list stays the identity region and the record is one
`MOVE`. -/
theorem halfShifted_sample (s : System) (hs : s.genericXlogStatus ≠ .GXLOG_NOT_STARTED)
    (hw : s.world = sampleWorld) (hov : (s.pages 0).overflow = true) :
    ((reRegistered s 7).pages 0).regions = [identityRegion] ∧
    ((reRegistered s 7).pages 0).overflow = true ∧
    (GenericXLogMemmove (imageAddr 0 + ((0 : Nat) : Int)) (imageAddr 0 + ((4096 : Nat) : Int))
      4096 (reRegistered s 7)).1 = .ok () ∧
    ((halfShifted (reRegistered s 7)).pages 0).regions = [identityRegion] ∧
    ((halfShifted (reRegistered s 7)).pages 0).regionsCount = 1 ∧
    ∃ s2, finishLoggedSlot 0 (halfShifted (reRegistered s 7)) = .ok s2 ∧
      (s2.pages 0).data = serialize [.move BLCKSZ 0] ∧ (s2.pages 0).dataLen = 4 := by
  have hb7 : (7 : Buffer) ≠ InvalidBuffer := by decide
  obtain ⟨_, _, _, h4, h5, h6, h7, h8, h9, h10, h11⟩ := reRegistered_slot s 7 hs hb7 hov
  obtain ⟨g1, g2, g3, _⟩ := halfShifted_slot (reRegistered s 7) h4 h7 h8 h6
  have hpage : (reRegistered s 7).world.page ((reRegistered s 7).pages 0).buffer
      = samplePage := by
    rw [h11, h5, hw]
    rfl
  obtain ⟨s2, hs2, hd⟩ := (halfShifted_record (reRegistered s 7) (by rw [h5]; exact hb7) h4 h7
    h8 h6 h9 (fun k hk => by rw [h10 k hk, h11, h5])).2 (fun k _ => by
      rw [hpage]
      show (4096 + k) % 256 = k % 256
      omega)
  refine ⟨h6, h8, g1, g2, g3, s2, hs2, hd, ?_⟩
  show (s2.pages 0).data.length = 4
  rw [hd]
  rfl

/-- C28: the half-page shift on a registered slot that keeps the overflow flag of an earlier
transaction.  `GenericXLogRegister` does not clear `overflow`, so after a transaction given
up with the flag set, `GenericXLogStart` and `GenericXLogRegister(buf, false)`, the call
`GenericXLogMemmove(image, image + BLCKSZ/2, BLCKSZ/2)` returns and moves the bytes, but
`memoryMove` returns at its first test: the region list is still the identity region, not
`(0, 4096, 4096) (4096, 4096, 4096)`, and the first loop of the logged `GenericXLogFinish`
writes a `COPY` of the 4096 bytes now in the first half and `MOVE(4096, source = 4096)` when
the two halves of the page differ at every byte.  After the run of 128 moves on the page of
buffer 7, whose two halves are equal, the record is the single `MOVE(BLCKSZ, source = 0)`. -/
theorem half_page_shift_after_overflow :
    (∀ (s : System) (buffer : Buffer),
      s.genericXlogStatus ≠ .GXLOG_NOT_STARTED → buffer ≠ InvalidBuffer →
      (s.pages 0).overflow = true →
      (GenericXLogRegister buffer false (GenericXLogStart true (GenericXLogAbort s).2).2).1
        = .ok (imageAddr 0) ∧
      Reach 1 (reRegistered s buffer) ∧
      ((reRegistered s buffer).pages 0).buffer = buffer ∧
      ((reRegistered s buffer).pages 0).regions = [identityRegion] ∧
      ((reRegistered s buffer).pages 0).fullImage = false ∧
      ((reRegistered s buffer).pages 0).data = [] ∧
      (∀ k, k < BLCKSZ → ((reRegistered s buffer).pages 0).image k = s.world.page buffer k) ∧
      ((reRegistered s buffer).pages 0).overflow = true ∧
      (GenericXLogMemmove (imageAddr 0 + ((0 : Nat) : Int))
        (imageAddr 0 + ((4096 : Nat) : Int)) 4096 (reRegistered s buffer)).1 = .ok () ∧
      ((halfShifted (reRegistered s buffer)).pages 0).regions = [identityRegion] ∧
      ((halfShifted (reRegistered s buffer)).pages 0).regionsCount = 1 ∧
      ((∀ k, k < 4096 → s.world.page buffer (4096 + k) ≠ s.world.page buffer k) →
        ∃ s2, finishLoggedSlot 0 (halfShifted (reRegistered s buffer)) = .ok s2 ∧
          (s2.pages 0).data = serialize
            [.copy (pageBytes (fun k => s.world.page buffer (4096 + k)) 0 4096),
              .move 4096 4096])) ∧
    BLCKSZ / 2 = 4096 ∧
    Reach 1 (overflowRun 128) ∧ ((overflowRun 128).pages 0).overflow = true ∧
    Reach 1 (reRegistered (overflowRun 128) 7) ∧
    (GenericXLogMemmove (imageAddr 0 + ((0 : Nat) : Int)) (imageAddr 0 + ((4096 : Nat) : Int))
      4096 (reRegistered (overflowRun 128) 7)).1 = .ok () ∧
    ((halfShifted (reRegistered (overflowRun 128) 7)).pages 0).regions = [identityRegion] ∧
    [identityRegion] ≠ [(⟨0, 4096, 4096⟩ : Region), ⟨4096, 4096, 4096⟩] ∧
    (∃ s2, finishLoggedSlot 0 (halfShifted (reRegistered (overflowRun 128) 7)) = .ok s2 ∧
      (s2.pages 0).data = serialize [.move BLCKSZ 0] ∧ (s2.pages 0).dataLen = 4) ∧
    serialize [.move BLCKSZ 0] ≠ serialize [.move 4096 4096, .move 4096 4096] := by
  have hst : (overflowRun 128).genericXlogStatus ≠ .GXLOG_NOT_STARTED := by
    rw [overflowRun_overflowed.status]
    decide
  obtain ⟨_, _, i3, i4, _, i6⟩ := halfShifted_sample (overflowRun 128) hst
    overflowRun_overflowed.world overflowRun_overflowed.overflow
  refine ⟨?_, rfl, reach_overflowRun 128, overflowRun_overflowed.overflow,
    reach_reRegistered (overflowRun 128) 7 hst (by decide), i3, i4, by decide, i6, by decide⟩
  intro s buffer hs hb hov
  obtain ⟨_, _, h3, h4, h5, h6, h7, h8, h9, h10, h11⟩ := reRegistered_slot s buffer hs hb hov
  obtain ⟨g1, g2, g3, _⟩ := halfShifted_slot (reRegistered s buffer) h4 h7 h8 h6
  refine ⟨h3, reach_reRegistered s buffer hs hb, h5, h6, h7, h9, h10, h8, g1, g2, g3, ?_⟩
  intro hdiff
  have hrec := (halfShifted_record (reRegistered s buffer) (by rw [h5]; exact hb) h4 h7 h8 h6 h9
    (fun k hk => by rw [h10 k hk, h11, h5])).1
  rw [h11, h5] at hrec
  exact hrec hdiff

/-! ## `applyPageRedo` on records that are not well-formed -/

/-- An instruction whose range passes the end of the page, or a `MOVE` whose source range
does: the loop of `applyPageRedo` goes outside the page or the pre-image copy. -/
theorem applyLoop_bad (image page : Page) (fuel off : Nat) (x : Instr) (rest : List Nat)
    (hlen : x.length < 32768) (hbad : off + x.length > BLCKSZ ∨ ¬ x.sourceInPage) :
    applyLoop image (fuel + 1) (x.bytes ++ rest) page off = .error .undefinedBehaviour := by
  cases x with
  | copy bytes =>
    have hl : (Instr.copy bytes).length = bytes.length := rfl
    rw [hl] at hlen hbad
    have hoff : off + bytes.length > BLCKSZ := by
      rcases hbad with h | h
      · exact h
      · exact absurd trivial h
    show applyLoop image (fuel + 1)
      (bytes.length % 256 :: bytes.length / 256 :: (bytes ++ rest)) page off = _
    rw [applyLoop]
    have h1 : bytes.length % 256 + 256 * (bytes.length / 256) = bytes.length :=
      Nat.mod_add_div bytes.length 256
    simp only [copy_header_flag bytes.length hlen, ne_eq, not_true_eq_false, if_false]
    rw [h1, if_pos (Or.inr hoff)]
  | move len source =>
    have hl : (Instr.move len source).length = len := rfl
    rw [hl] at hlen hbad
    have hor : off + len > BLCKSZ ∨ source + len > BLCKSZ := by
      rcases hbad with h | h
      · exact Or.inl h
      · exact Or.inr (Nat.lt_of_not_le h)
    show applyLoop image (fuel + 1)
      ((len ||| MOVE_FLAG) % 256 :: (len ||| MOVE_FLAG) / 256 :: source % 256 :: source / 256
        :: rest) page off = _
    rw [applyLoop]
    have h2 : source % 256 + 256 * (source / 256) = source := Nat.mod_add_div source 256
    simp only [move_header_flag len hlen, ne_eq, not_false_eq_true, if_true,
      move_header_length len hlen]
    rw [h2, if_pos hor]

/-- A record that ends inside an instruction: the loop of `applyPageRedo` reads past the end
of the record. -/
theorem applyLoop_truncated (image page : Page) (fuel off : Nat) (x : Instr) (t : Nat)
    (hlen : x.length < 32768) (ht0 : 0 < t) (ht : t < x.bytes.length) :
    applyLoop image (fuel + 1) (x.bytes.take t) page off = .error .undefinedBehaviour := by
  cases x with
  | copy bytes =>
    have hl : (Instr.copy bytes).length = bytes.length := rfl
    rw [hl] at hlen
    rw [copy_bytes_length] at ht
    obtain ⟨t1, ht1⟩ : ∃ t1, t = t1 + 1 := ⟨t - 1, by omega⟩
    subst ht1
    cases t1 with
    | zero => rfl
    | succ t2 =>
      show applyLoop image (fuel + 1)
        (bytes.length % 256 :: bytes.length / 256 :: bytes.take t2) page off = _
      rw [applyLoop]
      have h1 : bytes.length % 256 + 256 * (bytes.length / 256) = bytes.length :=
        Nat.mod_add_div bytes.length 256
      simp only [copy_header_flag bytes.length hlen, ne_eq, not_true_eq_false, if_false]
      rw [h1, if_pos (Or.inl (by rw [List.length_take]; omega))]
  | move len source =>
    have hl : (Instr.move len source).length = len := rfl
    rw [hl] at hlen
    rw [move_bytes_length] at ht
    have hcases : t = 1 ∨ t = 2 ∨ t = 3 := by omega
    rcases hcases with h | h | h
    · subst h
      rfl
    · subst h
      show applyLoop image (fuel + 1)
        [(len ||| MOVE_FLAG) % 256, (len ||| MOVE_FLAG) / 256] page off = _
      rw [applyLoop]
      simp only [move_header_flag len hlen, ne_eq, not_false_eq_true, if_true]
    · subst h
      show applyLoop image (fuel + 1)
        [(len ||| MOVE_FLAG) % 256, (len ||| MOVE_FLAG) / 256, source % 256] page off = _
      rw [applyLoop]
      simp only [move_header_flag len hlen, ne_eq, not_false_eq_true, if_true]

/-- The function `applyPageRedo` on a well-formed stream followed by more bytes: the loop
reads the stream as the reference semantics says and goes on with the bytes that follow. -/
theorem applyPageRedo_prefix (page image : Page) (instrs : List Instr) (tail : List Nat)
    (hwf : WellFormedStream instrs) (hne : tail ≠ []) :
    ∃ fuel, applyPageRedo page image (serialize instrs ++ tail) =
      applyLoop image (fuel + 1) tail (decodeReference image instrs page 0)
        (0 + (instrs.map Instr.length).sum) := by
  have hge := serialize_length_ge instrs
  have htail : 1 ≤ tail.length := by
    cases tail with
    | nil => exact absurd rfl hne
    | cons a tl => simp
  refine ⟨(serialize instrs ++ tail).length - instrs.length - 1, ?_⟩
  have e : (serialize instrs ++ tail).length =
      ((serialize instrs ++ tail).length - instrs.length - 1 + 1) + instrs.length := by
    rw [List.length_append]
    omega
  unfold applyPageRedo
  rw [← applyLoop_serialize image instrs page 0 _ tail (by rw [Nat.zero_add]; exact hwf.1)
    hwf.2, ← e]

/-- C21, as the code has it: `applyPageRedo` validates nothing and reports nothing.  On every
well-formed stream (length fields summing to at most `BLCKSZ`, every `MOVE` source range
inside the page) it returns the page of the reference semantics, and a stream whose length
fields sum to at most `BLCKSZ` on which it returns is well-formed.  Whenever it returns no
page, that is by an access outside the page, the pre-image copy or the record; so it is after
a well-formed stream for an instruction whose range passes `BLCKSZ`, for a `MOVE` whose
source range passes `BLCKSZ`, and for a record that ends inside an instruction. -/
theorem redo_trusts_the_record (page image : Page) :
    (∀ instrs : List Instr, WellFormedStream instrs →
      applyPageRedo page image (serialize instrs) = .ok (decodeReference image instrs page 0)) ∧
    (∀ (instrs : List Instr) (result : Page), (instrs.map Instr.length).sum ≤ BLCKSZ →
      applyPageRedo page image (serialize instrs) = .ok result → WellFormedStream instrs) ∧
    (∀ (data : List Nat) (e : GxError),
      applyPageRedo page image data = .error e → e = .undefinedBehaviour) ∧
    (∀ (instrs : List Instr) (x : Instr) (rest : List Instr), WellFormedStream instrs →
      x.length < 32768 →
      ((instrs.map Instr.length).sum + x.length > BLCKSZ ∨ ¬ x.sourceInPage) →
      applyPageRedo page image (serialize (instrs ++ x :: rest))
        = .error .undefinedBehaviour) ∧
    (∀ (instrs : List Instr) (x : Instr) (t : Nat), WellFormedStream instrs →
      x.length < 32768 → 0 < t → t < x.bytes.length →
      applyPageRedo page image (serialize instrs ++ x.bytes.take t)
        = .error .undefinedBehaviour) := by
  refine ⟨fun instrs hwf => applyPageRedo_serialize page image instrs hwf,
    fun instrs result hsum h => (applyPageRedo_ok page image instrs hsum result h).1,
    fun data e h => applyLoop_error image data.length data page 0 e h, ?_, ?_⟩
  · intro instrs x rest hwf hlen hbad
    have hne : x.bytes ++ serialize rest ≠ [] := by
      cases x with
      | copy bytes => exact fun hc => List.noConfusion hc
      | move len source => exact fun hc => List.noConfusion hc
    obtain ⟨fuel, hf⟩ := applyPageRedo_prefix page image instrs (x.bytes ++ serialize rest)
      hwf hne
    rw [serialize_append, serialize_cons, hf]
    exact applyLoop_bad image _ fuel _ x (serialize rest) hlen (by
      rw [Nat.zero_add]
      exact hbad)
  · intro instrs x t hwf hlen ht0 ht
    have hne : x.bytes.take t ≠ [] := by
      intro hc
      have := congrArg List.length hc
      rw [List.length_take, List.length_nil] at this
      omega
    obtain ⟨fuel, hf⟩ := applyPageRedo_prefix page image instrs (x.bytes.take t) hwf hne
    rw [hf]
    exact applyLoop_truncated image _ fuel _ x t hlen ht0 ht

/-! ## `GenericXLogFinish` when `writeDifferentialData` reads outside its arrays -/

theorem fetchAny_of_get (m : StrayReads) (st : EncState) {l : List Region} {i : Nat}
    {r : Region} (h : l[i]? = some r) : fetchAny m st l i = r := by
  unfold fetchAny
  rw [h]

theorem imageAny_inside (m : StrayReads) (st : EncState) (image : Page) (k : Nat)
    (h : k < BLCKSZ) : imageAny m st image k = image k := by
  unfold imageAny
  rw [if_pos h]

/-- Where an iteration of the encoder loop stays inside its arrays, the iteration with
unchecked reads is the same. -/
theorem encodeStepAny_of_ok (m : StrayReads) (W P : Page) (regions : List Region) (i : Nat)
    (st st1 : EncState) (h : encodeStep W P regions i st = .ok st1) :
    encodeStepAny m W P regions i st = st1 := by
  unfold encodeStep at h
  unfold encodeStepAny
  cases hf : fetch regions st.region with
  | error e =>
    rw [hf] at h
    cases h
  | ok region =>
    rw [hf] at h
    simp only [bind, Except.bind, pure, Except.pure] at h
    rw [fetchAny_of_get m st (fetch_ok hf)]
    dsimp only
    by_cases hge : st.regionOffset ≥ region.length
    · rw [if_pos hge] at h
      rw [if_pos hge]
      cases hf1 : fetch regions (st.region + 1) with
      | error e =>
        rw [hf1] at h
        cases h
      | ok region1 =>
        rw [hf1] at h
        dsimp only at h
        rw [fetchAny_of_get m _ (fetch_ok hf1)]
        by_cases hub : region1.srcOffset + 0 ≥ BLCKSZ
        · rw [if_pos hub] at h
          cases h
        · rw [if_neg hub] at h
          rw [imageAny_inside m _ P _ (Nat.lt_of_not_le hub)]
          exact Except.ok.inj h
    · rw [if_neg hge] at h
      rw [if_neg hge]
      rw [hf] at h
      dsimp only at h
      rw [fetchAny_of_get m st (fetch_ok hf)]
      by_cases hub : region.srcOffset + st.regionOffset ≥ BLCKSZ
      · rw [if_pos hub] at h
        cases h
      · rw [if_neg hub] at h
        rw [imageAny_inside m _ P _ (Nat.lt_of_not_le hub)]
        exact Except.ok.inj h

theorem encodeLoopAny_of_ok (m : StrayReads) (W P : Page) (regions : List Region) :
    ∀ (n i : Nat) (st st1 : EncState), encodeLoop W P regions n i st = .ok st1 →
      encodeLoopAny m W P regions n i st = st1 := by
  intro n
  induction n with
  | zero =>
    intro i st st1 h
    exact Except.ok.inj h
  | succ n ih =>
    intro i st st1 h
    rw [encodeLoop_succ] at h
    cases hs : encodeStep W P regions i st with
    | error e =>
      rw [hs] at h
      cases h
    | ok st2 =>
      rw [hs] at h
      show encodeLoopAny m W P regions n (i + 1) (encodeStepAny m W P regions i st) = st1
      rw [encodeStepAny_of_ok m W P regions i st st2 hs]
      exact ih (i + 1) st2 st1 h

/-- Where `writeDifferentialData` stays inside its arrays, the encoder with unchecked reads
returns the same record. -/
theorem encodePageAny_of_ok (m : StrayReads) (W P : Page) (regions : List Region)
    (data d : List Nat) (h : encodePage W P regions data = .ok d) :
    encodePageAny m W P regions data = d := by
  unfold encodePage at h
  unfold encodePageAny
  simp only [bind, Except.bind, pure, Except.pure] at h
  cases hl : encodeLoop W P regions BLCKSZ 0 ⟨data, 0, 0, 0, 0⟩ with
  | error e =>
    rw [hl] at h
    cases h
  | ok st =>
    rw [hl] at h
    dsimp only at h ⊢
    rw [encodeLoopAny_of_ok m W P regions BLCKSZ 0 _ st hl]
    cases hf : fetch regions st.region with
    | error e =>
      rw [hf] at h
      cases h
    | ok region =>
      rw [hf] at h
      dsimp only at h
      rw [fetchAny_of_get m st (fetch_ok hf)]
      split at h
      · rename_i hlt
        rw [if_pos hlt]
        exact Except.ok.inj h
      · rename_i hlt
        rw [if_neg hlt]
        exact Except.ok.inj h

theorem writeDifferentialDataAny_of_ok (m : StrayReads) (w : World) (pd pd1 : PageData)
    (h : writeDifferentialData w pd = .ok pd1) : writeDifferentialDataAny m w pd = .ok pd1 := by
  unfold writeDifferentialData at h
  unfold writeDifferentialDataAny
  simp only [bind, Except.bind, pure, Except.pure] at h ⊢
  cases hp : BufferGetPage w pd.buffer with
  | error e =>
    rw [hp] at h
    cases h
  | ok page =>
    rw [hp] at h
    dsimp only at h ⊢
    cases he : encodePage page pd.image pd.regions pd.data with
    | error e =>
      rw [he] at h
      cases h
    | ok d =>
      rw [he] at h
      dsimp only at h
      rw [encodePageAny_of_ok m page pd.image pd.regions pd.data d he]
      exact h

theorem finishLoggedSlotAny_of_ok (m : StrayReads) (i : Nat) (s s1 : System)
    (h : finishLoggedSlot i s = .ok s1) : finishLoggedSlotAny m i s = .ok s1 := by
  unfold finishLoggedSlot at h
  unfold finishLoggedSlotAny
  by_cases hv : BufferIsInvalid (s.pages i).buffer = true
  · rw [if_pos hv] at h ⊢
    exact h
  · rw [if_neg hv] at h ⊢
    simp only [bind, Except.bind] at h ⊢
    cases hp : BufferGetPage s.world (s.pages i).buffer with
    | error e =>
      rw [hp] at h
      cases h
    | ok page =>
      rw [hp] at h
      dsimp only at h ⊢
      by_cases hfull : (s.pages i).fullImage = true
      · rw [if_pos hfull] at h ⊢
        exact h
      · rw [if_neg hfull] at h ⊢
        cases hw : writeDifferentialData
            (XLogRegisterBuffer
              { s.world with
                page := setBufferPage s.world.page (s.pages i).buffer
                  (memcpy page 0 (memcpy (fun _ => 0) 0 (s.pages i).image 0 BLCKSZ) 0 BLCKSZ) }
              i (s.pages i).buffer false)
            { s.pages i with image := memcpy (s.pages i).image 0 page 0 BLCKSZ } with
        | error e =>
          rw [hw] at h
          cases h
        | ok pd2 =>
          rw [hw] at h
          rw [writeDifferentialDataAny_of_ok m _ _ pd2 hw]
          exact h

theorem forSlotsM_of_ok (body body1 : Nat → System → Except GxError System)
    (hb : ∀ i s s1, body i s = .ok s1 → body1 i s = .ok s1) :
    ∀ (n i : Nat) (s s1 : System), forSlotsM body n i s = .ok s1 →
      forSlotsM body1 n i s = .ok s1 := by
  intro n
  induction n with
  | zero =>
    intro i s s1 h
    exact h
  | succ n ih =>
    intro i s s1 h
    cases hs : body i s with
    | error e =>
      simp only [forSlotsM, hs] at h
      cases h
    | ok s2 =>
      simp only [forSlotsM, hs] at h
      simp only [forSlotsM, hb i s s2 hs]
      exact ih (i + 1) s2 s1 h

/-- The body of the first logged loop with unchecked reads returns on every slot, swaps the
image of the slot into the page of its buffer, and keeps the rest. -/
theorem finishLoggedSlotAny_spec (m : StrayReads) (i : Nat) (s : System) :
    ∃ s1, finishLoggedSlotAny m i s = .ok s1 ∧ LoggedStep i s s1 := by
  unfold finishLoggedSlotAny
  by_cases hv : (s.pages i).buffer = InvalidBuffer
  · rw [bufferIsInvalid_true hv, if_pos rfl]
    exact ⟨s, rfl, ⟨rfl, fun _ => rfl, fun _ _ => rfl, rfl, rfl, fun _ _ => rfl,
      fun h => absurd hv h⟩⟩
  · rw [bufferIsInvalid_false hv, if_neg Bool.false_ne_true]
    simp only [BufferGetPage, bufferIsInvalid_false hv, Bool.false_eq_true, if_false, bind,
      Except.bind]
    by_cases hfull : (s.pages i).fullImage = true
    · rw [if_pos hfull]
      refine ⟨_, rfl, ⟨rfl, ?_, ?_, rfl, rfl, ?_, ?_⟩⟩
      · intro j
        simp only [setPage]
        split
        · rename_i hji
          rw [hji]
        · rfl
      · intro j hj
        simp only [setPage, if_neg hj]
      · intro b hb
        have hne : b ≠ (s.pages i).buffer := by
          rcases hb with hb | hb
          · exact absurd hb hv
          · exact fun hc => hb hc.symm
        simp [XLogRegisterBuffer, setBufferPage, hne]
      · intro _ k hk
        simp [XLogRegisterBuffer, setBufferPage, memcpy, hk]
    · rw [if_neg hfull]
      simp only [writeDifferentialDataAny, BufferGetPage, bufferIsInvalid_false hv,
        Bool.false_eq_true, if_false, bind, Except.bind, pure, Except.pure]
      refine ⟨_, rfl, ⟨rfl, ?_, ?_, rfl, rfl, ?_, ?_⟩⟩
      · intro j
        simp only [setPage]
        split
        · rename_i hji
          rw [hji]
        · rfl
      · intro j hj
        simp only [setPage, if_neg hj]
      · intro b hb
        have hne : b ≠ (s.pages i).buffer := by
          rcases hb with hb | hb
          · exact absurd hb hv
          · exact fun hc => hb hc.symm
        simp [XLogRegisterBufData, XLogRegisterBuffer, setBufferPage, hne]
      · intro _ k hk
        simp [XLogRegisterBufData, XLogRegisterBuffer, setBufferPage, memcpy, hk]

/-- The first logged loop with unchecked reads over the slots `i, ..., i + n - 1` returns; it
puts the working image of each registered slot into the page of its buffer. -/
theorem forSlotsM_loggedAny (m : StrayReads) (n : Nat) :
    ∀ (i : Nat) (s : System),
      ∃ s1, forSlotsM (finishLoggedSlotAny m) n i s = .ok s1 ∧
        s1.genericXlogStatus = s.genericXlogStatus ∧
        (∀ j, (s1.pages j).buffer = (s.pages j).buffer) ∧
        s1.world.wal = s.world.wal ∧
        s1.world.dirty = s.world.dirty ∧
        (∀ b, (∀ j, i ≤ j → j < i + n → (s.pages j).buffer ≠ InvalidBuffer →
            (s.pages j).buffer ≠ b) → s1.world.page b = s.world.page b) ∧
        (∀ j, i ≤ j → j < i + n → (s.pages j).buffer ≠ InvalidBuffer →
          (∀ m, j < m → m < i + n → (s.pages m).buffer ≠ InvalidBuffer →
            (s.pages m).buffer ≠ (s.pages j).buffer) →
          ∀ k, k < BLCKSZ → s1.world.page (s.pages j).buffer k = (s.pages j).image k) := by
  induction n with
  | zero =>
    intro i s
    refine ⟨s, rfl, rfl, fun _ => rfl, rfl, rfl, fun _ _ => rfl, ?_⟩
    intro j h1 h2
    omega
  | succ n ih =>
    intro i s
    obtain ⟨s1, hs1, st⟩ := finishLoggedSlotAny_spec m i s
    obtain ⟨s2, hs2, g1, g2, g3, g4, g5, g6⟩ := ih (i + 1) s1
    refine ⟨s2, ?_, g1.trans st.status, fun j => (g2 j).trans (st.buffer j),
      g3.trans st.wal, g4.trans st.dirty, ?_, ?_⟩
    · simp only [forSlotsM, hs1]
      exact hs2
    · intro b hb
      have h1 := g5 b (fun j hj1 hj2 hjv => by
        rw [st.buffer j] at hjv ⊢
        exact hb j (by omega) (by omega) hjv)
      have h2 := st.frame b (by
        by_cases hv : (s.pages i).buffer = InvalidBuffer
        · exact Or.inl hv
        · exact Or.inr (hb i (le_refl _) (by omega) hv))
      exact h1.trans h2
    · intro j hj1 hj2 hv hlater k hk
      by_cases hji : j = i
      · subst hji
        have h1 := g5 (s.pages j).buffer (fun m hm1 hm2 hmv => by
          rw [st.buffer m] at hmv ⊢
          exact hlater m (by omega) (by omega) hmv)
        rw [h1]
        exact st.effect hv k hk
      · have hoth := st.other j hji
        have := g6 j (by omega) (by omega) (by rw [hoth]; exact hv)
          (fun m hm1 hm2 hmv => by
            rw [st.buffer m] at hmv ⊢
            rw [hoth]
            exact hlater m hm1 (by omega) hmv) k hk
        rw [hoth] at this
        exact this

/-- The logged branch of `GenericXLogFinishAny` in terms of its two loops. -/
theorem finishAny_logged_eq (m : StrayReads) (pg : Nat → PageData) (w : World) (s2 : System)
    (h2 : forSlotsM (finishLoggedSlotAny m) MAX_GENERIC_XLOG_PAGES 0
      ⟨.GXLOG_LOGGED, pg, XLogBeginInsert (START_CRIT_SECTION w)⟩ = .ok s2) :
    GenericXLogFinishAny m ⟨.GXLOG_LOGGED, pg, w⟩ =
      (.ok (XLogInsert s2.world).1,
       { forSlots (finishStampSlot (XLogInsert s2.world).1) MAX_GENERIC_XLOG_PAGES 0
           { s2 with world := (XLogInsert s2.world).2 } with
         world := END_CRIT_SECTION
           (forSlots (finishStampSlot (XLogInsert s2.world).1) MAX_GENERIC_XLOG_PAGES 0
             { s2 with world := (XLogInsert s2.world).2 }).world
         genericXlogStatus := .GXLOG_NOT_STARTED }) := by
  unfold GenericXLogFinishAny
  simp only [h2]

/-- Wherever `GenericXLogFinish` returns, the call with unchecked reads returns the same LSN
and the same state. -/
theorem finishAny_of_ok (m : StrayReads) (s s1 : System) (lsn : XLogRecPtr)
    (h : GenericXLogFinish s = (.ok lsn, s1)) : GenericXLogFinishAny m s = (.ok lsn, s1) := by
  obtain ⟨st, pg, w⟩ := s
  cases st with
  | GXLOG_NOT_STARTED => exact h
  | GXLOG_UNLOGGED => exact h
  | GXLOG_LOGGED =>
    cases hl : forSlotsM finishLoggedSlot MAX_GENERIC_XLOG_PAGES 0
        ⟨.GXLOG_LOGGED, pg, XLogBeginInsert (START_CRIT_SECTION w)⟩ with
    | error e =>
      unfold GenericXLogFinish at h
      simp only [hl] at h
      cases h
    | ok s2 =>
      rw [finish_logged_eq pg w s2 hl] at h
      rw [finishAny_logged_eq m pg w s2
        (forSlotsM_of_ok finishLoggedSlot (finishLoggedSlotAny m)
          (fun i s s1 => finishLoggedSlotAny_of_ok m i s s1) _ _ _ s2 hl)]
      exact h

/-- The logged `GenericXLogFinish` with unchecked reads, in every state of a transaction in
progress: it returns the LSN of the one record it inserts, resets the status, and leaves the
page of every registered buffer equal to the working image of its slot, stamped with that
LSN and marked dirty. -/
theorem finishAny_logged {n : Nat} {s : System} (h : Reach n s)
    (hs : s.genericXlogStatus = .GXLOG_LOGGED) (m : StrayReads) :
    (GenericXLogFinishAny m s).1 = .ok (s.world.wal.length + 1) ∧
    (∃ record, (GenericXLogFinishAny m s).2.world.wal = s.world.wal ++ [record]) ∧
    (GenericXLogFinishAny m s).2.world.wal.length = s.world.wal.length + 1 ∧
    (GenericXLogFinishAny m s).2.genericXlogStatus = .GXLOG_NOT_STARTED ∧
    (∀ i, Registered s i →
      (∀ k, k < BLCKSZ →
        (GenericXLogFinishAny m s).2.world.page (s.pages i).buffer k
          = PageSetLSN (s.pages i).image (s.world.wal.length + 1) k) ∧
      (∀ k, 8 ≤ k → k < BLCKSZ →
        (GenericXLogFinishAny m s).2.world.page (s.pages i).buffer k = (s.pages i).image k) ∧
      (GenericXLogFinishAny m s).2.world.dirty (s.pages i).buffer = true) := by
  have hok := reach_slotsOK h
  clear h
  obtain ⟨st, pg, w⟩ := s
  dsimp only at hs
  subst hs
  have hvalid := hok.valid
  have hdistinct := hok.distinct
  dsimp only at hvalid hdistinct
  obtain ⟨s2, hs2, g1, g2, g3, g4, g5, g6⟩ :=
    forSlotsM_loggedAny m MAX_GENERIC_XLOG_PAGES 0
      ⟨.GXLOG_LOGGED, pg, XLogBeginInsert (START_CRIT_SECTION w)⟩
  dsimp only at g1 g2 g3 g4 g5 g6
  rw [finishAny_logged_eq m pg w s2 hs2]
  have hwal : s2.world.wal = w.wal := g3
  obtain ⟨k1, k2, k3, k4, k5⟩ :=
    forSlots_stamp (XLogInsert s2.world).1 MAX_GENERIC_XLOG_PAGES 0
      { s2 with world := (XLogInsert s2.world).2 }
  dsimp only at k1 k2 k3 k4 k5
  have hlsn : (XLogInsert s2.world).1 = w.wal.length + 1 := by
    simp [XLogInsert, hwal]
  refine ⟨?_, ?_, ?_, rfl, ?_⟩
  · show Except.ok (XLogInsert s2.world).1 = Except.ok (w.wal.length + 1)
    rw [hlsn]
  · refine ⟨s2.world.pending.map (fun b => { b with page := s2.world.page b.buffer }), ?_⟩
    show (forSlots (finishStampSlot (XLogInsert s2.world).1) MAX_GENERIC_XLOG_PAGES 0
      { s2 with world := (XLogInsert s2.world).2 }).world.wal = _
    rw [k3]
    simp [XLogInsert, hwal]
  · show (forSlots (finishStampSlot (XLogInsert s2.world).1) MAX_GENERIC_XLOG_PAGES 0
      { s2 with world := (XLogInsert s2.world).2 }).world.wal.length = _
    rw [k3]
    simp [XLogInsert, hwal]
  · intro i hi
    obtain ⟨hi1, hi2⟩ := hi
    dsimp only at hi2
    have hin : i < n := (hvalid i hi1).2 hi2
    have hi2s : (s2.pages i).buffer ≠ InvalidBuffer := by
      rw [g2 i]
      exact hi2
    have hstamp := k5 i (Nat.zero_le _) (by omega) hi2s (fun m _ hm2 hmi hmv hc => by
      rw [g2 m] at hmv hc
      rw [g2 i] at hc
      exact hmi (hdistinct m i ((hvalid m (by omega)).2 hmv) hin hc))
    rw [g2 i] at hstamp
    have hswap := g6 i (Nat.zero_le _) (by omega) hi2 (fun m hm1 hm2 hmv hc =>
      absurd (hdistinct m i ((hvalid m (by omega)).2 hmv) hin hc) (by omega))
    have hpage : ∀ k, k < BLCKSZ →
        (forSlots (finishStampSlot (XLogInsert s2.world).1) MAX_GENERIC_XLOG_PAGES 0
          { s2 with world := (XLogInsert s2.world).2 }).world.page (pg i).buffer k
        = PageSetLSN (pg i).image (w.wal.length + 1) k := by
      intro k hk
      rw [hstamp.1, hlsn]
      exact PageSetLSN_congr _ _ _ k (hswap k hk)
    refine ⟨hpage, ?_, hstamp.2⟩
    intro k hk8 hk
    refine (hpage k hk).trans ?_
    unfold PageSetLSN
    rw [if_neg (by omega), if_neg (by omega)]

/-! ## The data written with unchecked reads stay inside the array `data` -/

/-- One iteration of the loop of `writeDifferentialData` with unchecked reads keeps the data
written so far no longer than `notMatch`, and `notMatch ≤ match ≤ i`. -/
theorem encodeStepAny_length (m : StrayReads) (W P : Page) (regions : List Region) (i : Nat)
    (hi : i < BLCKSZ) (st : EncState) (hinv : st.data.length ≤ st.notMatch)
    (hnm : st.notMatch ≤ st.matchStart) (hms : st.matchStart ≤ i) :
    (encodeStepAny m W P regions i st).data.length ≤ (encodeStepAny m W P regions i st).notMatch ∧
    (encodeStepAny m W P regions i st).notMatch ≤ (encodeStepAny m W P regions i st).matchStart ∧
    (encodeStepAny m W P regions i st).matchStart ≤ i + 1 := by
  have hB : BLCKSZ = 8192 := rfl
  have hi1 : asOffsetNumber ((i : Int) + 1) = i + 1 :=
    asOffsetNumber_eq _ (i + 1) (by omega) (by omega)
  have hlen := fun region => CHECK_SET_length W region i st (Nat.le_of_lt hi) hinv hnm hms
  have hle := fun region => CHECK_SET_notMatch_le W region i st (Nat.le_trans hnm hms)
  unfold encodeStepAny
  dsimp only
  by_cases hge : st.regionOffset ≥ (fetchAny m st regions st.region).length
  · simp only [if_pos hge]
    split
    · rw [CHECK_SET_keep W _ i
        { data := (CHECK_SET W (fetchAny m st regions st.region) i st).data,
          region := st.region + 1, regionOffset := 0,
          notMatch := (CHECK_SET W (fetchAny m st regions st.region) i st).notMatch,
          matchStart := i } (Nat.le_add_right i MATCH_THRESHOLD)]
      dsimp only
      rw [hi1]
      exact ⟨hlen _, Nat.le_succ_of_le (hle _), Nat.le_refl _⟩
    · dsimp only
      exact ⟨hlen _, hle _, Nat.le_succ _⟩
  · simp only [if_neg hge]
    split
    · dsimp only
      rw [hi1]
      exact ⟨hlen _, Nat.le_succ_of_le (hle _), Nat.le_refl _⟩
    · exact ⟨hinv, hnm, Nat.le_succ_of_le hms⟩

/-- The loop of `writeDifferentialData` with unchecked reads keeps the data written so far no
longer than `notMatch`, and `notMatch ≤ match ≤ i`. -/
theorem encodeLoopAny_length (m : StrayReads) (W P : Page) (regions : List Region) :
    ∀ (n i : Nat) (st : EncState), i + n ≤ BLCKSZ → st.data.length ≤ st.notMatch →
      st.notMatch ≤ st.matchStart → st.matchStart ≤ i →
      (encodeLoopAny m W P regions n i st).data.length
        ≤ (encodeLoopAny m W P regions n i st).notMatch ∧
      (encodeLoopAny m W P regions n i st).notMatch
        ≤ (encodeLoopAny m W P regions n i st).matchStart ∧
      (encodeLoopAny m W P regions n i st).matchStart ≤ i + n
  | 0, _, _, _, hinv, hnm, hms => ⟨hinv, hnm, hms⟩
  | n + 1, i, st, hin, hinv, hnm, hms => by
    obtain ⟨g1, g2, g3⟩ := encodeStepAny_length m W P regions i (by omega) st hinv hnm hms
    have h := encodeLoopAny_length m W P regions n (i + 1)
      (encodeStepAny m W P regions i st) (by omega) g1 g2 g3
    rw [show i + (n + 1) = i + 1 + n by omega]
    exact h

/-- Every record that `writeDifferentialData` with unchecked reads writes from `dataLen = 0`,
on any region list and whatever the stray reads return, has at most `BLCKSZ + 2` bytes: the
writes stay inside the array `data` of `2 * BLCKSZ` bytes. -/
theorem encodePageAny_length (m : StrayReads) (W P : Page) (regions : List Region) :
    (encodePageAny m W P regions []).length ≤ BLCKSZ + 2 := by
  have hB : BLCKSZ = 8192 := rfl
  obtain ⟨g1, g2, g3⟩ := encodeLoopAny_length m W P regions BLCKSZ 0 ⟨[], 0, 0, 0, 0⟩
    (by omega) (Nat.le_refl _) (Nat.le_refl _) (Nat.le_refl _)
  rw [Nat.zero_add] at g3
  unfold encodePageAny
  dsimp only
  have hlen := fun region => CHECK_SET_length W region BLCKSZ
    (encodeLoopAny m W P regions BLCKSZ 0 ⟨[], 0, 0, 0, 0⟩) (Nat.le_refl _) g1 g2 g3
  have hle := fun region => CHECK_SET_notMatch_le W region BLCKSZ
    (encodeLoopAny m W P regions BLCKSZ 0 ⟨[], 0, 0, 0, 0⟩) (Nat.le_trans g2 g3)
  split
  · next hlt =>
    have h1 := hlen (fetchAny m (encodeLoopAny m W P regions BLCKSZ 0 ⟨[], 0, 0, 0, 0⟩) regions
      (encodeLoopAny m W P regions BLCKSZ 0 ⟨[], 0, 0, 0, 0⟩).region)
    have h2 : asOffsetNumber ((BLCKSZ : Int) -
        (CHECK_SET W (fetchAny m (encodeLoopAny m W P regions BLCKSZ 0 ⟨[], 0, 0, 0, 0⟩) regions
          (encodeLoopAny m W P regions BLCKSZ 0 ⟨[], 0, 0, 0, 0⟩).region) BLCKSZ
          (encodeLoopAny m W P regions BLCKSZ 0 ⟨[], 0, 0, 0, 0⟩)).notMatch) ≤ BLCKSZ -
        (CHECK_SET W (fetchAny m (encodeLoopAny m W P regions BLCKSZ 0 ⟨[], 0, 0, 0, 0⟩) regions
          (encodeLoopAny m W P regions BLCKSZ 0 ⟨[], 0, 0, 0, 0⟩).region) BLCKSZ
          (encodeLoopAny m W P regions BLCKSZ 0 ⟨[], 0, 0, 0, 0⟩)).notMatch := by
      rw [asOffsetNumber_eq _ (BLCKSZ - (CHECK_SET W (fetchAny m
        (encodeLoopAny m W P regions BLCKSZ 0 ⟨[], 0, 0, 0, 0⟩) regions
        (encodeLoopAny m W P regions BLCKSZ 0 ⟨[], 0, 0, 0, 0⟩).region) BLCKSZ
        (encodeLoopAny m W P regions BLCKSZ 0 ⟨[], 0, 0, 0, 0⟩)).notMatch) (by omega) (by omega)]
    rw [writeCopyFlagment_eq, List.length_append, copy_bytes_length, pageBytes_length]
    omega
  · exact Nat.le_trans (hlen _) (Nat.le_trans (hle _) (by omega))

/-! ## The only failure of the encoder is a read outside its arrays -/

theorem fetch_error (l : List Region) (i : Nat) (e : GxError) (h : fetch l i = .error e) :
    e = .staleRegion := by
  unfold fetch at h
  split at h
  · cases h
  · exact (Except.error.inj h).symm

/-- An iteration of the loop of `writeDifferentialData` fails only by a read of `regions` at
or after `regionsCount` or a read of `image` at or after `BLCKSZ`. -/
theorem encodeStep_error (W P : Page) (regions : List Region) (i : Nat) (st : EncState)
    (e : GxError) (h : encodeStep W P regions i st = .error e) :
    e = .staleRegion ∨ e = .undefinedBehaviour := by
  unfold encodeStep at h
  cases hf : fetch regions st.region with
  | error e1 =>
    rw [hf] at h
    exact Or.inl ((Except.error.inj h).symm.trans (fetch_error _ _ _ hf))
  | ok region =>
    rw [hf] at h
    simp only [bind, Except.bind, pure, Except.pure] at h
    by_cases hge : st.regionOffset ≥ region.length
    · rw [if_pos hge] at h
      cases hf1 : fetch regions (st.region + 1) with
      | error e1 =>
        rw [hf1] at h
        exact Or.inl ((Except.error.inj h).symm.trans (fetch_error _ _ _ hf1))
      | ok region1 =>
        rw [hf1] at h
        dsimp only at h
        by_cases hub : region1.srcOffset + 0 ≥ BLCKSZ
        · rw [if_pos hub] at h
          exact Or.inr (Except.error.inj h).symm
        · rw [if_neg hub] at h
          cases h
    · rw [if_neg hge] at h
      rw [hf] at h
      dsimp only at h
      by_cases hub : region.srcOffset + st.regionOffset ≥ BLCKSZ
      · rw [if_pos hub] at h
        exact Or.inr (Except.error.inj h).symm
      · rw [if_neg hub] at h
        cases h

theorem encodeLoop_error (W P : Page) (regions : List Region) :
    ∀ (n i : Nat) (st : EncState) (e : GxError), encodeLoop W P regions n i st = .error e →
      e = .staleRegion ∨ e = .undefinedBehaviour
  | 0, _, _, _, h => by cases h
  | n + 1, i, st, e, h => by
    cases hs : encodeStep W P regions i st with
    | error e1 =>
      simp only [encodeLoop, bind, Except.bind, hs] at h
      rw [← Except.error.inj h]
      exact encodeStep_error W P regions i st e1 hs
    | ok st1 =>
      simp only [encodeLoop, bind, Except.bind, hs] at h
      exact encodeLoop_error W P regions n (i + 1) st1 e h

theorem encodePage_error (W P : Page) (regions : List Region) (data : List Nat) (e : GxError)
    (h : encodePage W P regions data = .error e) :
    e = .staleRegion ∨ e = .undefinedBehaviour := by
  unfold encodePage at h
  cases hl : encodeLoop W P regions BLCKSZ 0 ⟨data, 0, 0, 0, 0⟩ with
  | error e1 =>
    simp only [bind, Except.bind, hl] at h
    rw [← Except.error.inj h]
    exact encodeLoop_error W P regions _ _ _ e1 hl
  | ok st =>
    cases hf : fetch regions st.region with
    | error e1 =>
      simp only [bind, Except.bind, hl, hf] at h
      rw [← Except.error.inj h]
      exact Or.inl (fetch_error _ _ _ hf)
    | ok region =>
      simp only [bind, Except.bind, hl, hf, pure, Except.pure] at h
      split at h <;> cases h

theorem BufferGetPage_error (w : World) (buffer : Buffer) (e : GxError)
    (h : BufferGetPage w buffer = .error e) : e = .undefinedBehaviour := by
  unfold BufferGetPage at h
  split at h
  · exact (Except.error.inj h).symm
  · cases h

theorem writeDifferentialData_error (w : World) (pd : PageData) (e : GxError)
    (h : writeDifferentialData w pd = .error e) :
    e = .staleRegion ∨ e = .undefinedBehaviour := by
  unfold writeDifferentialData at h
  cases hp : BufferGetPage w pd.buffer with
  | error e1 =>
    simp only [bind, Except.bind, hp] at h
    rw [← Except.error.inj h]
    exact Or.inr (BufferGetPage_error _ _ _ hp)
  | ok page =>
    cases he : encodePage page pd.image pd.regions pd.data with
    | error e1 =>
      simp only [bind, Except.bind, hp, he] at h
      rw [← Except.error.inj h]
      exact encodePage_error _ _ _ _ _ he
    | ok d =>
      simp only [bind, Except.bind, hp, he, pure, Except.pure] at h
      cases h

theorem finishLoggedSlot_error (i : Nat) (s : System) (e : GxError)
    (h : finishLoggedSlot i s = .error e) : e = .staleRegion ∨ e = .undefinedBehaviour := by
  unfold finishLoggedSlot at h
  by_cases hv : BufferIsInvalid (s.pages i).buffer = true
  · rw [if_pos hv] at h
    cases h
  · rw [if_neg hv] at h
    simp only [bind, Except.bind] at h
    cases hp : BufferGetPage s.world (s.pages i).buffer with
    | error e1 =>
      rw [hp] at h
      rw [← Except.error.inj h]
      exact Or.inr (BufferGetPage_error _ _ _ hp)
    | ok page =>
      rw [hp] at h
      dsimp only at h
      by_cases hfull : (s.pages i).fullImage = true
      · rw [if_pos hfull] at h
        cases h
      · rw [if_neg hfull] at h
        split at h
        · next e1 hw =>
          rw [← Except.error.inj h]
          exact writeDifferentialData_error _ _ _ hw
        · cases h

theorem forSlotsM_error (body : Nat → System → Except GxError System) (Q : GxError → Prop)
    (hb : ∀ i s e, body i s = .error e → Q e) :
    ∀ (n i : Nat) (s : System) (e : GxError), forSlotsM body n i s = .error e → Q e := by
  intro n
  induction n with
  | zero =>
    intro i s e h
    cases h
  | succ n ih =>
    intro i s e h
    cases hs : body i s with
    | error e1 =>
      simp only [forSlotsM, hs] at h
      rw [← Except.error.inj h]
      exact hb i s e1 hs
    | ok s1 =>
      simp only [forSlotsM, hs] at h
      exact ih (i + 1) s1 e h

/-- In logged mode `GenericXLogFinish` has no defined outcome only when `writeDifferentialData`
reads `regions` at or after `regionsCount` or `image` at or after `BLCKSZ`. -/
theorem finish_logged_error (s : System) (hs : s.genericXlogStatus = .GXLOG_LOGGED)
    (e : GxError) (h : (GenericXLogFinish s).1 = .error e) :
    e = .staleRegion ∨ e = .undefinedBehaviour := by
  obtain ⟨st, pg, w⟩ := s
  dsimp only at hs
  subst hs
  cases hl : forSlotsM finishLoggedSlot MAX_GENERIC_XLOG_PAGES 0
      ⟨.GXLOG_LOGGED, pg, XLogBeginInsert (START_CRIT_SECTION w)⟩ with
  | error e1 =>
    have he := forSlotsM_error finishLoggedSlot _ finishLoggedSlot_error _ _ _ e1 hl
    unfold GenericXLogFinish at h
    simp only [hl] at h
    rw [← Except.error.inj h]
    exact he
  | ok s2 =>
    rw [finish_logged_eq pg w s2 hl] at h
    cases h

/-! ## `GenericXLogFinish` in logged mode, in every state of a transaction -/

/-- C4: in logged mode, in every state of a transaction in progress, whatever the region
lists hold, `GenericXLogFinish` leaves the page of every registered buffer equal to the
working image of its slot as the caller left it, except for the LSN field (the first eight
bytes), which holds the returned LSN; it marks each such buffer dirty, appends exactly one
record to the log, returns the LSN of that record and sets the status to
`GXLOG_NOT_STARTED`.  This holds for the call with the unchecked reads of
`writeDifferentialData`, whatever the reads outside `regions` and `image` return, and that
call never fails; the records it writes from `dataLen = 0` have at most `BLCKSZ + 2` bytes, so
that nothing is written outside `data`.  `GenericXLogFinish` itself is the same call wherever
it has a defined outcome; it has one whenever `writeDifferentialData` is defined on the region
list of each registered slot that is not a full image, and has none only by a read outside
`regions` or `image`. -/
theorem finish_logged_commits {n : Nat} {s : System} (h : Reach n s)
    (hs : s.genericXlogStatus = .GXLOG_LOGGED) :
    (∀ m : StrayReads, LoggedCommit s (GenericXLogFinishAny m s)) ∧
    (∀ (m : StrayReads) lsn s1, GenericXLogFinish s = (.ok lsn, s1) →
      GenericXLogFinishAny m s = (.ok lsn, s1)) ∧
    (∀ lsn, (GenericXLogFinish s).1 = .ok lsn → LoggedCommit s (GenericXLogFinish s)) ∧
    ((∀ i, Registered s i → (s.pages i).fullImage = false →
        EncoderDefined (s.pages i).regions) →
      LoggedCommit s (GenericXLogFinish s)) ∧
    (∀ e, (GenericXLogFinish s).1 = .error e → e = .staleRegion ∨ e = .undefinedBehaviour) ∧
    (∀ (m : StrayReads) (W P : Page) i, Registered s i →
      (encodePageAny m W P (s.pages i).regions (s.pages i).data).length ≤ BLCKSZ + 2 ∧
      (encodePageAny m W P (s.pages i).regions (s.pages i).data).length ≤ 2 * BLCKSZ) := by
  have hany : ∀ m : StrayReads, LoggedCommit s (GenericXLogFinishAny m s) := by
    intro m
    obtain ⟨g1, g2, _, g4, g5⟩ := finishAny_logged h hs m
    exact ⟨g1, g2, g4, g5⟩
  refine ⟨hany, fun m lsn s1 hf => finishAny_of_ok m s s1 lsn hf, ?_, ?_,
    finish_logged_error s hs, ?_⟩
  · intro lsn hl
    have hf : GenericXLogFinish s = (.ok lsn, (GenericXLogFinish s).2) := by
      rw [← hl]
    have ha := finishAny_of_ok ⟨fun _ _ => ⟨0, 0, 0⟩, fun _ _ => 0⟩ s _ lsn hf
    have hc := hany ⟨fun _ _ => ⟨0, 0, 0⟩, fun _ _ => 0⟩
    rw [ha, ← hf] at hc
    exact hc
  · intro hwf
    obtain ⟨g1, g2, _, g4, g5⟩ := finish_logged h hs hwf
    exact ⟨g1, g2, g4, g5⟩
  · intro m W P i hi
    have hB : BLCKSZ = 8192 := rfl
    rw [reach_data h i hi.1 hi.2]
    have := encodePageAny_length m W P (s.pages i).regions
    exact ⟨this, by omega⟩

/-- Instance of `finish_logged_commits` on the state of C1, whose region list holds the region
`(100, 65521, 45)`: the encoder reads the image outside its `BLCKSZ` bytes, so
`GenericXLogFinish` has no defined outcome, and whatever that read returns the call installs
the working image of slot 0 on buffer 9, marks it dirty, inserts the first record of the log,
returns its LSN and resets the status. -/
theorem finish_logged_commits_witness :
    Reach 1 zeroMovedThrice ∧
    zeroMovedThrice.genericXlogStatus = .GXLOG_LOGGED ∧
    (zeroMovedThrice.pages 0).buffer = 9 ∧
    ⟨100, 65521, 45⟩ ∈ (zeroMovedThrice.pages 0).regions ∧
    (GenericXLogFinish zeroMovedThrice).1 = .error .undefinedBehaviour ∧
    (∀ m : StrayReads,
      (GenericXLogFinishAny m zeroMovedThrice).1 = .ok 1 ∧
      (∃ record, (GenericXLogFinishAny m zeroMovedThrice).2.world.wal = [record]) ∧
      (GenericXLogFinishAny m zeroMovedThrice).2.genericXlogStatus = .GXLOG_NOT_STARTED ∧
      (∀ k, 8 ≤ k → k < BLCKSZ →
        (GenericXLogFinishAny m zeroMovedThrice).2.world.page 9 k
          = (zeroMovedThrice.pages 0).image k) ∧
      (GenericXLogFinishAny m zeroMovedThrice).2.world.dirty 9 = true) :=
  have hreg : Registered zeroMovedThrice 0 :=
    ⟨by decide, fun hc => absurd (hc : (9 : Buffer) = 0) (by decide)⟩
  have h := finish_logged_commits reach_zeroMovedThrice rfl
  ⟨reach_zeroMovedThrice, rfl, rfl, by decide, rfl, fun m =>
    ⟨(h.1 m).1, (h.1 m).2.1, (h.1 m).2.2.1, ((h.1 m).2.2.2 0 hreg).2.1,
      ((h.1 m).2.2.2 0 hreg).2.2⟩⟩

end GenericXLog
